import Mathlib

/-!
# TIPL dense linear algebra kernels (`numerical/matrix.hpp`)

A shallow embedding of the LU, closed-form determinant / inverse, Householder QR,
Cholesky, triangular inverse, symmetric eigen and singular value routines of `tipl::mat`,
together with proofs about their contracts in exact arithmetic.

Buffers are total functions `Nat → α` (the C++ iterators are unchecked random-access
pointers); a write `A[i] = v` is `Function.update A i v`.  A row-major `m × n` matrix
stored in a buffer `A` has entry `(i, j)` at `A (i * n + j)`.

Index variables that the C++ loops advance by a stride (`row_k += dimension`) are
written in closed form (`row_k = k * dimension`); the number of iterations of a loop
`for (x = start; x < stop; x += step)` is `strideCount start stop step`.

Library functions (`std::sqrt`, `std::acos`, `std::cos`) are parameters of the routines
that call them; `std::hypot(x, y)` is `sqrt (x * x + y * y)`.
-/

namespace tipl

/-! ## Loops and buffers -/

/-- Counted loop `for (i = lo; i < lo + cnt; ++i) s = body i s`. -/
def forUp {σ : Type} (body : Nat → σ → σ) (lo : Nat) : Nat → σ → σ
  | 0, s => s
  | c + 1, s => body (lo + c) (forUp body lo c s)

/-- Number of iterations of `for (x = start; x < stop; x += step)` (with `step > 0`). -/
def strideCount (start stop step : Nat) : Nat :=
  (stop - start + (step - 1)) / step

/-- The buffer holding the listed values (zero elsewhere). -/
def ofList {R : Type} [Zero R] (l : List R) : Nat → R :=
  fun i => l.getD i 0

/-- The `m × n` matrix stored row-major in the buffer `A`. -/
def rowMajor {R : Type} (A : Nat → R) (m n : Nat) : Matrix (Fin m) (Fin n) R :=
  fun i j => A (i.val * n + j.val)

/-- The first `n` entries of a buffer as a vector. -/
def vecOf {R : Type} (x : Nat → R) (n : Nat) : Fin n → R :=
  fun i => x i.val

/-- Value exchange `std::swap(A[a], A[b])`. -/
def swapAt {R : Type} (A : Nat → R) (a b : Nat) : Nat → R :=
  Function.update (Function.update A a (A b)) b (A a)

/-- Range exchange `tipl::vec::swap(x_begin, x_end, y)` on one buffer: exchanges
`A[x + i]` and `A[y + i]` for `i < len`. -/
def vec_swap {R : Type} (A : Nat → R) (x len y : Nat) : Nat → R :=
  forUp (fun i B => swapAt B (x + i) (y + i)) 0 len A

/-! ## Closed-form determinants -/

/-- Closed form `determinant(iter, dim<2,2>)`. -/
def determinant_2_2 {R : Type} [CommRing R] (iter : Nat → R) : R :=
  iter 0 * iter 3 - iter 1 * iter 2

/-- Closed form `determinant(iter, dim<3,3>)`. -/
def determinant_3_3 {R : Type} [CommRing R] (iter : Nat → R) : R :=
  iter 0 * (iter 4 * iter 8 - iter 5 * iter 7) +
  iter 1 * (iter 5 * iter 6 - iter 3 * iter 8) +
  iter 2 * (iter 3 * iter 7 - iter 4 * iter 6)

/-- Closed form `determinant(iter, dim<4,4>)`. -/
def determinant_4_4 {R : Type} [CommRing R] (iter : Nat → R) : R :=
  let v_9_14_m_10_13 := iter 9 * iter 14 - iter 10 * iter 13
  let v_10_15_m_11_14 := iter 10 * iter 15 - iter 11 * iter 14
  let v_11_12_m_8_15 := iter 11 * iter 12 - iter 8 * iter 15
  let v_8_13_m_9_12 := iter 8 * iter 13 - iter 9 * iter 12
  let v_11_13_m_9_15 := iter 11 * iter 13 - iter 9 * iter 15
  let v_8_14_m_10_12 := iter 8 * iter 14 - iter 10 * iter 12
  iter 0 *
    (iter 5 * v_10_15_m_11_14 + iter 6 * v_11_13_m_9_15 + iter 7 * v_9_14_m_10_13) -
  iter 1 *
    (iter 4 * v_10_15_m_11_14 + iter 6 * v_11_12_m_8_15 + iter 7 * v_8_14_m_10_12) +
  iter 2 *
    (iter 4 * (-v_11_13_m_9_15) + iter 5 * v_11_12_m_8_15 + iter 7 * v_8_13_m_9_12) -
  iter 3 *
    (iter 4 * v_9_14_m_10_13 + iter 5 * (-v_8_14_m_10_12) + iter 6 * v_8_13_m_9_12)

section Field

variable {α : Type} [LinearOrderedField α]

/-! ## LU decomposition with partial pivoting -/

/-- Pivot search of `lu_decomposition` at step `k`: scans `A[i][k]` for `i = k .. dimension-1`
and returns `(max_value, max_index, max_row)`. -/
def lu_pivot_search (A : Nat → α) (dimension k : Nat) : α × Nat × Nat :=
  forUp (fun i (st : α × Nat × Nat) =>
      let index_ik := i * dimension + k
      let value := if A index_ik < 0 then -A index_ik else A index_ik
      if value > st.1 then (value, index_ik, i) else st)
    k (dimension - k) (0, 0, k)

/-- One row of the elimination of step `k`: the body of the loop over `row_i`
(`t` counts the rows below row `k`, `bjj` is the pivot). -/
def lu_reduce_row (bjj : α) (dimension row_k k : Nat) (t : Nat) (B : Nat → α) : Nat → α :=
  let row_i := row_k + dimension + t * dimension
  let temp := B (row_i + k) / bjj
  let B1 := Function.update B (row_i + k) temp
  let offset := row_i - row_k
  forUp (fun row_i_j C => Function.update C row_i_j (C row_i_j - temp * C (row_i_j - offset)))
    (row_i + k + 1) (row_i + dimension - (row_i + k + 1)) B1

/-- Elimination part of step `k` of `lu_decomposition` ("reduce the matrix"). -/
def lu_reduce (A : Nat → α) (dimension s k : Nat) : Nat → α :=
  let row_k := k * dimension
  let bjj := A (row_k + k)
  forUp (lu_reduce_row bjj dimension row_k k) 0 (strideCount (row_k + dimension) s dimension) A

/-- Main loop of `lu_decomposition`: `cnt` remaining steps starting at step `k`.
The Boolean is the return value; the buffers are as the routine leaves them. -/
def lu_loop (dimension cols s : Nat) :
    Nat → Nat → (Nat → α) → (Nat → Nat) → Bool × (Nat → α) × (Nat → Nat)
  | 0, _, A, pivot => (true, A, pivot)
  | cnt + 1, k, A, pivot =>
    let row_k := k * dimension
    let st := lu_pivot_search A dimension k
    let max_value := st.1
    let max_index := st.2.1
    let max_row := st.2.2
    if max_value = 0 then (false, A, pivot)
    else
      let A1 := if max_row ≠ k then vec_swap A row_k cols (max_index - k) else A
      let pivot1 := if max_row ≠ k then swapAt pivot k max_row else pivot
      lu_loop dimension cols s cnt (k + 1) (lu_reduce A1 dimension s k) pivot1

/-- Number of times the main loop of `lu_decomposition` takes the branch
`if (max_row != k)` ("row swap is needed") during `cnt` steps from step `k`. -/
def lu_swap_count (dimension cols s : Nat) : Nat → Nat → (Nat → α) → Nat
  | 0, _, _ => 0
  | cnt + 1, k, A =>
    let row_k := k * dimension
    let st := lu_pivot_search A dimension k
    let max_value := st.1
    let max_index := st.2.1
    let max_row := st.2.2
    if max_value = 0 then 0
    else
      let A1 := if max_row ≠ k then vec_swap A row_k cols (max_index - k) else A
      (if max_row ≠ k then 1 else 0) +
        lu_swap_count dimension cols s cnt (k + 1) (lu_reduce A1 dimension s k)

/-- The routine `lu_decomposition(A, pivot, dim)` with `dim = (rows, cols)`. -/
def lu_decomposition (A : Nat → α) (pivot : Nat → Nat) (rows cols : Nat) :
    Bool × (Nat → α) × (Nat → Nat) :=
  let dimension := rows
  let s := rows * cols
  let pivot0 := forUp (fun k p => Function.update p k k) 0 dimension pivot
  lu_loop dimension cols s dimension 0 A pivot0

/-- The routine `lu_determinant(A, dim)`: product of the diagonal of the buffer. -/
def lu_determinant (A : Nat → α) (rows cols : Nat) : α :=
  let leap_size := cols + 1
  forUp (fun t result => result * A (leap_size + t * leap_size))
    0 (strideCount leap_size (rows * cols) leap_size) (A 0)

/-! ## LU solve -/

/-- Column `k` of the forward substitution: `x[m] -= x[k] * A[m][k]` for the rows `m > k`. -/
def lu_forward_col (A : Nat → α) (c matrix_size : Nat) (k : Nat) (x : Nat → α) : Nat → α :=
  let j := k * c
  let x_k := x k
  forUp (fun t x => Function.update x (k + 1 + t) (x (k + 1 + t) - x_k * A (j + c + k + t * c)))
    0 (strideCount (j + c + k) matrix_size c) x

/-- Forward substitution of `lu_solve` ("Solve L*Y = B(piv)"). -/
def lu_forward (A : Nat → α) (c matrix_size : Nat) (x : Nat → α) : Nat → α :=
  forUp (lu_forward_col A c matrix_size) 0 (strideCount 0 matrix_size c) x

/-- Back substitution of `lu_solve` ("Solve U*X = Y"), for `k = cnt-1` down to `0`;
`false` is returned as soon as a diagonal entry fails the test `value + 1 == 1`. -/
def lu_back (A : Nat → α) (c matrix_size rows : Nat) : Nat → (Nat → α) → Bool × (Nat → α)
  | 0, x => (true, x)
  | k + 1, x =>
    let j := matrix_size - 1 - (rows - 1 - k) * (c + 1)
    let Arowk_value := A j
    if Arowk_value + 1 = 1 then (false, x)
    else
      let x_k := x k / Arowk_value
      let x1 := Function.update x k x_k
      let x2 := forUp (fun i x => Function.update x i (x i - x_k * A (k + i * c))) 0 k x1
      lu_back A c matrix_size rows k x2

/-- The routine `lu_solve(A, piv, b, x, dim)` with `dim = (rows, cols)`. -/
def lu_solve (A : Nat → α) (piv : Nat → Nat) (b x : Nat → α) (rows cols : Nat) :
    Bool × (Nat → α) :=
  let c := cols
  let matrix_size := rows * cols
  let x0 := forUp (fun i x => Function.update x i (b (piv i))) 0 c x
  lu_back A c matrix_size rows rows (lu_forward A c matrix_size x0)

/-! ## Closed-form inverses -/

/-- In-place `inverse(iter, dim<1,1>)`. -/
def inverse_1_1 (iter : Nat → α) : Bool × (Nat → α) :=
  if iter 0 + 1 = 1 then (false, iter)
  else (true, Function.update iter 0 (1 / iter 0))

/-- In-place `inverse(iter, dim<2,2>)`. -/
def inverse_2_2 (iter : Nat → α) : Bool × (Nat → α) :=
  let det := determinant_2_2 iter
  if det + 1 = 1 then (false, iter)
  else
    let a0 := swapAt iter 0 3
    let a1 := Function.update a0 0 (a0 0 / det)
    let a2 := Function.update a1 1 (a1 1 / -det)
    let a3 := Function.update a2 2 (a2 2 / -det)
    let a4 := Function.update a3 3 (a3 3 / det)
    (true, a4)

/-- Out-of-place `inverse(iter, out, dim<2,2>)`; the second component is the buffer `out`. -/
def inverse_2_2_out (iter out : Nat → α) : Bool × (Nat → α) :=
  let det := determinant_2_2 iter
  if det + 1 = 1 then (false, out)
  else
    let o0 := Function.update out 0 (iter 3 / det)
    let o1 := Function.update o0 1 (-iter 1 / det)
    let o2 := Function.update o1 2 (-iter 2 / det)
    let o3 := Function.update o2 3 (iter 0 / det)
    (true, o3)

/-- The nine cofactor expressions shared by the two `dim<3,3>` inverses (`temp[0..8]`). -/
def cofactors_3_3 (iter : Nat → α) : Nat → α :=
  ofList [iter 4 * iter 8 - iter 5 * iter 7,
          iter 2 * iter 7 - iter 1 * iter 8,
          iter 1 * iter 5 - iter 2 * iter 4,
          iter 5 * iter 6 - iter 3 * iter 8,
          iter 0 * iter 8 - iter 2 * iter 6,
          iter 2 * iter 3 - iter 0 * iter 5,
          iter 3 * iter 7 - iter 4 * iter 6,
          iter 1 * iter 6 - iter 0 * iter 7,
          iter 0 * iter 4 - iter 1 * iter 3]

/-- In-place `inverse(iter, dim<3,3>)`: the cofactors are computed into `temp`, then
`iter[i] = temp[i] / det` for `i = 0 .. 8`. -/
def inverse_3_3 (iter : Nat → α) : Bool × (Nat → α) :=
  let det := determinant_3_3 iter
  if det + 1 = 1 then (false, iter)
  else
    let temp := cofactors_3_3 iter
    (true, forUp (fun i a => Function.update a i (temp i / det)) 0 9 iter)

/-- Out-of-place `inverse(iter, out, dim<3,3>)`: `out[i]` receives the cofactors, then
`out[i] /= det` for `i = 0 .. 8`. -/
def inverse_3_3_out (iter out : Nat → α) : Bool × (Nat → α) :=
  let det := determinant_3_3 iter
  if det + 1 = 1 then (false, out)
  else
    let o1 := forUp (fun i o => Function.update o i (cofactors_3_3 iter i)) 0 9 out
    (true, forUp (fun i o => Function.update o i (o i / det)) 0 9 o1)

/-! ## General inverse through LU -/

/-- Forward substitution of the general `inverse` for the unit right-hand side `e_col`:
the rows before the one with `piv[k] == col` are skipped (`find` is still `false`), that
row starts the substitution with `x[k] = 1`, the later rows proceed as in `lu_solve`. -/
def inverse_forward_step (A : Nat → α) (piv : Nat → Nat) (dimension matrix_size col : Nat)
    (k : Nat) (st : Bool × (Nat → α)) : Bool × (Nat → α) :=
  let j := k * dimension
  if st.1 then
    let x_k := st.2 k
    (true, forUp (fun t x => Function.update x (k + 1 + t)
        (x (k + 1 + t) - x_k * A (j + dimension + k + t * dimension)))
      0 (strideCount (j + dimension + k) matrix_size dimension) st.2)
  else if piv k ≠ col then st
  else
    let x1 := Function.update st.2 k 1
    (true, forUp (fun t x => Function.update x (k + 1 + t)
        (x (k + 1 + t) - A (j + dimension + k + t * dimension)))
      0 (strideCount (j + dimension + k) matrix_size dimension) x1)

/-- One pass of the column loop of the general `inverse`; the state is
`(result, A_, x)`.  The loop condition `col < dimension && result` stops the loop once
`result` is `false`.  The back substitution is the code of `lu_solve` inlined
(`result = false; break` leaves it with `x` as it is). -/
def inverse_col (A : Nat → α) (piv : Nat → Nat) (dimension matrix_size : Nat)
    (col : Nat) (st : Bool × (Nat → α) × (Nat → α)) : Bool × (Nat → α) × (Nat → α) :=
  if st.1 = false then st
  else
    let fw := forUp (inverse_forward_step A piv dimension matrix_size col)
      0 (strideCount 0 matrix_size dimension) (false, st.2.2)
    let bk := lu_back A dimension matrix_size dimension dimension fw.2
    let A_1 := forUp (fun row B => Function.update B (col + row * dimension) (bk.2 row))
      0 dimension st.2.1
    let x3 := forUp (fun i x => Function.update x i 0) 0 dimension bk.2
    (bk.1, A_1, x3)

/-- The general in-place `inverse(A_, dim)` with `dim = (rows, cols)`: LU-decompose a copy,
then solve against each column of the identity. -/
def inverse (A_ : Nat → α) (rows cols : Nat) : Bool × (Nat → α) :=
  let dimension := rows
  let matrix_size := rows * cols
  let lu := lu_decomposition A_ (fun _ => 0) rows cols
  if lu.1 = false then (false, A_)
  else
    let r := forUp (inverse_col lu.2.1 lu.2.2 dimension matrix_size) 0 dimension
      (true, A_, fun _ => 0)
    (r.1, r.2.1)

/-! ## Out-of-place transpose -/

/-- The routine `transpose(in, out, dim)` with `dim = (rows, cols)`; the loop state is
`(out, out_col, col)` with `out_col` an offset into `out`. -/
def transpose {R : Type} (inp out : Nat → R) (rows cols : Nat) : Nat → R :=
  let out_leap := rows
  let out_end := rows * cols - out_leap
  (forUp (fun t (st : (Nat → R) × Nat × Nat) =>
      let out1 := Function.update st.1 st.2.1 (inp t)
      if st.2.1 ≥ out_end then (out1, st.2.2 + 1, st.2.2 + 1)
      else (out1, st.2.1 + out_leap, st.2.2))
    0 (rows * cols) (out, 0, 0)).1

/-! ## Householder QR -/

/-- The scan `scale = max(scale, |A[i][k]|)` for `i = k .. m-1`. -/
def qr_scale (A : Nat → α) (m n k : Nat) : α :=
  forUp (fun i scale => max scale |A (i * n + k)|) k (m - k) 0

/-- The loop that divides column `k` (rows `k .. m-1`) by `scale` and accumulates the
squares; the state is `(A, sum)`. -/
def qr_normalize (A : Nat → α) (m n k : Nat) (scale : α) : (Nat → α) × α :=
  forUp (fun i (st : (Nat → α) × α) =>
      let t := st.1 (i * n + k) / scale
      (Function.update st.1 (i * n + k) t, st.2 + t * t))
    k (m - k) (A, 0)

/-- Application of the reflection of step `k` to column `j` of `A`. -/
def qr_reflect_col (m n k : Nat) (ck : α) (j : Nat) (A : Nat → α) : Nat → α :=
  let sum := forUp (fun i sum => sum + A (i * n + k) * A (i * n + j)) k (m - k) 0
  let sum1 := sum / ck
  forUp (fun i B => Function.update B (i * n + j) (B (i * n + j) - sum1 * B (i * n + k))) k (m - k) A

/-- The Householder branch (`scale != 0`) of step `k` of `qr_decomposition(A, c, d, dim)`;
the result is `(A, c, d)`. -/
def qr_house_step (sqrt : α → α) (m n k : Nat) (scale : α) (A c d : Nat → α) :
    (Nat → α) × (Nat → α) × (Nat → α) :=
  let st := qr_normalize A m n k scale
  let sum := st.2
  let sigma := if st.1 (k * n + k) ≥ 0 then sqrt sum else -sqrt sum
  let A2 := Function.update st.1 (k * n + k) (st.1 (k * n + k) + sigma)
  let c1 := Function.update c k (sigma * A2 (k * n + k))
  let d1 := Function.update d k (-scale * sigma)
  let A3 := forUp (qr_reflect_col m n k (c1 k)) (k + 1) (n - (k + 1)) A2
  (A3, c1, d1)

/-- Main loop of `qr_decomposition(A, c, d, dim)`: `cnt` remaining columns from column `k`;
the result is `(return value, A, c, d)`. -/
def qr_loop (sqrt : α → α) (m n min : Nat) :
    Nat → Nat → (Nat → α) → (Nat → α) → (Nat → α) → Bool →
      Bool × (Nat → α) × (Nat → α) × (Nat → α)
  | 0, _, A, c, d, singular => (!singular, A, c, d)
  | cnt + 1, k, A, c, d, singular =>
    if k = min - 1 ∧ min = m then
      let d1 := Function.update d k (A (k * n + k))
      let c1 := Function.update c k 0
      (decide (d1 k ≠ 0), A, c1, d1)
    else
      let scale := qr_scale A m n k
      if scale = 0 then
        qr_loop sqrt m n min cnt (k + 1) A (Function.update c k 0) (Function.update d k 0) true
      else
        let r := qr_house_step sqrt m n k scale A c d
        qr_loop sqrt m n min cnt (k + 1) r.1 r.2.1 r.2.2 singular

/-- The routine `qr_decomposition(A, c, d, dim)` with `dim = (m, n)` and the square-root
function `sqrt`; the result is `(return value, A, c, d)`. -/
def qr_decomposition (sqrt : α → α) (A c d : Nat → α) (m n : Nat) :
    Bool × (Nat → α) × (Nat → α) × (Nat → α) :=
  qr_loop sqrt m n (min m n) (min m n) 0 A c d false

/-- The in-place `qr_get_r(A, d, dim)`: the diagonal of `R` is written into `A` and the
entries to its left are cleared. -/
def qr_get_r (A d : Nat → α) (m n : Nat) : Nat → α :=
  forUp (fun i A =>
      let pos := i * (n + 1)
      let A1 := Function.update A pos (d i)
      forUp (fun j B => Function.update B (pos - j) 0) 1 i A1)
    0 (min m n) A

/-- Branch `m <= n` of `qr_compute_q`, step `k`, row `j` of `Q`. -/
def qr_q_row (A : Nat → α) (m n k : Nat) (ck : α) (j : Nat) (Q : Nat → α) : Nat → α :=
  let sum := forUp (fun i sum => sum + A (i * n + k) * Q (j * m + i)) k (m - k) 0
  let sum1 := sum / ck
  forUp (fun i Q => Function.update Q (j * m + i) (Q (j * m + i) - sum1 * A (i * n + k))) k (m - k) Q

/-- Branch `m > n` of `qr_compute_q`, step `k`, column `j` of `Qt`. -/
def qr_qt_col (A : Nat → α) (m n k : Nat) (ck : α) (j : Nat) (Qt : Nat → α) : Nat → α :=
  let sum := forUp (fun i sum => sum + A (i * n + k) * Qt (i * m + j)) k (m - k) 0
  let sum1 := sum / ck
  forUp (fun i Qt => Function.update Qt (i * m + j) (Qt (i * m + j) - sum1 * A (i * n + k))) k (m - k) Qt

/-- The identity matrix written by `std::fill` and the loop over the diagonal. -/
def qr_identity (Q : Nat → α) (m : Nat) : Nat → α :=
  let Q0 := forUp (fun i Q => Function.update Q i 0) 0 (m * m) Q
  forUp (fun i Q => Function.update Q (i * (m + 1)) 1) 0 m Q0

/-- The routine `qr_compute_q(A, c, Q, dim)` with `dim = (m, n)`. -/
def qr_compute_q (A c Q : Nat → α) (m n : Nat) : Nat → α :=
  if m ≤ n then
    forUp (fun k Q => if c k ≠ 0 then forUp (qr_q_row A m n k (c k)) 0 m Q else Q)
      0 n (qr_identity Q m)
  else
    let Qt := forUp (fun k Qt => if c k ≠ 0 then forUp (qr_qt_col A m n k (c k)) 0 m Qt else Qt)
      0 (min m n) (qr_identity (fun _ => 0) m)
    transpose Qt Q n m

/-- The routine `qr_decomposition(A, Q, dim)`: the result is `(return value, A, Q)`. -/
def qr_decomposition_q (sqrt : α → α) (A Q : Nat → α) (m n : Nat) :
    Bool × (Nat → α) × (Nat → α) :=
  let r := qr_decomposition sqrt A (fun _ => 0) (fun _ => 0) m n
  let Q1 := qr_compute_q r.2.1 r.2.2.1 Q m n
  (r.1, qr_get_r r.2.1 r.2.2.2 m n, Q1)

/-! ## Specification vocabulary -/

/-- The unit lower-triangular factor packed strictly below the diagonal of an `n × n` buffer. -/
def luL (F : Nat → α) (n : Nat) : Matrix (Fin n) (Fin n) α :=
  fun i j => if j.val < i.val then F (i.val * n + j.val) else if j.val = i.val then 1 else 0

/-- The upper-triangular factor packed on and above the diagonal of an `n × n` buffer. -/
def luU (F : Nat → α) (n : Nat) : Matrix (Fin n) (Fin n) α :=
  fun i j => if i.val ≤ j.val then F (i.val * n + j.val) else 0

/-- The sequence `p` restricted to `0 .. n-1` is a permutation of `0 .. n-1`. -/
def PermOn (p : Nat → Nat) (n : Nat) : Prop :=
  (∀ i, i < n → p i < n) ∧ (∀ i j, i < n → j < n → p i = p j → i = j)

/-- Invariant of `lu_decomposition` before step `k`: row `p i` of the original matrix `A0`
is the product of the multipliers stored in row `i` with the rows eliminated so far, plus
the still active (or final upper) part of row `i`. -/
def LUInv (A0 F : Nat → α) (p : Nat → Nat) (n k : Nat) : Prop :=
  ∀ i j, i < n → j < n →
    A0 (p i * n + j) =
      (∑ t in Finset.range (min (min i k) (j + 1)), F (i * n + t) * F (t * n + j)) +
        (if min i k ≤ j then F (i * n + j) else 0)

/-- The vector of the reflection of step `k`: column `k` of the buffer from row `k` on. -/
def hv (F : Nat → α) (m n k : Nat) : Fin m → α :=
  fun i => if k ≤ i.val then F (i.val * n + k) else 0

/-- The reflection `I - u uᵀ / c`, and the identity when `c = 0`. -/
def house {m : Nat} (u : Fin m → α) (c : α) : Matrix (Fin m) (Fin m) α :=
  if c = 0 then 1 else 1 - c⁻¹ • Matrix.vecMulVec u u

/-- The product `H_{k-1} * ... * H_0` of the reflections stored in the buffer `F` with
coefficients `c`. -/
def hprod (F c : Nat → α) (m n : Nat) : Nat → Matrix (Fin m) (Fin m) α
  | 0 => 1
  | k + 1 => house (hv F m n k) (c k) * hprod F c m n k

/-- The matrix reached after `k` steps of the QR reduction: the first `k` columns are
final (strict upper part in the buffer, diagonal in `d`, zero below), the others are the
buffer columns. -/
def qrR (F d : Nat → α) (m n k : Nat) : Matrix (Fin m) (Fin n) α :=
  fun i j =>
    if j.val < k then
      (if i.val < j.val then F (i.val * n + j.val) else if i.val = j.val then d j.val else 0)
    else F (i.val * n + j.val)

end Field

/-! ## Descending loops -/

/-- Descending counted loop `for (i = lo + cnt - 1; i >= lo; --i) s = body i s`. -/
def forDown {σ : Type} (body : Nat → σ → σ) (lo : Nat) : Nat → σ → σ
  | 0, s => s
  | c + 1, s => forDown body lo c (body (lo + c) s)

section Cholesky

variable {α : Type} [LinearOrderedField α]

/-! ## Cholesky decomposition and solve -/

/-- The value `sum` of `ll_decomposition` for the pair `(i, j)`:
`A[i][j] - Σ_k A[i][k] * A[j][k]` over `k = i-1` down to `0` (the loop runs over the
flat index `row_i_k` from `row_i + i - 1` down to `row_i`, and only when `i > 0`). -/
def ll_sum (A : Nat → α) (dimension i j : Nat) : α :=
  let row_i := i * dimension
  let row_j := j * dimension
  let offset := row_j - row_i
  let sum := A (row_i + j)
  if i > 0 then
    forDown (fun row_i_k sum => sum - A row_i_k * A (row_i_k + offset)) row_i i sum
  else sum

/-- The loop over `j` of `ll_decomposition` for row `i`: `cnt` remaining iterations
starting at `j`.  The Boolean is `false` when the routine returns `false` here. -/
def ll_row (sqrt : α → α) (dimension i : Nat) :
    Nat → Nat → (Nat → α) → (Nat → α) → Bool × (Nat → α) × (Nat → α)
  | 0, _, A, p => (true, A, p)
  | cnt + 1, j, A, p =>
    let row_j := j * dimension
    let sum := ll_sum A dimension i j
    if i = j then
      if sum ≤ 0 then (false, A, p)
      else ll_row sqrt dimension i cnt (j + 1) A (Function.update p i (sqrt sum))
    else ll_row sqrt dimension i cnt (j + 1) (Function.update A (row_j + i) (sum / p i)) p

/-- The loop over `i` of `ll_decomposition`: `cnt` remaining rows starting at row `i`. -/
def ll_loop (sqrt : α → α) (dimension : Nat) :
    Nat → Nat → (Nat → α) → (Nat → α) → Bool × (Nat → α) × (Nat → α)
  | 0, _, A, p => (true, A, p)
  | cnt + 1, i, A, p =>
    let r := ll_row sqrt dimension i (dimension - i) i A p
    if r.1 then ll_loop sqrt dimension cnt (i + 1) r.2.1 r.2.2 else r

/-- The routine `ll_decomposition(A, p, dim)` with `dim = (n, n)`: returns the value
returned, the buffer `A` and the diagonal vector `p` as the routine leaves them. -/
def ll_decomposition (sqrt : α → α) (A p : Nat → α) (n : Nat) :
    Bool × (Nat → α) × (Nat → α) :=
  ll_loop sqrt n n 0 A p

/-- Body of the forward loop of `ll_solve` for row `i`:
`x[i] = (b[i] - Σ_k A[i][k] * x[k]) / p[i]` with `k = i-1` down to `0`. -/
def ll_forward_row (A p b : Nat → α) (dimension i : Nat) (x : Nat → α) : Nat → α :=
  let row_i := i * dimension
  let sum := forDown (fun k sum => sum - A (row_i + k) * x k) 0 i (b i)
  Function.update x i (sum / p i)

/-- Body of the backward loop of `ll_solve` for row `i`:
`x[i] = (x[i] - Σ_k A[k][i] * x[k]) / p[i]` with `k = i+1 .. dimension-1`
(`row_k = k * dimension`). -/
def ll_back_row (A p : Nat → α) (dimension i : Nat) (x : Nat → α) : Nat → α :=
  let sum := forUp (fun k sum => sum - A (k * dimension + i) * x k)
    (i + 1) (dimension - (i + 1)) (x i)
  Function.update x i (sum / p i)

/-- The routine `ll_solve(A, p, b, x, dim)` with `dim = (n, n)` and `n ≥ 1`; returns the
buffer `x`. -/
def ll_solve (A p b x : Nat → α) (n : Nat) : Nat → α :=
  let dimension := n
  let x0 := Function.update x 0 (b 0 / p 0)
  let x1 := forUp (ll_forward_row A p b dimension) 1 (dimension - 1) x0
  let x2 := Function.update x1 (dimension - 1) (x1 (dimension - 1) / p (dimension - 1))
  forDown (ll_back_row A p dimension) 0 (dimension - 1) x2

/-! ## Specification vocabulary for the Cholesky routines -/

/-- The lower-triangular Cholesky factor: strictly below the diagonal it is packed in the
buffer `F`, its diagonal is the vector `p`. -/
def llL (F p : Nat → α) (n : Nat) : Matrix (Fin n) (Fin n) α :=
  fun i j => if j.val < i.val then F (i.val * n + j.val) else if j.val = i.val then p i.val else 0

/-- Invariant of `ll_decomposition` before row `i`: the upper triangle of the buffer is
the original one, and the columns `c < i` of the factor are final: `p c > 0`,
`p c ^ 2 = A0[c][c] - Σ_{k<c} F[c][k]^2` and
`F[r][c] * p c = A0[c][r] - Σ_{k<c} F[c][k] * F[r][k]` for the rows `r > c`. -/
def LLInv (A0 F p : Nat → α) (n i : Nat) : Prop :=
  (∀ r c, r < n → c < n → r ≤ c → F (r * n + c) = A0 (r * n + c)) ∧
  (∀ c, c < i → 0 < p c ∧
    p c * p c = A0 (c * n + c) - ∑ k in Finset.range c, F (c * n + k) * F (c * n + k)) ∧
  (∀ c r, c < i → c < r → r < n →
    F (r * n + c) * p c = A0 (c * n + r) - ∑ k in Finset.range c, F (c * n + k) * F (r * n + k))

/-- The first `i` columns of the Cholesky factor, zero elsewhere. -/
def llN (F p : Nat → α) (n i : Nat) : Matrix (Fin n) (Fin n) α :=
  fun r c => if c.val < i then llL F p n r c else 0

/-- The first `i` columns of the Cholesky factor, completed by columns of the identity. -/
def llT (F p : Nat → α) (n i : Nat) : Matrix (Fin n) (Fin n) α :=
  fun r c => if c.val < i then llL F p n r c else if r = c then 1 else 0

end Cholesky

section Triangular

variable {α : Type} [LinearOrderedField α]

/-! ## In-place triangular inverses -/

/-- The loop "inverse the diagonal" of `inverse_upper` and `inverse_lower`: `cnt`
remaining diagonal entries starting at column `col` (`pos = col * (n + 1)`); `false` as
soon as an entry fails the test `U[pos] + 1 == 1`. -/
def inverse_diag (n : Nat) : Nat → Nat → (Nat → α) → Bool × (Nat → α)
  | 0, _, U => (true, U)
  | cnt + 1, col, U =>
    let pos := col * (n + 1)
    if U pos + 1 = 1 then (false, U)
    else inverse_diag n cnt (col + 1) (Function.update U pos (1 / U pos))

/-- Body of the loop over `row` of `inverse_upper` for the column `col`:
`U[row][col] = -(Σ_i U[row][i] * U[i][col]) * U[row][row]` with `i = row+1 .. col`.
The row pointers `U_row_i` and `iU_row` are written in closed form (`row * n` and
`i * n + col`). -/
def inverse_upper_cell (n col row : Nat) (U : Nat → α) : Nat → α :=
  let sum := forUp (fun i sum => sum + U (row * n + i) * U (i * n + col)) (row + 1) (col - row) 0
  Function.update U (row * n + col) (-sum * U (row * n + row))

/-- The routine `inverse_upper(U, dim)` with `n = col_count(dim)`: the diagonal is
inverted, then the columns `col = n-1` down to `0` and in each the rows `row = col-1`
down to `0` are overwritten. -/
def inverse_upper (U : Nat → α) (n : Nat) : Bool × (Nat → α) :=
  let r := inverse_diag n n 0 U
  if r.1 then
    (true, forDown (fun col U => forDown (inverse_upper_cell n col) 0 col U) 0 n r.2)
  else r

/-- Body of the loop over `col` of `inverse_lower` for the row `row`:
`U[row][col] = -(Σ_i U[row][i] * U[i][col]) * U[col][col]` with `i = row` down to
`col+1`.  The row pointers `U_row` and `iU_row` are written in closed form (`row * n`
and `i * n + col`; after the loop `iU_row` is at `(col, col)`). -/
def inverse_lower_cell (n row col : Nat) (U : Nat → α) : Nat → α :=
  let sum := forDown (fun i sum => sum + U (row * n + i) * U (i * n + col)) (col + 1) (row - col) 0
  Function.update U (row * n + col) (-sum * U (col * n + col))

/-- The routine `inverse_lower(U, dim)` with `n = col_count(dim)`: the diagonal is
inverted, then the rows `row = n-1` down to `0` and in each the columns `col = row-1`
down to `0` are overwritten. -/
def inverse_lower (U : Nat → α) (n : Nat) : Bool × (Nat → α) :=
  let r := inverse_diag n n 0 U
  if r.1 then
    (true, forDown (fun row U => forDown (inverse_lower_cell n row) 0 row U) 0 n r.2)
  else r

/-- Invariant of the off-diagonal loops of `inverse_upper`, with `D` the buffer after the
diagonal has been inverted: the cells `(r, s)`, `r < s`, of the columns `s > c` and of
the rows `r ≥ ρ` of column `c` hold their final value
`-(Σ_{r < i ≤ s} D[r][i] * W[i][s]) * D[r][r]`; every other cell is as in `D`. -/
def UpperInv (D W : Nat → α) (n c ρ : Nat) : Prop :=
  (∀ r s, r < n → s < n → ¬ (r < s ∧ (c < s ∨ (s = c ∧ ρ ≤ r))) →
    W (r * n + s) = D (r * n + s)) ∧
  (∀ r s, r < s → s < n → (c < s ∨ (s = c ∧ ρ ≤ r)) →
    W (r * n + s) =
      -(∑ i in Finset.Ico (r + 1) (s + 1), D (r * n + i) * W (i * n + s)) * D (r * n + r))

/-- Invariant of the off-diagonal loops of `inverse_lower`, with `D` the buffer after the
diagonal has been inverted: the cells `(r, s)`, `s < r`, of the rows `r > c` and of the
columns `s ≥ ρ` of row `c` hold their final value
`-(Σ_{s < i ≤ r} W[r][i] * D[i][s]) * D[s][s]`; every other cell is as in `D`. -/
def LowerInv (D W : Nat → α) (n c ρ : Nat) : Prop :=
  (∀ r s, r < n → s < n → ¬ (s < r ∧ (c < r ∨ (r = c ∧ ρ ≤ s))) →
    W (r * n + s) = D (r * n + s)) ∧
  (∀ r s, s < r → r < n → (c < r ∨ (r = c ∧ ρ ≤ s)) →
    W (r * n + s) =
      -(∑ i in Finset.Ico (s + 1) (r + 1), W (r * n + i) * D (i * n + s)) * D (s * n + s))

end Triangular

/-! ## Vector helpers (`tipl::vec`) -/

/-- The routine `vec::dot(v1, v1_end, v2)` on the ranges `A[x .. x+len)` and `B[y ..)`:
zero on an empty range, otherwise the products are added starting from the first one. -/
def vec_dot {R : Type} [Zero R] [Add R] [Mul R] (A : Nat → R) (x len : Nat) (B : Nat → R)
    (y : Nat) : R :=
  if len = 0 then 0
  else forUp (fun t sum => sum + A (x + t) * B (y + t)) 1 (len - 1) (A x * B y)

/-- The routine `vec::negate(x_begin, x_end)` on the range `A[x .. x+len)`. -/
def vec_negate {R : Type} [Neg R] (A : Nat → R) (x len : Nat) : Nat → R :=
  forUp (fun t B => Function.update B (x + t) (-B (x + t))) 0 len A

/-- The routine `vec::rot(x_begin, x_end, y, c, s)` on the ranges `A[x .. x+len)` and
`A[y .. y+len)` of one buffer. -/
def vec_rot {R : Type} [Add R] [Sub R] [Mul R] (A : Nat → R) (x len y : Nat) (c s : R) :
    Nat → R :=
  forUp (fun t B =>
    let x_temp := B (x + t) * c + B (y + t) * s
    let B1 := Function.update B (y + t) (B (y + t) * c - B (x + t) * s)
    Function.update B1 (x + t) x_temp) 0 len A

/-- The index returned by `std::max_element` on the range `d[first .. last)`: `cnt` elements
remain to be compared from index `i`, `largest` is the current candidate (it is replaced
only by a strictly larger element). -/
def max_element_from {R : Type} [LT R] [DecidableRel (fun a b : R => a < b)] (d : Nat → R) :
    Nat → Nat → Nat → Nat
  | 0, _, largest => largest
  | cnt + 1, i, largest =>
    max_element_from d cnt (i + 1) (if d largest < d i then i else largest)

/-- The index `std::max_element(d + first, d + last) - d`. -/
def max_element {R : Type} [LT R] [DecidableRel (fun a b : R => a < b)] (d : Nat → R)
    (first last : Nat) : Nat :=
  if first = last then last else max_element_from d (last - (first + 1)) (first + 1) first

section Eigen

variable {α : Type} [LinearOrderedField α]

/-! ## Closed-form symmetric eigen solvers -/

/-- The overload `eigen_decomposition_sym(A, V, d, dim<2,2>)`; returns `(V, d)`. -/
def eigen_decomposition_sym_2_2 (sqrt : α → α) (A V d : Nat → α) : (Nat → α) × (Nat → α) :=
  let b := A 1
  if b + 1 = 1 then
    let d1 := Function.update (Function.update d 0 (A 0)) 1 (A 3)
    let V1 := Function.update (Function.update (Function.update (Function.update V 0 1) 1 0) 2 0) 3 1
    (V1, d1)
  else
    let a := A 0
    let b2 := b * b
    let c := A 3
    let a_c := a - c
    let t := sqrt (a_c * a_c + 4 * b2)
    let d1 := Function.update d 0 ((a + c + t) * 0.5)
    let d2 := Function.update d1 1 (d1 0 - t)
    let a_l1 := a - d2 0
    let a_l2 := a - d2 1
    let l1 := sqrt (b2 + a_l1 * a_l1)
    let l2 := sqrt (b2 + a_l2 * a_l2)
    let V1 := Function.update V 0 (-b / l1)
    let V2 := Function.update V1 2 (a_l1 / l1)
    let V3 := Function.update V2 1 (-b / l2)
    let V4 := Function.update V3 3 (a_l2 / l2)
    (V4, d2)

/-- The call `std::fill(V, V + len, v)`. -/
def fill {R : Type} (V : Nat → R) (len : Nat) (v : R) : Nat → R :=
  forUp (fun i V => Function.update V i v) 0 len V

/-- The shortcut of `eigen_decomposition_sym(dim<3,3>)` for a matrix with one diagonal
entry `A[a0]` decoupled from a 2-by-2 block with diagonal `A[a1], A[a8]` and off-diagonal
entry `A[a5]`: `d[0] = A[a0]`, `d[1], d[2]` are the block eigenvalues; `V[v1] = 1`,
`V[v4] = V[v8] = -A[a5] / length`, `V[v5] = (A[a1] - d[1]) / length`, `V[v7] = -V[v5]`. -/
def eigen_3_3_block (sqrt : α → α) (A V d : Nat → α) (a0 a1 a8 a5 v1 v4 v8 v5 v7 : Nat) :
    (Nat → α) × (Nat → α) :=
  let A5A5 := A a5 * A a5
  let d1 := Function.update d 0 (A a0)
  let d2 := Function.update d1 2 ((A a1 + A a8) * 0.5)
  let d3 := Function.update d2 1 (d2 2)
  let A4_A8 := (A a1 - A a8) * 0.5
  let l := sqrt (A4_A8 * A4_A8 + A5A5)
  let d4 := Function.update d3 1 (d3 1 + l)
  let d5 := Function.update d4 2 (d4 2 - l)
  let V1 := fill V 9 0
  let V2 := Function.update V1 v1 1
  let A4_d1 := A a1 - d5 1
  let length := sqrt (A5A5 + A4_d1 * A4_d1)
  let V3 := Function.update V2 v8 (-A a5 / length)
  let V4 := Function.update V3 v4 (V3 v8)
  let V5 := Function.update V4 v5 (A4_d1 / length)
  let V6 := Function.update V5 v7 (-V5 v5)
  (V6, d5)

/-- The identity result `V[0] = V[4] = V[8] = 1` after `std::fill(V, V + 9, 0)`. -/
def eigen_3_3_identity (V : Nat → α) : Nat → α :=
  let V1 := fill V 9 0
  let V2 := Function.update V1 8 1
  let V3 := Function.update V2 4 (V2 8)
  Function.update V3 0 (V3 4)

/-- Row `i` of the eigenvector loop of `eigen_decomposition_sym(dim<3,3>)` (the pointer
`V` has been advanced by `3 * i`). -/
def eigen_3_3_vector (sqrt : α → α) (A d : Nat → α) (i : Nat) (V : Nat → α) : Nat → α :=
  let A2A1 := A 2 * A 1
  let A1A5 := A 1 * A 5
  let A2A5 := A 2 * A 5
  let Ai := A 0 - d i
  let Bi := A 4 - d i
  let Ci := A 8 - d i
  let q1 := A2A1 - Ai * A 5
  let q2 := A1A5 - Bi * A 2
  let q3 := A2A5 - Ci * A 1
  let V1 := Function.update V (3 * i + 0) (q2 * q3)
  let V2 := Function.update V1 (3 * i + 1) (q3 * q1)
  let V3 := Function.update V2 (3 * i + 2) (q2 * q1)
  let length := sqrt (V3 (3 * i + 0) * V3 (3 * i + 0) + V3 (3 * i + 1) * V3 (3 * i + 1) +
    V3 (3 * i + 2) * V3 (3 * i + 2))
  let V4 := Function.update V3 (3 * i + 0) (V3 (3 * i + 0) / length)
  let V5 := Function.update V4 (3 * i + 1) (V4 (3 * i + 1) / length)
  Function.update V5 (3 * i + 2) (V5 (3 * i + 2) / length)

/-- The trigonometric part of `eigen_decomposition_sym(dim<3,3>)` (no shortcut applies). -/
def eigen_3_3_general (sqrt acos cos : α → α) (A V d : Nat → α) : (Nat → α) × (Nat → α) :=
  let A2A1 := A 2 * A 1
  let A0A4 := A 0 * A 4
  let A1A1 := A 1 * A 1
  let A2A2 := A 2 * A 2
  let A5A5 := A 5 * A 5
  let A0_A4 := A 0 + A 4
  let I1 := A0_A4 + A 8
  let I2 := A0A4 + A0_A4 * A 8 - A1A1 - A2A2 - A5A5
  let I3 := A0A4 * A 8 + 2 * A2A1 * A 5 - (A 8 * A1A1 + A 4 * A2A2 + A 0 * A5A5)
  let I1_3 := I1 / 3
  let I1_3_I1_3 := I1_3 * I1_3
  let v := I1_3_I1_3 - I2 / 3
  let s := I1_3_I1_3 * I1_3 - I1 * I2 / 6 + I3 / 2
  if v = 0 then (eigen_3_3_identity V, fill d 3 0)
  else
    let sqrt_v := sqrt v
    let angle := acos (max (-1) (min 1 (s / v / sqrt_v))) / 3
    let d1 := Function.update d 0 (I1_3 + 2 * sqrt_v * cos angle)
    let d2 := Function.update d1 1 (I1_3 - 2 * sqrt_v * cos (3.14159265358979323846 / 3 + angle))
    let d3 := Function.update d2 2 (I1 - d2 0 - d2 1)
    (forUp (eigen_3_3_vector sqrt A d3) 0 3 V, d3)

/-- The overload `eigen_decomposition_sym(A, V, d, dim<3,3>)`; returns `(V, d)`. -/
def eigen_decomposition_sym_3_3 (sqrt acos cos : α → α) (A V d : Nat → α) :
    (Nat → α) × (Nat → α) :=
  if A 1 = 0 then
    if A 2 = 0 then
      if A 5 = 0 then
        let d1 := Function.update d 0 (A 0)
        let d2 := Function.update d1 1 (A 4)
        let d3 := Function.update d2 2 (A 8)
        (eigen_3_3_identity V, d3)
      else eigen_3_3_block sqrt A V d 0 4 8 5 0 4 8 5 7
    else if A 5 = 0 then eigen_3_3_block sqrt A V d 4 0 8 2 1 3 8 5 6
    else eigen_3_3_general sqrt acos cos A V d
  else if A 2 = 0 ∧ A 5 = 0 then eigen_3_3_block sqrt A V d 8 0 4 1 2 3 7 4 6
  else eigen_3_3_general sqrt acos cos A V d

/-! ## General symmetric eigen solver (tred2 / tql2) -/

/-- The value of `std::hypot(x, y)` in exact arithmetic. -/
def hypot (sqrt : α → α) (x y : α) : α :=
  sqrt (x * x + y * y)

/-- Body of the first loop over `j` of a Householder step of the tridiagonalisation
(row `i`, scaling `h`); the state is `(V, e, f)`. -/
def tred_first (dim i : Nat) (h : α) (j : Nat) (st : (Nat → α) × (Nat → α) × α) :
    (Nat → α) × (Nat → α) × α :=
  let Vrowi := i * dim
  let Vrowj := j * dim
  let j_1 := j + 1
  let V1 := Function.update st.1 (Vrowj + i) (st.1 (Vrowi + j) / h)
  let g0 := forUp (fun k g => g + V1 (Vrowj + k) * V1 (Vrowi + k)) 0 j_1 0
  let g1 := if j_1 < i then
      forUp (fun k g => g + V1 (k * dim + j) * V1 (Vrowi + k)) j_1 (i - j_1) g0
    else g0
  let e1 := Function.update st.2.1 j (g1 / h)
  (V1, e1, st.2.2 + e1 j * V1 (Vrowi + j))

/-- Body of the second loop over `j` of a Householder step (row `i`); the state is
`(V, e)`. -/
def tred_second (dim i : Nat) (hh : α) (j : Nat) (st : (Nat → α) × (Nat → α)) :
    (Nat → α) × (Nat → α) :=
  let Vrowi := i * dim
  let Vrowj := j * dim
  let f := st.1 (Vrowi + j)
  let g := st.2 j - hh * f
  let e1 := Function.update st.2 j g
  let V1 := forUp (fun k V =>
      Function.update V (Vrowj + k) (V (Vrowj + k) - (f * e1 k + g * V (Vrowi + k)))) 0 (j + 1) st.1
  (V1, e1)

/-- Body of the Householder loop `for (i = dim-1; i > 1; --i)` of the tridiagonalisation;
the state is `(V, d, e)`. -/
def tred_step (sqrt : α → α) (dim i : Nat) (st : (Nat → α) × (Nat → α) × (Nat → α)) :
    (Nat → α) × (Nat → α) × (Nat → α) :=
  let V := st.1
  let d := st.2.1
  let e := st.2.2
  let Vrowi := i * dim
  let h := forUp (fun k h => h + V (Vrowi + k) * V (Vrowi + k)) 0 i 0
  if h + 1 = 1 then (V, d, Function.update e i (V (Vrowi + (i - 1))))
  else
    let f := V (Vrowi + (i - 1))
    let g := if f ≥ 0 then -sqrt h else sqrt h
    let e1 := Function.update e i g
    let h1 := h - f * g
    let V1 := Function.update V (Vrowi + (i - 1)) (V (Vrowi + (i - 1)) - g)
    let r := forUp (tred_first dim i h1) 0 i (V1, e1, 0)
    let d1 := Function.update d i h1
    let hh := r.2.2 / (h1 + h1)
    let r2 := forUp (tred_second dim i hh) 0 i (r.1, r.2.1)
    (r2.1, d1, r2.2)

/-- Body of the loop over the rows `Vrowj` (`j < i`) of the accumulation of the
transformations. -/
def tred_accum_row (dim i j : Nat) (V : Nat → α) : Nat → α :=
  let g := vec_dot V (i * dim) i V (j * dim)
  forUp (fun k V => Function.update V (j * dim + k) (V (j * dim + k) - g * V (k * dim + i))) 0 i V

/-- Body of the loop `for (i = 1; i < dim; ++i)` that accumulates the transformations;
the state is `(V, d)`. -/
def tred_accum (dim i : Nat) (st : (Nat → α) × (Nat → α)) : (Nat → α) × (Nat → α) :=
  let Vrowi := i * dim
  let V1 := if st.2 i ≠ 0 then forUp (tred_accum_row dim i) 0 i st.1 else st.1
  let d1 := Function.update st.2 i (V1 (Vrowi + i))
  let V2 := Function.update V1 (Vrowi + i) 1
  let V3 := forUp (fun k V =>
      Function.update (Function.update V (Vrowi + k) 0) (k * dim + i) (0 : α)) 0 i V2
  (V3, d1)

/-- The search `for (; m < dim-1; ++m) if (d[m] + e[m] == d[m]) break;`: `cnt` indices
remain before `dim - 1`; returns the final `m`. -/
def ql_find (d e : Nat → α) : Nat → Nat → Nat
  | 0, m => m
  | cnt + 1, m => if d m + e m = d m then m else ql_find d e cnt (m + 1)

/-- The `do … while (1)` loop of a QL sweep, entered with `i = l + cnt`.  The result is
`(V, d, e, p, g, r, i < l)` at the exit of the loop; `none` stands for the access `d[i-1]`
with `i = 0`, which is outside the buffer. -/
def ql_sweep (sqrt : α → α) (dim l m : Nat) :
    Nat → (Nat → α) → (Nat → α) → (Nat → α) → α → α → α → α →
      Option ((Nat → α) × (Nat → α) × (Nat → α) × α × α × α × Bool)
  | cnt, V, d, e, s, c, g, p =>
    let i := l + cnt
    let f := s * e i
    let b := c * e i
    let r := hypot sqrt f p
    let e1 := Function.update e (i + 1) r
    if r + f = f ∧ r + p = p then
      if i = 0 then none
      else some (V, Function.update d (i - 1) (d (i - 1) - g), Function.update e1 m 0, p, g, r,
        false)
    else
      let s1 := f / r
      let c1 := p / r
      let p1 := d (i + 1) - g
      let r1 := (d i - p1) * s1 + c1 * b * 2
      let g1 := s1 * r1
      let d1 := Function.update d (i + 1) (p1 + g1)
      let p2 := c1 * r1 - b
      let V1 := vec_rot V (i * dim) dim ((i + 1) * dim) c1 (-s1)
      match cnt with
      | 0 => some (V1, d1, e1, p2, g1, r1, true)
      | cnt1 + 1 => ql_sweep sqrt dim l m cnt1 V1 d1 e1 s1 c1 g1 p2

/-- The loop `for (l = 0, iter = 0; l < dim && iter < 30; ++iter)` of the QL iteration,
with `e` already shifted by one (`++e`); every pass of the loop uses one unit of `fuel`. -/
def ql_loop (sqrt : α → α) (dim : Nat) :
    Nat → Nat → Nat → (Nat → α) → (Nat → α) → (Nat → α) →
      Option ((Nat → α) × (Nat → α) × (Nat → α))
  | 0, _, _, V, d, e => some (V, d, e)
  | fuel + 1, l, iter, V, d, e =>
    if l < dim ∧ iter < 30 then
      let m := ql_find d e (dim - 1 - l) l
      if m = l then ql_loop sqrt dim fuel (l + 1) 1 V d e
      else
        let p := (d (l + 1) - d l) / (e l * 2)
        let r := sqrt (1 + p * p)
        let p1 := d m - d l + e l / (p + (if p < 0 then -r else r))
        match ql_sweep sqrt dim l m (m - 1 - l) V d e 1 1 0 p1 with
        | none => none
        | some st =>
          let V1 := st.1
          let d1 := st.2.1
          let e1 := st.2.2.1
          let p2 := st.2.2.2.1
          let g := st.2.2.2.2.1
          let r1 := st.2.2.2.2.2.1
          let i_lt_l := st.2.2.2.2.2.2
          if r1 ≠ 0 ∨ i_lt_l = true then
            ql_loop sqrt dim fuel l (iter + 1) V1
              (Function.update d1 l (d1 l - g))
              (Function.update (Function.update e1 l p2) m 0)
          else ql_loop sqrt dim fuel l (iter + 1) V1 d1 e1
    else some (V, d, e)

/-- The pass "Sort eigenvalues and corresponding vectors" of `eigen_decomposition_sym`:
for `i = 0 .. dim-2` the largest of `d[i .. dim)` is swapped to position `i` together with
the rows of `V`; the state is `(V, d)`. -/
def eigen_sort (dim : Nat) (st : (Nat → α) × (Nat → α)) : (Nat → α) × (Nat → α) :=
  forUp (fun i st =>
    let k := max_element st.2 i dim
    if k ≠ i then (vec_swap st.1 (i * dim) dim (k * dim), swapAt st.2 k i) else st)
    0 (dim - 1) st

/-- The state `(V, d, e)` of `eigen_decomposition_sym` (run-time dimension other than 3)
when the QL iteration starts: copy of `A`, tridiagonalisation, accumulation of the
transformations and the shift `++e`. -/
def eigen_tridiagonalize (sqrt : α → α) (A V d : Nat → α) (n : Nat) :
    (Nat → α) × (Nat → α) × (Nat → α) :=
  let s := n * n
  let dim := n
  let V0 := forUp (fun i V => Function.update V i (A i)) 0 s V
  let d0 := fill d dim 0
  let t := forDown (tred_step sqrt dim) 2 (dim - 2) (V0, d0, fun _ => 0)
  let e1 := Function.update t.2.2 0 0
  let d1 := Function.update t.2.1 0 (t.1 0)
  let e2 := Function.update e1 1 (t.1 dim)
  let d2 := Function.update d1 1 0
  let V1 := Function.update t.1 0 1
  let a := forUp (tred_accum dim) 1 (dim - 1) (V1, d2)
  (a.1, a.2, fun k => e2 (k + 1))

/-- The state `(V, d)` of `eigen_decomposition_sym` (run-time dimension other than 3)
before the final sorting pass; `none` if the QL iteration leaves the buffer `d`. -/
def eigen_presort (sqrt : α → α) (A V d : Nat → α) (n : Nat) :
    Option ((Nat → α) × (Nat → α)) :=
  let t := eigen_tridiagonalize sqrt A V d n
  match ql_loop sqrt n (30 * n + 30) 0 0 t.1 t.2.1 t.2.2 with
  | none => none
  | some r => some (r.1, r.2.1)

/-- The routine `eigen_decomposition_sym(A, V, d, dimension)` with run-time dimension
`n × n`; returns `(V, d)`. -/
def eigen_decomposition_sym (sqrt acos cos : α → α) (A V d : Nat → α) (n : Nat) :
    Option ((Nat → α) × (Nat → α)) :=
  if n = 3 then some (eigen_decomposition_sym_3_3 sqrt acos cos A V d)
  else
    match eigen_presort sqrt A V d n with
    | none => none
    | some r => some (eigen_sort n r)

end Eigen

section Svd

variable {α : Type} [LinearOrderedField α]

/-! ## Post-processing of `svd` -/

/-- The pass "make singular value positive" of `svd(A, U, s, dim)` on the state `(U, s)`:
for `k = 0 .. nu-1`, a negative `s[k]` is negated together with row `k` of `U` (rows of
length `n`).  The source loop tests its exit after the body, so this is its behaviour for
`nu ≥ 1`. -/
def svd_make_positive (n nu : Nat) (st : (Nat → α) × (Nat → α)) : (Nat → α) × (Nat → α) :=
  forUp (fun k st =>
    if st.2 k < 0 then
      let s1 := Function.update st.2 k (-st.2 k)
      (vec_negate st.1 (k * n) n, s1)
    else st) 0 nu st

/-- Body of the loop of the pass "sort the values" of `svd(A, U, s, dim)` at position `k`
(the pointers `s`, `Urow`, `Arow` have been advanced `k` times): the largest of
`s[k .. nu)` is swapped to position `k` together with the rows of `U` (length `n`) and of
`A` (length `m`); the state is `(A, U, s)`. -/
def svd_sort_step (n m nu k : Nat) (st : (Nat → α) × (Nat → α) × (Nat → α)) :
    (Nat → α) × (Nat → α) × (Nat → α) :=
  let s_max := max_element st.2.2 k nu
  if s_max = k then st
  else
    let s1 := swapAt st.2.2 k s_max
    let dif := s_max - k
    let U1 := vec_swap st.2.1 (k * n) n (k * n + dif * n)
    let A1 := vec_swap st.1 (k * m) m (k * m + dif * m)
    (A1, U1, s1)

/-- The pass "sort the values" of `svd(A, U, s, dim)`: positions `k = 0 .. nu-2`. -/
def svd_sort (n m nu : Nat) (st : (Nat → α) × (Nat → α) × (Nat → α)) :
    (Nat → α) × (Nat → α) × (Nat → α) :=
  forUp (svd_sort_step n m nu) 0 (nu - 1) st

/-- The end of `svd(A, U, s, dim)` with `dim = (n, m)`, from the comment "make singular
value positive" on: sign fix, then sort; the state is `(A, U, s)`. -/
def svd_postprocess (n m : Nat) (st : (Nat → α) × (Nat → α) × (Nat → α)) :
    (Nat → α) × (Nat → α) × (Nat → α) :=
  let p := svd_make_positive n n (st.2.1, st.2.2)
  svd_sort n m n (st.1, p.1, p.2)

end Svd

section Residual

variable {R : Type} [CommRing R]

/-! ## Specification vocabulary for the eigen solvers -/

/-- The squared Euclidean norm of `A v - d[i] v` for the block
`v = V[i * n .. i * n + n - 1]` and the row-major `n × n` matrix `A`. -/
def eigen_residual_sq (A V d : Nat → R) (n i : Nat) : R :=
  ∑ r in Finset.range n,
    (∑ c in Finset.range n, A (r * n + c) * V (i * n + c) - d i * V (i * n + r)) ^ 2

/-- The squared Frobenius norm of the row-major `n × n` matrix `A`. -/
def frobenius_sq (A : Nat → R) (n : Nat) : R :=
  ∑ k in Finset.range (n * n), A k ^ 2

end Residual

section SvdMain

variable {α : Type} [LinearOrderedField α]

/-! ## Singular value decomposition (`svd(A, U, s, dim)`) -/

/-- The routine `vec::norm2(x_begin, x_end)` on the range `A[x .. x+len)`. -/
def vec_norm2 (sqrt : α → α) (A : Nat → α) (x len : Nat) : α :=
  if len = 0 then 0
  else if len = 1 then |A x|
  else sqrt (forUp (fun t sum => sum + A (x + t) * A (x + t)) 2 (len - 2)
    (A x * A x + A (x + 1) * A (x + 1)))

/-- The routine `vec::scale(x_begin, x_end, a)` on the range `A[x .. x+len)`. -/
def vec_scale (A : Nat → α) (x len : Nat) (a : α) : Nat → α :=
  forUp (fun t B => Function.update B (x + t) (B (x + t) * a)) 0 len A

/-- The routine `vec::axpy(y_begin, y_end, a, x)`: `Y[y + t] += X[x + t] * a` for
`t < len`; returns `Y`. -/
def vec_axpy (Y : Nat → α) (y len : Nat) (a : α) (X : Nat → α) (x : Nat) : Nat → α :=
  forUp (fun t B => Function.update B (y + t) (B (y + t) + X (x + t) * a)) 0 len Y

/-- The routine `vec::aypx(y_begin, y_end, a, x)` with `y` in another buffer:
`X[x + t] += Y[y + t] * a` for `t < len`; returns `X`. -/
def vec_aypx (Y : Nat → α) (y len : Nat) (a : α) (X : Nat → α) (x : Nat) : Nat → α :=
  forUp (fun t B => Function.update B (x + t) (B (x + t) + Y (y + t) * a)) 0 len X

/-- The routine `vec::aypx(y_begin, y_end, a, x)` with both ranges in the buffer `A`:
`A[x + t] += A[y + t] * a` for `t < len`. -/
def vec_aypx_self (A : Nat → α) (y len : Nat) (a : α) (x : Nat) : Nat → α :=
  forUp (fun t B => Function.update B (x + t) (B (x + t) + B (y + t) * a)) 0 len A

/-- The call `std::fill(A + x, A + x + len, v)`. -/
def fill_range (A : Nat → α) (x len : Nat) (v : α) : Nat → α :=
  forUp (fun t B => Function.update B (x + t) v) 0 len A

/-- The call `std::copy(src + x, src + x + len, dst + y)`. -/
def copy_range (src : Nat → α) (x len : Nat) (dst : Nat → α) (y : Nat) : Nat → α :=
  forUp (fun t B => Function.update B (y + t) (src (x + t))) 0 len dst

/-- The state of `svd`: the buffers `A`, `U`, `s`, the work vectors `e`, `w` and
`max_value`. -/
structure SvdState (α : Type) where
  A : Nat → α
  U : Nat → α
  s : Nat → α
  e : Nat → α
  w : Nat → α
  max_value : α

/-- Row `k` of the bidiagonalisation, first part: the reflection of `A[k][k .. m)` and
its application to the rows `j = k+1 .. n-1`, with `e[j] = A[j][k]`. -/
def svd_row_reflect (sqrt : α → α) (n m k : Nat) (st : SvdState α) : SvdState α :=
  let Arowk := k * m
  let Arowk_k := Arowk + k
  let len := m - k
  let s_k := vec_norm2 sqrt st.A Arowk_k len
  if s_k = 0 then
    let s1 := Function.update st.s k 0
    let e1 := forUp (fun j e => Function.update e j (st.A (j * m + k))) (k + 1) (n - (k + 1)) st.e
    { st with s := s1, e := e1 }
  else
    let s_k1 := if st.A (Arowk + k) < 0 then -s_k else s_k
    let A1 := vec_scale st.A Arowk_k len (1 / s_k1)
    let A2 := Function.update A1 Arowk_k (A1 Arowk_k + 1)
    let s1 := Function.update st.s k (-s_k1)
    let r := forUp (fun j (p : (Nat → α) × (Nat → α)) =>
        let Arowj_k := j * m + k
        let A3 := vec_aypx_self p.1 Arowk_k len
          (vec_dot p.1 Arowk_k len p.1 Arowj_k / -(p.1 Arowk_k)) Arowj_k
        (A3, Function.update p.2 j (A3 Arowj_k))) (k + 1) (n - (k + 1)) (A2, st.e)
    { st with A := r.1, s := s1, e := r.2 }

/-- Row `k` of the bidiagonalisation, second part (`if (k < nrt)`): the reflection of
`e[k+1 .. n)`, its application to the rows `j = k+1 .. n-1` of `A` through the work vector
`w`, and the copy of `e[k+1 .. n)` into row `k` of `U`. -/
def svd_e_reflect (sqrt : α → α) (n m k : Nat) (st : SvdState α) : SvdState α :=
  let k_1 := k + 1
  let e_k_value := vec_norm2 sqrt st.e k_1 (n - k_1)
  let st1 : SvdState α × α :=
    if e_k_value ≠ 0 then
      let e_k_value1 := if st.e k_1 < 0 then -e_k_value else e_k_value
      let e1 := vec_scale st.e k_1 (n - k_1) (1 / e_k_value1)
      let e2 := Function.update e1 k_1 (e1 k_1 + 1)
      let e_k_value2 := -e_k_value1
      if k + 1 < m then
        let w1 := fill_range st.w k_1 (m - k_1) 0
        let w2 := forUp (fun j w => vec_axpy w k_1 (m - k_1) (e2 j) st.A (j * m + k_1))
          k_1 (n - k_1) w1
        let e_k_1_value := e2 k_1
        let A1 := forUp (fun j A => vec_aypx w2 k_1 (m - k_1) (-e2 j / e_k_1_value) A (j * m + k_1))
          k_1 (n - k_1) st.A
        ({ st with A := A1, e := e2, w := w2 }, e_k_value2)
      else ({ st with e := e2 }, e_k_value2)
    else (st, e_k_value)
  let e3 := Function.update st1.1.e k st1.2
  let U1 := copy_range e3 k_1 (n - k_1) st1.1.U (k * n + k_1)
  { st1.1 with e := e3, U := U1 }

/-- Body of the bidiagonalisation loop of `svd` for row `k`. -/
def svd_bidiag_step (sqrt : α → α) (n m nrt k : Nat) (st : SvdState α) : SvdState α :=
  let st1 := svd_row_reflect sqrt n m k st
  let st2 := if k < nrt then svd_e_reflect sqrt n m k st1 else st1
  { st2 with max_value := max st2.max_value (|st2.e k| + |st2.s k|) }

/-- Body of the loop that generates the rows of `U`, for `k = nu-1` down to `0`. -/
def svd_gen_u (n nrt k : Nat) (st : SvdState α) : SvdState α :=
  let Urowk := k * n
  let k_1 := k + 1
  let Urowk_k_1 := Urowk + k_1
  let U1 := if k < nrt ∧ st.e k ≠ 0 then
      forUp (fun j U =>
        vec_aypx_self U Urowk_k_1 (n - k_1)
          (vec_dot U Urowk_k_1 (n - k_1) U (j * n + k_1) / -(U Urowk_k_1)) (j * n + k_1))
        k_1 (n - k_1) st.U
    else st.U
  let U2 := fill_range U1 Urowk n 0
  { st with U := Function.update U2 (Urowk + k) 1 }

/-- Body of the loop that generates the rows of `A` ("If required, generate U"), for
`k = nu-1` down to `0`. -/
def svd_gen_a (n m nct k : Nat) (st : SvdState α) : SvdState α :=
  let Arowk := k * m
  let Arowk_k := Arowk + k
  if st.s k ≠ 0 ∧ k ≠ nct then
    let A1 := forUp (fun j A =>
        vec_aypx_self A Arowk_k (m - k)
          (vec_dot A Arowk_k (m - k) A (j * m + k) / -(A Arowk_k)) (j * m + k))
      (k + 1) (n - (k + 1)) st.A
    let A2 := vec_negate A1 Arowk_k (m - k)
    let A3 := Function.update A2 Arowk_k (A2 Arowk_k + 1)
    { st with A := fill_range A3 Arowk k 0 }
  else
    let A1 := fill_range st.A Arowk m 0
    { st with A := Function.update A1 Arowk_k 1 }

/-- The search `for (k = pp-2; k >= 0; k--) if (max_value + e[k] == max_value) …`:
`cnt` candidates `k = cnt-1 .. 0` remain; returns the buffer `e` and `k + 1` (so `0`
stands for `k = -1`). -/
def svd_find_k (max_value : α) : Nat → (Nat → α) → (Nat → α) × Nat
  | 0, e => (e, 0)
  | cnt + 1, e =>
    if max_value + e cnt = max_value then (Function.update e cnt 0, cnt + 1)
    else svd_find_k max_value cnt e

/-- The search `for (ks = pp; ks > k; ks--) if (max_value + s[ks] == max_value) …`:
`cnt` candidates `ks = k1 + cnt - 1 .. k1` remain (`k1 = k + 1`); returns the index
found, if any. -/
def svd_find_ks (max_value : α) (s : Nat → α) (k1 : Nat) : Nat → Option Nat
  | 0 => none
  | cnt + 1 =>
    if max_value + s (k1 + cnt) = max_value then some (k1 + cnt)
    else svd_find_ks max_value s k1 cnt

/-- The loop "Deflate negligible s(p)" of `svd`, entered at `j = k + cnt` (after `++k`)
with the carried value `f`; the state is `(U, s, e)`. -/
def svd_deflate (sqrt : α → α) (n pp k : Nat) :
    Nat → α → (Nat → α) × (Nat → α) × (Nat → α) → (Nat → α) × (Nat → α) × (Nat → α)
  | cnt, f, st =>
    let j := k + cnt
    let t := hypot sqrt (st.2.1 j) f
    let cs := st.2.1 j / t
    let sn := f / t
    let s1 := Function.update st.2.1 j t
    let U1 := vec_rot st.1 (j * n) n (pp * n) cs sn
    match cnt with
    | 0 => (U1, s1, st.2.2)
    | cnt1 + 1 =>
      let f1 := -sn * st.2.2 (j - 1)
      let e1 := Function.update st.2.2 (j - 1) (st.2.2 (j - 1) * cs)
      svd_deflate sqrt n pp k cnt1 f1 (U1, s1, e1)

/-- The loop "Split at negligible s(k)" of `svd`: `cnt` passes starting at `j`, with the
carried value `f`; the state is `(A, s, e)`. -/
def svd_split (sqrt : α → α) (m ks : Nat) :
    Nat → Nat → α → (Nat → α) × (Nat → α) × (Nat → α) → (Nat → α) × (Nat → α) × (Nat → α)
  | 0, _, _, st => st
  | cnt + 1, j, f, st =>
    let t := hypot sqrt (st.2.1 j) f
    let cs := st.2.1 j / t
    let sn := f / t
    let s1 := Function.update st.2.1 j t
    let f1 := -sn * st.2.2 j
    let e1 := Function.update st.2.2 j (cs * st.2.2 j)
    let A1 := vec_rot st.1 (j * m) m (ks * m) cs sn
    svd_split sqrt m ks cnt (j + 1) f1 (A1, s1, e1)

/-- The loop of one QR step of `svd`: `cnt` passes starting at `j`, with the carried
values `f`, `g`; the state is `(A, U, s, e)` and the final `f` is returned with it. -/
def svd_qr_pass (sqrt : α → α) (n m k : Nat) :
    Nat → Nat → α → α → (Nat → α) × (Nat → α) × (Nat → α) × (Nat → α) →
      ((Nat → α) × (Nat → α) × (Nat → α) × (Nat → α)) × α
  | 0, _, f, _, st => (st, f)
  | cnt + 1, j, f, g, st =>
    let j_1 := j + 1
    let t := hypot sqrt f g
    let cs := f / t
    let sn := g / t
    let e1 := if j ≠ k then Function.update st.2.2.2 (j - 1) t else st.2.2.2
    let f1 := cs * st.2.2.1 j + sn * e1 j
    let e2 := Function.update e1 j (e1 j * cs - sn * st.2.2.1 j)
    let g1 := sn * st.2.2.1 j_1
    let s1 := Function.update st.2.2.1 j_1 (st.2.2.1 j_1 * cs)
    let U1 := vec_rot st.2.1 (j * n) n (j_1 * n) cs sn
    let t2 := hypot sqrt f1 g1
    let cs2 := f1 / t2
    let sn2 := g1 / t2
    let s2 := Function.update s1 j t2
    let f2 := cs2 * e2 j + sn2 * s2 j_1
    let s3 := Function.update s2 j_1 (s2 j_1 * cs2 - sn2 * e2 j)
    let g2 := sn2 * e2 j_1
    let e3 := Function.update e2 j_1 (e2 j_1 * cs2)
    let A1 := vec_rot st.1 (j * m) m (j_1 * m) cs2 sn2
    svd_qr_pass sqrt n m k cnt j_1 f2 g2 (A1, U1, s3, e3)

/-- One QR step of `svd` on the block `k .. pp` (after `++k`). -/
def svd_qr_step (sqrt : α → α) (n m pp k : Nat) (st : SvdState α) : SvdState α :=
  let pp_1 := pp - 1
  let sp := st.s pp
  let sk := st.s k
  let ek := st.e k
  let b0 := st.e pp_1 * st.e pp_1
  let b1 := b0 + (st.s pp_1 + sp) * (st.s pp_1 - sp)
  let b := b1 / 2
  let c0 := sp * st.e pp_1
  let c := c0 * c0
  let shift := if b ≠ 0 ∨ c ≠ 0 then
      let shift1 := sqrt (b * b + c)
      let shift2 := if b < 0 then -shift1 else shift1
      c / (b + shift2)
    else 0
  let f := (sk + sp) * (sk - sp) + shift
  let g := sk * ek
  let r := svd_qr_pass sqrt n m k (pp - k) k f g (st.A, st.U, st.s, st.e)
  { st with A := r.1.1, U := r.1.2.1, s := r.1.2.2.1,
            e := Function.update r.1.2.2.2 pp_1 r.2 }

/-- The main loop `for (int pp = nu-1; pp > 0;)` of `svd`; every pass uses one unit of
`fuel`, and `none` means that the loop has not ended within the fuel given. -/
def svd_loop (sqrt : α → α) (n m : Nat) : Nat → Nat → SvdState α → Option (SvdState α)
  | _, 0, st => some st
  | 0, _ + 1, _ => none
  | fuel + 1, pp_1 + 1, st =>
    let pp := pp_1 + 1
    if st.max_value + st.e pp_1 = st.max_value then
      svd_loop sqrt n m fuel pp_1 { st with e := Function.update st.e pp_1 0 }
    else
      let r := svd_find_k st.max_value (pp - 1) st.e
      let st1 := { st with e := r.1 }
      let k1 := r.2
      match svd_find_ks st1.max_value st1.s k1 (pp + 1 - k1) with
      | some ks =>
        let s1 := Function.update st1.s ks 0
        if ks = pp then
          let f := st1.e pp_1
          let e1 := Function.update st1.e pp_1 0
          let d := svd_deflate sqrt n pp k1 (pp_1 - k1) f (st1.U, s1, e1)
          svd_loop sqrt n m fuel pp { st1 with U := d.1, s := d.2.1, e := d.2.2 }
        else
          let f := st1.e ks
          let e1 := Function.update st1.e ks 0
          let d := svd_split sqrt m ks (pp + 1 - ks) ks f (st1.A, s1, e1)
          svd_loop sqrt n m fuel pp { st1 with A := d.1, s := d.2.1, e := d.2.2 }
      | none => svd_loop sqrt n m fuel pp (svd_qr_step sqrt n m pp k1 st1)

/-- The state of `svd(A, U, s, dimension)`, `dimension = (n, m)` with `1 ≤ n ≤ m` and
`m ≥ 2`, when the main loop starts: bidiagonalisation of the rows `k = 0 .. nct-1`, the
assignments to `s[nct]` and `e[nrt]`, and the generation of the rows of `U` and of `A`. -/
def svd_prepare (sqrt : α → α) (A U s : Nat → α) (n m : Nat) : SvdState α :=
  let nu := n
  let nct := min (m - 1) n
  let nrt := nu - 2
  let st0 : SvdState α := { A := A, U := U, s := s, e := fun _ => 0, w := fun _ => 0,
                            max_value := 1 / 2 ^ 52 }
  let st1 := forUp (svd_bidiag_step sqrt n m nrt) 0 nct st0
  let st2 := if m = n then { st1 with s := Function.update st1.s nct (st1.A (nct * m + nct)) }
    else st1
  let st3 := { st2 with e := Function.update st2.e nrt (st2.A ((n - 1) * m + nrt)) }
  let st4 := forDown (svd_gen_u n nrt) 0 nu st3
  forDown (svd_gen_a n m nct) 0 nu st4

/-- The routine `svd(A, U, s, dimension)` with `dimension = (n, m)`; returns `(A, U, s)`.
With `n > m` it returns at once.  The result is `none` when `n = 0` or `m = 1` (the
loops that test their exit after the body then leave the buffers) and when the main loop
does not end within `fuel` passes.  The closing `if (n != row_count(dimension))` never
holds and is left out. -/
def svd (sqrt : α → α) (fuel : Nat) (A U s : Nat → α) (n m : Nat) :
    Option ((Nat → α) × (Nat → α) × (Nat → α)) :=
  if n > m then some (A, U, s)
  else if min (m - 1) n = 0 ∨ n = 0 then none
  else
    match svd_loop sqrt n m fuel (n - 1) (svd_prepare sqrt A U s n m) with
    | none => none
    | some st => some (svd_postprocess n m (st.A, st.U, st.s))

end SvdMain

section Products

variable {R : Type} [Zero R] [Add R] [Mul R]

/-! ## Matrix products (`product`, `product_transpose`) -/

/-- The value stored by `product` at row `i`, column `j`: `sum` starts as the product of
the first pair and the `do … while` loop adds the pairs `k = 1 .. n-1`, the left pointer
advancing by one and the right pointer by `p` (`n` is the common dimension). -/
def product_entry (lhs rhs : Nat → R) (n p i j : Nat) : R :=
  forUp (fun k sum => sum + lhs (i * n + k) * rhs (k * p + j)) 1 (n - 1) (lhs (i * n) * rhs j)

/-- The routine `product(lhs, rhs, out, ldim, rdim)` with `ldim = (m, n)` and
`col_count(rdim) = p`.  The outer loop runs while `lhs != lhs + m * n` in steps of `n`. -/
def product (lhs rhs out : Nat → R) (m n p : Nat) : Nat → R :=
  if m * n = 0 then out
  else forUp (fun i out =>
      forUp (fun j out => Function.update out (i * p + j) (product_entry lhs rhs n p i j))
        0 p out) 0 m out

/-- The routine `product_transpose(lhs, rhs, out, ldim, rdim)` with `ldim = (m, n)` and
`rdim = (p, n)`: every entry is the `vec::dot` of a row of `lhs` and a row of `rhs`. -/
def product_transpose (lhs rhs out : Nat → R) (m n p : Nat) : Nat → R :=
  if m * n = 0 then out
  else forUp (fun i out =>
      forUp (fun j out => Function.update out (i * p + j) (vec_dot lhs (i * n) n rhs (j * n)))
        0 p out) 0 m out

/-- The routine `vec::gen(x, x_end, y, y_end, out)`: row `i` of `out` is the range
`Y[y .. y+ylen)` scaled by `X[x + i]`. -/
def vec_gen (X : Nat → R) (x xlen : Nat) (Y : Nat → R) (y ylen : Nat) (out : Nat → R) :
    Nat → R :=
  forUp (fun i out =>
    forUp (fun j out => Function.update out (i * ylen + j) (Y (y + j) * X (x + i))) 0 ylen out)
    0 xlen out

end Products

section Transpose

variable {R : Type}

/-! ## In-place transposition -/

/-- The in-place `transpose(A, dim<matrix_dim, matrix_dim>)` of a square matrix: with
`col_wise = A + 1 + t * (d + 1)`, `row_wise = A + d + t * (d + 1)` and
`length = d - 1 - t`, the pass `t` exchanges `col_wise[u]` and `row_wise[u * d]` for
`u < length`. -/
def transpose_square (A : Nat → R) (matrix_dim : Nat) : Nat → R :=
  if matrix_dim > 1 then
    forUp (fun t A =>
      forUp (fun u A =>
        swapAt A (1 + t * (matrix_dim + 1) + u) (matrix_dim + t * (matrix_dim + 1) + u * matrix_dim))
        0 (matrix_dim - 1 - t) A) 0 (matrix_dim - 1) A
  else A

/-- The in-place `transpose(io, dim)` for any shape: the buffer is copied to `temp` and
`temp` is transposed into `io` by the out-of-place routine. -/
def transpose_inplace (io : Nat → R) (rows cols : Nat) : Nat → R :=
  let temp := io
  transpose temp io rows cols

end Transpose

section LQ

variable {α : Type} [LinearOrderedField α]

/-! ## Householder LQ -/

/-- The scan `scale = max(scale, |A[k][i]|)` for `i = k .. n-1`. -/
def lq_scale (A : Nat → α) (n k : Nat) : α :=
  forUp (fun i scale =>
    max scale (if A (k * n + i) < 0 then -A (k * n + i) else A (k * n + i))) k (n - k) 0

/-- The loop that divides row `k` (columns `k .. n-1`) by `scale` and accumulates the
squares; the state is `(A, sum)`. -/
def lq_normalize (A : Nat → α) (n k : Nat) (scale : α) : (Nat → α) × α :=
  forUp (fun i (st : (Nat → α) × α) =>
      let t := st.1 (k * n + i) / scale
      (Function.update st.1 (k * n + i) t, st.2 + t * t))
    k (n - k) (A, 0)

/-- Application of the reflection of step `k` to row `j` of `A`. -/
def lq_reflect_row (n k : Nat) (ck : α) (j : Nat) (A : Nat → α) : Nat → α :=
  let sum := forUp (fun i sum => sum + A (k * n + i) * A (j * n + i)) k (n - k) 0
  let tau := sum / ck
  forUp (fun i B => Function.update B (j * n + i) (B (j * n + i) - tau * B (k * n + i)))
    k (n - k) A

/-- The Householder branch (`scale != 0`) of step `k` of `lq_decomposition(A, c, d, dim)`;
the result is `(A, c, d)`. -/
def lq_house_step (sqrt : α → α) (m n k : Nat) (scale : α) (A c d : Nat → α) :
    (Nat → α) × (Nat → α) × (Nat → α) :=
  let st := lq_normalize A n k scale
  let sum := st.2
  let sigma := if st.1 (k * n + k) ≥ 0 then sqrt sum else -sqrt sum
  let A2 := Function.update st.1 (k * n + k) (st.1 (k * n + k) + sigma)
  let c1 := Function.update c k (sigma * A2 (k * n + k))
  let d1 := Function.update d k (-scale * sigma)
  let A3 := forUp (lq_reflect_row n k (c1 k)) (k + 1) (m - (k + 1)) A2
  (A3, c1, d1)

/-- Main loop of `lq_decomposition(A, c, d, dim)`: `cnt` remaining rows from row `k`; the
result is `(return value, A, c, d)`. -/
def lq_loop (sqrt : α → α) (m n : Nat) :
    Nat → Nat → (Nat → α) → (Nat → α) → (Nat → α) → Bool →
      Bool × (Nat → α) × (Nat → α) × (Nat → α)
  | 0, _, A, c, d, singular => (!singular, A, c, d)
  | cnt + 1, k, A, c, d, singular =>
    let scale := lq_scale A n k
    if scale = 0 then
      lq_loop sqrt m n cnt (k + 1) A (Function.update c k 0) (Function.update d k 0) true
    else
      let r := lq_house_step sqrt m n k scale A c d
      lq_loop sqrt m n cnt (k + 1) r.1 r.2.1 r.2.2 singular

/-- The routine `lq_decomposition(A, c, d, dim)` with `dim = (m, n)` and the square-root
function `sqrt`; the result is `(return value, A, c, d)`. -/
def lq_decomposition (sqrt : α → α) (A c d : Nat → α) (m n : Nat) :
    Bool × (Nat → α) × (Nat → α) × (Nat → α) :=
  lq_loop sqrt m n (min m n) 0 A c d false

end LQ

section QLCount

variable {α : Type} [LinearOrderedField α]

/-! ## The QL iteration with its sweeps recorded -/

/-- The loop `for (l = 0, iter = 0; l < dim && iter < 30; ++iter)` of
`eigen_decomposition_sym` as in `ql_loop`, together with the list of the values of `l`
at the successive sweeps (the passes that do not take the branch `m == l`). -/
def ql_loop_sweeps (sqrt : α → α) (dim : Nat) :
    Nat → Nat → Nat → (Nat → α) → (Nat → α) → (Nat → α) →
      Option ((Nat → α) × (Nat → α) × (Nat → α)) × List Nat
  | 0, _, _, V, d, e => (some (V, d, e), [])
  | fuel + 1, l, iter, V, d, e =>
    if l < dim ∧ iter < 30 then
      let m := ql_find d e (dim - 1 - l) l
      if m = l then ql_loop_sweeps sqrt dim fuel (l + 1) 1 V d e
      else
        let p := (d (l + 1) - d l) / (e l * 2)
        let r := sqrt (1 + p * p)
        let p1 := d m - d l + e l / (p + (if p < 0 then -r else r))
        match ql_sweep sqrt dim l m (m - 1 - l) V d e 1 1 0 p1 with
        | none => (none, [l])
        | some st =>
          let V1 := st.1
          let d1 := st.2.1
          let e1 := st.2.2.1
          let p2 := st.2.2.2.1
          let g := st.2.2.2.2.1
          let r1 := st.2.2.2.2.2.1
          let i_lt_l := st.2.2.2.2.2.2
          let next := if r1 ≠ 0 ∨ i_lt_l = true then
              ql_loop_sweeps sqrt dim fuel l (iter + 1) V1
                (Function.update d1 l (d1 l - g))
                (Function.update (Function.update e1 l p2) m 0)
            else ql_loop_sweeps sqrt dim fuel l (iter + 1) V1 d1 e1
          (next.1, l :: next.2)
    else (some (V, d, e), [])

/-- The loop `for (; i >= l; i--)` of a QL sweep of `eigenvalue`, entered with
`i = l + cnt`.  The result is `(d, e, p, g, r, i < l)` at the exit of the loop; `none`
stands for the access `d[i-1]` with `i = 0`, which is outside the buffer. -/
def eigenvalue_sweep (sqrt : α → α) (l m : Nat) :
    Nat → (Nat → α) → (Nat → α) → α → α → α → α →
      Option ((Nat → α) × (Nat → α) × α × α × α × Bool)
  | cnt, d, e, s, c, g, p =>
    let i := l + cnt
    let f := s * e i
    let b := c * e i
    let r := hypot sqrt f p
    let e1 := Function.update e (i + 1) r
    if r + f = f ∧ r + p = p then
      if i = 0 then none
      else some (Function.update d (i - 1) (d (i - 1) - g), Function.update e1 m 0, p, g, r,
        false)
    else
      let s1 := f / r
      let c1 := p / r
      let p1 := d (i + 1) - g
      let r1 := (d i - p1) * s1 + c1 * b * 2
      let g1 := s1 * r1
      let d1 := Function.update d (i + 1) (p1 + g1)
      let p2 := c1 * r1 - b
      match cnt with
      | 0 => some (d1, e1, p2, g1, r1, true)
      | cnt1 + 1 => eigenvalue_sweep sqrt l m cnt1 d1 e1 s1 c1 g1 p2

/-- The loop `for (l = 0, iter = 0; l < dim && iter < 30; ++iter)` of `eigenvalue`, with
`e` already shifted by one; every pass of the loop uses one unit of `fuel`.  The second
component lists the values of `l` at the successive sweeps. -/
def eigenvalue_loop (sqrt : α → α) (dim : Nat) :
    Nat → Nat → Nat → (Nat → α) → (Nat → α) → Option ((Nat → α) × (Nat → α)) × List Nat
  | 0, _, _, d, e => (some (d, e), [])
  | fuel + 1, l, iter, d, e =>
    if l < dim ∧ iter < 30 then
      let m := ql_find d e (dim - 1 - l) l
      if m = l then eigenvalue_loop sqrt dim fuel (l + 1) 1 d e
      else
        let p := (d (l + 1) - d l) / (e l * 2)
        let r := sqrt (1 + p * p)
        let p1 := d m - d l + e l / (p + (if p < 0 then -r else r))
        match eigenvalue_sweep sqrt l m (m - 1 - l) d e 1 1 0 p1 with
        | none => (none, [l])
        | some st =>
          let d1 := st.1
          let e1 := st.2.1
          let p2 := st.2.2.1
          let g := st.2.2.2.1
          let r1 := st.2.2.2.2.1
          let i_lt_l := st.2.2.2.2.2
          let next := if r1 ≠ 0 ∨ i_lt_l = true then
              eigenvalue_loop sqrt dim fuel l (iter + 1)
                (Function.update d1 l (d1 l - g))
                (Function.update (Function.update e1 l p2) m 0)
            else eigenvalue_loop sqrt dim fuel l (iter + 1) d1 e1
          (next.1, l :: next.2)
    else (some (d, e), [])

end QLCount

section PseudoInverse

variable {α : Type} [LinearOrderedField α]

/-! ## Pseudo-inverse -/

/-- Body of the loop over `index` of `pseudo_inverse`; the state is `(At, A, U)` with the
current offsets of the pointers `A` and `U`, which advance only when the singular value
passes the threshold. -/
def pseudo_inverse_step (A U s : Nat → α) (n m : Nat) (threshold : α) (index : Nat)
    (st : (Nat → α) × Nat × Nat) : (Nat → α) × Nat × Nat :=
  if s index > threshold then
    let tmp := vec_gen A st.2.1 m U st.2.2 n (fun _ => 0)
    (vec_axpy st.1 0 (n * m) (1 / s index) tmp 0, st.2.1 + m, st.2.2 + n)
  else st

/-- The routine `pseudo_inverse(A_, A, dim)` with `dim = (n, m)`; `eps` is
`std::numeric_limits<value_type>::epsilon()` and `fuel` bounds the passes of the main loop
of `svd`.  Returns the buffer `A`; `none` when `svd` gives no result. -/
def pseudo_inverse (sqrt : α → α) (eps : α) (fuel : Nat) (A_ A : Nat → α) (n m : Nat) :
    Option (Nat → α) :=
  let l := n * m
  if n > m then some A
  else
    let A0 := copy_range A_ 0 l A 0
    match svd sqrt fuel A0 (fun _ => 0) (fun _ => 0) n m with
    | none => none
    | some r =>
      let threshold := eps * (m : α) * r.2.2 0
      let st := forUp (pseudo_inverse_step r.1 r.2.1 r.2.2 n m threshold) 0 n
        (fun _ => 0, 0, 0)
      some (copy_range st.1 0 l r.1 0)

end PseudoInverse

section JacobiQr

variable {α : Type} [LinearOrderedField α]

/-! ## Jacobi sweep (`jacobi_solve` without pivot vector) -/

/-- Row `i` of the non-pivoted `jacobi_solve`: the assignment `x[i] = b[i]`, `scale = 0`
and the loop over `j` (`Arow_j` points at `A[i][j]`); the state is `(x, scale)`. -/
def jacobi_row (A b : Nat → α) (dimension i : Nat) (x : Nat → α) : (Nat → α) × α :=
  forUp (fun j (st : (Nat → α) × α) =>
      if i ≠ j then (Function.update st.1 i (st.1 i - A (i * dimension + j) * b j), st.2)
      else (st.1, A (i * dimension + j)))
    0 dimension (Function.update x i (b i), 0)

/-- The loop over `i` of `jacobi_solve(A, b, x, dim)`: `cnt` rows remain from row `i`.
The Boolean is the return value; `x` is as the routine leaves it. -/
def jacobi_loop (A b : Nat → α) (dimension : Nat) : Nat → Nat → (Nat → α) → Bool × (Nat → α)
  | 0, _, x => (true, x)
  | cnt + 1, i, x =>
    let r := jacobi_row A b dimension i x
    if r.2 = 0 then (false, r.1)
    else jacobi_loop A b dimension cnt (i + 1) (Function.update r.1 i (r.1 i / r.2))

/-- The routine `jacobi_solve(A, b, x, dim)` (overload without pivot vector) with
`dim = (rows, cols)`; only `row_count(dim)` is used. -/
def jacobi_solve (A b x : Nat → α) (rows _cols : Nat) : Bool × (Nat → α) :=
  jacobi_loop A b rows rows 0 x

/-! ## Sign normalisation of a QR factorisation (`qr_positive_r`) -/

/-- The routine `qr_positive_r(R, Q, dim)` with `dim = (m, n)`: for `i < min(m, n)` with
`R[i][i] < 0`, the loop over `arow` negates `R[i*n + n-1]` down to `R[i*n]` and the loop
over `qcoli` negates `Q[i]`, `Q[i + m]`, … below `Q + m*m`; the state is `(R, Q)`. -/
def qr_positive_r (R Q : Nat → α) (m n : Nat) : (Nat → α) × (Nat → α) :=
  forUp (fun i (st : (Nat → α) × (Nat → α)) =>
      let arowi := i * n
      if st.1 (arowi + i) < 0 then
        let R1 := forDown (fun t R => Function.update R (arowi + t) (-R (arowi + t))) 0 n st.1
        let Q1 := forUp (fun t Q => Function.update Q (i + t * m) (-Q (i + t * m)))
          0 (strideCount i (m * m) m) st.2
        (R1, Q1)
      else st)
    0 (min m n) (R, Q)

end JacobiQr

section Checked

/-! ## Runs on buffers of fixed size -/

/-- The buffers whose accesses are checked. -/
inductive BufName where
  | bufC
  | bufS
  | bufV
  | bufD

/-- The outcome of a run on buffers of fixed size: the final state, the first access
outside a buffer (buffer and index), or no end within the passes allowed. -/
inductive Outcome (σ : Type) where
  | done (s : σ)
  | fault (b : BufName) (index : Nat)
  | timeout

/-- Sequencing of runs: the first fault or timeout ends the run. -/
def Outcome.bind {σ τ : Type} (o : Outcome σ) (f : σ → Outcome τ) : Outcome τ :=
  match o with
  | Outcome.done s => f s
  | Outcome.fault b i => Outcome.fault b i
  | Outcome.timeout => Outcome.timeout

/-- The result of a computation applied to the final state of a run. -/
def Outcome.map {σ τ : Type} (f : σ → τ) (o : Outcome σ) : Outcome τ :=
  o.bind (fun s => Outcome.done (f s))

/-- Counted loop `for (i = lo; i < lo + cnt; ++i)` whose body can fault. -/
def forUpO {σ : Type} (body : Nat → σ → Outcome σ) (lo : Nat) : Nat → σ → Outcome σ
  | 0, s => Outcome.done s
  | cnt + 1, s => (forUpO body lo cnt s).bind (body (lo + cnt))

/-- A read `buf[i]` of the buffer `b`, which holds `size` elements. -/
def readAt {R : Type} (b : BufName) (size : Nat) (buf : Nat → R) (i : Nat) : Outcome R :=
  if i < size then Outcome.done (buf i) else Outcome.fault b i

/-- A write `buf[i] = v` to the buffer `b`, which holds `size` elements. -/
def writeAt {R : Type} (b : BufName) (size : Nat) (buf : Nat → R) (i : Nat) (v : R) :
    Outcome (Nat → R) :=
  if i < size then Outcome.done (Function.update buf i v) else Outcome.fault b i

variable {α : Type} [LinearOrderedField α]

/-- The routine `qr_compute_q(A, c, Q, dim)`, `dim = (m, n)`, with the reads of `c`
checked against the `clen` elements that `c` holds: the test `c[k] != 0` reads `c[k]` in
every pass of the loop over `k`, which runs to `n` in the branch `m <= n` and to
`min(m, n)` in the other branch (`sum /= c[k]` reads the same element again). -/
def qr_compute_q_checked (A c Q : Nat → α) (clen m n : Nat) : Outcome (Nat → α) :=
  if m ≤ n then
    forUpO (fun k Q => (readAt BufName.bufC clen c k).bind (fun ck =>
        Outcome.done (if ck ≠ 0 then forUp (qr_q_row A m n k ck) 0 m Q else Q)))
      0 n (qr_identity Q m)
  else
    (forUpO (fun k Qt => (readAt BufName.bufC clen c k).bind (fun ck =>
        Outcome.done (if ck ≠ 0 then forUp (qr_qt_col A m n k ck) 0 m Qt else Qt)))
      0 (min m n) (qr_identity (fun _ => 0) m)).map (fun Qt => transpose Qt Q n m)

/-- The bidiagonalisation loop `do { … if (++k == nct) break; … } while (1)` of `svd`,
entered with row `k`: every pass stores `s[k]` (in either branch of `if (s_k == 0.0)`),
which is checked against the `n` elements of `s`; the pass itself is `svd_bidiag_step`.
Every pass uses one unit of `fuel`; the result is the state and the number of the row
at which the loop ended. -/
def svd_bidiag_loop (sqrt : α → α) (n m nct nrt : Nat) :
    Nat → Nat → SvdState α → Outcome (SvdState α × Nat)
  | 0, _, _ => Outcome.timeout
  | fuel + 1, k, st =>
    if n ≤ k then Outcome.fault BufName.bufS k
    else
      let st1 := svd_bidiag_step sqrt n m nrt k st
      if k + 1 = nct then Outcome.done (st1, k + 1)
      else svd_bidiag_loop sqrt n m nct nrt fuel (k + 1) st1

/-- The bidiagonalisation of `svd(A, U, s, dimension)`, `dimension = (n, m)` with
`n ≤ m`: the initial state, `nct = min(m-1, n)`, `nrt = max(0, n-2)` and the loop. -/
def svd_bidiagonalize (sqrt : α → α) (fuel : Nat) (A U s : Nat → α) (n m : Nat) :
    Outcome (SvdState α × Nat) :=
  let st0 : SvdState α := { A := A, U := U, s := s, e := fun _ => 0, w := fun _ => 0,
                            max_value := 1 / 2 ^ 52 }
  svd_bidiag_loop sqrt n m (min (m - 1) n) (n - 2) fuel 0 st0

/-- The statements `e[0] = 0; d[0] = V[0]; e[1] = V[dim]; d[1] = 0; V[0] = 1` that
follow the Householder loop of `eigen_decomposition_sym`, with the accesses to `V` and `d`
checked against `sizeV` and `sizeD` elements (`e` holds `dim + 1` elements, so `e[0]` and
`e[1]` are inside); the state is `(V, d, e)`. -/
def tred_finish (dim sizeV sizeD : Nat) (st : (Nat → α) × (Nat → α) × (Nat → α)) :
    Outcome ((Nat → α) × (Nat → α) × (Nat → α)) :=
  let V := st.1
  let d := st.2.1
  let e := st.2.2
  let e1 := Function.update e 0 0
  (readAt BufName.bufV sizeV V 0).bind (fun v0 =>
  (writeAt BufName.bufD sizeD d 0 v0).bind (fun d1 =>
  (readAt BufName.bufV sizeV V dim).bind (fun vdim =>
  let e2 := Function.update e1 1 vdim
  (writeAt BufName.bufD sizeD d1 1 0).bind (fun d2 =>
  (writeAt BufName.bufV sizeV V 0 1).bind (fun V1 =>
  Outcome.done (V1, d2, e2))))))

/-- The run-time `eigen_decomposition_sym(A, V, d, dimension)` (dimension `n × n` other
than 3) from its entry to the statements that follow the Householder loop: copy of `A`,
`std::fill` of `d`, the loop `for (i = dim-1; i > 1; --i)` and `tred_finish`, with `V`
and `d` holding `sizeV` and `sizeD` elements. -/
def eigen_tred_checked (sqrt : α → α) (A V d : Nat → α) (n sizeV sizeD : Nat) :
    Outcome ((Nat → α) × (Nat → α) × (Nat → α)) :=
  let s := n * n
  let dim := n
  let V0 := forUp (fun i V => Function.update V i (A i)) 0 s V
  let d0 := fill d dim 0
  let t := forDown (tred_step sqrt dim) 2 (dim - 2) (V0, d0, fun _ => 0)
  tred_finish dim sizeV sizeD t

end Checked

section

/-! ## Index arithmetic and loop lemmas -/

theorem idx_inj {n i j i' j' : Nat} (hj : j < n) (hj' : j' < n) :
    i * n + j = i' * n + j' ↔ i = i' ∧ j = j' := by
  constructor
  · intro h
    have h1 : (i * n + j) / n = (i' * n + j') / n := by rw [h]
    have h2 : (i * n + j) % n = (i' * n + j') % n := by rw [h]
    have hn : 0 < n := by omega
    rw [Nat.mul_comm i n, Nat.mul_comm i' n, Nat.mul_add_div hn, Nat.mul_add_div hn,
      Nat.div_eq_of_lt hj, Nat.div_eq_of_lt hj'] at h1
    rw [Nat.mul_comm i n, Nat.mul_comm i' n, Nat.mul_add_mod, Nat.mul_add_mod,
      Nat.mod_eq_of_lt hj, Nat.mod_eq_of_lt hj'] at h2
    exact ⟨by simpa using h1, h2⟩
  · rintro ⟨rfl, rfl⟩
    rfl

theorem strideCount_mul_add (n a b r : Nat) (hr : r < n) :
    strideCount (a * n + r) (b * n) n = b - a := by
  unfold strideCount
  have hn : 0 < n := by omega
  rcases Nat.lt_or_ge a b with hab | hab
  · obtain ⟨d, rfl⟩ : ∃ d, b = a + d + 1 := ⟨b - a - 1, by omega⟩
    have e : (a + d + 1) * n - (a * n + r) + (n - 1) = (n - 1 - r) + n * (d + 1) := by
      have : (a + d + 1) * n = a * n + n * (d + 1) := by ring
      rw [this]
      have h3 : r ≤ n * (d + 1) := by nlinarith
      omega
    rw [e, Nat.add_mul_div_left _ _ hn, Nat.div_eq_of_lt (by omega)]
    omega
  · have h1 : b * n ≤ a * n := Nat.mul_le_mul_right n hab
    have e : b * n - (a * n + r) = 0 := by omega
    rw [e, Nat.zero_add, Nat.div_eq_of_lt (by omega)]
    omega

theorem strideCount_mul (n a b : Nat) (hn : 0 < n) :
    strideCount (a * n) (b * n) n = b - a := by
  simpa using strideCount_mul_add n a b 0 hn

theorem strideCount_diag (n : Nat) (hn : 0 < n) :
    strideCount (n + 1) (n * n) (n + 1) = n - 1 := by
  unfold strideCount
  obtain ⟨m, rfl⟩ : ∃ m, n = m + 1 := ⟨n - 1, by omega⟩
  rcases Nat.eq_zero_or_pos m with rfl | hm
  · decide
  · have e : (m + 1) * (m + 1) - (m + 1 + 1) + (m + 1 + 1 - 1) = m * (m + 1 + 1) := by
      have h1 : (m + 1) * (m + 1) = m * m + 2 * m + 1 := by ring
      have h2 : m * (m + 1 + 1) = m * m + 2 * m := by ring
      have h3 : 1 ≤ m * m := Nat.mul_pos hm hm
      omega
    rw [e, Nat.mul_div_cancel _ (by omega)]
    omega

theorem forUp_succ {σ : Type} (body : Nat → σ → σ) (lo c : Nat) (s : σ) :
    forUp body lo (c + 1) s = body (lo + c) (forUp body lo c s) := rfl

theorem forUp_zero {σ : Type} (body : Nat → σ → σ) (lo : Nat) (s : σ) :
    forUp body lo 0 s = s := rfl

/-- A loop whose body leaves a state untouched, leaves it untouched. -/
theorem forUp_congr {σ : Type} (f g : Nat → σ → σ) (lo c : Nat) (s : σ)
    (h : ∀ i s, lo ≤ i → i < lo + c → f i s = g i s) : forUp f lo c s = forUp g lo c s := by
  induction c with
  | zero => rfl
  | succ c ih =>
    rw [forUp_succ, forUp_succ, ih (fun i s h1 h2 => h i s h1 (by omega)), h _ _ (by omega) (by omega)]

/-- Peeling the first iteration of a counted loop. -/
theorem forUp_succ_front {σ : Type} (body : Nat → σ → σ) (lo c : Nat) (s : σ) :
    forUp body lo (c + 1) s = forUp body (lo + 1) c (body lo s) := by
  induction c with
  | zero => rfl
  | succ c ih =>
    rw [forUp_succ, ih, forUp_succ]
    congr 1
    omega

end

section

theorem row_range {n i j i0 a : Nat} (hj : j < n) :
    (i0 * n + a ≤ i * n + j ∧ i * n + j < i0 * n + n) ↔ (i = i0 ∧ a ≤ j) := by
  constructor
  · rintro ⟨h1, h2⟩
    rcases Nat.lt_trichotomy i i0 with h | h | h
    · have : (i + 1) * n ≤ i0 * n := Nat.mul_le_mul_right n h
      have e : (i + 1) * n = i * n + n := by ring
      omega
    · subst h
      exact ⟨rfl, by omega⟩
    · have : (i0 + 1) * n ≤ i * n := Nat.mul_le_mul_right n h
      have e : (i0 + 1) * n = i0 * n + n := by ring
      omega
  · rintro ⟨rfl, h⟩
    omega

theorem swapAt_apply {R : Type} (A : Nat → R) (a b z : Nat) :
    swapAt A a b z = if z = b then A a else if z = a then A b else A z := by
  unfold swapAt
  simp [Function.update_apply]

/-- Row exchange performed by `vec_swap` on a row-major buffer. -/
theorem vec_swap_rows {R : Type} (A : Nat → R) (n k r : Nat) (hkr : k ≠ r) (len : Nat)
    (hlen : len ≤ n) :
    ∀ i j : Nat, j < n → vec_swap A (k * n) len (r * n) (i * n + j) =
      if j < len then (if i = k then A (r * n + j) else if i = r then A (k * n + j) else A (i * n + j))
      else A (i * n + j) := by
  induction len with
  | zero => intro i j _; simp [vec_swap, forUp]
  | succ len ih =>
    intro i j hj
    have hl : len < n := by omega
    have ih1 := ih (by omega)
    unfold vec_swap at ih1 ⊢
    rw [forUp_succ, swapAt_apply, Nat.zero_add, ih1 i j hj, ih1 k len hl, ih1 r len hl]
    simp only [lt_irrefl, if_false, idx_inj hj hl]
    by_cases h1 : j = len
    · subst h1
      by_cases h2 : i = r
      · subst h2
        simp [Ne.symm hkr]
      · by_cases h3 : i = k
        · subst h3
          simp [h2]
        · simp [h2, h3]
    · have : ¬ (i = r ∧ j = len) := fun h => h1 h.2
      have h' : ¬ (i = k ∧ j = len) := fun h => h1 h.2
      simp only [this, h', if_false]
      by_cases h4 : j < len
      · simp [h4, Nat.lt_succ_of_lt h4]
      · have : ¬ j < len + 1 := by omega
        simp [h4, this]

variable {α : Type} [LinearOrderedField α]

theorem abs_ite (x : α) : (if x < 0 then -x else x) = |x| := by
  split_ifs with h
  · exact (abs_of_neg h).symm
  · exact (abs_of_nonneg (not_lt.mp h)).symm

/-- State of the pivot search after scanning rows `k .. k+c-1`. -/
theorem lu_pivot_search_aux (A : Nat → α) (n k c : Nat) :
    let st := forUp (fun i (st : α × Nat × Nat) =>
      let index_ik := i * n + k
      let value := if A index_ik < 0 then -A index_ik else A index_ik
      if value > st.1 then (value, index_ik, i) else st) k c ((0 : α), 0, k)
    (∀ i, k ≤ i → i < k + c → |A (i * n + k)| ≤ st.1) ∧
    ((st.1 = 0 ∧ st.2.2 = k) ∨
      (0 < st.1 ∧ k ≤ st.2.2 ∧ st.2.2 < k + c ∧ st.2.1 = st.2.2 * n + k ∧ st.1 = |A (st.2.1)|)) := by
  induction c with
  | zero =>
    refine ⟨fun i h1 h2 => absurd h2 (by omega), Or.inl ⟨rfl, rfl⟩⟩
  | succ c ih =>
    obtain ⟨ih1, ih2⟩ := ih
    simp only [forUp_succ, abs_ite] at ih1 ih2 ⊢
    generalize forUp (fun i (st : α × Nat × Nat) =>
      if |A (i * n + k)| > st.1 then (|A (i * n + k)|, i * n + k, i) else st) k c ((0 : α), 0, k) = st
      at ih1 ih2 ⊢
    by_cases hgt : |A ((k + c) * n + k)| > st.1
    · simp only [hgt, if_true]
      refine ⟨fun i h1 h2 => ?_, Or.inr ⟨?_, by omega, by omega, trivial, trivial⟩⟩
      · rcases Nat.lt_or_ge i (k + c) with h | h
        · exact le_trans (ih1 i h1 h) (le_of_lt hgt)
        · have : i = k + c := by omega
          subst this
          exact le_refl _
      · rcases ih2 with h | h
        · rw [h.1] at hgt
          exact hgt
        · exact lt_trans h.1 hgt
    · simp only [hgt, if_false]
      refine ⟨fun i h1 h2 => ?_, ?_⟩
      · rcases Nat.lt_or_ge i (k + c) with h | h
        · exact ih1 i h1 h
        · have : i = k + c := by omega
          subst this
          exact not_lt.mp hgt
      · rcases ih2 with h | h
        · exact Or.inl h
        · exact Or.inr ⟨h.1, h.2.1, by omega, h.2.2.2⟩

/-- Result of the pivot search of step `k` on an `n × n` buffer. -/
theorem lu_pivot_search_spec (A : Nat → α) (n k : Nat) (hk : k < n) :
    (∀ i, k ≤ i → i < n → |A (i * n + k)| ≤ (lu_pivot_search A n k).1) ∧
    (((lu_pivot_search A n k).1 = 0 ∧ (lu_pivot_search A n k).2.2 = k) ∨
      (0 < (lu_pivot_search A n k).1 ∧ k ≤ (lu_pivot_search A n k).2.2 ∧
        (lu_pivot_search A n k).2.2 < n ∧
        (lu_pivot_search A n k).2.1 = (lu_pivot_search A n k).2.2 * n + k ∧
        (lu_pivot_search A n k).1 = |A ((lu_pivot_search A n k).2.1)|)) := by
  have h := lu_pivot_search_aux A n k (n - k)
  have e : k + (n - k) = n := by omega
  simp only [e] at h
  exact h

theorem lu_pivot_search_zero_iff (A : Nat → α) (n k : Nat) (hk : k < n) :
    (lu_pivot_search A n k).1 = 0 ↔ ∀ i, k ≤ i → i < n → A (i * n + k) = 0 := by
  obtain ⟨h1, h2⟩ := lu_pivot_search_spec A n k hk
  constructor
  · intro h0 i hi hin
    have := h1 i hi hin
    rw [h0] at this
    exact abs_eq_zero.mp (le_antisymm this (abs_nonneg _))
  · intro hz
    rcases h2 with h | h
    · exact h.1
    · obtain ⟨hpos, hk1, hk2, hidx, hval⟩ := h
      rw [hval, hidx, hz _ hk1 hk2, abs_zero] at hpos
      exact absurd hpos (lt_irrefl _)

end

section

variable {α : Type} [LinearOrderedField α]

/-- Inner loop of the elimination: `C[x] -= temp * C[x - offset]` over a range that the
reads `x - offset` stay below. -/
theorem axpy_row_spec (temp : α) (offset lo : Nat) (cnt : Nat) (C : Nat → α)
    (hoff : ∀ x, lo ≤ x → x < lo + cnt → x - offset < lo) (z : Nat) :
    forUp (fun row_i_j C => Function.update C row_i_j (C row_i_j - temp * C (row_i_j - offset)))
        lo cnt C z =
      if lo ≤ z ∧ z < lo + cnt then C z - temp * C (z - offset) else C z := by
  induction cnt generalizing z with
  | zero =>
    have : ¬ (lo ≤ z ∧ z < lo + 0) := by omega
    rw [forUp_zero, if_neg this]
  | succ cnt ih =>
    have ih1 := ih (fun x h1 h2 => hoff x h1 (by omega))
    rw [forUp_succ, Function.update_apply]
    have hlt := hoff (lo + cnt) (by omega) (by omega)
    by_cases hz : z = lo + cnt
    · subst hz
      have h1 : ¬ (lo ≤ lo + cnt ∧ lo + cnt < lo + cnt) := by omega
      have h2 : ¬ (lo ≤ lo + cnt - offset ∧ lo + cnt - offset < lo + cnt) := by omega
      have h3 : lo ≤ lo + cnt ∧ lo + cnt < lo + (cnt + 1) := by omega
      rw [ih1, ih1, if_neg h1, if_neg h2, if_pos rfl, if_pos h3]
    · rw [if_neg hz, ih1]
      by_cases h : lo ≤ z ∧ z < lo + cnt
      · have h3 : lo ≤ z ∧ z < lo + (cnt + 1) := by omega
        rw [if_pos h, if_pos h3]
      · have h3 : ¬ (lo ≤ z ∧ z < lo + (cnt + 1)) := by omega
        rw [if_neg h, if_neg h3]

/-- One row of the elimination, entry by entry. -/
theorem lu_reduce_row_spec (bjj : α) (n k : Nat) (hk : k < n) (t : Nat) (B : Nat → α)
    (i j : Nat) (hj : j < n) :
    lu_reduce_row bjj n (k * n) k t B (i * n + j) =
      if i = k + 1 + t then
        (if j = k then B (i * n + k) / bjj
         else if k < j then B (i * n + j) - B (i * n + k) / bjj * B (k * n + j)
         else B (i * n + j))
      else B (i * n + j) := by
  unfold lu_reduce_row
  have erow : k * n + n + t * n = (k + 1 + t) * n := by ring
  have eoff : (k + 1 + t) * n - k * n = (1 + t) * n := by
    have : (k + 1 + t) * n = k * n + (1 + t) * n := by ring
    omega
  simp only [erow, eoff]
  have hn1 : n ≤ (1 + t) * n := by nlinarith
  rw [axpy_row_spec _ _ _ _ _ (fun x h1 h2 => by omega)]
  have ecnt : (k + 1 + t) * n + (k + 1) + ((k + 1 + t) * n + n - ((k + 1 + t) * n + (k + 1)))
      = (k + 1 + t) * n + n := by omega
  simp only [Nat.add_assoc ((k + 1 + t) * n) k 1]
  simp only [ecnt, row_range hj, Function.update_apply]
  have hsub : ∀ z, (k + 1 + t) * n + z - (1 + t) * n = k * n + z := by
    intro z
    have : (k + 1 + t) * n = k * n + (1 + t) * n := by ring
    omega
  by_cases hi : i = k + 1 + t
  · subst hi
    rw [hsub j]
    have hne : ¬ (k * n + j = (k + 1 + t) * n + k) := by
      intro h
      have := (idx_inj hj hk).mp h
      omega
    simp only [idx_inj hj hk, true_and, hne, if_false, if_true]
    by_cases h1 : k + 1 ≤ j
    · have h2 : j ≠ k := by omega
      have h3 : k < j := by omega
      simp [h1, h2, h3]
    · by_cases h2 : j = k
      · simp [h2]
      · have h3 : ¬ k < j := by omega
        simp [h1, h2, h3]
  · have h1 : ¬ (i = k + 1 + t ∧ k + 1 ≤ j) := fun h => hi h.1
    have h2 : ¬ (i * n + j = (k + 1 + t) * n + k) := by
      intro h
      exact hi ((idx_inj hj hk).mp h).1
    rw [if_neg h1, if_neg h2, if_neg hi]

/-- Buffer after the first `c` rows below row `k` have been eliminated. -/
theorem lu_reduce_aux (A : Nat → α) (bjj : α) (n k : Nat) (hk : k < n) (c : Nat) :
    ∀ i j : Nat, j < n →
    forUp (lu_reduce_row bjj n (k * n) k) 0 c A (i * n + j) =
      if k < i ∧ i < k + 1 + c then
        (if j = k then A (i * n + k) / bjj
         else if k < j then A (i * n + j) - A (i * n + k) / bjj * A (k * n + j)
         else A (i * n + j))
      else A (i * n + j) := by
  induction c with
  | zero =>
    intro i j _
    have : ¬ (k < i ∧ i < k + 1 + 0) := by omega
    rw [forUp_zero, if_neg this]
  | succ c ih =>
    intro i j hj
    rw [forUp_succ, Nat.zero_add, lu_reduce_row_spec bjj n k hk c _ i j hj]
    by_cases hi : i = k + 1 + c
    · subst hi
      have hc : k < k + 1 + c ∧ k + 1 + c < k + 1 + (c + 1) := by omega
      have hc2 : ¬ (k < k + 1 + c ∧ k + 1 + c < k + 1 + c) := by omega
      have hc3 : ¬ (k < k ∧ k < k + 1 + c) := by omega
      rw [if_pos rfl, if_pos hc]
      simp only [ih _ k hk, ih _ j hj, if_neg hc2, if_neg hc3]
    · rw [if_neg hi, ih i j hj]
      by_cases h3 : k < i ∧ i < k + 1 + c
      · have h4 : k < i ∧ i < k + 1 + (c + 1) := by omega
        rw [if_pos h3, if_pos h4]
      · have h4 : ¬ (k < i ∧ i < k + 1 + (c + 1)) := by omega
        rw [if_neg h3, if_neg h4]

/-- Elimination step `k` on an `n × n` row-major buffer, entry by entry. -/
theorem lu_reduce_spec (A : Nat → α) (n k : Nat) (hk : k < n) (i j : Nat) (hj : j < n) :
    lu_reduce A n (n * n) k (i * n + j) =
      if k < i ∧ i < n then
        (if j = k then A (i * n + k) / A (k * n + k)
         else if k < j then A (i * n + j) - A (i * n + k) / A (k * n + k) * A (k * n + j)
         else A (i * n + j))
      else A (i * n + j) := by
  unfold lu_reduce
  have e1 : k * n + n = (k + 1) * n := by ring
  have e2 : strideCount (k * n + n) (n * n) n = n - (k + 1) := by
    rw [e1]
    exact strideCount_mul n (k + 1) n (by omega)
  simp only [e2]
  rw [lu_reduce_aux A _ n k hk (n - (k + 1)) i j hj]
  have e3 : k + 1 + (n - (k + 1)) = n := by omega
  rw [e3]

end

section

variable {α : Type} [LinearOrderedField α]

theorem pivot_init (pivot : Nat → Nat) (n : Nat) :
    ∀ i, forUp (fun k p => Function.update p k k) 0 n pivot i = if i < n then i else pivot i := by
  induction n with
  | zero => intro i; simp [forUp]
  | succ n ih =>
    intro i
    rw [forUp_succ, Function.update_apply, ih, Nat.zero_add]
    by_cases h : i = n
    · subst h
      simp
    · rw [if_neg h]
      by_cases h2 : i < n
      · rw [if_pos h2, if_pos (by omega)]
      · rw [if_neg h2, if_neg (by omega)]

theorem permOn_id (p : Nat → Nat) (n : Nat) (h : ∀ i, i < n → p i = i) : PermOn p n := by
  refine ⟨fun i hi => by rw [h i hi]; exact hi, fun i j hi hj e => ?_⟩
  rw [h i hi, h j hj] at e
  exact e

theorem LUInv_init (A : Nat → α) (p : Nat → Nat) (n : Nat) (h : ∀ i, i < n → p i = i) :
    LUInv A A p n 0 := by
  intro i j hi hj
  simp [h i hi]

/-- A row permutation that fixes the eliminated rows keeps the invariant. -/
theorem LUInv_permute (A0 F F1 : Nat → α) (p p1 τ : Nat → Nat) (n k : Nat)
    (hτn : ∀ i, i < n → τ i < n) (hτfix : ∀ t, t < k → τ t = t) (hτge : ∀ i, k ≤ i → k ≤ τ i)
    (hF : ∀ i j, i < n → j < n → F1 (i * n + j) = F (τ i * n + j))
    (hp : ∀ i, i < n → p1 i = p (τ i)) (hk : k ≤ n)
    (h : LUInv A0 F p n k) : LUInv A0 F1 p1 n k := by
  intro i j hi hj
  have hmin : min (τ i) k = min i k := by
    rcases Nat.lt_or_ge i k with h1 | h1
    · rw [hτfix i h1]
    · have := hτge i h1
      rw [Nat.min_eq_right this, Nat.min_eq_right h1]
  rw [hp i hi, h (τ i) j (hτn i hi) hj, hmin, hF i j hi hj]
  congr 1
  apply Finset.sum_congr rfl
  intro t ht
  rw [Finset.mem_range] at ht
  have htk : t < k := by
    have := Nat.min_le_left (min i k) (j + 1)
    have := Nat.min_le_right i k
    omega
  rw [hF i t hi (by omega), hF t j (by omega) hj, hτfix t htk]

theorem PermOn_permute (p p1 τ : Nat → Nat) (n : Nat)
    (hτn : ∀ i, i < n → τ i < n) (hτinj : ∀ i j, i < n → j < n → τ i = τ j → i = j)
    (hp : ∀ i, i < n → p1 i = p (τ i)) (h : PermOn p n) : PermOn p1 n := by
  refine ⟨fun i hi => ?_, fun i j hi hj e => ?_⟩
  · rw [hp i hi]
    exact h.1 _ (hτn i hi)
  · rw [hp i hi, hp j hj] at e
    exact hτinj i j hi hj (h.2 _ _ (hτn i hi) (hτn j hj) e)

/-- The elimination of column `k` advances the invariant. -/
theorem LUInv_reduce (A0 F : Nat → α) (p : Nat → Nat) (n k : Nat) (hk : k < n)
    (hpiv : F (k * n + k) ≠ 0) (h : LUInv A0 F p n k) :
    LUInv A0 (lu_reduce F n (n * n) k) p n (k + 1) := by
  intro i j hi hj
  have hrow : ∀ t z, t ≤ k → z < n → lu_reduce F n (n * n) k (t * n + z) = F (t * n + z) := by
    intro t z ht hz
    rw [lu_reduce_spec F n k hk t z hz, if_neg (by omega)]
  have hcol : ∀ r z, z < k → lu_reduce F n (n * n) k (r * n + z) = F (r * n + z) := by
    intro r z hz
    rw [lu_reduce_spec F n k hk r z (by omega)]
    split_ifs <;> first | rfl | omega
  rw [h i j hi hj]
  rcases Nat.lt_or_ge k i with hik | hik
  · -- a row below the pivot row
    have m1 : min i (k + 1) = k + 1 := Nat.min_eq_right hik
    have m2 : min i k = k := Nat.min_eq_right (by omega)
    rw [m1, m2]
    have hsum : ∀ b, b ≤ k →
        (∑ t in Finset.range b, lu_reduce F n (n * n) k (i * n + t) * lu_reduce F n (n * n) k (t * n + j))
          = ∑ t in Finset.range b, F (i * n + t) * F (t * n + j) := by
      intro b hb
      apply Finset.sum_congr rfl
      intro t ht
      rw [Finset.mem_range] at ht
      rw [hcol i t (by omega), hrow t j (by omega) hj]
    rcases Nat.lt_trichotomy j k with hjk | hjk | hjk
    · have e1 : min (k + 1) (j + 1) = j + 1 := Nat.min_eq_right (by omega)
      have e2 : min k (j + 1) = j + 1 := Nat.min_eq_right (by omega)
      rw [e1, e2, hsum (j + 1) (by omega), if_neg (by omega), if_neg (by omega)]
    · subst hjk
      have e1 : min (j + 1) (j + 1) = j + 1 := Nat.min_self _
      have e2 : min j (j + 1) = j := Nat.min_eq_left (by omega)
      rw [e1, e2, Finset.sum_range_succ, hsum j (le_refl _), if_pos (le_refl _), if_neg (by omega),
        hrow j j (le_refl _) hj, lu_reduce_spec F n j hk i j hj, if_pos ⟨hik, hi⟩, if_pos rfl]
      field_simp
    · have e1 : min (k + 1) (j + 1) = k + 1 := Nat.min_eq_left (by omega)
      have e2 : min k (j + 1) = k := Nat.min_eq_left (by omega)
      rw [e1, e2, Finset.sum_range_succ, hsum k (le_refl _), if_pos (by omega), if_pos (by omega),
        hrow k j (le_refl _) hj, lu_reduce_spec F n k hk i k hk, if_pos ⟨hik, hi⟩, if_pos rfl,
        lu_reduce_spec F n k hk i j hj, if_pos ⟨hik, hi⟩, if_neg (by omega), if_pos hjk]
      ring
  · -- the pivot row and the rows above it are final
    have m1 : min i (k + 1) = i := Nat.min_eq_left (by omega)
    have m2 : min i k = i := Nat.min_eq_left hik
    rw [m1, m2, hrow i j hik hj]
    congr 1
    apply Finset.sum_congr rfl
    intro t ht
    rw [Finset.mem_range] at ht
    have : t < i := lt_of_lt_of_le ht (Nat.min_le_left _ _)
    rw [hrow i t hik (by omega), hrow t j (by omega) hj]

end

section

variable {α : Type} [LinearOrderedField α]

theorem lu_loop_zero (n cols s k : Nat) (F : Nat → α) (p : Nat → Nat) :
    lu_loop n cols s 0 k F p = (true, F, p) := rfl

theorem lu_loop_succ (n cols s cnt k : Nat) (F : Nat → α) (p : Nat → Nat) :
    lu_loop n cols s (cnt + 1) k F p =
      if (lu_pivot_search F n k).1 = 0 then (false, F, p)
      else lu_loop n cols s cnt (k + 1)
        (lu_reduce (if (lu_pivot_search F n k).2.2 ≠ k
            then vec_swap F (k * n) cols ((lu_pivot_search F n k).2.1 - k) else F) n s k)
        (if (lu_pivot_search F n k).2.2 ≠ k then swapAt p k (lu_pivot_search F n k).2.2 else p) := rfl

/-- One successful step of `lu_decomposition` keeps all invariants. -/
theorem lu_step_inv (A0 F : Nat → α) (p : Nat → Nat) (n k : Nat) (hk : k < n)
    (hinv : LUInv A0 F p n k) (hperm : PermOn p n) (hdiag : ∀ t, t < k → F (t * n + t) ≠ 0)
    (hmax : (lu_pivot_search F n k).1 ≠ 0) :
    LUInv A0 (lu_reduce (if (lu_pivot_search F n k).2.2 ≠ k
            then vec_swap F (k * n) n ((lu_pivot_search F n k).2.1 - k) else F) n (n * n) k)
        (if (lu_pivot_search F n k).2.2 ≠ k then swapAt p k (lu_pivot_search F n k).2.2 else p)
        n (k + 1) ∧
    PermOn (if (lu_pivot_search F n k).2.2 ≠ k then swapAt p k (lu_pivot_search F n k).2.2 else p) n ∧
    (∀ t, t < k + 1 → lu_reduce (if (lu_pivot_search F n k).2.2 ≠ k
            then vec_swap F (k * n) n ((lu_pivot_search F n k).2.1 - k) else F) n (n * n) k
              (t * n + t) ≠ 0) := by
  obtain ⟨_, hs⟩ := lu_pivot_search_spec F n k hk
  rcases hs with hs | ⟨hpos, hrk, hrn, hidx, hval⟩
  · exact absurd hs.1 hmax
  generalize (lu_pivot_search F n k).1 = mv at *
  generalize (lu_pivot_search F n k).2.1 = mi at *
  generalize (lu_pivot_search F n k).2.2 = r at *
  subst hidx
  have hnz : F (r * n + k) ≠ 0 := by
    intro h0
    rw [hval, h0, abs_zero] at hpos
    exact lt_irrefl _ hpos
  have key : ∀ (F1 : Nat → α) (p1 : Nat → Nat), LUInv A0 F1 p1 n k → PermOn p1 n →
      (∀ t, t < k → F1 (t * n + t) ≠ 0) → F1 (k * n + k) ≠ 0 →
      LUInv A0 (lu_reduce F1 n (n * n) k) p1 n (k + 1) ∧ PermOn p1 n ∧
        (∀ t, t < k + 1 → lu_reduce F1 n (n * n) k (t * n + t) ≠ 0) := by
    intro F1 p1 h1 h2 h3 h4
    refine ⟨LUInv_reduce A0 F1 p1 n k hk h4 h1, h2, fun t ht => ?_⟩
    rw [lu_reduce_spec F1 n k hk t t (by omega), if_neg (by omega)]
    rcases Nat.lt_or_ge t k with h | h
    · exact h3 t h
    · have : t = k := by omega
      subst this
      exact h4
  by_cases hr : r = k
  · subst hr
    simp only [ne_eq, not_true_eq_false, if_false]
    exact key F p hinv hperm hdiag hnz
  · simp only [ne_eq, hr, not_false_eq_true, if_true]
    have e : r * n + k - k = r * n := by omega
    rw [e]
    have hsw : ∀ i j, j < n → vec_swap F (k * n) n (r * n) (i * n + j) =
        F ((if i = r then k else if i = k then r else i) * n + j) := by
      intro i j hj
      rw [vec_swap_rows F n k r (Ne.symm hr) n (le_refl _) i j hj, if_pos hj]
      by_cases h1 : i = k
      · simp [h1, Ne.symm hr]
      · by_cases h2 : i = r
        · simp [h2, hr]
        · simp [h1, h2]
    have hpw : ∀ i, swapAt p k r i = p (if i = r then k else if i = k then r else i) := by
      intro i
      rw [swapAt_apply]
      by_cases h2 : i = r
      · simp [h2]
      · by_cases h1 : i = k
        · simp [h1, Ne.symm hr]
        · simp [h1, h2]
    have hτn : ∀ i, i < n → (if i = r then k else if i = k then r else i) < n := by
      intro i hi
      split_ifs <;> omega
    apply key
    · apply LUInv_permute A0 F _ p _ (fun i => if i = r then k else if i = k then r else i) n k
        hτn ?_ ?_ (fun i j _ hj => hsw i j hj) (fun i _ => hpw i) (le_of_lt hk) hinv
      · intro t ht
        show (if t = r then k else if t = k then r else t) = t
        rw [if_neg (by omega), if_neg (by omega)]
      · intro i hi
        show k ≤ (if i = r then k else if i = k then r else i)
        split_ifs <;> omega
    · apply PermOn_permute p _ (fun i => if i = r then k else if i = k then r else i) n hτn ?_
        (fun i _ => hpw i) hperm
      intro i j _ _ e
      simp only at e
      split_ifs at e <;> omega
    · intro t ht
      rw [hsw t t (by omega), if_neg (by omega), if_neg (by omega)]
      exact hdiag t ht
    · rw [hsw k k hk, if_neg (Ne.symm hr), if_pos rfl]
      exact hnz

/-- Outcome of the main loop of `lu_decomposition` on a square buffer. -/
theorem lu_loop_spec (A0 : Nat → α) (n : Nat) :
    ∀ (cnt k : Nat) (F : Nat → α) (p : Nat → Nat), k + cnt = n →
      LUInv A0 F p n k → PermOn p n → (∀ t, t < k → F (t * n + t) ≠ 0) →
      ((lu_loop n n (n * n) cnt k F p).1 = true →
        LUInv A0 (lu_loop n n (n * n) cnt k F p).2.1 (lu_loop n n (n * n) cnt k F p).2.2 n n ∧
        PermOn (lu_loop n n (n * n) cnt k F p).2.2 n ∧
        ∀ t, t < n → (lu_loop n n (n * n) cnt k F p).2.1 (t * n + t) ≠ 0) ∧
      ((lu_loop n n (n * n) cnt k F p).1 = false →
        ∃ (k1 : Nat) (F1 : Nat → α) (p1 : Nat → Nat), k1 < n ∧ LUInv A0 F1 p1 n k1 ∧ PermOn p1 n ∧
          ∀ i, k1 ≤ i → i < n → F1 (i * n + k1) = 0) := by
  intro cnt
  induction cnt with
  | zero =>
    intro k F p hk hinv hperm hdiag
    have : k = n := by omega
    subst this
    rw [lu_loop_zero]
    exact ⟨fun _ => ⟨hinv, hperm, hdiag⟩, fun h => by simp at h⟩
  | succ cnt ih =>
    intro k F p hk hinv hperm hdiag
    have hkn : k < n := by omega
    rw [lu_loop_succ]
    by_cases hmax : (lu_pivot_search F n k).1 = 0
    · rw [if_pos hmax]
      refine ⟨fun h => by simp at h, fun _ => ⟨k, F, p, hkn, hinv, hperm, ?_⟩⟩
      exact (lu_pivot_search_zero_iff F n k hkn).mp hmax
    · rw [if_neg hmax]
      obtain ⟨h1, h2, h3⟩ := lu_step_inv A0 F p n k hkn hinv hperm hdiag hmax
      exact ih (k + 1) _ _ (by omega) h1 h2 h3

/-- The loop returns `false` exactly when some prefix of the steps succeeds and the next
pivot search finds no non-zero entry. -/
theorem lu_loop_false_iff (n cols s : Nat) :
    ∀ (cnt k : Nat) (F : Nat → α) (p : Nat → Nat),
      (lu_loop n cols s cnt k F p).1 = false ↔
        ∃ c, c < cnt ∧ (lu_loop n cols s c k F p).1 = true ∧
          (lu_pivot_search (lu_loop n cols s c k F p).2.1 n (k + c)).1 = 0 := by
  intro cnt
  induction cnt with
  | zero =>
    intro k F p
    rw [lu_loop_zero]
    constructor
    · intro h; simp at h
    · rintro ⟨c, hc, _⟩; omega
  | succ cnt ih =>
    intro k F p
    rw [lu_loop_succ]
    by_cases hmax : (lu_pivot_search F n k).1 = 0
    · rw [if_pos hmax]
      refine ⟨fun _ => ⟨0, by omega, rfl, ?_⟩, fun _ => rfl⟩
      rw [lu_loop_zero]
      exact hmax
    · rw [if_neg hmax, ih]
      constructor
      · rintro ⟨c, hc, h1, h2⟩
        refine ⟨c + 1, by omega, ?_, ?_⟩
        · rw [lu_loop_succ, if_neg hmax]
          exact h1
        · rw [lu_loop_succ, if_neg hmax]
          have e : k + (c + 1) = k + 1 + c := by omega
          rw [e]
          exact h2
      · rintro ⟨c, hc, h1, h2⟩
        rcases c with _ | c
        · rw [lu_loop_zero] at h2
          exact absurd h2 hmax
        · rw [lu_loop_succ, if_neg hmax] at h1 h2
          have e : k + (c + 1) = k + 1 + c := by omega
          rw [e] at h2
          exact ⟨c, by omega, h1, h2⟩

end

section

variable {α : Type} [LinearOrderedField α]

/-- Entries of the product of the packed factors. -/
theorem luL_mul_luU_apply (F : Nat → α) (n : Nat) (i j : Fin n) :
    (luL F n * luU F n) i j =
      (∑ t in Finset.range (min i.val (j.val + 1)), F (i.val * n + t) * F (t * n + j.val)) +
        (if i.val ≤ j.val then F (i.val * n + j.val) else 0) := by
  rw [Matrix.mul_apply]
  have e : ∀ t : Fin n, luL F n i t * luU F n t j =
      (fun t : Nat => (if t < i.val ∧ t ≤ j.val then F (i.val * n + t) * F (t * n + j.val) else 0) +
        (if t = i.val ∧ i.val ≤ j.val then F (i.val * n + j.val) else 0)) t.val := by
    intro t
    simp only [luL, luU]
    by_cases h1 : t.val < i.val
    · by_cases h2 : t.val ≤ j.val
      · simp [h1, h2, Nat.ne_of_lt h1]
      · simp [h1, h2, Nat.ne_of_lt h1]
    · by_cases h3 : t.val = i.val
      · by_cases h2 : i.val ≤ j.val
        · simp [h3, h2]
        · simp [h3, h2]
      · simp [h1, h3]
  rw [Finset.sum_congr rfl (fun t _ => e t), Fin.sum_univ_eq_sum_range
    (fun t : Nat => (if t < i.val ∧ t ≤ j.val then F (i.val * n + t) * F (t * n + j.val) else 0) +
        (if t = i.val ∧ i.val ≤ j.val then F (i.val * n + j.val) else 0)) n,
    Finset.sum_add_distrib, ← Finset.sum_filter, ← Finset.sum_filter]
  have f1 : (Finset.range n).filter (fun t => t < i.val ∧ t ≤ j.val) =
      Finset.range (min i.val (j.val + 1)) := by
    ext t
    simp only [Finset.mem_filter, Finset.mem_range, lt_min_iff]
    have := i.2
    omega
  have f2 : (Finset.range n).filter (fun t => t = i.val ∧ i.val ≤ j.val) =
      if i.val ≤ j.val then {i.val} else ∅ := by
    ext t
    by_cases h : i.val ≤ j.val
    · simp only [h, and_true, if_true, Finset.mem_filter, Finset.mem_range, Finset.mem_singleton]
      have := i.2
      omega
    · simp [h]
  rw [f1, f2]
  congr 1
  by_cases h : i.val ≤ j.val
  · simp [h]
  · simp [h]

/-- The final invariant in matrix form: `L * U` is the row-permuted original matrix. -/
theorem LUInv_final (A0 F : Nat → α) (p : Nat → Nat) (n : Nat) (h : LUInv A0 F p n n)
    (i j : Fin n) : (luL F n * luU F n) i j = A0 (p i.val * n + j.val) := by
  rw [luL_mul_luU_apply, h i.val j.val i.2 j.2, Nat.min_eq_left (le_of_lt i.2)]

theorem det_luL (F : Nat → α) (n : Nat) : (luL F n).det = 1 := by
  rw [Matrix.det_of_lowerTriangular]
  · apply Finset.prod_eq_one
    intro i _
    simp [luL]
  · intro i j hij
    have hij1 : i < j := hij
    have : i.val < j.val := hij1
    simp only [luL]
    rw [if_neg (by omega), if_neg (by omega)]

theorem det_luU (F : Nat → α) (n : Nat) : (luU F n).det = ∏ i : Fin n, F (i.val * n + i.val) := by
  rw [Matrix.det_of_upperTriangular]
  · apply Finset.prod_congr rfl
    intro i _
    simp [luU]
  · intro i j hij
    have hij1 : j < i := hij
    have : j.val < i.val := hij1
    simp only [luU]
    rw [if_neg (by omega)]

/-- A sequence that permutes `0 .. n-1` is a permutation of `Fin n`. -/
theorem PermOn.exists_perm {p : Nat → Nat} {n : Nat} (h : PermOn p n) :
    ∃ σ : Equiv.Perm (Fin n), ∀ i : Fin n, (σ i).val = p i.val := by
  have hinj : Function.Injective (fun i : Fin n => (⟨p i.val, h.1 i.val i.2⟩ : Fin n)) := by
    intro a b e
    have e1 : p a.val = p b.val := by simpa using congrArg Fin.val e
    exact Fin.ext (h.2 _ _ a.2 b.2 e1)
  exact ⟨Equiv.ofBijective _ (Finite.injective_iff_bijective.mp hinj), fun i => rfl⟩

theorem PermOn.surj {p : Nat → Nat} {n : Nat} (h : PermOn p n) (r : Nat) (hr : r < n) :
    ∃ i, i < n ∧ p i = r := by
  obtain ⟨σ, hσ⟩ := h.exists_perm
  refine ⟨(σ.symm ⟨r, hr⟩).val, (σ.symm ⟨r, hr⟩).2, ?_⟩
  rw [← hσ]
  simp

end

section

variable {α : Type} [LinearOrderedField α]

theorem lu_swap_count_succ (n cols s cnt k : Nat) (F : Nat → α) :
    lu_swap_count n cols s (cnt + 1) k F =
      if (lu_pivot_search F n k).1 = 0 then 0
      else (if (lu_pivot_search F n k).2.2 ≠ k then 1 else 0) +
        lu_swap_count n cols s cnt (k + 1)
          (lu_reduce (if (lu_pivot_search F n k).2.2 ≠ k
            then vec_swap F (k * n) cols ((lu_pivot_search F n k).2.1 - k) else F) n s k) := rfl

/-- Exchanging two entries of the pivot vector flips the sign of its permutation. -/
theorem sign_swapAt (p : Nat → Nat) (n k r : Nat) (hk : k < n) (hr : r < n) (hkr : k ≠ r)
    (σ σ1 : Equiv.Perm (Fin n)) (hσ : ∀ i : Fin n, (σ i).val = p i.val)
    (hσ1 : ∀ i : Fin n, (σ1 i).val = swapAt p k r i.val) :
    Equiv.Perm.sign σ1 = -Equiv.Perm.sign σ := by
  have e : σ1 = σ * Equiv.swap (⟨k, hk⟩ : Fin n) ⟨r, hr⟩ := by
    ext i
    rw [hσ1, Equiv.Perm.mul_apply, hσ, swapAt_apply]
    by_cases h1 : i.val = r
    · have : i = ⟨r, hr⟩ := Fin.ext h1
      rw [if_pos h1, this, Equiv.swap_apply_right]
    · rw [if_neg h1]
      by_cases h2 : i.val = k
      · have : i = ⟨k, hk⟩ := Fin.ext h2
        rw [if_pos h2, this, Equiv.swap_apply_left]
      · rw [if_neg h2, Equiv.swap_apply_of_ne_of_ne]
        · intro h
          exact h2 (congrArg Fin.val h)
        · intro h
          exact h1 (congrArg Fin.val h)
  have hne : (⟨k, hk⟩ : Fin n) ≠ ⟨r, hr⟩ := fun h => hkr (congrArg Fin.val h)
  rw [e, Equiv.Perm.sign_mul, Equiv.Perm.sign_swap hne]
  simp

/-- The sign of the pivot permutation is `(-1)` to the number of row swaps. -/
theorem lu_loop_sign (A0 : Nat → α) (n : Nat) :
    ∀ (cnt k : Nat) (F : Nat → α) (p : Nat → Nat), k + cnt = n →
      LUInv A0 F p n k → PermOn p n → (∀ t, t < k → F (t * n + t) ≠ 0) →
      (lu_loop n n (n * n) cnt k F p).1 = true →
      ∀ σ σ1 : Equiv.Perm (Fin n), (∀ i : Fin n, (σ i).val = p i.val) →
        (∀ i : Fin n, (σ1 i).val = (lu_loop n n (n * n) cnt k F p).2.2 i.val) →
        Equiv.Perm.sign σ1 = Equiv.Perm.sign σ * (-1) ^ lu_swap_count n n (n * n) cnt k F := by
  intro cnt
  induction cnt with
  | zero =>
    intro k F p _ _ _ _ _ σ σ1 hσ hσ1
    rw [lu_loop_zero] at hσ1
    have : σ1 = σ := by
      ext i
      rw [hσ1, hσ]
    rw [this]
    simp [lu_swap_count]
  | succ cnt ih =>
    intro k F p hk hinv hperm hdiag hok σ σ1 hσ hσ1
    have hkn : k < n := by omega
    rw [lu_loop_succ] at hok hσ1
    rw [lu_swap_count_succ]
    by_cases hmax : (lu_pivot_search F n k).1 = 0
    · rw [if_pos hmax] at hok
      exact absurd hok (by simp)
    · rw [if_neg hmax] at hok hσ1
      rw [if_neg hmax]
      obtain ⟨h1, h2, h3⟩ := lu_step_inv A0 F p n k hkn hinv hperm hdiag hmax
      obtain ⟨_, hs⟩ := lu_pivot_search_spec F n k hkn
      rcases hs with hs | ⟨_, hrk, hrn, _, _⟩
      · exact absurd hs.1 hmax
      by_cases hr : (lu_pivot_search F n k).2.2 = k
      · have e1 : (if (lu_pivot_search F n k).2.2 ≠ k then swapAt p k (lu_pivot_search F n k).2.2
            else p) = p := by
          rw [if_neg (not_not.mpr hr)]
        rw [e1] at h1 h2 hok hσ1
        rw [ih (k + 1) _ p (by omega) h1 h2 h3 hok σ σ1 hσ hσ1]
        simp only [if_neg (not_not.mpr hr), Nat.zero_add]
      · have e1 : (if (lu_pivot_search F n k).2.2 ≠ k then swapAt p k (lu_pivot_search F n k).2.2
            else p) = swapAt p k (lu_pivot_search F n k).2.2 := by
          rw [if_pos hr]
        rw [e1] at h1 h2 hok hσ1
        obtain ⟨σ2, hσ2⟩ := h2.exists_perm
        rw [ih (k + 1) _ _ (by omega) h1 h2 h3 hok σ2 σ1 hσ2 hσ1,
          sign_swapAt p n k _ hkn hrn (Ne.symm hr) σ σ2 hσ hσ2]
        simp only [if_pos hr, pow_add, pow_one]
        simp

end

section

variable {α : Type} [LinearOrderedField α]

/-- A square matrix whose first `k+1` columns vanish in all rows from `k` on is singular. -/
theorem det_eq_zero_of_zero_block {n : Nat} (M : Matrix (Fin n) (Fin n) α) (k : Nat)
    (h : ∀ i j : Fin n, k ≤ i.val → j.val ≤ k → M i j = 0) (hk : k < n) : M.det = 0 := by
  rw [Matrix.det_apply]
  apply Finset.sum_eq_zero
  intro σ _
  have hex : ∃ j : Fin n, j.val ≤ k ∧ k ≤ (σ j).val := by
    by_contra hcon
    push_neg at hcon
    have hinj : Function.Injective
        (fun a : Fin (k + 1) => (⟨(σ ⟨a.val, by omega⟩).val, hcon _ (by simp; omega)⟩ : Fin k)) := by
      intro a b e
      have e1 : (σ ⟨a.val, by omega⟩).val = (σ ⟨b.val, by omega⟩).val := by
        simpa using congrArg Fin.val e
      have e2 := σ.injective (Fin.ext e1)
      exact Fin.ext (by simpa using congrArg Fin.val e2)
    have := Fintype.card_le_of_injective _ hinj
    simp at this
  obtain ⟨j, hj1, hj2⟩ := hex
  have hp : ∏ i : Fin n, M (σ i) i = 0 :=
    Finset.prod_eq_zero (Finset.mem_univ j) (h (σ j) j hj2 hj1)
  rw [hp, smul_zero]

/-- The partially reduced matrix before step `k`, factored as in `LUInv`. -/
theorem LUInv_factored (A0 F : Nat → α) (p : Nat → Nat) (n k : Nat) (hk : k ≤ n)
    (h : LUInv A0 F p n k) (i j : Fin n) :
    ((Matrix.of fun a t : Fin n =>
        if t.val < a.val ∧ t.val < k then F (a.val * n + t.val) else if t.val = a.val then 1 else 0) *
      (Matrix.of fun t b : Fin n => if min t.val k ≤ b.val then F (t.val * n + b.val) else 0)) i j
      = A0 (p i.val * n + j.val) := by
  rw [Matrix.mul_apply, h i.val j.val i.2 j.2]
  have e : ∀ t : Fin n,
      (Matrix.of fun a t : Fin n =>
        if t.val < a.val ∧ t.val < k then F (a.val * n + t.val) else if t.val = a.val then (1 : α) else 0) i t *
      (Matrix.of fun t b : Fin n => if min t.val k ≤ b.val then F (t.val * n + b.val) else 0) t j =
      (fun t : Nat => (if t < min (min i.val k) (j.val + 1) then F (i.val * n + t) * F (t * n + j.val) else 0) +
        (if t = i.val ∧ min i.val k ≤ j.val then F (i.val * n + j.val) else 0)) t.val := by
    intro t
    simp only [Matrix.of_apply]
    by_cases h1 : t.val < i.val ∧ t.val < k
    · have hne : ¬ (t.val = i.val ∧ min i.val k ≤ j.val) := by omega
      have hm : min t.val k = t.val := Nat.min_eq_left (by omega)
      rw [if_pos h1, if_neg hne, hm, add_zero]
      by_cases h2 : t.val ≤ j.val
      · rw [if_pos h2, if_pos (by simp only [lt_min_iff]; omega)]
      · rw [if_neg h2, if_neg (by simp only [lt_min_iff]; omega), mul_zero]
    · have hnlt : ¬ (t.val < min (min i.val k) (j.val + 1)) := by
        simp only [lt_min_iff]; omega
      rw [if_neg h1, if_neg hnlt, zero_add]
      by_cases h3 : t.val = i.val
      · rw [if_pos h3, one_mul, h3]
        by_cases h4 : min i.val k ≤ j.val
        · rw [if_pos h4, if_pos ⟨rfl, h4⟩]
        · rw [if_neg h4, if_neg (fun hh => h4 hh.2)]
      · rw [if_neg h3, zero_mul, if_neg (fun hh => h3 hh.1)]
  rw [Finset.sum_congr rfl (fun t _ => e t), Fin.sum_univ_eq_sum_range
    (fun t : Nat => (if t < min (min i.val k) (j.val + 1) then F (i.val * n + t) * F (t * n + j.val) else 0) +
        (if t = i.val ∧ min i.val k ≤ j.val then F (i.val * n + j.val) else 0)) n,
    Finset.sum_add_distrib, ← Finset.sum_filter, ← Finset.sum_filter]
  have f1 : (Finset.range n).filter (fun t => t < min (min i.val k) (j.val + 1)) =
      Finset.range (min (min i.val k) (j.val + 1)) := by
    ext t
    simp only [Finset.mem_filter, Finset.mem_range, lt_min_iff]
    have := i.2
    omega
  have f2 : (Finset.range n).filter (fun t => t = i.val ∧ min i.val k ≤ j.val) =
      if min i.val k ≤ j.val then {i.val} else ∅ := by
    ext t
    by_cases h : min i.val k ≤ j.val
    · simp only [h, and_true, if_true, Finset.mem_filter, Finset.mem_range, Finset.mem_singleton]
      have := i.2
      omega
    · simp [h]
  rw [f1, f2]
  congr 1
  by_cases h : min i.val k ≤ j.val
  · simp [h]
  · simp [h]

/-- The determinant of a row-permuted matrix vanishes only if that of the matrix does. -/
theorem det_eq_zero_of_permuted {n : Nat} (M P : Matrix (Fin n) (Fin n) α) (σ : Equiv.Perm (Fin n))
    (hP : ∀ i j, P i j = M (σ i) j) (h : P.det = 0) : M.det = 0 := by
  have e : P = M.submatrix σ id := by
    ext i j
    rw [hP]
    rfl
  rw [e, Matrix.det_permute] at h
  rcases mul_eq_zero.mp h with h1 | h1
  · exfalso
    rcases Int.units_eq_one_or (Equiv.Perm.sign σ) with h2 | h2 <;> rw [h2] at h1 <;> simp at h1
  · exact h1

/-- A failed pivot search means that the original matrix is singular. -/
theorem det_eq_zero_of_LUInv (A0 F : Nat → α) (p : Nat → Nat) (n k : Nat) (hk : k < n)
    (h : LUInv A0 F p n k) (hperm : PermOn p n)
    (hz : ∀ i, k ≤ i → i < n → F (i * n + k) = 0) : (rowMajor A0 n n).det = 0 := by
  obtain ⟨σ, hσ⟩ := hperm.exists_perm
  apply det_eq_zero_of_permuted (rowMajor A0 n n) _ σ
    (fun i j => (LUInv_factored A0 F p n k (le_of_lt hk) h i j).trans (by rw [← hσ]; rfl))
  rw [Matrix.det_mul]
  apply mul_eq_zero_of_right
  apply det_eq_zero_of_zero_block _ k _ hk
  intro i j hi hj
  simp only [Matrix.of_apply]
  rcases Nat.lt_or_ge j.val k with h1 | h1
  · rw [if_neg]
    rw [Nat.min_eq_right hi]
    omega
  · have : j.val = k := by omega
    rw [this, hz i.val hi i.2]
    simp

/-- A successful factorisation means that the original matrix is non-singular. -/
theorem det_ne_zero_of_LUInv (A0 F : Nat → α) (p : Nat → Nat) (n : Nat)
    (h : LUInv A0 F p n n) (hperm : PermOn p n) (hd : ∀ t, t < n → F (t * n + t) ≠ 0) :
    (rowMajor A0 n n).det ≠ 0 := by
  obtain ⟨σ, hσ⟩ := hperm.exists_perm
  intro h0
  have e : luL F n * luU F n = (rowMajor A0 n n).submatrix σ id := by
    ext i j
    rw [LUInv_final A0 F p n h i j, ← hσ]
    rfl
  have e2 := congrArg Matrix.det e
  rw [Matrix.det_mul, det_luL, det_luU, Matrix.det_permute, h0, mul_zero, one_mul] at e2
  exact (Finset.prod_ne_zero_iff.mpr (fun i _ => hd i.val i.2)) e2

end

section

variable {α : Type} [LinearOrderedField α]

/-- Column `k` of the forward substitution, entry by entry. -/
theorem lu_forward_col_spec (A : Nat → α) (n k : Nat) (hk : k < n) (x : Nat → α) (m : Nat) :
    lu_forward_col A n (n * n) k x m =
      if k < m ∧ m < n then x m - x k * A (m * n + k) else x m := by
  unfold lu_forward_col
  have e1 : k * n + n + k = (k + 1) * n + k := by ring
  have e2 : strideCount (k * n + n + k) (n * n) n = n - (k + 1) := by
    rw [e1]
    exact strideCount_mul_add n (k + 1) n k hk
  simp only [e2]
  have aux : ∀ (v : α) (cnt : Nat) (m : Nat),
      forUp (fun t x => Function.update x (k + 1 + t) (x (k + 1 + t) - v * A (k * n + n + k + t * n)))
        0 cnt x m = if k < m ∧ m < k + 1 + cnt then x m - v * A (m * n + k) else x m := by
    intro v cnt
    induction cnt with
    | zero =>
      intro m
      rw [forUp_zero, if_neg (by omega)]
    | succ cnt ih =>
      intro m
      rw [forUp_succ, Function.update_apply, Nat.zero_add]
      by_cases hm : m = k + 1 + cnt
      · subst hm
        rw [if_pos rfl, ih, if_neg (by omega), if_pos (by omega)]
        congr 2
        ring_nf
      · rw [if_neg hm, ih]
        by_cases h : k < m ∧ m < k + 1 + cnt
        · rw [if_pos h, if_pos (by omega)]
        · rw [if_neg h, if_neg (by omega)]
  rw [aux]
  have e3 : k + 1 + (n - (k + 1)) = n := by omega
  rw [e3]

/-- Forward substitution solves the unit lower-triangular system, column by column. -/
theorem lu_forward_inv (F : Nat → α) (n : Nat) (x0 : Nat → α) (K : Nat) (hK : K ≤ n) :
    ∀ m, m < n → x0 m = forUp (lu_forward_col F n (n * n)) 0 K x0 m +
      ∑ t in Finset.range (min m K), F (m * n + t) * forUp (lu_forward_col F n (n * n)) 0 K x0 t := by
  induction K with
  | zero =>
    intro m _
    simp [forUp]
  | succ K ih =>
    intro m hm
    have ih1 := ih (by omega)
    rw [forUp_succ, Nat.zero_add]
    generalize forUp (lu_forward_col F n (n * n)) 0 K x0 = X at ih1 ⊢
    have hKn : K < n := by omega
    have hlow : ∀ t, t ≤ K → lu_forward_col F n (n * n) K X t = X t := by
      intro t ht
      rw [lu_forward_col_spec F n K hKn, if_neg (by omega)]
    rcases Nat.lt_or_ge K m with h | h
    · have e1 : min m (K + 1) = K + 1 := Nat.min_eq_right h
      have e2 : min m K = K := Nat.min_eq_right (by omega)
      rw [ih1 m hm, e1, e2, Finset.sum_range_succ, lu_forward_col_spec F n K hKn X m,
        if_pos ⟨h, hm⟩, hlow K (le_refl _)]
      have hs : ∑ t in Finset.range K, F (m * n + t) * lu_forward_col F n (n * n) K X t =
          ∑ t in Finset.range K, F (m * n + t) * X t := by
        apply Finset.sum_congr rfl
        intro t ht
        rw [Finset.mem_range] at ht
        rw [hlow t (by omega)]
      rw [hs]
      ring
    · have e1 : min m (K + 1) = m := Nat.min_eq_left (by omega)
      have e2 : min m K = m := Nat.min_eq_left h
      rw [ih1 m hm, e1, e2, hlow m h]
      congr 1
      apply Finset.sum_congr rfl
      intro t ht
      rw [Finset.mem_range] at ht
      rw [hlow t (by omega)]

theorem diag_index (n k : Nat) (hk : k < n) : n * n - 1 - (n - 1 - k) * (n + 1) = k * n + k := by
  obtain ⟨d, rfl⟩ : ∃ d, n = k + d + 1 := ⟨n - 1 - k, by omega⟩
  have e1 : k + d + 1 - 1 - k = d := by omega
  rw [e1]
  have e2 : (k + d + 1) * (k + d + 1) = d * (k + d + 1 + 1) + (k * (k + d + 1) + k) + 1 := by ring
  omega

/-- Column `k` of the back substitution, entry by entry. -/
theorem lu_back_col_spec (A : Nat → α) (n k : Nat) (v : α) (x : Nat → α) (cnt : Nat) :
    ∀ i, forUp (fun i x => Function.update x i (x i - v * A (k + i * n))) 0 cnt x i =
      if i < cnt then x i - v * A (i * n + k) else x i := by
  induction cnt with
  | zero =>
    intro i
    rw [forUp_zero, if_neg (by omega)]
  | succ cnt ih =>
    intro i
    rw [forUp_succ, Function.update_apply, Nat.zero_add]
    by_cases hi : i = cnt
    · subst hi
      rw [if_pos rfl, ih, if_neg (by omega), if_pos (by omega), Nat.add_comm]
    · rw [if_neg hi, ih]
      by_cases h : i < cnt
      · rw [if_pos h, if_pos (by omega)]
      · rw [if_neg h, if_neg (by omega)]

theorem lu_back_zero (A : Nat → α) (c ms rows : Nat) (x : Nat → α) :
    lu_back A c ms rows 0 x = (true, x) := rfl

theorem lu_back_succ (A : Nat → α) (c ms rows k : Nat) (x : Nat → α) :
    lu_back A c ms rows (k + 1) x =
      if A (ms - 1 - (rows - 1 - k) * (c + 1)) + 1 = 1 then (false, x)
      else lu_back A c ms rows k
        (forUp (fun i y => Function.update y i
            (y i - x k / A (ms - 1 - (rows - 1 - k) * (c + 1)) * A (k + i * c))) 0 k
          (Function.update x k (x k / A (ms - 1 - (rows - 1 - k) * (c + 1))))) := rfl

/-- Back substitution on a buffer with non-zero diagonal succeeds and solves the
upper-triangular system. -/
theorem lu_back_spec (F : Nat → α) (n : Nat) (hd : ∀ t, t < n → F (t * n + t) ≠ 0)
    (y : Nat → α) :
    ∀ (K : Nat) (X : Nat → α), K ≤ n →
      (∀ i, i < n → y i = (if i < K then X i else 0) +
        ∑ t in Finset.Ico (max i K) n, F (i * n + t) * X t) →
      (lu_back F n (n * n) n K X).1 = true ∧
      ∀ i, i < n → y i = ∑ t in Finset.Ico i n, F (i * n + t) * (lu_back F n (n * n) n K X).2 t := by
  intro K
  induction K with
  | zero =>
    intro X _ h
    rw [lu_back_zero]
    refine ⟨rfl, fun i hi => ?_⟩
    rw [h i hi, if_neg (by omega), zero_add, Nat.max_eq_left (Nat.zero_le _)]
  | succ K ih =>
    intro X hK h
    have hKn : K < n := by omega
    rw [lu_back_succ, diag_index n K hKn]
    have hne : ¬ (F (K * n + K) + 1 = 1) := by
      intro h0
      exact hd K hKn (by linarith)
    rw [if_neg hne]
    apply ih _ (by omega)
    intro i hi
    have hcol := lu_back_col_spec F n K (X K / F (K * n + K))
      (Function.update X K (X K / F (K * n + K))) K
    have hX2 : ∀ t, K < t → forUp (fun i y => Function.update y i
        (y i - X K / F (K * n + K) * F (K + i * n))) 0 K
          (Function.update X K (X K / F (K * n + K))) t = X t := by
      intro t ht
      rw [hcol t, if_neg (by omega), Function.update_apply, if_neg (by omega)]
    have hXK : forUp (fun i y => Function.update y i
        (y i - X K / F (K * n + K) * F (K + i * n))) 0 K
          (Function.update X K (X K / F (K * n + K))) K = X K / F (K * n + K) := by
      rw [hcol K, if_neg (by omega), Function.update_apply, if_pos rfl]
    have hsum : ∀ a, K + 1 ≤ a →
        ∑ t in Finset.Ico a n, F (i * n + t) * forUp (fun i y => Function.update y i
          (y i - X K / F (K * n + K) * F (K + i * n))) 0 K
            (Function.update X K (X K / F (K * n + K))) t =
        ∑ t in Finset.Ico a n, F (i * n + t) * X t := by
      intro a ha
      apply Finset.sum_congr rfl
      intro t ht
      rw [Finset.mem_Ico] at ht
      rw [hX2 t (by omega)]
    rw [h i hi]
    rcases Nat.lt_trichotomy i K with hiK | hiK | hiK
    · have m1 : max i (K + 1) = K + 1 := Nat.max_eq_right (by omega)
      have m2 : max i K = K := Nat.max_eq_right (by omega)
      rw [m1, m2, if_pos (by omega), if_pos hiK, Finset.sum_eq_sum_Ico_succ_bot hKn, hsum _ (le_refl _),
        hXK, hcol i, if_pos hiK, Function.update_apply, if_neg (by omega)]
      ring
    · subst hiK
      have m1 : max i (i + 1) = i + 1 := Nat.max_eq_right (by omega)
      have m2 : max i i = i := Nat.max_self _
      rw [m1, m2, if_pos (by omega), if_neg (by omega), Finset.sum_eq_sum_Ico_succ_bot hKn,
        hsum _ (le_refl _), hXK]
      have := hd i hKn
      field_simp
    · have m1 : max i (K + 1) = i := Nat.max_eq_left (by omega)
      have m2 : max i K = i := Nat.max_eq_left (by omega)
      rw [m1, m2, if_neg (by omega), if_neg (by omega), hsum i (by omega)]

end

section

variable {α : Type} [LinearOrderedField α]

theorem luU_mulVec (F : Nat → α) (n : Nat) (X : Nat → α) (i : Fin n) :
    (luU F n).mulVec (vecOf X n) i = ∑ t in Finset.Ico i.val n, F (i.val * n + t) * X t := by
  simp only [Matrix.mulVec, Matrix.dotProduct, luU, vecOf]
  rw [Fin.sum_univ_eq_sum_range
    (fun t : Nat => (if i.val ≤ t then F (i.val * n + t) else 0) * X t) n]
  have e : ∀ t ∈ Finset.range n, (if i.val ≤ t then F (i.val * n + t) else 0) * X t =
      if i.val ≤ t then F (i.val * n + t) * X t else 0 := by
    intro t _
    split_ifs <;> simp
  rw [Finset.sum_congr rfl e, ← Finset.sum_filter]
  congr 1
  ext t
  simp only [Finset.mem_filter, Finset.mem_range, Finset.mem_Ico]
  omega

theorem luL_mulVec (F : Nat → α) (n : Nat) (Y : Nat → α) (i : Fin n) :
    (luL F n).mulVec (vecOf Y n) i =
      Y i.val + ∑ t in Finset.range i.val, F (i.val * n + t) * Y t := by
  simp only [Matrix.mulVec, Matrix.dotProduct, luL, vecOf]
  rw [Fin.sum_univ_eq_sum_range
    (fun t : Nat => (if t < i.val then F (i.val * n + t) else if t = i.val then 1 else 0) * Y t) n]
  have e : ∀ t ∈ Finset.range n,
      (if t < i.val then F (i.val * n + t) else if t = i.val then 1 else 0) * Y t =
      (if t = i.val then Y i.val else 0) + (if t < i.val then F (i.val * n + t) * Y t else 0) := by
    intro t _
    by_cases h1 : t < i.val
    · rw [if_pos h1, if_pos h1, if_neg (by omega), zero_add]
    · by_cases h2 : t = i.val
      · rw [if_neg h1, if_pos h2, if_pos h2, if_neg h1, h2, one_mul, add_zero]
      · rw [if_neg h1, if_neg h2, if_neg h2, if_neg h1, zero_mul, add_zero]
  rw [Finset.sum_congr rfl e, Finset.sum_add_distrib, ← Finset.sum_filter (fun t => t < i.val),
    Finset.sum_ite_eq' (Finset.range n) i.val (fun _ => Y i.val), if_pos (Finset.mem_range.mpr i.2)]
  congr 2
  ext t
  simp only [Finset.mem_filter, Finset.mem_range]
  have := i.2
  omega

theorem load_rhs {R : Type} (b x : Nat → R) (piv : Nat → Nat) (n : Nat) :
    ∀ i, forUp (fun i x => Function.update x i (b (piv i))) 0 n x i =
      if i < n then b (piv i) else x i := by
  induction n with
  | zero => intro i; simp [forUp]
  | succ n ih =>
    intro i
    rw [forUp_succ, Function.update_apply, ih, Nat.zero_add]
    by_cases h : i = n
    · subst h
      simp
    · rw [if_neg h]
      by_cases h2 : i < n
      · rw [if_pos h2, if_pos (by omega)]
      · rw [if_neg h2, if_neg (by omega)]

/-- `lu_solve` on a packed factorisation with non-zero diagonal returns `true` and solves
`L * U * x = b ∘ piv`. -/
theorem lu_solve_spec (F : Nat → α) (piv : Nat → Nat) (b x : Nat → α) (n : Nat) (hn : 0 < n)
    (hd : ∀ t, t < n → F (t * n + t) ≠ 0) :
    (lu_solve F piv b x n n).1 = true ∧
    (luL F n * luU F n).mulVec (vecOf (lu_solve F piv b x n n).2 n) = fun i => b (piv i.val) := by
  unfold lu_solve
  simp only
  have ec : strideCount 0 (n * n) n = n := by
    have := strideCount_mul n 0 n hn
    simpa using this
  have hfw := lu_forward_inv F n (forUp (fun i x => Function.update x i (b (piv i))) 0 n x) n (le_refl _)
  have hbk := lu_back_spec F n hd (lu_forward F n (n * n)
      (forUp (fun i x => Function.update x i (b (piv i))) 0 n x)) n
      (lu_forward F n (n * n) (forUp (fun i x => Function.update x i (b (piv i))) 0 n x)) (le_refl _)
      (fun i hi => by
        rw [if_pos hi, Nat.max_eq_right (le_of_lt hi), Finset.Ico_self, Finset.sum_empty, add_zero])
  refine ⟨hbk.1, ?_⟩
  rw [← Matrix.mulVec_mulVec]
  have hU : (luU F n).mulVec (vecOf (lu_back F n (n * n) n n (lu_forward F n (n * n)
      (forUp (fun i x => Function.update x i (b (piv i))) 0 n x))).2 n) =
      vecOf (lu_forward F n (n * n) (forUp (fun i x => Function.update x i (b (piv i))) 0 n x)) n := by
    funext i
    rw [luU_mulVec, ← hbk.2 i.val i.2]
    rfl
  rw [hU]
  funext i
  rw [luL_mulVec]
  have h1 := hfw i.val i.2
  rw [Nat.min_eq_left (le_of_lt i.2), load_rhs, if_pos i.2] at h1
  rw [h1]
  unfold lu_forward
  rw [ec]

theorem lu_decomposition_eq (A : Nat → α) (piv0 : Nat → Nat) (n : Nat) :
    lu_decomposition A piv0 n n =
      lu_loop n n (n * n) n 0 A (forUp (fun k p => Function.update p k k) 0 n piv0) := rfl

/-- Outcome of `lu_decomposition` on a square matrix. -/
theorem lu_decomposition_spec (A : Nat → α) (piv0 : Nat → Nat) (n : Nat) :
    ((lu_decomposition A piv0 n n).1 = true →
      LUInv A (lu_decomposition A piv0 n n).2.1 (lu_decomposition A piv0 n n).2.2 n n ∧
      PermOn (lu_decomposition A piv0 n n).2.2 n ∧
      ∀ t, t < n → (lu_decomposition A piv0 n n).2.1 (t * n + t) ≠ 0) ∧
    ((lu_decomposition A piv0 n n).1 = false →
      ∃ (k1 : Nat) (F1 : Nat → α) (p1 : Nat → Nat), k1 < n ∧ LUInv A F1 p1 n k1 ∧ PermOn p1 n ∧
        ∀ i, k1 ≤ i → i < n → F1 (i * n + k1) = 0) := by
  rw [lu_decomposition_eq]
  have hp0 : ∀ i, i < n → forUp (fun k p => Function.update p k k) 0 n piv0 i = i := by
    intro i hi
    rw [pivot_init, if_pos hi]
  exact lu_loop_spec A n n 0 A _ (by omega) (LUInv_init A _ n hp0) (permOn_id _ n hp0)
    (fun t ht => absurd ht (by omega))

theorem lu_determinant_spec (F : Nat → α) (n : Nat) (hn : 0 < n) :
    lu_determinant F n n = ∏ i : Fin n, F (i.val * n + i.val) := by
  unfold lu_determinant
  simp only
  rw [strideCount_diag n hn, Fin.prod_univ_eq_prod_range (fun i => F (i * n + i)) n]
  have aux : ∀ c, forUp (fun t result => result * F (n + 1 + t * (n + 1))) 0 c (F 0) =
      ∏ i in Finset.range (c + 1), F (i * n + i) := by
    intro c
    induction c with
    | zero => simp [forUp]
    | succ c ih =>
      rw [forUp_succ, ih, Finset.prod_range_succ _ (c + 1), Nat.zero_add]
      congr 2
      ring
  rw [aux]
  congr 2
  omega

end

section

variable {α : Type} [LinearOrderedField α]

theorem add_one_eq_one_iff (d : α) : d + 1 = 1 ↔ d = 0 := by
  constructor
  · intro h; linarith
  · intro h; rw [h, zero_add]

theorem determinant_2_2_eq_det {R : Type} [CommRing R] (iter : Nat → R) :
    determinant_2_2 iter = (rowMajor iter 2 2).det := by
  simp [Matrix.det_fin_two, rowMajor, determinant_2_2]

theorem determinant_3_3_eq_det {R : Type} [CommRing R] (iter : Nat → R) :
    determinant_3_3 iter = (rowMajor iter 3 3).det := by
  simp [Matrix.det_fin_three, rowMajor, determinant_3_3]
  ring

theorem determinant_4_4_eq_det {R : Type} [CommRing R] (iter : Nat → R) :
    determinant_4_4 iter = (rowMajor iter 4 4).det := by
  rw [Matrix.det_succ_row_zero]
  simp [Fin.sum_univ_succ, Matrix.det_fin_three, rowMajor, determinant_4_4, Fin.succAbove, Fin.lt_def]
  ring

/-- A matrix times its scaled adjugate is the identity. -/
theorem mul_inv_det_smul_adjugate {n : Nat} (M : Matrix (Fin n) (Fin n) α) (h : M.det ≠ 0) :
    M * (M.det⁻¹ • M.adjugate) = 1 := by
  rw [Matrix.mul_smul, Matrix.mul_adjugate, smul_smul, inv_mul_cancel₀ h, one_smul]

theorem inverse_2_2_val (iter : Nat → α) (h : (rowMajor iter 2 2).det ≠ 0) :
    (inverse_2_2 iter).1 = true ∧
    rowMajor (inverse_2_2 iter).2 2 2 = (rowMajor iter 2 2).det⁻¹ • (rowMajor iter 2 2).adjugate := by
  rw [← determinant_2_2_eq_det] at h ⊢
  have h1 : ¬ (determinant_2_2 iter + 1 = 1) := fun e => h ((add_one_eq_one_iff _).mp e)
  unfold inverse_2_2
  simp only [if_neg h1, true_and]
  ext i j
  fin_cases i <;> fin_cases j <;>
    simp [rowMajor, Matrix.adjugate_fin_two, swapAt, Function.update_apply, div_eq_inv_mul] <;> ring

theorem inverse_2_2_out_val (iter out : Nat → α) (h : (rowMajor iter 2 2).det ≠ 0) :
    (inverse_2_2_out iter out).1 = true ∧
    rowMajor (inverse_2_2_out iter out).2 2 2 =
      (rowMajor iter 2 2).det⁻¹ • (rowMajor iter 2 2).adjugate := by
  rw [← determinant_2_2_eq_det] at h ⊢
  have h1 : ¬ (determinant_2_2 iter + 1 = 1) := fun e => h ((add_one_eq_one_iff _).mp e)
  unfold inverse_2_2_out
  simp only [if_neg h1, true_and]
  ext i j
  fin_cases i <;> fin_cases j <;>
    simp [rowMajor, Matrix.adjugate_fin_two, Function.update_apply, div_eq_inv_mul]

theorem inverse_3_3_val (iter : Nat → α) (h : (rowMajor iter 3 3).det ≠ 0) :
    (inverse_3_3 iter).1 = true ∧
    rowMajor (inverse_3_3 iter).2 3 3 = (rowMajor iter 3 3).det⁻¹ • (rowMajor iter 3 3).adjugate := by
  rw [← determinant_3_3_eq_det] at h ⊢
  have h1 : ¬ (determinant_3_3 iter + 1 = 1) := fun e => h ((add_one_eq_one_iff _).mp e)
  unfold inverse_3_3
  simp only [if_neg h1, true_and]
  ext i j
  fin_cases i <;> fin_cases j <;>
    simp [rowMajor, Matrix.adjugate_fin_three, forUp, cofactors_3_3, ofList, Function.update_apply,
      div_eq_inv_mul] <;> first | ring1 | (left; ring1)

theorem inverse_3_3_out_val (iter out : Nat → α) (h : (rowMajor iter 3 3).det ≠ 0) :
    (inverse_3_3_out iter out).1 = true ∧
    rowMajor (inverse_3_3_out iter out).2 3 3 =
      (rowMajor iter 3 3).det⁻¹ • (rowMajor iter 3 3).adjugate := by
  rw [← determinant_3_3_eq_det] at h ⊢
  have h1 : ¬ (determinant_3_3 iter + 1 = 1) := fun e => h ((add_one_eq_one_iff _).mp e)
  unfold inverse_3_3_out
  simp only [if_neg h1, true_and]
  ext i j
  fin_cases i <;> fin_cases j <;>
    simp [rowMajor, Matrix.adjugate_fin_three, forUp, cofactors_3_3, ofList, Function.update_apply,
      div_eq_inv_mul] <;> first | ring1 | (left; ring1)

end

section

variable {α : Type} [LinearOrderedField α]

/-- The sample matrix `[[4,3],[6,3]]` is factored successfully. -/
theorem lu_sample_ok :
    (lu_decomposition (ofList [4, 3, 6, 3] : Nat → ℚ) (fun _ => 0) 2 2).1 = true := by
  norm_num [lu_decomposition, lu_loop, lu_pivot_search, forUp, ofList, lu_reduce,
    lu_reduce_row, strideCount, vec_swap, swapAt, Function.update]

/-- On a packed factorisation of `A` (final invariant, non-zero diagonal), `lu_solve` returns
`true` and solves `A * x = b`. -/
theorem lu_solve_mulVec (A F : Nat → α) (p : Nat → Nat) (b x0 : Nat → α) (n : Nat)
    (hn : 1 ≤ n) (hinv : LUInv A F p n n) (hperm : PermOn p n)
    (hd : ∀ t, t < n → F (t * n + t) ≠ 0) :
    (lu_solve F p b x0 n n).1 = true ∧
    (rowMajor A n n).mulVec (vecOf (lu_solve F p b x0 n n).2 n) = vecOf b n := by
  obtain ⟨h1, h2⟩ := lu_solve_spec F p b x0 n hn hd
  refine ⟨h1, ?_⟩
  funext r
  obtain ⟨i, hi, hpi⟩ := hperm.surj r.val r.2
  have h3 := congrFun h2 ⟨i, hi⟩
  simp only [Matrix.mulVec, Matrix.dotProduct] at h3 ⊢
  rw [hpi] at h3
  have hb : vecOf b n r = b r.val := rfl
  rw [hb, ← h3]
  apply Finset.sum_congr rfl
  intro j _
  rw [LUInv_final A _ _ n hinv ⟨i, hi⟩ j]
  simp only [rowMajor, hpi]

/-- C1. LU solve correctness: once `lu_decomposition` has returned `true` on a copy of the
`n × n` matrix `A` (`n ≥ 1`), `lu_solve` on the factored buffer and the pivot vector returns
`true` for every right-hand side `b`, and the `x` it writes satisfies `A * x = b`. -/
theorem lu_solve_correct (A : Nat → α) (piv0 : Nat → Nat) (b x0 : Nat → α) (n : Nat)
    (hn : 1 ≤ n) (hlu : (lu_decomposition A piv0 n n).1 = true) :
    (lu_solve (lu_decomposition A piv0 n n).2.1 (lu_decomposition A piv0 n n).2.2 b x0 n n).1 = true ∧
    (rowMajor A n n).mulVec
      (vecOf (lu_solve (lu_decomposition A piv0 n n).2.1 (lu_decomposition A piv0 n n).2.2 b x0 n n).2 n)
      = vecOf b n := by
  have hspec := lu_decomposition_spec A piv0 n
  obtain ⟨hinv, hperm, hd⟩ := hspec.1 hlu
  have hsolve := lu_solve_mulVec A (lu_decomposition A piv0 n n).2.1
    (lu_decomposition A piv0 n n).2.2 b x0 n hn hinv hperm hd
  exact ⟨hsolve.1, hsolve.2⟩

/-- C2. When `lu_decomposition` returns `true` on a square matrix, `pivot` is a permutation of
`0 .. n-1`, and the buffer packs a unit lower-triangular `L` (strictly below the diagonal) and an
upper-triangular `U` (on and above the diagonal) with `(L * U)[i][j] = A[pivot[i]][j]`. -/
theorem lu_decomposition_factors (A : Nat → α) (piv0 : Nat → Nat) (n : Nat)
    (hlu : (lu_decomposition A piv0 n n).1 = true) :
    PermOn (lu_decomposition A piv0 n n).2.2 n ∧
    ∃ L U : Matrix (Fin n) (Fin n) α,
      (∀ i j : Fin n, j < i → L i j = (lu_decomposition A piv0 n n).2.1 (i.val * n + j.val)) ∧
      (∀ i : Fin n, L i i = 1) ∧ (∀ i j : Fin n, i < j → L i j = 0) ∧
      (∀ i j : Fin n, i ≤ j → U i j = (lu_decomposition A piv0 n n).2.1 (i.val * n + j.val)) ∧
      (∀ i j : Fin n, j < i → U i j = 0) ∧
      ∀ i j : Fin n, (L * U) i j = A ((lu_decomposition A piv0 n n).2.2 i.val * n + j.val) := by
  obtain ⟨hinv, hperm, _⟩ := (lu_decomposition_spec A piv0 n).1 hlu
  refine ⟨hperm, luL _ n, luU _ n, ?_, ?_, ?_, ?_, ?_, LUInv_final A _ _ n hinv⟩
  · intro i j hij
    have : j.val < i.val := hij
    simp [luL, this]
  · intro i
    simp [luL]
  · intro i j hij
    have : i.val < j.val := hij
    simp only [luL]
    rw [if_neg (by omega), if_neg (by omega)]
  · intro i j hij
    have : i.val ≤ j.val := hij
    simp [luU, this]
  · intro i j hij
    have : j.val < i.val := hij
    simp only [luU]
    rw [if_neg (by omega)]

/-- C3. `lu_decomposition` returns `false` exactly when the square input matrix is singular,
and exactly when, for some step `k`, the first `k` steps succeed and every entry `A[i][k]`,
`i ≥ k`, of the partially reduced matrix is zero. -/
theorem lu_decomposition_false_iff (A : Nat → α) (piv0 : Nat → Nat) (n : Nat) :
    ((lu_decomposition A piv0 n n).1 = false ↔ (rowMajor A n n).det = 0) ∧
    ((lu_decomposition A piv0 n n).1 = false ↔
      ∃ k, k < n ∧
        (lu_loop n n (n * n) k 0 A (forUp (fun k p => Function.update p k k) 0 n piv0)).1 = true ∧
        ∀ i, k ≤ i → i < n →
          (lu_loop n n (n * n) k 0 A (forUp (fun k p => Function.update p k k) 0 n piv0)).2.1
            (i * n + k) = 0) := by
  constructor
  · constructor
    · intro h
      obtain ⟨k1, F1, p1, hk1, hinv, hperm, hz⟩ := (lu_decomposition_spec A piv0 n).2 h
      exact det_eq_zero_of_LUInv A F1 p1 n k1 hk1 hinv hperm hz
    · intro h
      by_contra hne
      have ht : (lu_decomposition A piv0 n n).1 = true := by
        simpa using hne
      obtain ⟨hinv, hperm, hd⟩ := (lu_decomposition_spec A piv0 n).1 ht
      exact det_ne_zero_of_LUInv A _ _ n hinv hperm hd h
  · rw [lu_decomposition_eq, lu_loop_false_iff]
    constructor
    · rintro ⟨c, hc, h1, h2⟩
      rw [Nat.zero_add] at h2
      exact ⟨c, hc, h1, (lu_pivot_search_zero_iff _ n c hc).mp h2⟩
    · rintro ⟨c, hc, h1, h2⟩
      refine ⟨c, hc, h1, ?_⟩
      rw [Nat.zero_add]
      exact (lu_pivot_search_zero_iff _ n c hc).mpr h2

/-- C8. After a successful `lu_decomposition` of a square matrix (`n ≥ 1`), `lu_determinant` of
the factored buffer, the plain product of the diagonal, equals `sign(pivot permutation) * det A`,
where the sign is `(-1)` to the number of row swaps performed: it has the absolute value of the
determinant always, and its value exactly after an even number of row swaps; for 2x2, 3x3 and
4x4 the determinant is the closed form, and for `[[4,3],[6,3]]` it returns `6` while
`determinant` returns `-6`. -/
theorem lu_determinant_eq (A : Nat → α) (piv0 : Nat → Nat) (n : Nat) (hn : 1 ≤ n)
    (hlu : (lu_decomposition A piv0 n n).1 = true) :
    (∃ σ : Equiv.Perm (Fin n), (∀ i : Fin n, (σ i).val = (lu_decomposition A piv0 n n).2.2 i.val) ∧
      Equiv.Perm.sign σ = (-1) ^ lu_swap_count n n (n * n) n 0 A ∧
      lu_determinant (lu_decomposition A piv0 n n).2.1 n n =
        ((Equiv.Perm.sign σ : ℤ) : α) * (rowMajor A n n).det) ∧
    (lu_determinant (lu_decomposition A piv0 n n).2.1 n n = (rowMajor A n n).det ↔
      Even (lu_swap_count n n (n * n) n 0 A)) ∧
    |lu_determinant (lu_decomposition A piv0 n n).2.1 n n| = |(rowMajor A n n).det| ∧
    (n = 2 → |lu_determinant (lu_decomposition A piv0 n n).2.1 n n| = |determinant_2_2 A|) ∧
    (n = 3 → |lu_determinant (lu_decomposition A piv0 n n).2.1 n n| = |determinant_3_3 A|) ∧
    (n = 4 → |lu_determinant (lu_decomposition A piv0 n n).2.1 n n| = |determinant_4_4 A|) ∧
    lu_determinant (lu_decomposition (ofList [4, 3, 6, 3] : Nat → ℚ) (fun _ => 0) 2 2).2.1 2 2 = 6 ∧
    determinant_2_2 (ofList [4, 3, 6, 3] : Nat → ℚ) = -6 := by
  obtain ⟨hinv, hperm, hd⟩ := (lu_decomposition_spec A piv0 n).1 hlu
  obtain ⟨σ, hσ⟩ := hperm.exists_perm
  have e : luL (lu_decomposition A piv0 n n).2.1 n * luU (lu_decomposition A piv0 n n).2.1 n =
      (rowMajor A n n).submatrix σ id := by
    ext i j
    rw [LUInv_final A _ _ n hinv i j, ← hσ]
    rfl
  have e2 := congrArg Matrix.det e
  rw [Matrix.det_mul, det_luL, det_luU, Matrix.det_permute, one_mul,
    ← lu_determinant_spec _ n hn] at e2
  have hdet : (rowMajor A n n).det ≠ 0 := det_ne_zero_of_LUInv A _ _ n hinv hperm hd
  have hp0 : ∀ i, i < n → forUp (fun k p => Function.update p k k) 0 n piv0 i = i := by
    intro i hi
    rw [pivot_init, if_pos hi]
  have hsign : Equiv.Perm.sign σ = (-1) ^ lu_swap_count n n (n * n) n 0 A := by
    have h := lu_loop_sign A n n 0 A _ (by omega) (LUInv_init A _ n hp0) (permOn_id _ n hp0)
      (fun t ht => absurd ht (by omega)) hlu 1 σ (fun i => by
        rw [Equiv.Perm.one_apply, hp0 i.val i.2]) hσ
    rw [h, Equiv.Perm.sign_one, one_mul]
  have habs : |lu_determinant (lu_decomposition A piv0 n n).2.1 n n| = |(rowMajor A n n).det| := by
    rw [e2]
    rcases Int.units_eq_one_or (Equiv.Perm.sign σ) with h | h <;> rw [h] <;> simp
  refine ⟨⟨σ, hσ, hsign, e2⟩, ?_, habs, ?_, ?_, ?_, ?_, ?_⟩
  · rw [e2, hsign]
    rcases Nat.even_or_odd (lu_swap_count n n (n * n) n 0 A) with h | h
    · rw [Even.neg_one_pow h]
      simp [h]
    · rw [Odd.neg_one_pow h]
      constructor
      · intro h1
        exfalso
        apply hdet
        have h2 : -(rowMajor A n n).det = (rowMajor A n n).det := by simpa using h1
        linarith
      · intro h1
        exact absurd h1 (Nat.not_even_iff_odd.mpr h)
  · intro h2
    subst h2
    rw [habs, determinant_2_2_eq_det]
  · intro h3
    subst h3
    rw [habs, determinant_3_3_eq_det]
  · intro h4
    subst h4
    rw [habs, determinant_4_4_eq_det]
  · norm_num [lu_determinant, lu_decomposition, lu_loop, lu_pivot_search, forUp, ofList, lu_reduce,
      lu_reduce_row, strideCount, vec_swap, swapAt, Function.update]
  · norm_num [determinant_2_2, ofList]

theorem lu_solve_correct_witness :
    (1 ≤ 2 ∧ (lu_decomposition (ofList [4, 3, 6, 3] : Nat → ℚ) (fun _ => 0) 2 2).1 = true) ∧
    ((lu_solve (lu_decomposition (ofList [4, 3, 6, 3] : Nat → ℚ) (fun _ => 0) 2 2).2.1
        (lu_decomposition (ofList [4, 3, 6, 3] : Nat → ℚ) (fun _ => 0) 2 2).2.2
        (ofList [1, 2]) (fun _ => 0) 2 2).1 = true ∧
    (rowMajor (ofList [4, 3, 6, 3] : Nat → ℚ) 2 2).mulVec
      (vecOf (lu_solve (lu_decomposition (ofList [4, 3, 6, 3] : Nat → ℚ) (fun _ => 0) 2 2).2.1
        (lu_decomposition (ofList [4, 3, 6, 3] : Nat → ℚ) (fun _ => 0) 2 2).2.2
        (ofList [1, 2]) (fun _ => 0) 2 2).2 2)
      = vecOf (ofList [1, 2]) 2) :=
  ⟨⟨by decide, lu_sample_ok⟩,
    lu_solve_correct (ofList [4, 3, 6, 3]) (fun _ => 0) (ofList [1, 2]) (fun _ => 0) 2 (by decide)
      lu_sample_ok⟩

end

section

variable {α : Type} [LinearOrderedField α]

/-- The back substitution never writes at or above its starting index. -/
theorem lu_back_frame (F : Nat → α) (c ms rows : Nat) :
    ∀ (K : Nat) (X : Nat → α) (i : Nat), K ≤ i → (lu_back F c ms rows K X).2 i = X i := by
  intro K
  induction K with
  | zero => intro X i _; rfl
  | succ K ih =>
    intro X i hi
    rw [lu_back_succ]
    split_ifs with h
    · rfl
    · rw [ih _ i (by omega), lu_back_col_spec, if_neg (by omega), Function.update_apply,
        if_neg (by omega)]

/-- The forward substitution never writes at or above index `n`. -/
theorem lu_forward_frame (F : Nat → α) (n : Nat) (x : Nat → α) (K : Nat) (hK : K ≤ n)
    (m : Nat) (hm : n ≤ m) : forUp (lu_forward_col F n (n * n)) 0 K x m = x m := by
  induction K with
  | zero => rfl
  | succ K ih =>
    rw [forUp_succ, Nat.zero_add, lu_forward_col_spec F n K (by omega), if_neg (by omega),
      ih (by omega)]

/-- A column that starts from a zero entry leaves the vector unchanged. -/
theorem lu_forward_col_zero (F : Nat → α) (n k : Nat) (hk : k < n) (x : Nat → α) (h0 : x k = 0) :
    lu_forward_col F n (n * n) k x = x := by
  funext m
  rw [lu_forward_col_spec F n k hk, h0]
  split_ifs <;> simp

/-- The variant `x[m] -= A[i]` of the column loop used when `x[k] = 1` has just been set. -/
theorem inverse_first_col_spec (A : Nat → α) (n k : Nat) (hk : k < n) (x : Nat → α) (m : Nat) :
    forUp (fun t x => Function.update x (k + 1 + t) (x (k + 1 + t) - A (k * n + n + k + t * n)))
      0 (strideCount (k * n + n + k) (n * n) n) x m =
      if k < m ∧ m < n then x m - A (m * n + k) else x m := by
  have e1 : k * n + n + k = (k + 1) * n + k := by ring
  have e2 : strideCount (k * n + n + k) (n * n) n = n - (k + 1) := by
    rw [e1]
    exact strideCount_mul_add n (k + 1) n k hk
  rw [e2]
  have aux : ∀ (cnt : Nat) (m : Nat),
      forUp (fun t x => Function.update x (k + 1 + t) (x (k + 1 + t) - A (k * n + n + k + t * n)))
        0 cnt x m = if k < m ∧ m < k + 1 + cnt then x m - A (m * n + k) else x m := by
    intro cnt
    induction cnt with
    | zero =>
      intro m
      rw [forUp_zero, if_neg (by omega)]
    | succ cnt ih =>
      intro m
      rw [forUp_succ, Function.update_apply, Nat.zero_add]
      by_cases hm : m = k + 1 + cnt
      · subst hm
        rw [if_pos rfl, ih, if_neg (by omega), if_pos (by omega)]
        congr 2
        ring_nf
      · rw [if_neg hm, ih]
        by_cases h : k < m ∧ m < k + 1 + cnt
        · rw [if_pos h, if_pos (by omega)]
        · rw [if_neg h, if_neg (by omega)]
  rw [aux]
  have e3 : k + 1 + (n - (k + 1)) = n := by omega
  rw [e3]

/-- The forward substitution of `inverse` for column `col` is the forward substitution of
`lu_solve` for the right-hand side `e_col`. -/
theorem inverse_forward_eq (F : Nat → α) (piv : Nat → Nat) (n col : Nat)
    (hperm : PermOn piv n) (k0 : Nat) (hk0 : k0 < n) (hpk : piv k0 = col) (K : Nat) (hK : K ≤ n) :
    forUp (inverse_forward_step F piv n (n * n) col) 0 K (false, fun _ => 0) =
      if K ≤ k0 then (false, fun _ => 0)
      else (true, forUp (lu_forward_col F n (n * n)) 0 K (fun m => if m = k0 then 1 else 0)) := by
  induction K with
  | zero => simp [forUp]
  | succ K ih =>
    have hKn : K < n := by omega
    rw [forUp_succ, ih (by omega), Nat.zero_add]
    have hpre : ∀ c, c ≤ k0 →
        forUp (lu_forward_col F n (n * n)) 0 c (fun m => if m = k0 then (1 : α) else 0) =
          (fun m => if m = k0 then 1 else 0) := by
      intro c
      induction c with
      | zero => intro _; rfl
      | succ c ihc =>
        intro hc
        rw [forUp_succ, ihc (by omega), Nat.zero_add]
        exact lu_forward_col_zero F n c (by omega) _ (if_neg (by omega))
    rcases Nat.lt_trichotomy K k0 with h | h | h
    · have hne : piv K ≠ col := by
        intro e
        have := hperm.2 K k0 hKn hk0 (e.trans hpk.symm)
        omega
      rw [if_pos (by omega), if_pos (by omega)]
      unfold inverse_forward_step
      simp [hne]
    · subst h
      rw [if_pos (le_refl _), if_neg (by omega)]
      unfold inverse_forward_step
      simp only [Bool.false_eq_true, if_false, hpk, ne_eq, not_true_eq_false]
      congr 1
      rw [forUp_succ, hpre K (le_refl _), Nat.zero_add]
      funext m
      rw [inverse_first_col_spec F n K hKn, lu_forward_col_spec F n K hKn]
      simp only [Function.update_apply, if_true]
      by_cases hm : K < m ∧ m < n
      · rw [if_pos hm, if_pos hm, if_neg (by omega), one_mul]
      · rw [if_neg hm, if_neg hm]
    · rw [if_neg (by omega), if_neg (by omega)]
      unfold inverse_forward_step
      simp only [if_true]
      rw [forUp_succ, Nat.zero_add]
      rfl

/-- Writing a vector into column `col` of a row-major buffer. -/
theorem write_col_spec {R : Type} (v : Nat → R) (n col : Nat) (hcol : col < n) (B : Nat → R)
    (c : Nat) : ∀ i j, j < n →
    forUp (fun row B => Function.update B (col + row * n) (v row)) 0 c B (i * n + j) =
      if i < c ∧ j = col then v i else B (i * n + j) := by
  induction c with
  | zero =>
    intro i j _
    rw [forUp_zero, if_neg (by omega)]
  | succ c ih =>
    intro i j hj
    rw [forUp_succ, Function.update_apply, Nat.zero_add, ih i j hj, Nat.add_comm col (c * n)]
    simp only [idx_inj hj hcol]
    by_cases h : i = c ∧ j = col
    · rw [if_pos h, if_pos ⟨by omega, h.2⟩, h.1]
    · rw [if_neg h]
      by_cases h2 : i < c ∧ j = col
      · rw [if_pos h2, if_pos ⟨by omega, h2.2⟩]
      · rw [if_neg h2, if_neg (by omega)]

theorem fill_zero_spec {R : Type} [Zero R] (x : Nat → R) (n : Nat) :
    ∀ i, forUp (fun i x => Function.update x i 0) 0 n x i = if i < n then 0 else x i := by
  induction n with
  | zero => intro i; simp [forUp]
  | succ n ih =>
    intro i
    rw [forUp_succ, Function.update_apply, ih, Nat.zero_add]
    by_cases h : i = n
    · subst h
      simp
    · rw [if_neg h]
      by_cases h2 : i < n
      · rw [if_pos h2, if_pos (by omega)]
      · rw [if_neg h2, if_neg (by omega)]

/-- One pass of the column loop of `inverse` is a call of `lu_solve` for `e_col`. -/
theorem inverse_col_spec (F : Nat → α) (piv : Nat → Nat) (n col : Nat) (hn : 0 < n)
    (hcol : col < n) (hperm : PermOn piv n) (B : Nat → α) :
    inverse_col F piv n (n * n) col (true, B, fun _ => 0) =
      ((lu_solve F piv (fun r => if r = col then 1 else 0) (fun _ => 0) n n).1,
        forUp (fun row B => Function.update B (col + row * n)
          ((lu_solve F piv (fun r => if r = col then 1 else 0) (fun _ => 0) n n).2 row)) 0 n B,
        fun _ => 0) := by
  obtain ⟨k0, hk0, hpk⟩ := hperm.surj col hcol
  have ec : strideCount 0 (n * n) n = n := by
    have := strideCount_mul n 0 n hn
    simpa using this
  have hx0 : forUp (fun i x => Function.update x i (if piv i = col then (1 : α) else 0))
      0 n (fun _ => 0) = (fun m => if m = k0 then 1 else 0) := by
    funext m
    have hl := load_rhs (fun r => if r = col then (1 : α) else 0) (fun _ => (0 : α)) piv n m
    simp only at hl
    rw [hl]
    by_cases hm : m < n
    · rw [if_pos hm]
      by_cases h1 : m = k0
      · rw [if_pos h1, h1, hpk, if_pos rfl]
      · rw [if_neg h1, if_neg]
        intro e
        exact h1 (hperm.2 m k0 hm hk0 (e.trans hpk.symm))
    · rw [if_neg hm, if_neg (by omega)]
  have hfw : (forUp (inverse_forward_step F piv n (n * n) col) 0 n (false, fun _ => 0)).2 =
      lu_forward F n (n * n) (fun m => if m = k0 then 1 else 0) := by
    rw [inverse_forward_eq F piv n col hperm k0 hk0 hpk n (le_refl _), if_neg (by omega)]
    unfold lu_forward
    rw [ec]
  have hsolve : lu_solve F piv (fun r => if r = col then 1 else 0) (fun _ => 0) n n =
      lu_back F n (n * n) n n (lu_forward F n (n * n) (fun m => if m = k0 then 1 else 0)) := by
    unfold lu_solve
    simp only
    rw [hx0]
  unfold inverse_col
  simp only [Bool.true_eq_false, if_false, ec, hfw, ← hsolve]
  congr 2
  funext i
  rw [fill_zero_spec]
  by_cases hi : i < n
  · rw [if_pos hi]
  · rw [if_neg hi, hsolve, lu_back_frame F n (n * n) n n _ i (by omega)]
    unfold lu_forward
    rw [ec, lu_forward_frame F n _ n (le_refl _) i (by omega), if_neg (by omega)]

end

section

variable {α : Type} [LinearOrderedField α]

/-- State of the column loop of `inverse` after `c` columns. -/
theorem inverse_loop_spec (A F : Nat → α) (p : Nat → Nat) (n : Nat) (hn : 1 ≤ n)
    (hinv : LUInv A F p n n) (hperm : PermOn p n) (hd : ∀ t, t < n → F (t * n + t) ≠ 0)
    (A_ : Nat → α) (c : Nat) (hc : c ≤ n) :
    ∃ B : Nat → α,
      forUp (inverse_col F p n (n * n)) 0 c (true, A_, fun _ => 0) = (true, B, fun _ => 0) ∧
      ∀ i j, i < n → j < n → B (i * n + j) =
        if j < c then (lu_solve F p (fun r => if r = j then 1 else 0) (fun _ => 0) n n).2 i
        else A_ (i * n + j) := by
  induction c with
  | zero =>
    exact ⟨A_, rfl, fun i j _ _ => by rw [if_neg (by omega)]⟩
  | succ c ih =>
    obtain ⟨B, hB, hBv⟩ := ih (by omega)
    have hcn : c < n := by omega
    have hs := lu_solve_mulVec A F p (fun r => if r = c then 1 else 0) (fun _ => 0) n hn hinv hperm hd
    refine ⟨forUp (fun row B => Function.update B (c + row * n)
      ((lu_solve F p (fun r => if r = c then 1 else 0) (fun _ => 0) n n).2 row)) 0 n B, ?_, ?_⟩
    · rw [forUp_succ, hB, Nat.zero_add, inverse_col_spec F p n c hn hcn hperm B, hs.1]
    · intro i j hi hj
      rw [write_col_spec _ n c hcn B n i j hj]
      by_cases h : j = c
      · rw [if_pos ⟨hi, h⟩, if_pos (by omega), h]
      · rw [if_neg (fun hh => h hh.2), hBv i j hi hj]
        by_cases h2 : j < c
        · rw [if_pos h2, if_pos (by omega)]
        · rw [if_neg h2, if_neg (by omega)]

theorem inverse_of_lu_false (A : Nat → α) (n : Nat)
    (h : (lu_decomposition A (fun _ => 0) n n).1 = false) : inverse A n n = (false, A) := by
  unfold inverse
  simp only [h, if_true]

/-- When the factorisation succeeds, `inverse` returns `true` and leaves the matrix inverse. -/
theorem inverse_of_lu_true (A : Nat → α) (n : Nat) (hn : 1 ≤ n)
    (h : (lu_decomposition A (fun _ => 0) n n).1 = true) :
    (inverse A n n).1 = true ∧ rowMajor A n n * rowMajor (inverse A n n).2 n n = 1 := by
  obtain ⟨hinv, hperm, hd⟩ := (lu_decomposition_spec A (fun _ => 0) n).1 h
  obtain ⟨B, hB, hBv⟩ := inverse_loop_spec A _ _ n hn hinv hperm hd A n (le_refl _)
  have e : inverse A n n = (true, B) := by
    unfold inverse
    simp only [h, Bool.true_eq_false, if_false, hB]
  rw [e]
  refine ⟨rfl, ?_⟩
  ext i j
  have hs := lu_solve_mulVec A _ _ (fun r => if r = j.val then 1 else 0) (fun _ => 0) n hn
    hinv hperm hd
  have h2 := congrFun hs.2 i
  simp only [Matrix.mulVec, Matrix.dotProduct, vecOf] at h2
  rw [Matrix.mul_apply, Matrix.one_apply]
  have e2 : ∀ t : Fin n, rowMajor A n n i t * rowMajor B n n t j =
      rowMajor A n n i t * (lu_solve (lu_decomposition A (fun _ => 0) n n).2.1
        (lu_decomposition A (fun _ => 0) n n).2.2 (fun r => if r = j.val then 1 else 0)
        (fun _ => 0) n n).2 t.val := by
    intro t
    congr 1
    show B (t.val * n + j.val) = _
    rw [hBv t.val j.val t.2 j.2, if_pos j.2]
  rw [Finset.sum_congr rfl (fun t _ => e2 t), h2]
  by_cases hij : i = j
  · rw [if_pos hij, if_pos (congrArg Fin.val hij)]
  · rw [if_neg hij, if_neg (fun hh => hij (Fin.ext hh))]

/-- The inverse of the inverse is the matrix itself. -/
theorem inverse_roundtrip {n : Nat} (MA MB MC : Matrix (Fin n) (Fin n) α)
    (h1 : MA * MB = 1) (h2 : MB * MC = 1) : MC = MA := by
  calc MC = (MA * MB) * MC := by rw [h1, Matrix.one_mul]
    _ = MA * (MB * MC) := Matrix.mul_assoc _ _ _
    _ = MA := by rw [h2, Matrix.mul_one]

theorem det_ne_zero_of_mul_eq_one {n : Nat} (MA MB : Matrix (Fin n) (Fin n) α)
    (h1 : MA * MB = 1) : MA.det ≠ 0 ∧ MB.det ≠ 0 := by
  have h := congrArg Matrix.det h1
  rw [Matrix.det_mul, Matrix.det_one] at h
  constructor
  · intro h0
    rw [h0, zero_mul] at h
    exact zero_ne_one h
  · intro h0
    rw [h0, mul_zero] at h
    exact zero_ne_one h

theorem lu_true_of_det_ne_zero (A : Nat → α) (piv0 : Nat → Nat) (n : Nat)
    (h : (rowMajor A n n).det ≠ 0) : (lu_decomposition A piv0 n n).1 = true := by
  by_contra hne
  have hf : (lu_decomposition A piv0 n n).1 = false := by simpa using hne
  obtain ⟨k1, F1, p1, hk1, hinv, hperm, hz⟩ := (lu_decomposition_spec A piv0 n).2 hf
  exact h (det_eq_zero_of_LUInv A F1 p1 n k1 hk1 hinv hperm hz)

theorem inverse_1_1_val (iter : Nat → α) (h : (rowMajor iter 1 1).det ≠ 0) :
    (inverse_1_1 iter).1 = true ∧ rowMajor iter 1 1 * rowMajor (inverse_1_1 iter).2 1 1 = 1 := by
  have h0 : iter 0 ≠ 0 := by
    simpa [Matrix.det_unique, rowMajor] using h
  have h1 : ¬ (iter 0 + 1 = 1) := fun e => h0 ((add_one_eq_one_iff _).mp e)
  unfold inverse_1_1
  simp only [if_neg h1, true_and]
  ext i j
  fin_cases i
  fin_cases j
  simp [rowMajor, Matrix.mul_apply, h0]

end

section

variable {α : Type} [LinearOrderedField α]

theorem sample_2_2_det : (rowMajor (ofList [4, 3, 6, 3] : Nat → ℚ) 2 2).det ≠ 0 := by
  rw [← determinant_2_2_eq_det]
  norm_num [determinant_2_2, ofList]

theorem sample_3_3_det : (rowMajor (ofList [8, 1, 3, 7, 0, 2, 12, 3, 2] : Nat → ℚ) 3 3).det ≠ 0 := by
  rw [← determinant_3_3_eq_det]
  norm_num [determinant_3_3, ofList]

theorem sample_1_1_det : (rowMajor (ofList [2] : Nat → ℚ) 1 1).det ≠ 0 := by
  simp [Matrix.det_unique, rowMajor, ofList]

/-- C4. For `n ≥ 1` the LU-based `inverse(A, dim)` returns `true` exactly when the `n × n`
matrix `A` is non-singular, and then the buffer `B` it leaves satisfies `A * B = I`. -/
theorem inverse_correct (A : Nat → α) (n : Nat) (hn : 1 ≤ n) :
    ((inverse A n n).1 = true ↔ (rowMajor A n n).det ≠ 0) ∧
    ((inverse A n n).1 = true → rowMajor A n n * rowMajor (inverse A n n).2 n n = 1) := by
  have key : (inverse A n n).1 = true →
      rowMajor A n n * rowMajor (inverse A n n).2 n n = 1 := by
    intro h
    by_cases hlu : (lu_decomposition A (fun _ => 0) n n).1 = true
    · exact (inverse_of_lu_true A n hn hlu).2
    · have hf : (lu_decomposition A (fun _ => 0) n n).1 = false := by simpa using hlu
      rw [inverse_of_lu_false A n hf] at h
      exact absurd h (by simp)
  refine ⟨⟨fun h => (det_ne_zero_of_mul_eq_one _ _ (key h)).1, fun h => ?_⟩, key⟩
  exact (inverse_of_lu_true A n hn (lu_true_of_det_ne_zero A _ n h)).1

theorem inverse_correct_witness :
    1 ≤ 2 ∧
    (((inverse (ofList [4, 3, 6, 3] : Nat → ℚ) 2 2).1 = true ↔
        (rowMajor (ofList [4, 3, 6, 3] : Nat → ℚ) 2 2).det ≠ 0) ∧
      ((inverse (ofList [4, 3, 6, 3] : Nat → ℚ) 2 2).1 = true →
        rowMajor (ofList [4, 3, 6, 3] : Nat → ℚ) 2 2 *
          rowMajor (inverse (ofList [4, 3, 6, 3] : Nat → ℚ) 2 2).2 2 2 = 1)) :=
  ⟨by decide, inverse_correct (ofList [4, 3, 6, 3]) 2 (by decide)⟩

/-- C5. For a non-singular matrix, applying `inverse` twice returns `true` both times and
restores the original entries: through the closed forms for 1x1, 2x2 and 3x3, and through
the LU-based overload for every `n ≥ 1`. -/
theorem inverse_inverse (A1 A2 A3 A : Nat → α) (n : Nat) (hn : 1 ≤ n)
    (h1 : (rowMajor A1 1 1).det ≠ 0) (h2 : (rowMajor A2 2 2).det ≠ 0)
    (h3 : (rowMajor A3 3 3).det ≠ 0) (hA : (rowMajor A n n).det ≠ 0) :
    ((inverse_1_1 A1).1 = true ∧ (inverse_1_1 (inverse_1_1 A1).2).1 = true ∧
      rowMajor (inverse_1_1 (inverse_1_1 A1).2).2 1 1 = rowMajor A1 1 1) ∧
    ((inverse_2_2 A2).1 = true ∧ (inverse_2_2 (inverse_2_2 A2).2).1 = true ∧
      rowMajor (inverse_2_2 (inverse_2_2 A2).2).2 2 2 = rowMajor A2 2 2) ∧
    ((inverse_3_3 A3).1 = true ∧ (inverse_3_3 (inverse_3_3 A3).2).1 = true ∧
      rowMajor (inverse_3_3 (inverse_3_3 A3).2).2 3 3 = rowMajor A3 3 3) ∧
    ((inverse A n n).1 = true ∧ (inverse (inverse A n n).2 n n).1 = true ∧
      rowMajor (inverse (inverse A n n).2 n n).2 n n = rowMajor A n n) := by
  refine ⟨?_, ?_, ?_, ?_⟩
  · obtain ⟨a, b⟩ := inverse_1_1_val A1 h1
    obtain ⟨c, d⟩ := inverse_1_1_val _ (det_ne_zero_of_mul_eq_one _ _ b).2
    exact ⟨a, c, inverse_roundtrip _ _ _ b d⟩
  · obtain ⟨a, b0⟩ := inverse_2_2_val A2 h2
    have b : rowMajor A2 2 2 * rowMajor (inverse_2_2 A2).2 2 2 = 1 := by
      rw [b0]
      exact mul_inv_det_smul_adjugate _ h2
    have h2b := (det_ne_zero_of_mul_eq_one _ _ b).2
    obtain ⟨c, d0⟩ := inverse_2_2_val _ h2b
    have d : rowMajor (inverse_2_2 A2).2 2 2 * rowMajor (inverse_2_2 (inverse_2_2 A2).2).2 2 2 = 1 := by
      rw [d0]
      exact mul_inv_det_smul_adjugate _ h2b
    exact ⟨a, c, inverse_roundtrip _ _ _ b d⟩
  · obtain ⟨a, b0⟩ := inverse_3_3_val A3 h3
    have b : rowMajor A3 3 3 * rowMajor (inverse_3_3 A3).2 3 3 = 1 := by
      rw [b0]
      exact mul_inv_det_smul_adjugate _ h3
    have h3b := (det_ne_zero_of_mul_eq_one _ _ b).2
    obtain ⟨c, d0⟩ := inverse_3_3_val _ h3b
    have d : rowMajor (inverse_3_3 A3).2 3 3 * rowMajor (inverse_3_3 (inverse_3_3 A3).2).2 3 3 = 1 := by
      rw [d0]
      exact mul_inv_det_smul_adjugate _ h3b
    exact ⟨a, c, inverse_roundtrip _ _ _ b d⟩
  · obtain ⟨a, b⟩ := inverse_of_lu_true A n hn (lu_true_of_det_ne_zero A _ n hA)
    obtain ⟨c, d⟩ := inverse_of_lu_true _ n hn
      (lu_true_of_det_ne_zero _ _ n (det_ne_zero_of_mul_eq_one _ _ b).2)
    exact ⟨a, c, inverse_roundtrip _ _ _ b d⟩

theorem inverse_inverse_witness :
    (1 ≤ 2 ∧ (rowMajor (ofList [2] : Nat → ℚ) 1 1).det ≠ 0 ∧
      (rowMajor (ofList [4, 3, 6, 3] : Nat → ℚ) 2 2).det ≠ 0 ∧
      (rowMajor (ofList [8, 1, 3, 7, 0, 2, 12, 3, 2] : Nat → ℚ) 3 3).det ≠ 0) ∧
    (((inverse_1_1 (ofList [2] : Nat → ℚ)).1 = true ∧
        (inverse_1_1 (inverse_1_1 (ofList [2] : Nat → ℚ)).2).1 = true ∧
        rowMajor (inverse_1_1 (inverse_1_1 (ofList [2] : Nat → ℚ)).2).2 1 1 =
          rowMajor (ofList [2] : Nat → ℚ) 1 1) ∧
      ((inverse_2_2 (ofList [4, 3, 6, 3] : Nat → ℚ)).1 = true ∧
        (inverse_2_2 (inverse_2_2 (ofList [4, 3, 6, 3] : Nat → ℚ)).2).1 = true ∧
        rowMajor (inverse_2_2 (inverse_2_2 (ofList [4, 3, 6, 3] : Nat → ℚ)).2).2 2 2 =
          rowMajor (ofList [4, 3, 6, 3] : Nat → ℚ) 2 2) ∧
      ((inverse_3_3 (ofList [8, 1, 3, 7, 0, 2, 12, 3, 2] : Nat → ℚ)).1 = true ∧
        (inverse_3_3 (inverse_3_3 (ofList [8, 1, 3, 7, 0, 2, 12, 3, 2] : Nat → ℚ)).2).1 = true ∧
        rowMajor (inverse_3_3 (inverse_3_3 (ofList [8, 1, 3, 7, 0, 2, 12, 3, 2] : Nat → ℚ)).2).2 3 3 =
          rowMajor (ofList [8, 1, 3, 7, 0, 2, 12, 3, 2] : Nat → ℚ) 3 3) ∧
      ((inverse (ofList [4, 3, 6, 3] : Nat → ℚ) 2 2).1 = true ∧
        (inverse (inverse (ofList [4, 3, 6, 3] : Nat → ℚ) 2 2).2 2 2).1 = true ∧
        rowMajor (inverse (inverse (ofList [4, 3, 6, 3] : Nat → ℚ) 2 2).2 2 2).2 2 2 =
          rowMajor (ofList [4, 3, 6, 3] : Nat → ℚ) 2 2)) :=
  ⟨⟨by decide, sample_1_1_det, sample_2_2_det, sample_3_3_det⟩,
    inverse_inverse (ofList [2]) (ofList [4, 3, 6, 3]) (ofList [8, 1, 3, 7, 0, 2, 12, 3, 2])
      (ofList [4, 3, 6, 3]) 2 (by decide) sample_1_1_det sample_2_2_det sample_3_3_det
      sample_2_2_det⟩

/-- C6. For every 2x2 and 3x3 matrix with non-zero determinant the closed-form inverses,
in place and out of place, return `true` and produce `adj(A) / det(A)`, so that
`A * inverse(A) = I`; `[[4,3],[6,3]]` yields `[[-1/2, 1/2],[1, -2/3]]`. -/
theorem inverse_closed_form (A2 A3 out : Nat → α)
    (h2 : (rowMajor A2 2 2).det ≠ 0) (h3 : (rowMajor A3 3 3).det ≠ 0) :
    ((inverse_2_2 A2).1 = true ∧
      rowMajor (inverse_2_2 A2).2 2 2 = (rowMajor A2 2 2).det⁻¹ • (rowMajor A2 2 2).adjugate ∧
      rowMajor A2 2 2 * rowMajor (inverse_2_2 A2).2 2 2 = 1) ∧
    ((inverse_2_2_out A2 out).1 = true ∧
      rowMajor (inverse_2_2_out A2 out).2 2 2 =
        (rowMajor A2 2 2).det⁻¹ • (rowMajor A2 2 2).adjugate ∧
      rowMajor A2 2 2 * rowMajor (inverse_2_2_out A2 out).2 2 2 = 1) ∧
    ((inverse_3_3 A3).1 = true ∧
      rowMajor (inverse_3_3 A3).2 3 3 = (rowMajor A3 3 3).det⁻¹ • (rowMajor A3 3 3).adjugate ∧
      rowMajor A3 3 3 * rowMajor (inverse_3_3 A3).2 3 3 = 1) ∧
    ((inverse_3_3_out A3 out).1 = true ∧
      rowMajor (inverse_3_3_out A3 out).2 3 3 =
        (rowMajor A3 3 3).det⁻¹ • (rowMajor A3 3 3).adjugate ∧
      rowMajor A3 3 3 * rowMajor (inverse_3_3_out A3 out).2 3 3 = 1) ∧
    rowMajor (inverse_2_2 (ofList [4, 3, 6, 3] : Nat → ℚ)).2 2 2 = !![-1/2, 1/2; 1, -2/3] ∧
    rowMajor (inverse_2_2_out (ofList [4, 3, 6, 3] : Nat → ℚ) (fun _ => 0)).2 2 2 =
      !![-1/2, 1/2; 1, -2/3] := by
  refine ⟨?_, ?_, ?_, ?_, ?_, ?_⟩
  · obtain ⟨a, b⟩ := inverse_2_2_val A2 h2
    exact ⟨a, b, by rw [b]; exact mul_inv_det_smul_adjugate _ h2⟩
  · obtain ⟨a, b⟩ := inverse_2_2_out_val A2 out h2
    exact ⟨a, b, by rw [b]; exact mul_inv_det_smul_adjugate _ h2⟩
  · obtain ⟨a, b⟩ := inverse_3_3_val A3 h3
    exact ⟨a, b, by rw [b]; exact mul_inv_det_smul_adjugate _ h3⟩
  · obtain ⟨a, b⟩ := inverse_3_3_out_val A3 out h3
    exact ⟨a, b, by rw [b]; exact mul_inv_det_smul_adjugate _ h3⟩
  · ext i j
    fin_cases i <;> fin_cases j <;>
      norm_num [rowMajor, inverse_2_2, determinant_2_2, ofList, swapAt, Function.update_apply]
  · ext i j
    fin_cases i <;> fin_cases j <;>
      norm_num [rowMajor, inverse_2_2_out, determinant_2_2, ofList, Function.update_apply]

theorem inverse_closed_form_witness :
    ((rowMajor (ofList [4, 3, 6, 3] : Nat → ℚ) 2 2).det ≠ 0 ∧
      (rowMajor (ofList [8, 1, 3, 7, 0, 2, 12, 3, 2] : Nat → ℚ) 3 3).det ≠ 0) ∧
    (inverse_2_2 (ofList [4, 3, 6, 3] : Nat → ℚ)).1 = true ∧
    rowMajor (ofList [8, 1, 3, 7, 0, 2, 12, 3, 2] : Nat → ℚ) 3 3 *
      rowMajor (inverse_3_3 (ofList [8, 1, 3, 7, 0, 2, 12, 3, 2] : Nat → ℚ)).2 3 3 = 1 :=
  ⟨⟨sample_2_2_det, sample_3_3_det⟩,
    (inverse_closed_form (ofList [4, 3, 6, 3]) (ofList [8, 1, 3, 7, 0, 2, 12, 3, 2]) (fun _ => 0)
      sample_2_2_det sample_3_3_det).1.1,
    (inverse_closed_form (ofList [4, 3, 6, 3]) (ofList [8, 1, 3, 7, 0, 2, 12, 3, 2]) (fun _ => 0)
      sample_2_2_det sample_3_3_det).2.2.1.2.2⟩

/-- C7. The closed forms `determinant(., dim<2,2>)`, `determinant(., dim<3,3>)` and
`determinant(., dim<4,4>)` equal the Leibniz determinant of the row-major input over every
commutative ring; `det [[4,3],[6,3]] = -6`. -/
theorem determinant_closed_form {R : Type} [CommRing R] (iter : Nat → R) :
    determinant_2_2 iter = (rowMajor iter 2 2).det ∧
    determinant_3_3 iter = (rowMajor iter 3 3).det ∧
    determinant_4_4 iter = (rowMajor iter 4 4).det ∧
    determinant_2_2 (ofList [4, 3, 6, 3] : Nat → ℚ) = -6 := by
  refine ⟨determinant_2_2_eq_det iter, determinant_3_3_eq_det iter, determinant_4_4_eq_det iter, ?_⟩
  norm_num [determinant_2_2, ofList]

theorem lu_decomposition_factors_witness :
    (lu_decomposition (ofList [4, 3, 6, 3] : Nat → ℚ) (fun _ => 0) 2 2).1 = true ∧
    PermOn (lu_decomposition (ofList [4, 3, 6, 3] : Nat → ℚ) (fun _ => 0) 2 2).2.2 2 :=
  ⟨lu_sample_ok, (lu_decomposition_factors (ofList [4, 3, 6, 3]) (fun _ => 0) 2 lu_sample_ok).1⟩

theorem lu_determinant_eq_witness :
    (1 ≤ 2 ∧ (lu_decomposition (ofList [4, 3, 6, 3] : Nat → ℚ) (fun _ => 0) 2 2).1 = true) ∧
    |lu_determinant (lu_decomposition (ofList [4, 3, 6, 3] : Nat → ℚ) (fun _ => 0) 2 2).2.1 2 2| =
      |(rowMajor (ofList [4, 3, 6, 3] : Nat → ℚ) 2 2).det| :=
  ⟨⟨by decide, lu_sample_ok⟩,
    (lu_determinant_eq (ofList [4, 3, 6, 3]) (fun _ => 0) 2 (by decide) lu_sample_ok).2.2.1⟩

end

section

/-- C10 (failing input). On the 2x2 matrix `[[0,1],[0,1]]` the Householder step `k = 0`
meets an entirely zero column (`scale == 0`) and sets `c[0] = d[0] = 0`, yet the early
return of the last step makes `qr_decomposition(A, c, d, dim)` return `true`. -/
theorem qr_singular_column_not_reported (sqrt : ℚ → ℚ) (c d : Nat → ℚ) :
    qr_scale (ofList [0, 1, 0, 1] : Nat → ℚ) 2 2 0 = 0 ∧
    (qr_decomposition sqrt (ofList [0, 1, 0, 1]) c d 2 2).1 = true ∧
    (qr_decomposition sqrt (ofList [0, 1, 0, 1]) c d 2 2).2.2.1 0 = 0 ∧
    (qr_decomposition sqrt (ofList [0, 1, 0, 1]) c d 2 2).2.2.2 0 = 0 := by
  have hs : qr_scale (ofList [0, 1, 0, 1] : Nat → ℚ) 2 2 0 = 0 := by
    norm_num [qr_scale, forUp, ofList]
  refine ⟨hs, ?_, ?_, ?_⟩ <;>
    simp [qr_decomposition, qr_loop, hs, ofList, Function.update_apply]

end

section

variable {α : Type} [LinearOrderedField α]

/-- An accumulation loop computes a finite sum. -/
theorem forUp_sum {R : Type} [AddCommMonoid R] (f : Nat → R) (k cnt : Nat) :
    forUp (fun i sum => sum + f i) k cnt 0 = ∑ i in Finset.Ico k (k + cnt), f i := by
  induction cnt with
  | zero => simp [forUp]
  | succ cnt ih =>
    rw [forUp_succ, ih, ← Nat.add_assoc, Finset.sum_Ico_succ_top (by omega)]

/-- An update loop `B[g i] = B[g i] - s * w i` over pairwise distinct cells. -/
theorem axpy_fixed_spec {R : Type} [Ring R] (g : Nat → Nat) (w : Nat → R) (s : R) (lo cnt : Nat)
    (A : Nat → R)
    (hg : ∀ a b, lo ≤ a → a < lo + cnt → lo ≤ b → b < lo + cnt → g a = g b → a = b) :
    (∀ i, lo ≤ i → i < lo + cnt →
      forUp (fun i B => Function.update B (g i) (B (g i) - s * w i)) lo cnt A (g i) =
        A (g i) - s * w i) ∧
    (∀ z, (∀ i, lo ≤ i → i < lo + cnt → z ≠ g i) →
      forUp (fun i B => Function.update B (g i) (B (g i) - s * w i)) lo cnt A z = A z) := by
  induction cnt with
  | zero =>
    exact ⟨fun i h1 h2 => absurd h2 (by omega), fun z _ => rfl⟩
  | succ cnt ih =>
    obtain ⟨ih1, ih2⟩ := ih (fun a b h1 h2 h3 h4 => hg a b h1 (by omega) h3 (by omega))
    constructor
    · intro i h1 h2
      rw [forUp_succ, Function.update_apply]
      by_cases hi : i = lo + cnt
      · subst hi
        rw [if_pos rfl, ih2 _ (fun t ht1 ht2 e => by
          have := hg _ _ h1 h2 ht1 (by omega) e
          omega)]
      · have hne : g i ≠ g (lo + cnt) := fun e => hi (hg _ _ h1 h2 (by omega) (by omega) e)
        rw [if_neg hne, ih1 i h1 (by omega)]
    · intro z hz
      rw [forUp_succ, Function.update_apply, if_neg (hz _ (by omega) (by omega)),
        ih2 z (fun i h1 h2 => hz i h1 (by omega))]

/-- An update loop `B[g i] = B[g i] - s * B[h i]` whose reads `h i` are never written. -/
theorem axpy_self_spec {R : Type} [Ring R] (g h : Nat → Nat) (s : R) (lo cnt : Nat)
    (A : Nat → R)
    (hg : ∀ a b, lo ≤ a → a < lo + cnt → lo ≤ b → b < lo + cnt → g a = g b → a = b)
    (hh : ∀ a b, lo ≤ a → a < lo + cnt → lo ≤ b → b < lo + cnt → h a ≠ g b) :
    (∀ i, lo ≤ i → i < lo + cnt →
      forUp (fun i B => Function.update B (g i) (B (g i) - s * B (h i))) lo cnt A (g i) =
        A (g i) - s * A (h i)) ∧
    (∀ z, (∀ i, lo ≤ i → i < lo + cnt → z ≠ g i) →
      forUp (fun i B => Function.update B (g i) (B (g i) - s * B (h i))) lo cnt A z = A z) := by
  induction cnt with
  | zero =>
    exact ⟨fun i h1 h2 => absurd h2 (by omega), fun z _ => rfl⟩
  | succ cnt ih =>
    obtain ⟨ih1, ih2⟩ := ih (fun a b h1 h2 h3 h4 => hg a b h1 (by omega) h3 (by omega))
      (fun a b h1 h2 h3 h4 => hh a b h1 (by omega) h3 (by omega))
    constructor
    · intro i h1 h2
      rw [forUp_succ, Function.update_apply]
      by_cases hi : i = lo + cnt
      · subst hi
        rw [if_pos rfl, ih2 _ (fun t ht1 ht2 e => by
          have := hg _ _ h1 h2 ht1 (by omega) e
          omega), ih2 _ (fun t ht1 ht2 e => hh _ _ h1 h2 ht1 (by omega) e)]
      · have hne : g i ≠ g (lo + cnt) := fun e => hi (hg _ _ h1 h2 (by omega) (by omega) e)
        rw [if_neg hne, ih1 i h1 (by omega)]
    · intro z hz
      rw [forUp_succ, Function.update_apply, if_neg (hz _ (by omega) (by omega)),
        ih2 z (fun i h1 h2 => hz i h1 (by omega))]

/-- The scan for `scale` returns the largest absolute value of the column segment. -/
theorem qr_scale_spec (A : Nat → α) (m n k : Nat) :
    0 ≤ qr_scale A m n k ∧
    (∀ i, k ≤ i → i < k + (m - k) → |A (i * n + k)| ≤ qr_scale A m n k) ∧
    (qr_scale A m n k = 0 ∨ ∃ i, k ≤ i ∧ i < k + (m - k) ∧ qr_scale A m n k = |A (i * n + k)|) := by
  unfold qr_scale
  generalize m - k = cnt
  induction cnt with
  | zero =>
    exact ⟨le_refl _, fun i h1 h2 => absurd h2 (by omega), Or.inl rfl⟩
  | succ cnt ih =>
    obtain ⟨h0, h1, h2⟩ := ih
    rw [forUp_succ]
    refine ⟨le_trans h0 (le_max_left _ _), fun i hi1 hi2 => ?_, ?_⟩
    · rcases Nat.lt_or_ge i (k + cnt) with h | h
      · exact le_trans (h1 i hi1 h) (le_max_left _ _)
      · have : i = k + cnt := by omega
        subst this
        exact le_max_right _ _
    · rcases le_total (forUp (fun i scale => max scale |A (i * n + k)|) k cnt 0)
        |A ((k + cnt) * n + k)| with h | h
      · rw [max_eq_right h]
        exact Or.inr ⟨k + cnt, by omega, by omega, rfl⟩
      · rw [max_eq_left h]
        rcases h2 with h2 | ⟨i, hi1, hi2, hi3⟩
        · exact Or.inl h2
        · exact Or.inr ⟨i, hi1, by omega, hi3⟩

theorem qr_scale_zero (A : Nat → α) (m n k : Nat) (h : qr_scale A m n k = 0) :
    ∀ i, k ≤ i → i < m → A (i * n + k) = 0 := by
  intro i h1 h2
  have := (qr_scale_spec A m n k).2.1 i h1 (by omega)
  rw [h] at this
  exact abs_eq_zero.mp (le_antisymm this (abs_nonneg _))

/-- The normalisation loop divides the column segment by `scale` and sums the squares. -/
theorem qr_normalize_spec (A : Nat → α) (m n k : Nat) (hk : k < n) (scale : α) :
    (∀ i j, j < n → (qr_normalize A m n k scale).1 (i * n + j) =
      if j = k ∧ k ≤ i ∧ i < k + (m - k) then A (i * n + k) / scale else A (i * n + j)) ∧
    (qr_normalize A m n k scale).2 =
      ∑ i in Finset.Ico k (k + (m - k)), A (i * n + k) / scale * (A (i * n + k) / scale) := by
  dsimp only [qr_normalize]
  generalize m - k = cnt
  induction cnt with
  | zero =>
    refine ⟨fun i j _ => ?_, by simp [forUp]⟩
    rw [forUp_zero, if_neg (by omega)]
  | succ cnt ih =>
    obtain ⟨ih1, ih2⟩ := ih
    rw [forUp_succ]
    dsimp only
    have e1 := ih1 (k + cnt) k hk
    rw [if_neg (by omega)] at e1
    constructor
    · intro i j hj
      rw [Function.update_apply, ih1 i j hj, e1]
      simp only [idx_inj hj hk]
      by_cases h : i = k + cnt ∧ j = k
      · rw [if_pos h, if_pos ⟨h.2, by omega, by omega⟩, h.1]
      · rw [if_neg h]
        by_cases h2 : j = k ∧ k ≤ i ∧ i < k + cnt
        · rw [if_pos h2, if_pos ⟨h2.1, h2.2.1, by omega⟩]
        · rw [if_neg h2, if_neg (by omega)]
    · rw [ih2, e1, ← Nat.add_assoc, Finset.sum_Ico_succ_top (by omega)]

end

section

variable {α : Type} [LinearOrderedField α]

theorem house_zero {m : Nat} (u : Fin m → α) : house u 0 = 1 := by
  unfold house
  rw [if_pos rfl]

theorem house_apply {m : Nat} (u : Fin m → α) (c : α) (hc : c ≠ 0) (i j : Fin m) :
    house u c i j = (if i = j then 1 else 0) - c⁻¹ * (u i * u j) := by
  unfold house
  rw [if_neg hc]
  simp [Matrix.vecMulVec_apply, Matrix.one_apply]

theorem house_transpose {m : Nat} (u : Fin m → α) (c : α) : (house u c).transpose = house u c := by
  by_cases hc : c = 0
  · rw [hc, house_zero, Matrix.transpose_one]
  · ext i j
    rw [Matrix.transpose_apply, house_apply u c hc, house_apply u c hc]
    by_cases h : i = j
    · rw [h]
    · rw [if_neg h, if_neg (Ne.symm h)]
      ring

/-- Applying a reflection to a matrix, entry by entry. -/
theorem house_mul_apply {m p : Nat} (u : Fin m → α) (c : α) (hc : c ≠ 0)
    (X : Matrix (Fin m) (Fin p) α) (i : Fin m) (j : Fin p) :
    (house u c * X) i j = X i j - (∑ t, u t * X t j) / c * u i := by
  rw [Matrix.mul_apply]
  have e : ∀ t : Fin m, house u c i t * X t j =
      (if i = t then X t j else 0) - c⁻¹ * u i * (u t * X t j) := by
    intro t
    rw [house_apply u c hc]
    by_cases h : i = t
    · rw [if_pos h, if_pos h]
      ring
    · rw [if_neg h, if_neg h]
      ring
  rw [Finset.sum_congr rfl (fun t _ => e t), Finset.sum_sub_distrib, Finset.sum_ite_eq,
    if_pos (Finset.mem_univ i), ← Finset.mul_sum]
  field_simp
  ring

/-- A reflection with `uᵀ u = 2 c` is an involution. -/
theorem house_mul_self {m : Nat} (u : Fin m → α) (c : α)
    (h : c = 0 ∨ (∑ t, u t * u t) = 2 * c) : house u c * house u c = 1 := by
  by_cases hc : c = 0
  · rw [hc, house_zero, Matrix.one_mul]
  · have huu : (∑ t, u t * u t) = 2 * c := h.resolve_left hc
    ext i j
    rw [house_mul_apply u c hc]
    have e : ∀ t : Fin m, u t * house u c t j =
        (if t = j then u t else 0) - c⁻¹ * u j * (u t * u t) := by
      intro t
      rw [house_apply u c hc]
      by_cases h1 : t = j
      · rw [if_pos h1, if_pos h1]
        ring
      · rw [if_neg h1, if_neg h1]
        ring
    rw [Finset.sum_congr rfl (fun t _ => e t), Finset.sum_sub_distrib, Finset.sum_ite_eq',
      if_pos (Finset.mem_univ j), ← Finset.mul_sum, huu, house_apply u c hc, Matrix.one_apply]
    by_cases hij : i = j
    · rw [if_pos hij]
      field_simp
      ring
    · rw [if_neg hij]
      field_simp
      ring

/-- The accumulated product of valid reflections is orthogonal. -/
theorem hprod_orthogonal (F c : Nat → α) (m n k : Nat)
    (h : ∀ t, t < k → c t = 0 ∨ (∑ i, hv F m n t i * hv F m n t i) = 2 * c t) :
    hprod F c m n k * (hprod F c m n k).transpose = 1 := by
  induction k with
  | zero => simp [hprod]
  | succ k ih =>
    have ih1 := ih (fun t ht => h t (by omega))
    show house _ _ * hprod F c m n k * (house _ _ * hprod F c m n k).transpose = 1
    rw [Matrix.transpose_mul, house_transpose, Matrix.mul_assoc,
      ← Matrix.mul_assoc (hprod F c m n k), ih1, Matrix.one_mul,
      house_mul_self _ _ (h k (by omega))]

theorem hv_congr (F G : Nat → α) (m n t : Nat)
    (hF : ∀ i, t ≤ i → i < m → G (i * n + t) = F (i * n + t)) : hv G m n t = hv F m n t := by
  funext i
  unfold hv
  by_cases hki : t ≤ i.val
  · rw [if_pos hki, if_pos hki, hF i.val hki i.2]
  · rw [if_neg hki, if_neg hki]

/-- The product of reflections only depends on the stored vectors and coefficients. -/
theorem hprod_congr (F G c e : Nat → α) (m n k : Nat)
    (hF : ∀ t i, t < k → t ≤ i → i < m → G (i * n + t) = F (i * n + t))
    (hc : ∀ t, t < k → e t = c t) : hprod G e m n k = hprod F c m n k := by
  induction k with
  | zero => rfl
  | succ k ih =>
    show house _ _ * hprod G e m n k = house _ _ * hprod F c m n k
    rw [ih (fun t i h1 h2 h3 => hF t i (by omega) h2 h3) (fun t h1 => hc t (by omega)),
      hc k (by omega), hv_congr F G m n k (fun i h1 h2 => hF k i (by omega) h1 h2)]

/-- Inner products with a reflection vector are sums over the rows `k .. m-1`. -/
theorem hv_dot (F : Nat → α) (m n k : Nat) (x : Nat → α) :
    (∑ t : Fin m, hv F m n k t * x t.val) = ∑ t in Finset.Ico k m, F (t * n + k) * x t := by
  unfold hv
  rw [Fin.sum_univ_eq_sum_range (fun t => (if k ≤ t then F (t * n + k) else 0) * x t) m]
  have e : ∀ t ∈ Finset.range m, (if k ≤ t then F (t * n + k) else 0) * x t =
      if k ≤ t then F (t * n + k) * x t else 0 := by
    intro t _
    split_ifs <;> simp
  rw [Finset.sum_congr rfl e, ← Finset.sum_filter]
  congr 1
  ext t
  simp only [Finset.mem_filter, Finset.mem_range, Finset.mem_Ico]
  omega

end

section

variable {α : Type} [LinearOrderedField α]

/-- The reflection of step `k` applied to one column `j ≠ k`, entry by entry. -/
theorem qr_reflect_col_spec (m n k : Nat) (ck : α) (j : Nat) (A : Nat → α)
    (hk : k < n) (hj : j < n) (hjk : j ≠ k) (hkm : k ≤ m) (i j1 : Nat) (hj1 : j1 < n) :
    qr_reflect_col m n k ck j A (i * n + j1) =
      if j1 = j ∧ k ≤ i ∧ i < m then
        A (i * n + j) - (∑ t in Finset.Ico k m, A (t * n + k) * A (t * n + j)) / ck * A (i * n + k)
      else A (i * n + j1) := by
  unfold qr_reflect_col
  have em : k + (m - k) = m := by omega
  have hsum := forUp_sum (fun t => A (t * n + k) * A (t * n + j)) k (m - k)
  rw [em] at hsum
  simp only [hsum]
  obtain ⟨h1, h2⟩ := axpy_self_spec (fun i => i * n + j) (fun i => i * n + k)
    ((∑ t in Finset.Ico k m, A (t * n + k) * A (t * n + j)) / ck) k (m - k) A
    (fun a b _ _ _ _ e => ((idx_inj hj hj).mp e).1)
    (fun a b _ _ _ _ e => hjk ((idx_inj hk hj).mp e).2.symm)
  rw [em] at h1 h2
  by_cases hc : j1 = j ∧ k ≤ i ∧ i < m
  · rw [if_pos hc, hc.1]
    exact h1 i hc.2.1 hc.2.2
  · rw [if_neg hc]
    apply h2
    intro t ht1 ht2 e
    have := (idx_inj hj1 hj).mp e
    exact hc ⟨this.2, by omega, by omega⟩

/-- The reflection of step `k` applied to the columns `k+1 .. k+cnt`. -/
theorem qr_reflect_cols_spec (m n k : Nat) (ck : α) (A : Nat → α) (hk : k < n) (hkm : k ≤ m)
    (cnt : Nat) (hcnt : k + 1 + cnt ≤ n) : ∀ i j, j < n →
    forUp (qr_reflect_col m n k ck) (k + 1) cnt A (i * n + j) =
      if k < j ∧ j < k + 1 + cnt ∧ k ≤ i ∧ i < m then
        A (i * n + j) - (∑ t in Finset.Ico k m, A (t * n + k) * A (t * n + j)) / ck * A (i * n + k)
      else A (i * n + j) := by
  induction cnt with
  | zero =>
    intro i j _
    rw [forUp_zero, if_neg (by omega)]
  | succ cnt ih =>
    intro i j hj
    have ih1 := ih (by omega)
    rw [forUp_succ, qr_reflect_col_spec m n k ck (k + 1 + cnt) _ hk (by omega) (by omega) hkm i j hj]
    have hcolk : ∀ t, forUp (qr_reflect_col m n k ck) (k + 1) cnt A (t * n + k) = A (t * n + k) := by
      intro t
      rw [ih1 t k hk, if_neg (by omega)]
    have hcolj : ∀ t, forUp (qr_reflect_col m n k ck) (k + 1) cnt A (t * n + (k + 1 + cnt)) =
        A (t * n + (k + 1 + cnt)) := by
      intro t
      rw [ih1 t (k + 1 + cnt) (by omega), if_neg (by omega)]
    by_cases hc : j = k + 1 + cnt ∧ k ≤ i ∧ i < m
    · rw [if_pos hc, if_pos ⟨by omega, by omega, hc.2.1, hc.2.2⟩, hcolk, hcolj, hc.1]
      congr 2
      congr 1
      apply Finset.sum_congr rfl
      intro t _
      rw [hcolk, hcolj]
    · rw [if_neg hc, ih1 i j hj]
      by_cases h2 : k < j ∧ j < k + 1 + cnt ∧ k ≤ i ∧ i < m
      · rw [if_pos h2, if_pos ⟨h2.1, by omega, h2.2.2.1, h2.2.2.2⟩]
      · rw [if_neg h2, if_neg (by omega)]

end

section

variable {α : Type} [LinearOrderedField α]

/-- The state left by the Householder branch of step `k`, in terms of the state before it
and of the signed norm `σ`. -/
theorem qr_house_step_entries (sqrt : α → α)
    (hsqrt : ∀ x, 0 ≤ x → 0 ≤ sqrt x ∧ sqrt x * sqrt x = x)
    (m n k : Nat) (hk : k < n) (hkm : k < m) (scale : α) (A c d : Nat → α) :
    ∃ σ : α,
      (0 ≤ ∑ t in Finset.Ico k m, A (t * n + k) / scale * (A (t * n + k) / scale) →
        σ * σ = ∑ t in Finset.Ico k m, A (t * n + k) / scale * (A (t * n + k) / scale)) ∧
      (0 ≤ ∑ t in Finset.Ico k m, A (t * n + k) / scale * (A (t * n + k) / scale) →
        0 ≤ σ * (A (k * n + k) / scale)) ∧
      (qr_house_step sqrt m n k scale A c d).2.1 =
        Function.update c k (σ * (A (k * n + k) / scale + σ)) ∧
      (qr_house_step sqrt m n k scale A c d).2.2 = Function.update d k (-scale * σ) ∧
      ∀ i j, j < n → (qr_house_step sqrt m n k scale A c d).1 (i * n + j) =
        if k ≤ i ∧ i < m then
          (if j = k then (if i = k then A (k * n + k) / scale + σ else A (i * n + k) / scale)
           else if k < j then
             A (i * n + j) -
               (∑ t in Finset.Ico k m,
                 (if t = k then A (k * n + k) / scale + σ else A (t * n + k) / scale) * A (t * n + j)) /
                 (σ * (A (k * n + k) / scale + σ)) *
               (if i = k then A (k * n + k) / scale + σ else A (i * n + k) / scale)
           else A (i * n + j))
        else A (i * n + j) := by
  have em : k + (m - k) = m := by omega
  obtain ⟨hn1, hn2⟩ := qr_normalize_spec A m n k hk scale
  rw [em] at hn2
  simp only [em] at hn1
  have hkk : (qr_normalize A m n k scale).1 (k * n + k) = A (k * n + k) / scale := by
    rw [hn1 k k hk, if_pos ⟨rfl, le_refl _, hkm⟩]
  refine ⟨if (qr_normalize A m n k scale).1 (k * n + k) ≥ 0
      then sqrt (qr_normalize A m n k scale).2 else -sqrt (qr_normalize A m n k scale).2,
    ?_, ?_, ?_, ?_, ?_⟩
  · intro hS
    rw [hn2]
    obtain ⟨_, h2⟩ := hsqrt _ hS
    split_ifs
    · exact h2
    · rw [neg_mul_neg]
      exact h2
  · intro hS
    rw [hn2, hkk]
    obtain ⟨h1, _⟩ := hsqrt _ hS
    split_ifs with h
    · exact mul_nonneg h1 h
    · rw [neg_mul]
      have hneg : A (k * n + k) / scale ≤ 0 := le_of_lt (not_le.mp h)
      exact neg_nonneg.mpr (mul_nonpos_of_nonneg_of_nonpos h1 hneg)
  · simp only [qr_house_step, Function.update_same, hkk]
  · simp only [qr_house_step]
  · intro i j hj
    simp only [qr_house_step, Function.update_same]
    generalize (if (qr_normalize A m n k scale).1 (k * n + k) ≥ 0
      then sqrt (qr_normalize A m n k scale).2 else -sqrt (qr_normalize A m n k scale).2) = σ
    rw [hkk]
    have hA2 : ∀ i j, j < n →
        Function.update (qr_normalize A m n k scale).1 (k * n + k) (A (k * n + k) / scale + σ)
          (i * n + j) =
        if j = k ∧ k ≤ i ∧ i < m then
          (if i = k then A (k * n + k) / scale + σ else A (i * n + k) / scale)
        else A (i * n + j) := by
      intro i j hj
      rw [Function.update_apply, hn1 i j hj]
      simp only [idx_inj hj hk]
      by_cases h1 : i = k ∧ j = k
      · rw [if_pos h1, if_pos ⟨h1.2, by omega, by omega⟩, if_pos h1.1]
      · rw [if_neg h1]
        by_cases h2 : j = k ∧ k ≤ i ∧ i < m
        · rw [if_pos h2, if_pos h2, if_neg (fun h => h1 ⟨h, h2.1⟩)]
        · rw [if_neg h2, if_neg h2]
    rw [qr_reflect_cols_spec m n k _ _ hk (le_of_lt hkm) (n - (k + 1)) (by omega) i j hj]
    have en : k + 1 + (n - (k + 1)) = n := by omega
    rw [en]
    by_cases hi : k ≤ i ∧ i < m
    · rw [if_pos hi]
      by_cases hjk : j = k
      · rw [if_neg (by omega), if_pos hjk, hA2 i j hj, if_pos ⟨hjk, hi⟩]
      · rw [if_neg hjk]
        by_cases hj2 : k < j
        · rw [if_pos ⟨hj2, hj, hi⟩, if_pos hj2, hA2 i j hj, if_neg (fun h => hjk h.1), hA2 i k hk,
            if_pos ⟨rfl, hi⟩]
          congr 2
          congr 1
          apply Finset.sum_congr rfl
          intro t ht
          rw [Finset.mem_Ico] at ht
          have e1 := hA2 t k hk
          rw [if_pos ⟨rfl, ht⟩] at e1
          have e2 := hA2 t j hj
          rw [if_neg (fun h => hjk h.1)] at e2
          rw [e1, e2]
        · rw [if_neg (fun h => hj2 h.1), if_neg hj2, hA2 i j hj, if_neg (fun h => hjk h.1)]
    · rw [if_neg hi, if_neg (fun h => hi h.2.2), hA2 i j hj, if_neg (fun h => hi h.2)]

end

section

variable {α : Type} [LinearOrderedField α]

/-- The algebra of one Householder step: the stored vector `u` and coefficient `ck` form a
reflection (`uᵀ u = 2 ck`, `ck ≠ 0`) that maps the matrix reached so far to the next one. -/
theorem qr_house_algebra (m n k : Nat) (hk : k < n) (hkm : k < m) (scale : α) (hs : scale ≠ 0)
    (A A3 d : Nat → α) (σ ck : α) (u : Nat → α)
    (hu : ∀ t, u t = if t = k then A (k * n + k) / scale + σ else A (t * n + k) / scale)
    (hS : 0 < ∑ t in Finset.Ico k m, A (t * n + k) / scale * (A (t * n + k) / scale))
    (hσ2 : σ * σ = ∑ t in Finset.Ico k m, A (t * n + k) / scale * (A (t * n + k) / scale))
    (hσx : 0 ≤ σ * (A (k * n + k) / scale))
    (hck : ck = σ * (A (k * n + k) / scale + σ))
    (hA3 : ∀ i j, j < n → A3 (i * n + j) =
      if k ≤ i ∧ i < m then
        (if j = k then u i
         else if k < j then A (i * n + j) - (∑ t in Finset.Ico k m, u t * A (t * n + j)) / ck * u i
         else A (i * n + j))
      else A (i * n + j)) :
    ck ≠ 0 ∧ (∑ i, hv A3 m n k i * hv A3 m n k i) = 2 * ck ∧
    house (hv A3 m n k) ck * qrR A d m n k =
      qrR A3 (Function.update d k (-scale * σ)) m n (k + 1) := by
  have hsplit : ∀ f : Nat → α, ∑ t in Finset.Ico k m, f t = f k + ∑ t in Finset.Ico (k + 1) m, f t :=
    fun f => Finset.sum_eq_sum_Ico_succ_bot hkm f
  have hutail : ∀ f : Nat → α, ∑ t in Finset.Ico (k + 1) m, u t * f t =
      ∑ t in Finset.Ico (k + 1) m, A (t * n + k) / scale * f t := by
    intro f
    apply Finset.sum_congr rfl
    intro t ht
    rw [Finset.mem_Ico] at ht
    rw [hu t, if_neg (by omega)]
  have huk : u k = A (k * n + k) / scale + σ := by rw [hu k, if_pos rfl]
  have hS2 := hsplit (fun t => A (t * n + k) / scale * (A (t * n + k) / scale))
  simp only at hS2
  have hckpos : 0 < ck := by
    rw [hck, mul_add, hσ2]
    linarith
  have hck0 : ck ≠ 0 := ne_of_gt hckpos
  have hcol : ∀ t, k ≤ t → t < m → A3 (t * n + k) = u t := by
    intro t h1 h2
    rw [hA3 t k hk, if_pos ⟨h1, h2⟩, if_pos rfl]
  have hdot : ∀ x : Nat → α, (∑ t : Fin m, hv A3 m n k t * x t.val) =
      ∑ t in Finset.Ico k m, u t * x t := by
    intro x
    rw [hv_dot]
    apply Finset.sum_congr rfl
    intro t ht
    rw [Finset.mem_Ico] at ht
    rw [hcol t ht.1 ht.2]
  have hvi : ∀ i : Fin m, hv A3 m n k i = if k ≤ i.val then u i.val else 0 := by
    intro i
    unfold hv
    by_cases h : k ≤ i.val
    · rw [if_pos h, if_pos h, hcol i.val h i.2]
    · rw [if_neg h, if_neg h]
  have huu : (∑ t in Finset.Ico k m, u t * u t) = 2 * ck := by
    rw [hsplit, hutail, huk]
    have e : ∑ t in Finset.Ico (k + 1) m, A (t * n + k) / scale * u t =
        ∑ t in Finset.Ico (k + 1) m, A (t * n + k) / scale * (A (t * n + k) / scale) := by
      apply Finset.sum_congr rfl
      intro t ht
      rw [Finset.mem_Ico] at ht
      rw [hu t, if_neg (by omega)]
    rw [e, hck]
    rw [hS2] at hσ2
    linear_combination (-1 : α) * hσ2
  have hux : (∑ t in Finset.Ico k m, u t * A (t * n + k)) = scale * ck := by
    rw [hsplit, hutail, huk, hck]
    have e : ∑ t in Finset.Ico (k + 1) m, A (t * n + k) / scale * A (t * n + k) =
        scale * ∑ t in Finset.Ico (k + 1) m, A (t * n + k) / scale * (A (t * n + k) / scale) := by
      rw [Finset.mul_sum]
      apply Finset.sum_congr rfl
      intro t _
      field_simp
      ring
    rw [e]
    rw [hS2] at hσ2
    have e2 : A (k * n + k) = scale * (A (k * n + k) / scale) := by field_simp
    generalize ∑ t in Finset.Ico (k + 1) m, A (t * n + k) / scale * (A (t * n + k) / scale) = T at *
    rw [e2]
    generalize A (k * n + k) / scale = y at *
    simp only [mul_div_cancel_left₀ _ hs]
    linear_combination (-scale) * hσ2
  refine ⟨hck0, ?_, ?_⟩
  · have e : (∑ i, hv A3 m n k i * hv A3 m n k i) =
        ∑ t in Finset.Ico k m, u t * (fun t => if k ≤ t then u t else 0) t := by
      rw [← hdot (fun t => if k ≤ t then u t else 0)]
      apply Finset.sum_congr rfl
      intro i _
      rw [hvi i]
    rw [e, ← huu]
    apply Finset.sum_congr rfl
    intro t ht
    rw [Finset.mem_Ico] at ht
    simp only
    rw [if_pos ht.1]
  · ext i j
    rw [house_mul_apply _ _ hck0]
    have e : (∑ t : Fin m, hv A3 m n k t * qrR A d m n k t j) =
        ∑ t in Finset.Ico k m, u t * (fun t => if j.val < k then
          (if t < j.val then A (t * n + j.val) else if t = j.val then d j.val else 0)
          else A (t * n + j.val)) t :=
      hdot (fun t => if j.val < k then
          (if t < j.val then A (t * n + j.val) else if t = j.val then d j.val else 0)
          else A (t * n + j.val))
    rw [e, hvi i]
    have hd1 : ∀ t, t ≠ k → Function.update d k (-scale * σ) t = d t := by
      intro t ht
      rw [Function.update_apply, if_neg ht]
    rcases Nat.lt_trichotomy j.val k with hjk | hjk | hjk
    · have hz : (∑ t in Finset.Ico k m, u t * (fun t => if j.val < k then
          (if t < j.val then A (t * n + j.val) else if t = j.val then d j.val else 0)
          else A (t * n + j.val)) t) = 0 := by
        apply Finset.sum_eq_zero
        intro t ht
        rw [Finset.mem_Ico] at ht
        simp only
        rw [if_pos hjk, if_neg (show ¬ t < j.val by omega), if_neg (show ¬ t = j.val by omega),
          mul_zero]
      have hL : qrR A d m n k i j =
          if i.val < j.val then A (i.val * n + j.val) else if i.val = j.val then d j.val else 0 := by
        unfold qrR
        rw [if_pos hjk]
      have hR : qrR A3 (Function.update d k (-scale * σ)) m n (k + 1) i j =
          if i.val < j.val then A3 (i.val * n + j.val) else if i.val = j.val then d j.val else 0 := by
        unfold qrR
        rw [if_pos (show j.val < k + 1 by omega), hd1 _ (show j.val ≠ k by omega)]
      have hA : ∀ r, A3 (r * n + j.val) = A (r * n + j.val) := by
        intro r
        rw [hA3 r j.val j.2]
        by_cases hi : k ≤ r ∧ r < m
        · rw [if_pos hi, if_neg (show ¬ j.val = k by omega), if_neg (show ¬ k < j.val by omega)]
        · rw [if_neg hi]
      rw [hz, zero_div, zero_mul, sub_zero, hL, hR, hA]
    · have hz : (∑ t in Finset.Ico k m, u t * (fun t => if j.val < k then
          (if t < j.val then A (t * n + j.val) else if t = j.val then d j.val else 0)
          else A (t * n + j.val)) t) = scale * ck := by
        rw [← hux]
        apply Finset.sum_congr rfl
        intro t _
        simp only
        rw [if_neg (show ¬ j.val < k by omega), hjk]
      have hL : qrR A d m n k i j = A (i.val * n + k) := by
        unfold qrR
        rw [if_neg (show ¬ j.val < k by omega), hjk]
      have hR : qrR A3 (Function.update d k (-scale * σ)) m n (k + 1) i j =
          if i.val < k then A3 (i.val * n + k) else if i.val = k then -scale * σ else 0 := by
        unfold qrR
        rw [if_pos (show j.val < k + 1 by omega), hjk, Function.update_same]
      rw [hz, mul_div_assoc, div_self hck0, mul_one, hL, hR]
      rcases Nat.lt_trichotomy i.val k with hik | hik | hik
      · rw [if_neg (show ¬ k ≤ i.val by omega), if_pos hik, mul_zero, sub_zero, hA3 i.val k hk,
          if_neg (show ¬ (k ≤ i.val ∧ i.val < m) by omega)]
      · rw [if_pos (show k ≤ i.val by omega), if_neg (show ¬ i.val < k by omega), if_pos hik, hik,
          huk]
        field_simp
        ring
      · rw [if_pos (show k ≤ i.val by omega), if_neg (show ¬ i.val < k by omega),
          if_neg (show ¬ i.val = k by omega), hu i.val, if_neg (show ¬ i.val = k by omega)]
        field_simp
    · have hz : (∑ t in Finset.Ico k m, u t * (fun t => if j.val < k then
          (if t < j.val then A (t * n + j.val) else if t = j.val then d j.val else 0)
          else A (t * n + j.val)) t) = ∑ t in Finset.Ico k m, u t * A (t * n + j.val) := by
        apply Finset.sum_congr rfl
        intro t _
        simp only
        rw [if_neg (show ¬ j.val < k by omega)]
      have hL : qrR A d m n k i j = A (i.val * n + j.val) := by
        unfold qrR
        rw [if_neg (show ¬ j.val < k by omega)]
      have hR : qrR A3 (Function.update d k (-scale * σ)) m n (k + 1) i j =
          A3 (i.val * n + j.val) := by
        unfold qrR
        rw [if_neg (show ¬ j.val < k + 1 by omega)]
      rw [hz, hL, hR, hA3 i.val j.val j.2]
      by_cases hi : k ≤ i.val
      · rw [if_pos hi, if_pos ⟨hi, i.2⟩, if_neg (show ¬ j.val = k by omega), if_pos hjk]
      · rw [if_neg hi, if_neg (fun h => hi h.1), mul_zero, sub_zero]

end

section

variable {α : Type} [LinearOrderedField α]

theorem qr_loop_zero (sqrt : α → α) (m n mn k : Nat) (A c d : Nat → α) (sing : Bool) :
    qr_loop sqrt m n mn 0 k A c d sing = (!sing, A, c, d) := rfl

theorem qr_loop_succ (sqrt : α → α) (m n mn cnt k : Nat) (A c d : Nat → α) (sing : Bool) :
    qr_loop sqrt m n mn (cnt + 1) k A c d sing =
      if k = mn - 1 ∧ mn = m then
        (decide (Function.update d k (A (k * n + k)) k ≠ 0), A, Function.update c k 0,
          Function.update d k (A (k * n + k)))
      else if qr_scale A m n k = 0 then
        qr_loop sqrt m n mn cnt (k + 1) A (Function.update c k 0) (Function.update d k 0) true
      else
        qr_loop sqrt m n mn cnt (k + 1) (qr_house_step sqrt m n k (qr_scale A m n k) A c d).1
          (qr_house_step sqrt m n k (qr_scale A m n k) A c d).2.1
          (qr_house_step sqrt m n k (qr_scale A m n k) A c d).2.2 sing := rfl

/-- A column that is already reduced only needs its diagonal entry recorded. -/
theorem qrR_skip (A d : Nat → α) (m n k : Nat)
    (hz : ∀ i, k < i → i < m → A (i * n + k) = 0) :
    qrR A d m n k = qrR A (Function.update d k (A (k * n + k))) m n (k + 1) := by
  ext i j
  unfold qrR
  rcases Nat.lt_trichotomy j.val k with hjk | hjk | hjk
  · rw [if_pos hjk, if_pos (show j.val < k + 1 by omega), Function.update_apply,
      if_neg (show ¬ j.val = k by omega)]
  · rw [if_neg (show ¬ j.val < k by omega), if_pos (show j.val < k + 1 by omega), hjk,
      Function.update_same]
    rcases Nat.lt_trichotomy i.val k with hik | hik | hik
    · rw [if_pos hik]
    · rw [if_neg (show ¬ i.val < k by omega), if_pos hik, hik]
    · rw [if_neg (show ¬ i.val < k by omega), if_neg (show ¬ i.val = k by omega), hz i.val hik i.2]
  · rw [if_neg (show ¬ j.val < k by omega), if_neg (show ¬ j.val < k + 1 by omega)]

/-- A step that stores the coefficient `0` keeps the invariant of the reduction. -/
theorem qr_skip_inv (A0 A c d : Nat → α) (m n k : Nat)
    (hz : ∀ i, k < i → i < m → A (i * n + k) = 0)
    (h1 : ∀ t, t < k → c t = 0 ∨ (∑ i, hv A m n t i * hv A m n t i) = 2 * c t)
    (h2 : hprod A c m n k * rowMajor A0 m n = qrR A d m n k) :
    (∀ t, t < k + 1 → Function.update c k 0 t = 0 ∨
      (∑ i, hv A m n t i * hv A m n t i) = 2 * Function.update c k 0 t) ∧
    hprod A (Function.update c k 0) m n (k + 1) * rowMajor A0 m n =
      qrR A (Function.update d k (A (k * n + k))) m n (k + 1) := by
  constructor
  · intro t ht
    rw [Function.update_apply]
    by_cases htk : t = k
    · rw [if_pos htk]
      exact Or.inl rfl
    · rw [if_neg htk]
      exact h1 t (by omega)
  · show house _ _ * hprod A (Function.update c k 0) m n k * rowMajor A0 m n = _
    rw [Function.update_same, house_zero, Matrix.one_mul,
      hprod_congr A A c (Function.update c k 0) m n k (fun _ _ _ _ _ => rfl)
        (fun t ht => by rw [Function.update_apply, if_neg (by omega)]), h2]
    exact qrR_skip A d m n k hz

/-- The Householder branch of a step keeps the invariant of the reduction. -/
theorem qr_house_inv (sqrt : α → α) (hsqrt : ∀ x, 0 ≤ x → 0 ≤ sqrt x ∧ sqrt x * sqrt x = x)
    (A0 A c d : Nat → α) (m n k : Nat) (hk : k < n) (hkm : k < m)
    (hscale : qr_scale A m n k ≠ 0)
    (h1 : ∀ t, t < k → c t = 0 ∨ (∑ i, hv A m n t i * hv A m n t i) = 2 * c t)
    (h2 : hprod A c m n k * rowMajor A0 m n = qrR A d m n k) :
    (∀ t, t < k + 1 → (qr_house_step sqrt m n k (qr_scale A m n k) A c d).2.1 t = 0 ∨
      (∑ i, hv (qr_house_step sqrt m n k (qr_scale A m n k) A c d).1 m n t i *
          hv (qr_house_step sqrt m n k (qr_scale A m n k) A c d).1 m n t i) =
        2 * (qr_house_step sqrt m n k (qr_scale A m n k) A c d).2.1 t) ∧
    hprod (qr_house_step sqrt m n k (qr_scale A m n k) A c d).1
        (qr_house_step sqrt m n k (qr_scale A m n k) A c d).2.1 m n (k + 1) * rowMajor A0 m n =
      qrR (qr_house_step sqrt m n k (qr_scale A m n k) A c d).1
        (qr_house_step sqrt m n k (qr_scale A m n k) A c d).2.2 m n (k + 1) := by
  obtain ⟨σ, hσ2, hσx, hc1, hd1, hA3⟩ :=
    qr_house_step_entries sqrt hsqrt m n k hk hkm (qr_scale A m n k) A c d
  generalize (qr_house_step sqrt m n k (qr_scale A m n k) A c d).1 = A3 at *
  generalize (qr_house_step sqrt m n k (qr_scale A m n k) A c d).2.1 = c1 at *
  generalize (qr_house_step sqrt m n k (qr_scale A m n k) A c d).2.2 = d1 at *
  subst hc1 hd1
  obtain ⟨hs0, hsle, hsex⟩ := qr_scale_spec A m n k
  have em : k + (m - k) = m := by omega
  rw [em] at hsle hsex
  generalize qr_scale A m n k = scale at *
  have hSnn : 0 ≤ ∑ t in Finset.Ico k m, A (t * n + k) / scale * (A (t * n + k) / scale) :=
    Finset.sum_nonneg (fun t _ => mul_self_nonneg _)
  have hS : 0 < ∑ t in Finset.Ico k m, A (t * n + k) / scale * (A (t * n + k) / scale) := by
    rcases hsex with h0 | ⟨i0, hi1, hi2, hi3⟩
    · exact absurd h0 hscale
    · have h1 : A (i0 * n + k) / scale * (A (i0 * n + k) / scale) = 1 := by
        rw [div_mul_div_comm, ← abs_mul_abs_self (A (i0 * n + k)), ← hi3]
        exact div_self (mul_ne_zero hscale hscale)
      have h2 := Finset.single_le_sum
        (f := fun t => A (t * n + k) / scale * (A (t * n + k) / scale))
        (fun t _ => mul_self_nonneg _) (Finset.mem_Ico.mpr ⟨hi1, hi2⟩)
      simp only at h2
      rw [h1] at h2
      linarith
  obtain ⟨hck0, huu, hmul⟩ := qr_house_algebra m n k hk hkm scale hscale A A3 d σ
    (σ * (A (k * n + k) / scale + σ))
    (fun t => if t = k then A (k * n + k) / scale + σ else A (t * n + k) / scale)
    (fun _ => rfl) hS (hσ2 hSnn) (hσx hSnn) rfl hA3
  have hcols : ∀ t i, t < k → t ≤ i → i < m → A3 (i * n + t) = A (i * n + t) := by
    intro t i ht _ _
    rw [hA3 i t (by omega)]
    by_cases hi : k ≤ i ∧ i < m
    · rw [if_pos hi, if_neg (show ¬ t = k by omega), if_neg (show ¬ k < t by omega)]
    · rw [if_neg hi]
  constructor
  · intro t ht
    by_cases htk : t = k
    · subst htk
      right
      rw [Function.update_same]
      exact huu
    · rw [Function.update_apply, if_neg htk, hv_congr A A3 m n t (fun i h3 h4 => hcols t i (by omega) h3 h4)]
      exact h1 t (by omega)
  · show house _ _ * hprod A3 _ m n k * rowMajor A0 m n = _
    rw [Function.update_same, hprod_congr A A3 c _ m n k hcols
      (fun t ht => by rw [Function.update_apply, if_neg (by omega)]), Matrix.mul_assoc, h2]
    exact hmul

end

section

variable {α : Type} [LinearOrderedField α]

/-- The reduction loop of `qr_decomposition` for `n ≤ m`: the stored reflections are valid
and their product maps the original matrix to the upper-triangular result. -/
theorem qr_loop_spec (sqrt : α → α) (hsqrt : ∀ x, 0 ≤ x → 0 ≤ sqrt x ∧ sqrt x * sqrt x = x)
    (A0 : Nat → α) (m n : Nat) (hnm : n ≤ m) :
    ∀ (cnt k : Nat) (A c d : Nat → α) (sing : Bool), k + cnt = n →
      (∀ t, t < k → c t = 0 ∨ (∑ i, hv A m n t i * hv A m n t i) = 2 * c t) →
      hprod A c m n k * rowMajor A0 m n = qrR A d m n k →
      (∀ t, t < n → (qr_loop sqrt m n n cnt k A c d sing).2.2.1 t = 0 ∨
        (∑ i, hv (qr_loop sqrt m n n cnt k A c d sing).2.1 m n t i *
            hv (qr_loop sqrt m n n cnt k A c d sing).2.1 m n t i) =
          2 * (qr_loop sqrt m n n cnt k A c d sing).2.2.1 t) ∧
      hprod (qr_loop sqrt m n n cnt k A c d sing).2.1
          (qr_loop sqrt m n n cnt k A c d sing).2.2.1 m n n * rowMajor A0 m n =
        qrR (qr_loop sqrt m n n cnt k A c d sing).2.1
          (qr_loop sqrt m n n cnt k A c d sing).2.2.2 m n n := by
  intro cnt
  induction cnt with
  | zero =>
    intro k A c d sing hk h1 h2
    have : k = n := by omega
    subst this
    rw [qr_loop_zero]
    exact ⟨h1, h2⟩
  | succ cnt ih =>
    intro k A c d sing hk h1 h2
    have hkn : k < n := by omega
    rw [qr_loop_succ]
    by_cases hlast : k = n - 1 ∧ n = m
    · rw [if_pos hlast]
      have hk1 : k + 1 = n := by omega
      have hz : ∀ i, k < i → i < m → A (i * n + k) = 0 := by
        intro i h3 h4
        omega
      have := qr_skip_inv A0 A c d m n k hz h1 h2
      rw [hk1] at this
      exact this
    · rw [if_neg hlast]
      by_cases hscale : qr_scale A m n k = 0
      · rw [if_pos hscale]
        have hz := qr_scale_zero A m n k hscale
        have hkk : A (k * n + k) = 0 := hz k (le_refl _) (by omega)
        obtain ⟨h3, h4⟩ := qr_skip_inv A0 A c d m n k (fun i h5 h6 => hz i (by omega) h6) h1 h2
        rw [hkk] at h4
        exact ih (k + 1) A _ _ true (by omega) h3 h4
      · rw [if_neg hscale]
        obtain ⟨h3, h4⟩ := qr_house_inv sqrt hsqrt A0 A c d m n k hkn (by omega) hscale h1 h2
        exact ih (k + 1) _ _ _ sing (by omega) h3 h4

/-- Outcome of `qr_decomposition(A, c, d, dim)` for `n ≤ m`. -/
theorem qr_decomposition_spec (sqrt : α → α)
    (hsqrt : ∀ x, 0 ≤ x → 0 ≤ sqrt x ∧ sqrt x * sqrt x = x)
    (A c d : Nat → α) (m n : Nat) (hnm : n ≤ m) :
    (∀ t, t < n → (qr_decomposition sqrt A c d m n).2.2.1 t = 0 ∨
      (∑ i, hv (qr_decomposition sqrt A c d m n).2.1 m n t i *
          hv (qr_decomposition sqrt A c d m n).2.1 m n t i) =
        2 * (qr_decomposition sqrt A c d m n).2.2.1 t) ∧
    hprod (qr_decomposition sqrt A c d m n).2.1 (qr_decomposition sqrt A c d m n).2.2.1 m n n *
        rowMajor A m n =
      qrR (qr_decomposition sqrt A c d m n).2.1 (qr_decomposition sqrt A c d m n).2.2.2 m n n := by
  unfold qr_decomposition
  rw [Nat.min_eq_right hnm]
  apply qr_loop_spec sqrt hsqrt A m n hnm n 0 A c d false (by omega)
  · intro t ht
    omega
  · show (1 : Matrix (Fin m) (Fin m) α) * rowMajor A m n = _
    rw [Matrix.one_mul]
    ext i j
    unfold qrR rowMajor
    rw [if_neg (by omega)]

end

section

variable {α : Type} [LinearOrderedField α]

/-- One column of `Qt` under the reflection of step `k`, entry by entry. -/
theorem qr_qt_col_spec (A : Nat → α) (m n k : Nat) (ck : α) (j : Nat) (Qt : Nat → α)
    (hj : j < m) (hkm : k ≤ m) (i j1 : Nat) (hj1 : j1 < m) :
    qr_qt_col A m n k ck j Qt (i * m + j1) =
      if j1 = j ∧ k ≤ i ∧ i < m then
        Qt (i * m + j) - (∑ t in Finset.Ico k m, A (t * n + k) * Qt (t * m + j)) / ck * A (i * n + k)
      else Qt (i * m + j1) := by
  unfold qr_qt_col
  have em : k + (m - k) = m := by omega
  have hsum := forUp_sum (fun t => A (t * n + k) * Qt (t * m + j)) k (m - k)
  rw [em] at hsum
  simp only [hsum]
  obtain ⟨h1, h2⟩ := axpy_fixed_spec (fun i => i * m + j) (fun i => A (i * n + k))
    ((∑ t in Finset.Ico k m, A (t * n + k) * Qt (t * m + j)) / ck) k (m - k) Qt
    (fun a b _ _ _ _ e => ((idx_inj hj hj).mp e).1)
  rw [em] at h1 h2
  by_cases hc : j1 = j ∧ k ≤ i ∧ i < m
  · rw [if_pos hc, hc.1]
    exact h1 i hc.2.1 hc.2.2
  · rw [if_neg hc]
    apply h2
    intro t ht1 ht2 e
    have := (idx_inj hj1 hj).mp e
    exact hc ⟨this.2, by omega, by omega⟩

/-- All columns of `Qt` under the reflection of step `k`: `Qt ← H_k * Qt`. -/
theorem qr_qt_cols_spec (A : Nat → α) (m n k : Nat) (ck : α) (hck : ck ≠ 0) (Qt : Nat → α)
    (hkm : k ≤ m) :
    rowMajor (forUp (qr_qt_col A m n k ck) 0 m Qt) m m = house (hv A m n k) ck * rowMajor Qt m m := by
  have aux : ∀ cnt, cnt ≤ m → ∀ i j, j < m →
      forUp (qr_qt_col A m n k ck) 0 cnt Qt (i * m + j) =
        if j < cnt ∧ k ≤ i ∧ i < m then
          Qt (i * m + j) -
            (∑ t in Finset.Ico k m, A (t * n + k) * Qt (t * m + j)) / ck * A (i * n + k)
        else Qt (i * m + j) := by
    intro cnt
    induction cnt with
    | zero =>
      intro _ i j _
      rw [forUp_zero, if_neg (by omega)]
    | succ cnt ih =>
      intro hc i j hj
      have ih1 := ih (by omega)
      rw [forUp_succ, Nat.zero_add, qr_qt_col_spec A m n k ck cnt _ (by omega) hkm i j hj]
      have hcol : ∀ t, forUp (qr_qt_col A m n k ck) 0 cnt Qt (t * m + cnt) = Qt (t * m + cnt) := by
        intro t
        rw [ih1 t cnt (by omega), if_neg (by omega)]
      by_cases h : j = cnt ∧ k ≤ i ∧ i < m
      · rw [if_pos h, if_pos ⟨by omega, h.2⟩, hcol, h.1]
        congr 2
        congr 1
        apply Finset.sum_congr rfl
        intro t _
        rw [hcol]
      · rw [if_neg h, ih1 i j hj]
        by_cases h2 : j < cnt ∧ k ≤ i ∧ i < m
        · rw [if_pos h2, if_pos ⟨by omega, h2.2⟩]
        · rw [if_neg h2, if_neg (by omega)]
  ext i j
  rw [house_mul_apply _ _ hck]
  have e : (∑ t : Fin m, hv A m n k t * rowMajor Qt m m t j) =
      ∑ t in Finset.Ico k m, A (t * n + k) * (fun t => Qt (t * m + j.val)) t :=
    hv_dot A m n k (fun t => Qt (t * m + j.val))
  rw [e]
  show forUp (qr_qt_col A m n k ck) 0 m Qt (i.val * m + j.val) = _
  rw [aux m (le_refl _) i.val j.val j.2]
  unfold hv rowMajor
  by_cases hi : k ≤ i.val
  · rw [if_pos ⟨j.2, hi, i.2⟩, if_pos hi]
  · rw [if_neg (fun h => hi h.2.1), if_neg hi, mul_zero, sub_zero]

/-- One row of `Q` under the reflection of step `k`, entry by entry. -/
theorem qr_q_row_spec (A : Nat → α) (m n k : Nat) (ck : α) (j : Nat) (Q : Nat → α)
    (hkm : k ≤ m) (i j1 : Nat) (hi : i < m) :
    qr_q_row A m n k ck j Q (j1 * m + i) =
      if j1 = j ∧ k ≤ i then
        Q (j * m + i) - (∑ t in Finset.Ico k m, A (t * n + k) * Q (j * m + t)) / ck * A (i * n + k)
      else Q (j1 * m + i) := by
  unfold qr_q_row
  have em : k + (m - k) = m := by omega
  have hsum := forUp_sum (fun t => A (t * n + k) * Q (j * m + t)) k (m - k)
  rw [em] at hsum
  simp only [hsum]
  obtain ⟨h1, h2⟩ := axpy_fixed_spec (fun i => j * m + i) (fun i => A (i * n + k))
    ((∑ t in Finset.Ico k m, A (t * n + k) * Q (j * m + t)) / ck) k (m - k) Q
    (fun a b _ _ _ _ e => Nat.add_left_cancel e)
  rw [em] at h1 h2
  by_cases hc : j1 = j ∧ k ≤ i
  · rw [if_pos hc, hc.1]
    exact h1 i hc.2 hi
  · rw [if_neg hc]
    apply h2
    intro t ht1 ht2 e
    have := (idx_inj hi ht2).mp e
    exact hc ⟨this.1, by omega⟩

/-- All rows of `Q` under the reflection of step `k`: `Q ← Q * H_k`. -/
theorem qr_q_rows_spec (A : Nat → α) (m n k : Nat) (ck : α) (hck : ck ≠ 0) (Q : Nat → α)
    (hkm : k ≤ m) :
    rowMajor (forUp (qr_q_row A m n k ck) 0 m Q) m m = rowMajor Q m m * house (hv A m n k) ck := by
  have aux : ∀ cnt, cnt ≤ m → ∀ j i, i < m →
      forUp (qr_q_row A m n k ck) 0 cnt Q (j * m + i) =
        if j < cnt ∧ k ≤ i then
          Q (j * m + i) -
            (∑ t in Finset.Ico k m, A (t * n + k) * Q (j * m + t)) / ck * A (i * n + k)
        else Q (j * m + i) := by
    intro cnt
    induction cnt with
    | zero =>
      intro _ j i _
      rw [forUp_zero, if_neg (by omega)]
    | succ cnt ih =>
      intro hc j i hi
      have ih1 := ih (by omega)
      rw [forUp_succ, Nat.zero_add, qr_q_row_spec A m n k ck cnt _ hkm i j hi]
      have hrow : ∀ t, t < m →
          forUp (qr_q_row A m n k ck) 0 cnt Q (cnt * m + t) = Q (cnt * m + t) := by
        intro t ht
        rw [ih1 cnt t ht, if_neg (by omega)]
      by_cases h : j = cnt ∧ k ≤ i
      · rw [if_pos h, if_pos ⟨by omega, h.2⟩, hrow i hi, h.1]
        congr 2
        congr 1
        apply Finset.sum_congr rfl
        intro t ht
        rw [Finset.mem_Ico] at ht
        rw [hrow t ht.2]
      · rw [if_neg h, ih1 j i hi]
        by_cases h2 : j < cnt ∧ k ≤ i
        · rw [if_pos h2, if_pos ⟨by omega, h2.2⟩]
        · rw [if_neg h2, if_neg (by omega)]
  have ht : rowMajor Q m m * house (hv A m n k) ck =
      (house (hv A m n k) ck * (rowMajor Q m m).transpose).transpose := by
    rw [Matrix.transpose_mul, Matrix.transpose_transpose, house_transpose]
  rw [ht]
  ext j i
  rw [Matrix.transpose_apply, house_mul_apply _ _ hck]
  have e : (∑ t : Fin m, hv A m n k t * (rowMajor Q m m).transpose t j) =
      ∑ t in Finset.Ico k m, A (t * n + k) * (fun t => Q (j.val * m + t)) t :=
    hv_dot A m n k (fun t => Q (j.val * m + t))
  rw [e]
  show forUp (qr_q_row A m n k ck) 0 m Q (j.val * m + i.val) = _
  rw [aux m (le_refl _) j.val i.val i.2]
  unfold hv rowMajor
  rw [Matrix.transpose_apply]
  by_cases hi : k ≤ i.val
  · rw [if_pos ⟨j.2, hi⟩, if_pos hi]
  · rw [if_neg (fun h => hi h.2), if_neg hi, mul_zero, sub_zero]

end

section

/-- State of the transpose loop after `t` elements. -/
theorem transpose_loop_spec {R : Type} (inp out : Nat → R) (rows cols : Nat) :
    ∀ t, t ≤ rows * cols →
      (∀ r c, c < cols → t = r * cols + c →
        (forUp (fun t (st : (Nat → R) × Nat × Nat) =>
          if st.2.1 ≥ rows * cols - rows
            then (Function.update st.1 st.2.1 (inp t), st.2.2 + 1, st.2.2 + 1)
            else (Function.update st.1 st.2.1 (inp t), st.2.1 + rows, st.2.2))
          0 t (out, 0, 0)).2 = (c * rows + r, r)) ∧
      (∀ r c, r < rows → c < cols → r * cols + c < t →
        (forUp (fun t (st : (Nat → R) × Nat × Nat) =>
          if st.2.1 ≥ rows * cols - rows
            then (Function.update st.1 st.2.1 (inp t), st.2.2 + 1, st.2.2 + 1)
            else (Function.update st.1 st.2.1 (inp t), st.2.1 + rows, st.2.2))
          0 t (out, 0, 0)).1 (c * rows + r) = inp (r * cols + c)) := by
  intro t
  induction t with
  | zero =>
    intro _
    refine ⟨fun r c hc h => ?_, fun r c _ _ h => absurd h (by omega)⟩
    have hr : r * cols = 0 := by omega
    have hc0 : c = 0 := by omega
    rcases Nat.mul_eq_zero.mp hr with h1 | h1
    · subst h1 hc0
      simp [forUp]
    · omega
  | succ t ih =>
    intro ht
    obtain ⟨ihP, ihQ⟩ := ih (by omega)
    have hcols : 0 < cols := by
      rcases Nat.eq_zero_or_pos cols with h | h
      · rw [h] at ht
        omega
      · exact h
    have hdecomp : t = (t / cols) * cols + t % cols := by
      rw [Nat.mul_comm]
      exact (Nat.div_add_mod t cols).symm
    have hc0 : t % cols < cols := Nat.mod_lt _ hcols
    have hr0 : t / cols < rows := by
      apply Nat.div_lt_of_lt_mul
      rw [Nat.mul_comm]
      omega
    have hst := ihP (t / cols) (t % cols) hc0 hdecomp
    generalize t / cols = r0 at hdecomp hr0 hst
    generalize t % cols = c0 at hdecomp hc0 hst
    rw [forUp_succ, Nat.zero_add]
    generalize forUp (fun t (st : (Nat → R) × Nat × Nat) =>
          if st.2.1 ≥ rows * cols - rows
            then (Function.update st.1 st.2.1 (inp t), st.2.2 + 1, st.2.2 + 1)
            else (Function.update st.1 st.2.1 (inp t), st.2.1 + rows, st.2.2))
          0 t (out, 0, 0) = S at ihP ihQ hst
    obtain ⟨o, oc, col⟩ := S
    simp only [Prod.mk.injEq] at hst
    obtain ⟨h1, h2⟩ := hst
    subst h1 h2
    dsimp only
    have hcond : (c0 * rows + col ≥ rows * cols - rows) ↔ c0 + 1 = cols := by
      constructor
      · intro h
        by_contra hne
        have h3 : c0 + 2 ≤ cols := by omega
        have h4 : rows * (c0 + 2) ≤ rows * cols := Nat.mul_le_mul_left rows h3
        have h5 : rows * (c0 + 2) = c0 * rows + rows + rows := by ring
        omega
      · intro h
        have h5 : rows * cols = c0 * rows + rows := by
          rw [← h]
          ring
        omega
    have hQ : ∀ r c, r < rows → c < cols → r * cols + c < t + 1 →
        Function.update o (c0 * rows + col) (inp t) (c * rows + r) = inp (r * cols + c) := by
      intro r c hr hc hlt
      rw [Function.update_apply]
      by_cases he : r * cols + c = t
      · have := (idx_inj hc hc0).mp (he.trans hdecomp)
        rw [if_pos (by rw [this.1, this.2]), he]
      · have hne : ¬ (c * rows + r = c0 * rows + col) := by
          intro e
          have := (idx_inj hr hr0).mp e
          apply he
          rw [this.1, this.2]
          exact hdecomp.symm
        rw [if_neg hne]
        exact ihQ r c hr hc (by omega)
    by_cases hlast : c0 + 1 = cols
    · rw [if_pos (hcond.mpr hlast)]
      refine ⟨fun r c hc h => ?_, hQ⟩
      have e : r * cols + c = (col + 1) * cols + 0 := by
        rw [← h, hdecomp, ← hlast]
        ring
      have := (idx_inj hc hcols).mp e
      rw [this.1, this.2]
      simp
    · rw [if_neg (fun h => hlast (hcond.mp h))]
      refine ⟨fun r c hc h => ?_, hQ⟩
      have e : r * cols + c = col * cols + (c0 + 1) := by
        rw [← h, hdecomp]
        ring
      have := (idx_inj hc (show c0 + 1 < cols by omega)).mp e
      rw [this.1, this.2]
      simp only [Prod.mk.injEq, and_true]
      ring

/-- The out-of-place transpose writes `out[c * rows + r] = in[r * cols + c]`. -/
theorem transpose_spec {R : Type} (inp out : Nat → R) (rows cols r c : Nat)
    (hr : r < rows) (hc : c < cols) :
    transpose inp out rows cols (c * rows + r) = inp (r * cols + c) := by
  unfold transpose
  apply (transpose_loop_spec inp out rows cols (rows * cols) (le_refl _)).2 r c hr hc
  have h1 : (r + 1) * cols ≤ rows * cols := Nat.mul_le_mul_right cols hr
  have h2 : (r + 1) * cols = r * cols + cols := by ring
  omega

end

section

variable {α : Type} [LinearOrderedField α]

/-- The buffer prepared by `qr_compute_q` holds the identity matrix. -/
theorem qr_identity_spec (Q : Nat → α) (m : Nat) : rowMajor (qr_identity Q m) m m = 1 := by
  have aux : ∀ (Q0 : Nat → α) (cnt : Nat), cnt ≤ m → ∀ i j, j < m →
      forUp (fun i Q => Function.update Q (i * (m + 1)) 1) 0 cnt Q0 (i * m + j) =
        if i < cnt ∧ j = i then 1 else Q0 (i * m + j) := by
    intro Q0 cnt
    induction cnt with
    | zero =>
      intro _ i j _
      rw [forUp_zero, if_neg (by omega)]
    | succ cnt ih =>
      intro hcm i j hj
      have hc : cnt < m := by omega
      rw [forUp_succ, Function.update_apply, Nat.zero_add, ih (by omega) i j hj]
      have e : cnt * (m + 1) = cnt * m + cnt := by ring
      rw [e]
      simp only [idx_inj hj hc]
      by_cases h : i = cnt ∧ j = cnt
      · rw [if_pos h, if_pos (show i < cnt + 1 ∧ j = i by omega)]
      · rw [if_neg h]
        by_cases h2 : i < cnt ∧ j = i
        · rw [if_pos h2, if_pos (show i < cnt + 1 ∧ j = i by omega)]
        · rw [if_neg h2, if_neg (show ¬ (i < cnt + 1 ∧ j = i) by omega)]
  ext i j
  show qr_identity Q m (i.val * m + j.val) = _
  unfold qr_identity
  rw [aux _ m (le_refl _) i.val j.val j.2, Matrix.one_apply]
  by_cases h : i = j
  · rw [if_pos h, if_pos ⟨i.2, by rw [h]⟩]
  · have hne : ¬ (i.val < m ∧ j.val = i.val) := fun hh => h (Fin.ext hh.2.symm)
    rw [if_neg h, if_neg hne, fill_zero_spec, if_pos]
    have h1 : (i.val + 1) * m ≤ m * m := Nat.mul_le_mul_right m i.2
    have h2 : (i.val + 1) * m = i.val * m + m := by ring
    have := j.2
    omega

/-- The in-place `qr_get_r` writes the diagonal and clears the entries to its left. -/
theorem qr_get_r_spec (A d : Nat → α) (m n : Nat) (hnm : n ≤ m) (i j : Nat) (hi : i < n)
    (hj : j < n) :
    qr_get_r A d m n (i * n + j) = if j < i then 0 else if j = i then d i else A (i * n + j) := by
  have inner : ∀ (B : Nat → α) (pos c : Nat), c ≤ pos → ∀ z,
      forUp (fun j B => Function.update B (pos - j) 0) 1 c B z =
        if pos - c ≤ z ∧ z < pos then 0 else B z := by
    intro B pos c
    induction c with
    | zero =>
      intro _ z
      rw [forUp_zero, if_neg (by omega)]
    | succ c ih =>
      intro hc z
      rw [forUp_succ, Function.update_apply, ih (by omega) z]
      by_cases h : z = pos - (1 + c)
      · rw [if_pos h, if_pos (by omega)]
      · rw [if_neg h]
        by_cases h2 : pos - c ≤ z ∧ z < pos
        · rw [if_pos h2, if_pos (by omega)]
        · rw [if_neg h2, if_neg (by omega)]
  have aux : ∀ cnt, cnt ≤ n → ∀ i j, j < n →
      forUp (fun i A => forUp (fun j B => Function.update B (i * (n + 1) - j) 0) 1 i
          (Function.update A (i * (n + 1)) (d i))) 0 cnt A (i * n + j) =
        if i < cnt then (if j < i then 0 else if j = i then d i else A (i * n + j))
        else A (i * n + j) := by
    intro cnt
    induction cnt with
    | zero =>
      intro _ i j _
      rw [forUp_zero, if_neg (by omega)]
    | succ cnt ih =>
      intro hc i j hj
      have hcn : cnt < n := by omega
      have e : cnt * (n + 1) = cnt * n + cnt := by ring
      rw [forUp_succ, Nat.zero_add, inner _ _ cnt (by rw [e]; omega), Function.update_apply,
        ih (by omega) i j hj, e]
      have hrange : (cnt * n + cnt - cnt ≤ i * n + j ∧ i * n + j < cnt * n + cnt) ↔
          (i = cnt ∧ j < cnt) := by
        have e2 : cnt * n + cnt - cnt = cnt * n + 0 := by omega
        rw [e2]
        constructor
        · intro h
          have := (@row_range n i j cnt 0 hj).mp ⟨h.1, by omega⟩
          rw [this.1] at h
          exact ⟨this.1, by omega⟩
        · rintro ⟨rfl, h⟩
          omega
      simp only [hrange, idx_inj hj hcn]
      by_cases h1 : i = cnt
      · rw [if_pos (show i < cnt + 1 by omega)]
        by_cases h2 : j < i
        · rw [if_pos (show i = cnt ∧ j < cnt by omega), if_pos h2]
        · rw [if_neg (show ¬ (i = cnt ∧ j < cnt) by omega), if_neg h2]
          by_cases h3 : j = i
          · rw [if_pos (show i = cnt ∧ j = cnt by omega), if_pos h3, h1]
          · rw [if_neg (show ¬ (i = cnt ∧ j = cnt) by omega), if_neg h3,
              if_neg (show ¬ i < cnt by omega)]
      · rw [if_neg (show ¬ (i = cnt ∧ j < cnt) from fun h => h1 h.1),
          if_neg (show ¬ (i = cnt ∧ j = cnt) from fun h => h1 h.1)]
        by_cases h2 : i < cnt
        · rw [if_pos h2, if_pos (show i < cnt + 1 by omega)]
        · rw [if_neg h2, if_neg (show ¬ i < cnt + 1 by omega)]
  unfold qr_get_r
  rw [Nat.min_eq_right hnm, aux n (le_refl _) i j hj, if_pos hi]

end

section

variable {α : Type} [LinearOrderedField α]

/-- Branch `m <= n` of `qr_compute_q` (with `m = n`): the rows accumulate `H_0 * ... * H_{k-1}`. -/
theorem qr_q_accumulate (F c Q0 : Nat → α) (m n : Nat) (hQ0 : rowMajor Q0 m m = 1) (cnt : Nat)
    (hc : cnt ≤ m) :
    rowMajor (forUp (fun k Q => if c k ≠ 0 then forUp (qr_q_row F m n k (c k)) 0 m Q else Q)
      0 cnt Q0) m m = (hprod F c m n cnt).transpose := by
  induction cnt with
  | zero =>
    rw [forUp_zero, hQ0]
    show (1 : Matrix (Fin m) (Fin m) α) = (1 : Matrix (Fin m) (Fin m) α).transpose
    rw [Matrix.transpose_one]
  | succ cnt ih =>
    have ih1 := ih (by omega)
    rw [forUp_succ, Nat.zero_add]
    show _ = (house _ _ * hprod F c m n cnt).transpose
    rw [Matrix.transpose_mul, house_transpose, ← ih1]
    by_cases hck : c cnt = 0
    · rw [if_neg (not_not.mpr hck), hck, house_zero, Matrix.mul_one]
    · rw [if_pos hck]
      exact qr_q_rows_spec F m n cnt (c cnt) hck _ (by omega)

/-- Branch `m > n` of `qr_compute_q`: the columns accumulate `H_{k-1} * ... * H_0`. -/
theorem qr_qt_accumulate (F c Q0 : Nat → α) (m n : Nat) (hQ0 : rowMajor Q0 m m = 1) (cnt : Nat)
    (hc : cnt ≤ m) :
    rowMajor (forUp (fun k Qt => if c k ≠ 0 then forUp (qr_qt_col F m n k (c k)) 0 m Qt else Qt)
      0 cnt Q0) m m = hprod F c m n cnt := by
  induction cnt with
  | zero =>
    rw [forUp_zero, hQ0]
    rfl
  | succ cnt ih =>
    have ih1 := ih (by omega)
    rw [forUp_succ, Nat.zero_add]
    show _ = house _ _ * hprod F c m n cnt
    rw [← ih1]
    by_cases hck : c cnt = 0
    · rw [if_neg (not_not.mpr hck), hck, house_zero, Matrix.one_mul]
    · rw [if_pos hck]
      exact qr_qt_cols_spec F m n cnt (c cnt) hck _ (by omega)

/-- The `m × n` buffer written by `qr_compute_q` holds the first `n` columns of the
transposed product of the reflections. -/
theorem qr_compute_q_spec (F c Q : Nat → α) (m n : Nat) (hnm : n ≤ m) (i : Fin m) (j : Fin n) :
    rowMajor (qr_compute_q F c Q m n) m n i j = hprod F c m n n (Fin.castLE hnm j) i := by
  show qr_compute_q F c Q m n (i.val * n + j.val) = _
  unfold qr_compute_q
  by_cases hmn : m ≤ n
  · have e : m = n := by omega
    subst e
    rw [if_pos hmn]
    have h := qr_q_accumulate F c (qr_identity Q m) m m (qr_identity_spec Q m) m (le_refl _)
    have h2 := congrFun (congrFun h i) j
    rw [Matrix.transpose_apply] at h2
    exact h2
  · rw [if_neg hmn, Nat.min_eq_right hnm, transpose_spec _ _ n m j.val i.val j.2 i.2]
    have h := qr_qt_accumulate F c (qr_identity (fun _ => 0) m) m n (qr_identity_spec _ m) n hnm
    exact congrFun (congrFun h (Fin.castLE hnm j)) i

/-- A sum over `Fin m` whose terms vanish from `n` on is a sum over `Fin n`. -/
theorem sum_fin_castLE {m n : Nat} (hnm : n ≤ m) (f : Fin m → α)
    (hf : ∀ s : Fin m, n ≤ s.val → f s = 0) :
    (∑ s : Fin m, f s) = ∑ t : Fin n, f (Fin.castLE hnm t) := by
  have e1 : (∑ s : Fin m, f s) =
      ∑ s : Fin m, (fun s : Nat => if h : s < m then (if s < n then f ⟨s, h⟩ else 0) else 0) s.val := by
    apply Finset.sum_congr rfl
    intro s _
    simp only
    rw [dif_pos s.2]
    by_cases h : s.val < n
    · rw [if_pos h]
    · rw [if_neg h, hf s (by omega)]
  have e2 : (∑ t : Fin n, f (Fin.castLE hnm t)) =
      ∑ t : Fin n, (fun s : Nat => if h : s < m then (if s < n then f ⟨s, h⟩ else 0) else 0) t.val := by
    apply Finset.sum_congr rfl
    intro t _
    simp only
    rw [dif_pos (show t.val < m by omega), if_pos t.2]
    rfl
  rw [e1, e2,
    Fin.sum_univ_eq_sum_range
      (fun s : Nat => if h : s < m then (if s < n then f ⟨s, h⟩ else 0) else 0) m,
    Fin.sum_univ_eq_sum_range
      (fun s : Nat => if h : s < m then (if s < n then f ⟨s, h⟩ else 0) else 0) n]
  obtain ⟨d, rfl⟩ : ∃ d, m = n + d := ⟨m - n, by omega⟩
  rw [Finset.sum_range_add]
  have hz : ∑ x in Finset.range d,
      (fun s : Nat => if h : s < n + d then (if s < n then f ⟨s, h⟩ else 0) else 0) (n + x) = 0 := by
    apply Finset.sum_eq_zero
    intro x _
    simp only
    split_ifs <;> first | rfl | omega
  rw [hz, add_zero]

end

section

variable {α : Type} [LinearOrderedField α]

/-- C9. Householder QR in exact arithmetic: for an `m × n` matrix `A` with `m ≥ n` (in particular
`m ≥ n ≥ 1`) and a square-root function `sqrt` (non-negative, `sqrt x * sqrt x = x` on `x ≥ 0`),
`qr_decomposition(A, Q, dim)` leaves `Q` (`m × n`, row-major) with orthonormal columns
(`Qᵀ * Q = I`) and an upper-triangular `n × n` matrix `R` in the first `n` rows of the buffer
of `A`, with `Q * R` equal to the original `A`. -/
theorem qr_decomposition_correct (sqrt : α → α)
    (hsqrt : ∀ x, 0 ≤ x → 0 ≤ sqrt x ∧ sqrt x * sqrt x = x)
    (A Q : Nat → α) (m n : Nat) (hnm : n ≤ m) :
    (rowMajor (qr_decomposition_q sqrt A Q m n).2.2 m n).transpose *
        rowMajor (qr_decomposition_q sqrt A Q m n).2.2 m n = 1 ∧
    (∀ i j : Fin n, j < i → rowMajor (qr_decomposition_q sqrt A Q m n).2.1 n n i j = 0) ∧
    rowMajor (qr_decomposition_q sqrt A Q m n).2.2 m n *
        rowMajor (qr_decomposition_q sqrt A Q m n).2.1 n n = rowMajor A m n := by
  obtain ⟨h1, h2⟩ := qr_decomposition_spec sqrt hsqrt A (fun _ => 0) (fun _ => 0) m n hnm
  have hQ : ∀ (i : Fin m) (j : Fin n), rowMajor (qr_decomposition_q sqrt A Q m n).2.2 m n i j =
      hprod (qr_decomposition sqrt A (fun _ => 0) (fun _ => 0) m n).2.1
        (qr_decomposition sqrt A (fun _ => 0) (fun _ => 0) m n).2.2.1 m n n (Fin.castLE hnm j) i :=
    fun i j => qr_compute_q_spec _ _ Q m n hnm i j
  have hR : ∀ i j : Fin n, rowMajor (qr_decomposition_q sqrt A Q m n).2.1 n n i j =
      if j.val < i.val then 0 else if j.val = i.val
        then (qr_decomposition sqrt A (fun _ => 0) (fun _ => 0) m n).2.2.2 i.val
        else (qr_decomposition sqrt A (fun _ => 0) (fun _ => 0) m n).2.1 (i.val * n + j.val) :=
    fun i j => qr_get_r_spec _ _ m n hnm i.val j.val i.2 j.2
  generalize (qr_decomposition_q sqrt A Q m n).2.2 = Qb at hQ ⊢
  generalize (qr_decomposition_q sqrt A Q m n).2.1 = Rb at hR ⊢
  generalize (qr_decomposition sqrt A (fun _ => 0) (fun _ => 0) m n).2.1 = F at h1 h2 hQ hR
  generalize (qr_decomposition sqrt A (fun _ => 0) (fun _ => 0) m n).2.2.1 = c at h1 h2 hQ
  generalize (qr_decomposition sqrt A (fun _ => 0) (fun _ => 0) m n).2.2.2 = d at h2 hR
  have hP := hprod_orthogonal F c m n n h1
  have hP2 : (hprod F c m n n).transpose * hprod F c m n n = 1 := Matrix.mul_eq_one_comm.mp hP
  refine ⟨?_, ?_, ?_⟩
  · ext a b
    rw [Matrix.mul_apply]
    have e : ∀ i : Fin m, (rowMajor Qb m n).transpose a i * rowMajor Qb m n i b =
        hprod F c m n n (Fin.castLE hnm a) i * (hprod F c m n n).transpose i (Fin.castLE hnm b) := by
      intro i
      rw [Matrix.transpose_apply, Matrix.transpose_apply, hQ, hQ]
    rw [Finset.sum_congr rfl (fun i _ => e i), ← Matrix.mul_apply, hP, Matrix.one_apply,
      Matrix.one_apply]
    by_cases hab : a = b
    · rw [if_pos hab, if_pos (by rw [hab])]
    · rw [if_neg hab, if_neg]
      intro h
      apply hab
      have := congrArg Fin.val h
      exact Fin.ext this
  · intro i j hij
    have : j.val < i.val := hij
    rw [hR, if_pos this]
  · have hA : rowMajor A m n = (hprod F c m n n).transpose * qrR F d m n n := by
      rw [← h2, ← Matrix.mul_assoc, hP2, Matrix.one_mul]
    rw [hA]
    ext i j
    rw [Matrix.mul_apply, Matrix.mul_apply]
    have hz : ∀ s : Fin m, n ≤ s.val →
        (hprod F c m n n).transpose i s * qrR F d m n n s j = 0 := by
      intro s hs
      unfold qrR
      rw [if_pos j.2, if_neg (show ¬ s.val < j.val by omega),
        if_neg (show ¬ s.val = j.val by omega), mul_zero]
    rw [sum_fin_castLE hnm _ hz]
    apply Finset.sum_congr rfl
    intro t _
    rw [hQ, hR, Matrix.transpose_apply]
    congr 1
    unfold qrR
    rw [if_pos j.2]
    show _ = if t.val < j.val then F (t.val * n + j.val) else if t.val = j.val then d j.val else 0
    rcases Nat.lt_trichotomy j.val t.val with h | h | h
    · rw [if_pos h, if_neg (show ¬ t.val < j.val by omega), if_neg (show ¬ t.val = j.val by omega)]
    · rw [if_neg (show ¬ j.val < t.val by omega), if_pos h, if_neg (show ¬ t.val < j.val by omega),
        if_pos h.symm, h]
    · rw [if_neg (show ¬ j.val < t.val by omega), if_neg (show ¬ j.val = t.val by omega), if_pos h]

theorem qr_decomposition_correct_witness :
    ((∀ x : ℝ, 0 ≤ x → 0 ≤ Real.sqrt x ∧ Real.sqrt x * Real.sqrt x = x) ∧ 1 ≤ 2) ∧
    ((rowMajor (qr_decomposition_q Real.sqrt (ofList [3, 4]) (fun _ => 0) 2 1).2.2 2 1).transpose *
        rowMajor (qr_decomposition_q Real.sqrt (ofList [3, 4]) (fun _ => 0) 2 1).2.2 2 1 = 1 ∧
    (∀ i j : Fin 1, j < i →
      rowMajor (qr_decomposition_q Real.sqrt (ofList [3, 4]) (fun _ => 0) 2 1).2.1 1 1 i j = 0) ∧
    rowMajor (qr_decomposition_q Real.sqrt (ofList [3, 4]) (fun _ => 0) 2 1).2.2 2 1 *
        rowMajor (qr_decomposition_q Real.sqrt (ofList [3, 4]) (fun _ => 0) 2 1).2.1 1 1 =
      rowMajor (ofList [3, 4] : Nat → ℝ) 2 1) :=
  ⟨⟨fun x hx => ⟨Real.sqrt_nonneg x, Real.mul_self_sqrt hx⟩, by decide⟩,
    qr_decomposition_correct Real.sqrt
      (fun x hx => ⟨Real.sqrt_nonneg x, Real.mul_self_sqrt hx⟩)
      (ofList [3, 4]) (fun _ => 0) 2 1 (by decide)⟩

end

section

variable {α : Type} [LinearOrderedField α]

/-! ## Descending loops and the Cholesky row step -/

theorem forDown_zero {σ : Type} (body : Nat → σ → σ) (lo : Nat) (s : σ) :
    forDown body lo 0 s = s := rfl

theorem forDown_succ {σ : Type} (body : Nat → σ → σ) (lo c : Nat) (s : σ) :
    forDown body lo (c + 1) s = forDown body lo c (body (lo + c) s) := rfl

/-- A descending loop that subtracts terms computes a finite sum. -/
theorem forDown_sub_sum {R : Type} [AddCommGroup R] (f : Nat → R) (lo cnt : Nat) (s0 : R) :
    forDown (fun i sum => sum - f i) lo cnt s0 = s0 - ∑ i in Finset.Ico lo (lo + cnt), f i := by
  induction cnt generalizing s0 with
  | zero => simp [forDown]
  | succ cnt ih =>
    rw [forDown_succ, ih, ← Nat.add_assoc, Finset.sum_Ico_succ_top (by omega)]
    abel

/-- A descending loop that adds terms computes a finite sum. -/
theorem forDown_add_sum {R : Type} [AddCommMonoid R] (f : Nat → R) (lo cnt : Nat) (s0 : R) :
    forDown (fun i sum => sum + f i) lo cnt s0 = s0 + ∑ i in Finset.Ico lo (lo + cnt), f i := by
  induction cnt generalizing s0 with
  | zero => simp [forDown]
  | succ cnt ih =>
    rw [forDown_succ, ih, ← Nat.add_assoc, Finset.sum_Ico_succ_top (by omega)]
    rw [add_assoc, add_comm (f (lo + cnt))]

/-- An ascending loop that subtracts terms computes a finite sum. -/
theorem forUp_sub_sum {R : Type} [AddCommGroup R] (f : Nat → R) (lo cnt : Nat) (s0 : R) :
    forUp (fun i sum => sum - f i) lo cnt s0 = s0 - ∑ i in Finset.Ico lo (lo + cnt), f i := by
  induction cnt with
  | zero => simp [forUp]
  | succ cnt ih =>
    rw [forUp_succ, ih, ← Nat.add_assoc, Finset.sum_Ico_succ_top (by omega)]
    abel

/-- The pivot sum of `ll_decomposition` in closed form. -/
theorem ll_sum_spec (A : Nat → α) (n i j : Nat) (hij : i ≤ j) :
    ll_sum A n i j = A (i * n + j) - ∑ k in Finset.range i, A (i * n + k) * A (j * n + k) := by
  unfold ll_sum
  by_cases hi : i > 0
  · simp only [hi, if_true]
    rw [forDown_sub_sum, Finset.sum_Ico_eq_sum_range]
    congr 1
    rw [Nat.add_sub_cancel_left]
    apply Finset.sum_congr rfl
    intro k _
    have h1 : i * n ≤ j * n := Nat.mul_le_mul_right n hij
    have : i * n + k + (j * n - i * n) = j * n + k := by omega
    rw [this]
  · have : i = 0 := by omega
    subst this
    simp

/-- The pivot sum only depends on the upper entry `(i, j)` and on the columns `k < i`
of the rows `i` and `j`. -/
theorem ll_sum_congr (A B : Nat → α) (n i j : Nat) (hij : i ≤ j)
    (h1 : A (i * n + j) = B (i * n + j))
    (h2 : ∀ k, k < i → A (i * n + k) = B (i * n + k))
    (h3 : ∀ k, k < i → A (j * n + k) = B (j * n + k)) :
    ll_sum A n i j = ll_sum B n i j := by
  rw [ll_sum_spec A n i j hij, ll_sum_spec B n i j hij, h1]
  congr 1
  apply Finset.sum_congr rfl
  intro k hk
  rw [h2 k (Finset.mem_range.1 hk), h3 k (Finset.mem_range.1 hk)]

/-- The part of the loop over `j` after the pivot: the entries `(j', i)` for
`j ≤ j' < n` are written, nothing else changes and the loop does not return early. -/
theorem ll_row_tail (sqrt : α → α) (n i : Nat) (hi : i < n) (cnt : Nat) :
    ∀ (j : Nat) (A p : Nat → α), i < j → j + cnt = n →
      (ll_row sqrt n i cnt j A p).1 = true ∧ (ll_row sqrt n i cnt j A p).2.2 = p ∧
      ∀ r c, r < n → c < n →
        (ll_row sqrt n i cnt j A p).2.1 (r * n + c) =
          if c = i ∧ j ≤ r then ll_sum A n i r / p i else A (r * n + c) := by
  induction cnt with
  | zero =>
    intro j A p hij hj
    refine ⟨rfl, rfl, ?_⟩
    intro r c hr hc
    rw [if_neg (by omega)]
    rfl
  | succ cnt ih =>
    intro j A p hij hj
    have hne : ¬ i = j := by omega
    have e : ll_row sqrt n i (cnt + 1) j A p =
        ll_row sqrt n i cnt (j + 1)
          (Function.update A (j * n + i) (ll_sum A n i j / p i)) p := by
      simp only [ll_row, hne, if_false]
    rw [e]
    obtain ⟨h1, h2, h3⟩ := ih (j + 1)
      (Function.update A (j * n + i) (ll_sum A n i j / p i)) p (by omega) (by omega)
    refine ⟨h1, h2, ?_⟩
    intro r c hr hc
    rw [h3 r c hr hc]
    have hjn : j < n := by omega
    by_cases hc1 : c = i ∧ j + 1 ≤ r
    · rw [if_pos hc1, if_pos ⟨hc1.1, by omega⟩]
      congr 1
      apply ll_sum_congr _ _ _ _ _ (by omega)
      · rw [Function.update_apply, if_neg]
        rw [idx_inj (by omega) hi]
        omega
      · intro k hk
        rw [Function.update_apply, if_neg]
        rw [idx_inj (by omega) hi]
        omega
      · intro k hk
        rw [Function.update_apply, if_neg]
        rw [idx_inj (by omega) hi]
        omega
    · rw [if_neg hc1, Function.update_apply]
      by_cases hc2 : c = i ∧ j ≤ r
      · have hr2 : r = j := by omega
        rw [if_pos hc2, if_pos (by rw [hr2, hc2.1])]
        rw [hr2]
      · rw [if_neg hc2, if_neg]
        rw [idx_inj hc hi]
        omega

/-- The loop over `j` for row `i`: either the pivot sum is not positive and the routine
returns `false` without writing, or `p[i]` and column `i` below the diagonal are written. -/
theorem ll_row_spec (sqrt : α → α) (n i : Nat) (hi : i < n) (A p : Nat → α) :
    (ll_sum A n i i ≤ 0 → ll_row sqrt n i (n - i) i A p = (false, A, p)) ∧
    (0 < ll_sum A n i i →
      (ll_row sqrt n i (n - i) i A p).1 = true ∧
      (ll_row sqrt n i (n - i) i A p).2.2 = Function.update p i (sqrt (ll_sum A n i i)) ∧
      ∀ r c, r < n → c < n →
        (ll_row sqrt n i (n - i) i A p).2.1 (r * n + c) =
          if c = i ∧ i + 1 ≤ r then ll_sum A n i r / sqrt (ll_sum A n i i)
          else A (r * n + c)) := by
  obtain ⟨cnt, hcnt⟩ : ∃ cnt, n - i = cnt + 1 := ⟨n - i - 1, by omega⟩
  rw [hcnt]
  constructor
  · intro h
    simp only [ll_row, if_true, h]
  · intro h
    have e : ll_row sqrt n i (cnt + 1) i A p =
        ll_row sqrt n i cnt (i + 1) A (Function.update p i (sqrt (ll_sum A n i i))) := by
      simp only [ll_row, if_true, not_le.2 h, if_false]
    rw [e]
    obtain ⟨h1, h2, h3⟩ := ll_row_tail sqrt n i hi cnt (i + 1) A
      (Function.update p i (sqrt (ll_sum A n i i))) (by omega) (by omega)
    refine ⟨h1, h2, ?_⟩
    intro r c hr hc
    rw [h3 r c hr hc, Function.update_same]

end

section

variable {α : Type} [LinearOrderedField α]

/-! ## The Cholesky invariant -/

theorem sqrt_pos_of_pos (sqrt : α → α)
    (hs : ∀ x, 0 ≤ x → 0 ≤ sqrt x ∧ sqrt x * sqrt x = x) (x : α) (hx : 0 < x) :
    0 < sqrt x := by
  obtain ⟨h1, h2⟩ := hs x hx.le
  rcases h1.eq_or_lt with h | h
  · rw [← h] at h2
    simp at h2
    exact absurd h2.symm hx.ne'
  · exact h

theorem LLInv_init (A : Nat → α) (p : Nat → α) (n : Nat) : LLInv A A p n 0 :=
  ⟨fun _ _ _ _ _ => rfl, fun c hc => absurd hc (by omega), fun c r hc => absurd hc (by omega)⟩

/-- One row of `ll_decomposition` keeps the invariant, or stops on a non-positive pivot
sum leaving the buffers as they are. -/
theorem ll_row_inv (sqrt : α → α) (hs : ∀ x, 0 ≤ x → 0 ≤ sqrt x ∧ sqrt x * sqrt x = x)
    (A0 F p : Nat → α) (n i : Nat) (hi : i < n) (hinv : LLInv A0 F p n i) :
    (ll_sum F n i i ≤ 0 → ll_row sqrt n i (n - i) i F p = (false, F, p)) ∧
    (0 < ll_sum F n i i →
      (ll_row sqrt n i (n - i) i F p).1 = true ∧
      LLInv A0 (ll_row sqrt n i (n - i) i F p).2.1 (ll_row sqrt n i (n - i) i F p).2.2 n
        (i + 1)) := by
  obtain ⟨hA, hB⟩ := ll_row_spec sqrt n i hi F p
  refine ⟨hA, fun hpos => ?_⟩
  obtain ⟨h1, h2, h3⟩ := hB hpos
  refine ⟨h1, ?_⟩
  obtain ⟨u, v, w⟩ := hinv
  have hsq := hs _ hpos.le
  have hsp := sqrt_pos_of_pos sqrt hs _ hpos
  -- the new buffer agrees with the old one outside column `i` below the diagonal
  have hold : ∀ r c, r < n → c < n → ¬ (c = i ∧ i + 1 ≤ r) →
      (ll_row sqrt n i (n - i) i F p).2.1 (r * n + c) = F (r * n + c) := by
    intro r c hr hc hn
    rw [h3 r c hr hc, if_neg hn]
  refine ⟨?_, ?_, ?_⟩
  · intro r c hr hc hrc
    rw [hold r c hr hc (by omega)]
    exact u r c hr hc hrc
  · intro c hc
    rw [h2]
    have hsum : ∑ k in Finset.range c, (ll_row sqrt n i (n - i) i F p).2.1 (c * n + k) *
        (ll_row sqrt n i (n - i) i F p).2.1 (c * n + k) =
        ∑ k in Finset.range c, F (c * n + k) * F (c * n + k) := by
      apply Finset.sum_congr rfl
      intro k hk
      have hk := Finset.mem_range.1 hk
      rw [hold c k (by omega) (by omega) (by omega)]
    rw [hsum]
    by_cases hci : c = i
    · subst hci
      rw [Function.update_same]
      refine ⟨hsp, ?_⟩
      rw [hsq.2, ll_sum_spec F n c c le_rfl, u c c hi hi le_rfl]
    · rw [Function.update_noteq hci]
      exact v c (by omega)
  · intro c r hc hcr hr
    rw [h2]
    have hsum : ∑ k in Finset.range c, (ll_row sqrt n i (n - i) i F p).2.1 (c * n + k) *
        (ll_row sqrt n i (n - i) i F p).2.1 (r * n + k) =
        ∑ k in Finset.range c, F (c * n + k) * F (r * n + k) := by
      apply Finset.sum_congr rfl
      intro k hk
      have hk := Finset.mem_range.1 hk
      rw [hold c k (by omega) (by omega) (by omega), hold r k (by omega) (by omega) (by omega)]
    rw [hsum]
    by_cases hci : c = i
    · subst hci
      rw [Function.update_same, h3 r c hr hi, if_pos ⟨rfl, by omega⟩,
        div_mul_cancel₀ _ hsp.ne', ll_sum_spec F n c r hcr.le, u c r hi hr hcr.le]
    · rw [Function.update_noteq hci, hold r c hr (by omega) (by omega)]
      exact w c r (by omega) hcr hr

/-- The loop over the rows: on `true` the invariant holds for all `n` columns; on `false`
the buffers are those of a row `i` whose pivot sum is not positive. -/
theorem ll_loop_spec (sqrt : α → α) (hs : ∀ x, 0 ≤ x → 0 ≤ sqrt x ∧ sqrt x * sqrt x = x)
    (A0 : Nat → α) (n : Nat) (cnt : Nat) :
    ∀ (i : Nat) (F p : Nat → α), i + cnt = n → LLInv A0 F p n i →
      ((ll_loop sqrt n cnt i F p).1 = true →
        LLInv A0 (ll_loop sqrt n cnt i F p).2.1 (ll_loop sqrt n cnt i F p).2.2 n n) ∧
      ((ll_loop sqrt n cnt i F p).1 = false →
        ∃ k, k < n ∧
          LLInv A0 (ll_loop sqrt n cnt i F p).2.1 (ll_loop sqrt n cnt i F p).2.2 n k ∧
          ll_sum (ll_loop sqrt n cnt i F p).2.1 n k k ≤ 0) := by
  induction cnt with
  | zero =>
    intro i F p hi hinv
    have : i = n := by omega
    subst this
    exact ⟨fun _ => hinv, fun h => by simp [ll_loop] at h⟩
  | succ cnt ih =>
    intro i F p hi hinv
    have hin : i < n := by omega
    obtain ⟨hA, hB⟩ := ll_row_inv sqrt hs A0 F p n i hin hinv
    by_cases hpos : 0 < ll_sum F n i i
    · obtain ⟨h1, h2⟩ := hB hpos
      have e : ll_loop sqrt n (cnt + 1) i F p =
          ll_loop sqrt n cnt (i + 1) (ll_row sqrt n i (n - i) i F p).2.1
            (ll_row sqrt n i (n - i) i F p).2.2 := by
        simp only [ll_loop, h1, if_true]
      rw [e]
      exact ih (i + 1) _ _ (by omega) h2
    · have hle := not_lt.1 hpos
      have e : ll_loop sqrt n (cnt + 1) i F p = (false, F, p) := by
        simp only [ll_loop, hA hle]
        simp
      rw [e]
      exact ⟨fun h => by simp at h, fun _ => ⟨i, hin, hinv, hle⟩⟩

theorem ll_decomposition_spec (sqrt : α → α)
    (hs : ∀ x, 0 ≤ x → 0 ≤ sqrt x ∧ sqrt x * sqrt x = x) (A p : Nat → α) (n : Nat) :
    ((ll_decomposition sqrt A p n).1 = true →
      LLInv A (ll_decomposition sqrt A p n).2.1 (ll_decomposition sqrt A p n).2.2 n n) ∧
    ((ll_decomposition sqrt A p n).1 = false →
      ∃ k, k < n ∧
        LLInv A (ll_decomposition sqrt A p n).2.1 (ll_decomposition sqrt A p n).2.2 n k ∧
        ll_sum (ll_decomposition sqrt A p n).2.1 n k k ≤ 0) :=
  ll_loop_spec sqrt hs A n n 0 A p (by omega) (LLInv_init A p n)

end

section

variable {α : Type} [LinearOrderedField α]

/-! ## The Cholesky factorisation and positive definiteness -/

/-- Entry `(r, s)` of `N Nᵀ` for the first `i` columns `N` of the factor, at a row
`r < i` with `r ≤ s`: the original entry `A0[r][s]`. -/
theorem llN_mul_transpose_apply (A0 F p : Nat → α) (n i : Nat) (hinv : LLInv A0 F p n i)
    (r s : Fin n) (hrs : r.val ≤ s.val) (hr : r.val < i) :
    (llN F p n i * (llN F p n i).transpose) r s = A0 (r.val * n + s.val) := by
  obtain ⟨u, v, w⟩ := hinv
  rw [Matrix.mul_apply]
  simp only [Matrix.transpose_apply, llN, llL]
  have e := Fin.sum_univ_eq_sum_range (fun k =>
    (if k < i then (if k < r.val then F (r.val * n + k) else if k = r.val then p r.val else 0)
      else 0) *
    (if k < i then (if k < s.val then F (s.val * n + k) else if k = s.val then p s.val else 0)
      else 0)) n
  rw [e]
  rw [← Finset.sum_subset (Finset.range_subset.2 (show r.val + 1 ≤ n by have := r.2; omega))]
  · rw [Finset.sum_range_succ]
    have h1 : ∑ k in Finset.range r.val,
        (if k < i then (if k < r.val then F (r.val * n + k) else if k = r.val then p r.val else 0)
          else 0) *
        (if k < i then (if k < s.val then F (s.val * n + k) else if k = s.val then p s.val else 0)
          else 0) = ∑ k in Finset.range r.val, F (r.val * n + k) * F (s.val * n + k) := by
      apply Finset.sum_congr rfl
      intro k hk
      have hk := Finset.mem_range.1 hk
      simp only [if_pos (show k < i by omega), if_pos hk, if_pos (show k < s.val by omega)]
    rw [h1]
    simp only [if_pos hr, if_neg (lt_irrefl r.val), if_true]
    rcases hrs.eq_or_lt with h | h
    · have hs : s.val = r.val := h.symm
      simp only [hs, if_neg (lt_irrefl r.val), if_true]
      rw [(v r.val hr).2]
      ring
    · simp only [if_pos h]
      rw [mul_comm (p r.val), w r.val s.val hr h s.2]
      ring
  · intro k hk1 hk2
    have hk1 := Finset.mem_range.1 hk1
    have hk2 : ¬ k < r.val + 1 := fun h => hk2 (Finset.mem_range.2 h)
    by_cases hki : k < i
    · rw [if_pos hki, if_neg (show ¬ k < r.val by omega), if_neg (show ¬ k = r.val by omega)]
      simp
    · rw [if_neg hki]
      simp

theorem llN_full (F p : Nat → α) (n : Nat) : llN F p n n = llL F p n := by
  ext r c
  simp [llN, c.2]

/-- After a successful decomposition the factor reproduces the (symmetric) matrix. -/
theorem llL_mul_transpose (A0 F p : Nat → α) (n : Nat) (hinv : LLInv A0 F p n n)
    (hsym : ∀ i j, i < n → j < n → A0 (i * n + j) = A0 (j * n + i)) :
    llL F p n * (llL F p n).transpose = rowMajor A0 n n := by
  ext r s
  rw [← llN_full]
  rcases le_total r.val s.val with h | h
  · rw [llN_mul_transpose_apply A0 F p n n hinv r s h r.2]
    rfl
  · have e : (llN F p n n * (llN F p n n).transpose) r s =
        (llN F p n n * (llN F p n n).transpose) s r := by
      rw [Matrix.mul_apply, Matrix.mul_apply]
      apply Finset.sum_congr rfl
      intro k _
      simp only [Matrix.transpose_apply]
      ring
    rw [e, llN_mul_transpose_apply A0 F p n n hinv s r h s.2]
    exact hsym _ _ s.2 r.2

theorem det_llT (F p : Nat → α) (n i : Nat) :
    (llT F p n i).det = ∏ c : Fin n, if c.val < i then p c.val else 1 := by
  rw [Matrix.det_of_lowerTriangular]
  · apply Finset.prod_congr rfl
    intro c _
    simp [llT, llL]
  · intro r c hrc
    have hrc1 : r < c := hrc
    have : r.val < c.val := hrc1
    simp only [llT, llL]
    rw [if_neg (show ¬ c.val < r.val by omega), if_neg (show ¬ c.val = r.val by omega),
      if_neg (show ¬ r = c from fun h => by rw [h] at this; omega)]
    simp

theorem det_llT_ne_zero (A0 F p : Nat → α) (n i : Nat) (hinv : LLInv A0 F p n i) :
    (llT F p n i).det ≠ 0 := by
  rw [det_llT]
  apply Finset.prod_ne_zero_iff.2
  intro c _
  by_cases hc : c.val < i
  · rw [if_pos hc]
    exact (hinv.2.1 c.val hc).1.ne'
  · rw [if_neg hc]
    exact one_ne_zero

theorem llT_full (F p : Nat → α) (n : Nat) : llT F p n n = llL F p n := by
  ext r c
  simp [llT, c.2]

/-- A matrix `L Lᵀ` with `L` invertible is positive definite. -/
theorem posdef_of_factor {n : Nat} (L : Matrix (Fin n) (Fin n) α) (hdet : L.det ≠ 0)
    (x : Fin n → α) (hx : x ≠ 0) :
    0 < Matrix.dotProduct x (Matrix.mulVec (L * L.transpose) x) := by
  have e : Matrix.dotProduct x (Matrix.mulVec (L * L.transpose) x) =
      Matrix.dotProduct (Matrix.mulVec L.transpose x) (Matrix.mulVec L.transpose x) := by
    rw [← Matrix.mulVec_mulVec, Matrix.dotProduct_mulVec, ← Matrix.mulVec_transpose]
  rw [e]
  have hne : Matrix.mulVec L.transpose x ≠ 0 := by
    intro h
    apply hx
    exact Matrix.eq_zero_of_mulVec_eq_zero (by rwa [Matrix.det_transpose]) h
  have h0 : 0 ≤ Matrix.dotProduct (Matrix.mulVec L.transpose x) (Matrix.mulVec L.transpose x) :=
    Finset.sum_nonneg (fun i _ => mul_self_nonneg _)
  rcases h0.eq_or_lt with h | h
  · exact absurd (Matrix.dotProduct_self_eq_zero.1 h.symm) hne
  · exact h

end

section

variable {α : Type} [LinearOrderedField α]

/-- The diagonal entry of `N Nᵀ` at row `i` for the first `i` columns of the factor. -/
theorem llN_mul_transpose_diag (F p : Nat → α) (n i : Nat) (hi : i < n) :
    (llN F p n i * (llN F p n i).transpose) ⟨i, hi⟩ ⟨i, hi⟩ =
      ∑ k in Finset.range i, F (i * n + k) * F (i * n + k) := by
  rw [Matrix.mul_apply]
  simp only [Matrix.transpose_apply, llN, llL]
  have e := Fin.sum_univ_eq_sum_range (fun k =>
    (if k < i then (if k < i then F (i * n + k) else if k = i then p i else 0) else 0) *
    (if k < i then (if k < i then F (i * n + k) else if k = i then p i else 0) else 0)) n
  rw [e, ← Finset.sum_subset (Finset.range_subset.2 (show i ≤ n by omega))]
  · apply Finset.sum_congr rfl
    intro k hk
    have hk := Finset.mem_range.1 hk
    simp only [if_pos hk]
  · intro k _ hk2
    have hk2 : ¬ k < i := fun h => hk2 (Finset.mem_range.2 h)
    simp only [if_neg hk2]
    simp

/-- A row whose pivot sum is not positive yields a non-zero vector `x` with
`xᵀ A x ≤ 0`. -/
theorem not_posdef_of_pivot (A0 F p : Nat → α) (n i : Nat) (hi : i < n)
    (hinv : LLInv A0 F p n i)
    (hsym : ∀ i j, i < n → j < n → A0 (i * n + j) = A0 (j * n + i))
    (hpiv : ll_sum F n i i ≤ 0) :
    ∃ x : Fin n → α, x ≠ 0 ∧ Matrix.dotProduct x (Matrix.mulVec (rowMajor A0 n n) x) ≤ 0 := by
  have hdet : ((llT F p n i).transpose).det ≠ 0 := by
    rw [Matrix.det_transpose]
    exact det_llT_ne_zero A0 F p n i hinv
  let ii : Fin n := ⟨i, hi⟩
  let x : Fin n → α := Matrix.mulVec ((llT F p n i).transpose)⁻¹ (Pi.single ii 1)
  have hTx : Matrix.mulVec (llT F p n i).transpose x = Pi.single ii 1 := by
    show Matrix.mulVec (llT F p n i).transpose
      (Matrix.mulVec ((llT F p n i).transpose)⁻¹ (Pi.single ii 1)) = _
    rw [Matrix.mulVec_mulVec, Matrix.mul_nonsing_inv _ (isUnit_iff_ne_zero.2 hdet),
      Matrix.one_mulVec]
  have hTk : ∀ k : Fin n, ∑ r : Fin n, llT F p n i r k * x r = (Pi.single ii 1 : Fin n → α) k := by
    intro k
    have := congrFun hTx k
    simpa [Matrix.mulVec, Matrix.dotProduct] using this
  -- the components of `x` from row `i` on
  have f2 : ∀ k : Fin n, i ≤ k.val → x k = (Pi.single ii 1 : Fin n → α) k := by
    intro k hk
    rw [← hTk k]
    rw [Finset.sum_eq_single k]
    · simp [llT, show ¬ k.val < i by omega]
    · intro r _ hrk
      simp [llT, show ¬ k.val < i by omega, hrk]
    · intro h
      exact absurd (Finset.mem_univ k) h
  have hxi : x ii = 1 := by
    rw [f2 ii le_rfl]
    simp
  have hxgt : ∀ k : Fin n, i < k.val → x k = 0 := by
    intro k hk
    rw [f2 k hk.le]
    have : k ≠ ii := fun h => by rw [h] at hk; exact lt_irrefl _ hk
    simp [this]
  -- `Nᵀ x = 0`
  have f1 : Matrix.mulVec (llN F p n i).transpose x = 0 := by
    ext k
    simp only [Matrix.mulVec, Matrix.dotProduct, Matrix.transpose_apply, Pi.zero_apply]
    by_cases hk : k.val < i
    · have e : ∀ r : Fin n, llN F p n i r k = llT F p n i r k := by
        intro r
        simp [llN, llT, hk]
      simp only [e]
      rw [hTk k]
      have : k ≠ ii := fun h => by rw [h] at hk; exact lt_irrefl _ hk
      simp [this]
    · apply Finset.sum_eq_zero
      intro r _
      simp [llN, hk]
  refine ⟨x, ?_, ?_⟩
  · intro h
    rw [h] at hxi
    simp at hxi
  · -- split `A0 = N Nᵀ + S`
    obtain ⟨u, v, w⟩ := hinv
    have hS : ∀ r s : Fin n, (r.val < i ∨ s.val < i) →
        rowMajor A0 n n r s = (llN F p n i * (llN F p n i).transpose) r s := by
      intro r s hrs
      rcases le_total r.val s.val with h | h
      · rw [llN_mul_transpose_apply A0 F p n i ⟨u, v, w⟩ r s h (by omega)]
        rfl
      · have e : (llN F p n i * (llN F p n i).transpose) r s =
            (llN F p n i * (llN F p n i).transpose) s r := by
          rw [Matrix.mul_apply, Matrix.mul_apply]
          apply Finset.sum_congr rfl
          intro k _
          simp only [Matrix.transpose_apply]
          ring
        rw [e, llN_mul_transpose_apply A0 F p n i ⟨u, v, w⟩ s r h (by omega)]
        exact hsym _ _ r.2 s.2
    have hB : rowMajor A0 n n = llN F p n i * (llN F p n i).transpose +
        (rowMajor A0 n n - llN F p n i * (llN F p n i).transpose) := by
      abel
    rw [hB, Matrix.add_mulVec, Matrix.dotProduct_add]
    have e1 : Matrix.dotProduct x (Matrix.mulVec (llN F p n i * (llN F p n i).transpose) x) = 0 := by
      rw [← Matrix.mulVec_mulVec, f1, Matrix.mulVec_zero, Matrix.dotProduct_zero]
    have e2 : Matrix.dotProduct x (Matrix.mulVec
        (rowMajor A0 n n - llN F p n i * (llN F p n i).transpose) x) = ll_sum F n i i := by
      simp only [Matrix.dotProduct, Matrix.mulVec]
      rw [Finset.sum_eq_single ii]
      · rw [hxi, one_mul, Finset.sum_eq_single ii]
        · rw [hxi, mul_one, Matrix.sub_apply, llN_mul_transpose_diag F p n i hi,
            ll_sum_spec F n i i le_rfl, u i i hi hi le_rfl]
          rfl
        · intro s _ hs
          rcases lt_trichotomy s.val i with h | h | h
          · rw [Matrix.sub_apply, hS ii s (Or.inr h), sub_self, zero_mul]
          · exact absurd (Fin.ext h) hs
          · rw [hxgt s h, mul_zero]
        · intro h
          exact absurd (Finset.mem_univ ii) h
      · intro r _ hr
        rcases lt_trichotomy r.val i with h | h | h
        · have : ∑ s : Fin n, (rowMajor A0 n n - llN F p n i * (llN F p n i).transpose) r s * x s
              = 0 := by
            apply Finset.sum_eq_zero
            intro s _
            rw [Matrix.sub_apply, hS r s (Or.inl h), sub_self, zero_mul]
          rw [this, mul_zero]
        · exact absurd (Fin.ext h) hr
        · rw [hxgt r h, zero_mul]
      · intro h
        exact absurd (Finset.mem_univ ii) h
    rw [e1, e2, zero_add]
    exact hpiv

end

section

variable {α : Type} [LinearOrderedField α]

/-- The invariant only mentions the upper triangle of the original matrix. -/
theorem LLInv_congr_upper (A0 A1 F p : Nat → α) (n i : Nat) (hi : i ≤ n)
    (h : ∀ r c, r < n → c < n → r ≤ c → A1 (r * n + c) = A0 (r * n + c))
    (hinv : LLInv A1 F p n i) : LLInv A0 F p n i := by
  obtain ⟨u, v, w⟩ := hinv
  refine ⟨?_, ?_, ?_⟩
  · intro r c hr hc hrc
    rw [u r c hr hc hrc, h r c hr hc hrc]
  · intro c hc
    rw [← h c c (by omega) (by omega) le_rfl]
    exact v c hc
  · intro c r hc hcr hr
    rw [← h c r (by omega) hr hcr.le]
    exact w c r hc hcr hr

/-- Under the full invariant every pivot sum of the final buffer is `p i ^ 2 > 0`. -/
theorem ll_sum_pos_of_inv (A0 F p : Nat → α) (n i k : Nat) (hinv : LLInv A0 F p n i)
    (hk : k < i) (hi : i ≤ n) : 0 < ll_sum F n k k := by
  obtain ⟨u, v, w⟩ := hinv
  rw [ll_sum_spec F n k k le_rfl, u k k (by omega) (by omega) le_rfl, ← (v k hk).2]
  exact mul_pos (v k hk).1 (v k hk).1

/-- The return value of `ll_decomposition` on a buffer whose upper triangle is that of
the symmetric matrix `A0`: `true` exactly when `A0` is positive definite. -/
theorem ll_decomposition_true_iff (sqrt : α → α)
    (hs : ∀ x, 0 ≤ x → 0 ≤ sqrt x ∧ sqrt x * sqrt x = x) (A0 A p : Nat → α) (n : Nat)
    (hsym : ∀ i j, i < n → j < n → A0 (i * n + j) = A0 (j * n + i))
    (h : ∀ r c, r < n → c < n → r ≤ c → A (r * n + c) = A0 (r * n + c)) :
    (ll_decomposition sqrt A p n).1 = true ↔
      ∀ x : Fin n → α, x ≠ 0 →
        0 < Matrix.dotProduct x (Matrix.mulVec (rowMajor A0 n n) x) := by
  obtain ⟨hT, hF⟩ := ll_decomposition_spec sqrt hs A p n
  constructor
  · intro ht x hx
    have hinv := LLInv_congr_upper A0 A _ _ n n le_rfl h (hT ht)
    rw [← llL_mul_transpose A0 _ _ n hinv hsym]
    apply posdef_of_factor _ _ x hx
    rw [← llT_full]
    exact det_llT_ne_zero A0 _ _ n n hinv
  · intro hpd
    by_contra hne
    have hf : (ll_decomposition sqrt A p n).1 = false := by
      cases hb : (ll_decomposition sqrt A p n).1
      · rfl
      · exact absurd hb hne
    obtain ⟨k, hk, hinv, hpiv⟩ := hF hf
    obtain ⟨x, hx, hle⟩ := not_posdef_of_pivot A0 _ _ n k hk
      (LLInv_congr_upper A0 A _ _ n k hk.le h hinv) hsym hpiv
    exact absurd (hpd x hx) (not_lt.2 hle)

/-- C11: for a symmetric `n × n` matrix `A`, `ll_decomposition` returns `true` exactly
when `A` is positive definite; it returns `false` exactly when it meets a first row `i`
whose pivot sum is `≤ 0` (all earlier pivot sums being positive); on success every
`p[i] > 0` and the factor `L` (diagonal `p`, strict lower part in the buffer) satisfies
`L * Lᵀ = A`; and the returned value only depends on the upper triangle of the buffer. -/
theorem ll_decomposition_correct (sqrt : α → α)
    (hs : ∀ x, 0 ≤ x → 0 ≤ sqrt x ∧ sqrt x * sqrt x = x) (A p : Nat → α) (n : Nat)
    (hsym : ∀ i j, i < n → j < n → A (i * n + j) = A (j * n + i)) :
    ((ll_decomposition sqrt A p n).1 = true ↔
      ∀ x : Fin n → α, x ≠ 0 →
        0 < Matrix.dotProduct x (Matrix.mulVec (rowMajor A n n) x)) ∧
    ((ll_decomposition sqrt A p n).1 = false ↔
      ∃ i, i < n ∧ (∀ k, k < i → 0 < ll_sum (ll_decomposition sqrt A p n).2.1 n k k) ∧
        ll_sum (ll_decomposition sqrt A p n).2.1 n i i ≤ 0) ∧
    ((ll_decomposition sqrt A p n).1 = true →
      (∀ i, i < n → 0 < (ll_decomposition sqrt A p n).2.2 i) ∧
      llL (ll_decomposition sqrt A p n).2.1 (ll_decomposition sqrt A p n).2.2 n *
          (llL (ll_decomposition sqrt A p n).2.1 (ll_decomposition sqrt A p n).2.2 n).transpose =
        rowMajor A n n) ∧
    (∀ A1 : Nat → α, (∀ r c, r < n → c < n → r ≤ c → A1 (r * n + c) = A (r * n + c)) →
      (ll_decomposition sqrt A1 p n).1 = (ll_decomposition sqrt A p n).1) := by
  obtain ⟨hT, hF⟩ := ll_decomposition_spec sqrt hs A p n
  refine ⟨ll_decomposition_true_iff sqrt hs A A p n hsym (fun _ _ _ _ _ => rfl), ?_, ?_, ?_⟩
  · constructor
    · intro hf
      obtain ⟨k, hk, hinv, hpiv⟩ := hF hf
      exact ⟨k, hk, fun j hj => ll_sum_pos_of_inv A _ _ n k j hinv hj hk.le, hpiv⟩
    · rintro ⟨i, hi, -, hpiv⟩
      cases hb : (ll_decomposition sqrt A p n).1
      · rfl
      · exact absurd (ll_sum_pos_of_inv A _ _ n n i (hT hb) hi le_rfl) (not_lt.2 hpiv)
  · intro ht
    exact ⟨fun i hi => ((hT ht).2.1 i hi).1, llL_mul_transpose A _ _ n (hT ht) hsym⟩
  · intro A1 h1
    have e1 := ll_decomposition_true_iff sqrt hs A A1 p n hsym h1
    have e2 := ll_decomposition_true_iff sqrt hs A A p n hsym (fun _ _ _ _ _ => rfl)
    cases hb : (ll_decomposition sqrt A p n).1
    · cases hb1 : (ll_decomposition sqrt A1 p n).1
      · rfl
      · rw [e2.2 (e1.1 hb1)] at hb
        exact absurd hb (by simp)
    · exact e1.2 (e2.1 hb)

theorem ll_decomposition_correct_witness :
    ((∀ x : ℝ, 0 ≤ x → 0 ≤ Real.sqrt x ∧ Real.sqrt x * Real.sqrt x = x) ∧
      (∀ i j, i < 2 → j < 2 →
        (ofList [4, 2, 2, 5] : Nat → ℝ) (i * 2 + j) = (ofList [4, 2, 2, 5] : Nat → ℝ) (j * 2 + i))) ∧
    (((ll_decomposition Real.sqrt (ofList [4, 2, 2, 5]) (fun _ => 0) 2).1 = true ↔
      ∀ x : Fin 2 → ℝ, x ≠ 0 →
        0 < Matrix.dotProduct x (Matrix.mulVec (rowMajor (ofList [4, 2, 2, 5] : Nat → ℝ) 2 2) x)) ∧
    ((ll_decomposition Real.sqrt (ofList [4, 2, 2, 5]) (fun _ => 0) 2).1 = false ↔
      ∃ i, i < 2 ∧
        (∀ k, k < i →
          0 < ll_sum (ll_decomposition Real.sqrt (ofList [4, 2, 2, 5]) (fun _ => 0) 2).2.1 2 k k) ∧
        ll_sum (ll_decomposition Real.sqrt (ofList [4, 2, 2, 5]) (fun _ => 0) 2).2.1 2 i i ≤ 0) ∧
    ((ll_decomposition Real.sqrt (ofList [4, 2, 2, 5]) (fun _ => 0) 2).1 = true →
      (∀ i, i < 2 → 0 < (ll_decomposition Real.sqrt (ofList [4, 2, 2, 5]) (fun _ => 0) 2).2.2 i) ∧
      llL (ll_decomposition Real.sqrt (ofList [4, 2, 2, 5]) (fun _ => 0) 2).2.1
          (ll_decomposition Real.sqrt (ofList [4, 2, 2, 5]) (fun _ => 0) 2).2.2 2 *
          (llL (ll_decomposition Real.sqrt (ofList [4, 2, 2, 5]) (fun _ => 0) 2).2.1
            (ll_decomposition Real.sqrt (ofList [4, 2, 2, 5]) (fun _ => 0) 2).2.2 2).transpose =
        rowMajor (ofList [4, 2, 2, 5] : Nat → ℝ) 2 2) ∧
    (∀ A1 : Nat → ℝ,
      (∀ r c, r < 2 → c < 2 → r ≤ c → A1 (r * 2 + c) = (ofList [4, 2, 2, 5] : Nat → ℝ) (r * 2 + c)) →
      (ll_decomposition Real.sqrt A1 (fun _ => 0) 2).1 =
        (ll_decomposition Real.sqrt (ofList [4, 2, 2, 5]) (fun _ => 0) 2).1)) :=
  have hsym : ∀ i j, i < 2 → j < 2 →
      (ofList [4, 2, 2, 5] : Nat → ℝ) (i * 2 + j) = (ofList [4, 2, 2, 5] : Nat → ℝ) (j * 2 + i) := by
    intro i j hi hj
    interval_cases i <;> interval_cases j <;> rfl
  ⟨⟨fun x hx => ⟨Real.sqrt_nonneg x, Real.mul_self_sqrt hx⟩, hsym⟩,
    ll_decomposition_correct Real.sqrt
      (fun x hx => ⟨Real.sqrt_nonneg x, Real.mul_self_sqrt hx⟩)
      (ofList [4, 2, 2, 5]) (fun _ => 0) 2 hsym⟩

end

section

variable {α : Type} [LinearOrderedField α]

/-! ## Cholesky solve -/

theorem llL_mulVec (F p : Nat → α) (n : Nat) (Y : Nat → α) (i : Fin n) :
    (llL F p n).mulVec (vecOf Y n) i =
      p i.val * Y i.val + ∑ t in Finset.range i.val, F (i.val * n + t) * Y t := by
  simp only [Matrix.mulVec, Matrix.dotProduct, llL, vecOf]
  rw [Fin.sum_univ_eq_sum_range
    (fun t : Nat => (if t < i.val then F (i.val * n + t) else if t = i.val then p i.val else 0) * Y t)
    n]
  have e : ∀ t ∈ Finset.range n,
      (if t < i.val then F (i.val * n + t) else if t = i.val then p i.val else 0) * Y t =
      (if t = i.val then p i.val * Y i.val else 0) +
        (if t < i.val then F (i.val * n + t) * Y t else 0) := by
    intro t _
    by_cases h1 : t < i.val
    · rw [if_pos h1, if_pos h1, if_neg (by omega), zero_add]
    · by_cases h2 : t = i.val
      · rw [if_neg h1, if_pos h2, if_pos h2, if_neg h1, h2, add_zero]
      · rw [if_neg h1, if_neg h2, if_neg h2, if_neg h1, zero_mul, add_zero]
  rw [Finset.sum_congr rfl e, Finset.sum_add_distrib, ← Finset.sum_filter (fun t => t < i.val),
    Finset.sum_ite_eq' (Finset.range n) i.val (fun _ => p i.val * Y i.val),
    if_pos (Finset.mem_range.mpr i.2)]
  congr 2
  ext t
  simp only [Finset.mem_filter, Finset.mem_range]
  have := i.2
  omega

theorem llL_transpose_mulVec (F p : Nat → α) (n : Nat) (X : Nat → α) (i : Fin n) :
    (llL F p n).transpose.mulVec (vecOf X n) i =
      p i.val * X i.val + ∑ t in Finset.Ico (i.val + 1) n, F (t * n + i.val) * X t := by
  simp only [Matrix.mulVec, Matrix.dotProduct, llL, vecOf, Matrix.transpose_apply]
  rw [Fin.sum_univ_eq_sum_range
    (fun t : Nat => (if i.val < t then F (t * n + i.val) else if i.val = t then p t else 0) * X t)
    n]
  have e : ∀ t ∈ Finset.range n,
      (if i.val < t then F (t * n + i.val) else if i.val = t then p t else 0) * X t =
      (if t = i.val then p i.val * X i.val else 0) +
        (if i.val + 1 ≤ t then F (t * n + i.val) * X t else 0) := by
    intro t _
    by_cases h1 : i.val < t
    · rw [if_pos h1, if_pos (show i.val + 1 ≤ t from h1), if_neg (by omega), zero_add]
    · by_cases h2 : t = i.val
      · rw [if_neg h1, if_pos h2.symm, if_pos h2, if_neg (show ¬ i.val + 1 ≤ t by omega), h2,
          add_zero]
      · rw [if_neg h1, if_neg (fun h => h2 h.symm), if_neg h2,
          if_neg (show ¬ i.val + 1 ≤ t by omega), zero_mul, add_zero]
  rw [Finset.sum_congr rfl e, Finset.sum_add_distrib,
    ← Finset.sum_filter (fun t => i.val + 1 ≤ t),
    Finset.sum_ite_eq' (Finset.range n) i.val (fun _ => p i.val * X i.val),
    if_pos (Finset.mem_range.mpr i.2)]
  congr 2
  ext t
  simp only [Finset.mem_filter, Finset.mem_range, Finset.mem_Ico]
  omega

/-- The forward loop of `ll_solve` (rows `1 .. c`): the entries `x[0 .. c]` solve the
first `c + 1` equations of `L y = b`. -/
theorem ll_forward_spec (A p b : Nat → α) (n : Nat) (hp : ∀ i, i < n → p i ≠ 0) (c : Nat)
    (hc : c < n) (x : Nat → α) (j : Nat) (hj : j ≤ c) :
    p j * forUp (ll_forward_row A p b n) 1 c (Function.update x 0 (b 0 / p 0)) j +
      ∑ k in Finset.range j, A (j * n + k) *
        forUp (ll_forward_row A p b n) 1 c (Function.update x 0 (b 0 / p 0)) k = b j := by
  induction c generalizing j with
  | zero =>
    have hj0 : j = 0 := by omega
    subst hj0
    rw [forUp_zero, Function.update_same, Finset.range_zero, Finset.sum_empty, add_zero,
      mul_div_cancel₀ _ (hp 0 hc)]
  | succ c ih =>
    have ih := fun j hj => ih (by omega) j hj
    rw [forUp_succ]
    generalize forUp (ll_forward_row A p b n) 1 c (Function.update x 0 (b 0 / p 0)) = y at ih ⊢
    simp only [ll_forward_row]
    rw [forDown_sub_sum, Nat.zero_add,
      show Finset.Ico 0 (1 + c) = Finset.range (1 + c) by rw [Finset.range_eq_Ico]]
    have hsum : ∀ m, m ≤ 1 + c → ∀ k ∈ Finset.range m, A (j * n + k) *
        Function.update y (1 + c) ((b (1 + c) -
          ∑ k in Finset.range (1 + c), A ((1 + c) * n + k) * y k) / p (1 + c)) k =
        A (j * n + k) * y k := by
      intro m hm k hk
      rw [Function.update_noteq (by have := Finset.mem_range.1 hk; omega)]
    by_cases hjc : j = 1 + c
    · rw [Finset.sum_congr rfl (hsum j (by omega))]
      subst hjc
      rw [Function.update_same, mul_div_cancel₀ _ (hp (1 + c) (by omega))]
      ring
    · rw [Finset.sum_congr rfl (hsum j (by omega)), Function.update_noteq hjc]
      exact ih j (by omega)

end

section

variable {α : Type} [LinearOrderedField α]

/-- The backward loop of `ll_solve` over the rows `c-1` down to `0`: if the rows from `c`
on already solve `Lᵀ x = y` and the entries below `c` still hold `y`, then afterwards all
rows solve `Lᵀ x = y`. -/
theorem ll_back_spec (A p y : Nat → α) (n : Nat) (hp : ∀ i, i < n → p i ≠ 0) (c : Nat) :
    ∀ x : Nat → α, c < n →
      (∀ j, c ≤ j → j < n →
        p j * x j + ∑ k in Finset.Ico (j + 1) n, A (k * n + j) * x k = y j) →
      (∀ j, j < c → x j = y j) →
      ∀ j, j < n →
        p j * forDown (ll_back_row A p n) 0 c x j +
          ∑ k in Finset.Ico (j + 1) n, A (k * n + j) * forDown (ll_back_row A p n) 0 c x k =
        y j := by
  induction c with
  | zero =>
    intro x _ h1 _ j hj
    exact h1 j (Nat.zero_le j) hj
  | succ c ih =>
    intro x hc h1 h2 j hj
    rw [forDown_succ]
    apply ih _ (by omega) _ _ j hj
    · intro j hcj hjn
      simp only [ll_back_row, Nat.zero_add]
      rw [forUp_sub_sum, show c + 1 + (n - (c + 1)) = n by omega]
      have hsum : ∀ k ∈ Finset.Ico (j + 1) n, A (k * n + j) *
          Function.update x c ((x c - ∑ i in Finset.Ico (c + 1) n, A (i * n + c) * x i) / p c) k =
          A (k * n + j) * x k := by
        intro k hk
        rw [Function.update_noteq (by have := Finset.mem_Ico.1 hk; omega)]
      rw [Finset.sum_congr rfl hsum]
      by_cases hjc : j = c
      · subst hjc
        rw [Function.update_same, mul_div_cancel₀ _ (hp j hjn), h2 j (by omega)]
        ring
      · rw [Function.update_noteq hjc]
        exact h1 j (by omega) hjn
    · intro j hjc
      simp only [ll_back_row, Nat.zero_add]
      rw [Function.update_noteq (by omega)]
      exact h2 j (by omega)

/-- With the factor of a symmetric matrix `A0`, `ll_solve` solves `A0 x = b`. -/
theorem ll_solve_spec (A0 F p b x : Nat → α) (n : Nat) (hn : 1 ≤ n)
    (hinv : LLInv A0 F p n n)
    (hsym : ∀ i j, i < n → j < n → A0 (i * n + j) = A0 (j * n + i)) :
    (rowMajor A0 n n).mulVec (vecOf (ll_solve F p b x n) n) = vecOf b n := by
  have hp : ∀ i, i < n → p i ≠ 0 := fun i hi => (hinv.2.1 i hi).1.ne'
  rw [← llL_mul_transpose A0 F p n hinv hsym, ← Matrix.mulVec_mulVec]
  have hfwd := ll_forward_spec F p b n hp (n - 1) (by omega) x
  have hback : (llL F p n).transpose.mulVec (vecOf (ll_solve F p b x n) n) =
      vecOf (forUp (ll_forward_row F p b n) 1 (n - 1) (Function.update x 0 (b 0 / p 0))) n := by
    ext j
    rw [llL_transpose_mulVec]
    simp only [ll_solve, vecOf]
    apply ll_back_spec F p _ n hp (n - 1) _ (by omega) _ _ j.val j.2
    · intro j hj1 hj2
      have hj : j = n - 1 := by omega
      subst hj
      rw [Function.update_same, show n - 1 + 1 = n by omega, Finset.Ico_self,
        Finset.sum_empty, add_zero, mul_div_cancel₀ _ (hp _ (by omega))]
    · intro j hj
      rw [Function.update_noteq (by omega)]
  rw [hback]
  ext j
  rw [llL_mulVec]
  exact hfwd j.val (by have := j.2; omega)

/-- C12: for a symmetric positive-definite `n × n` matrix `A` with `n ≥ 1`,
`ll_decomposition` succeeds and, with the factor `(A_out, p)` it leaves, `ll_solve`
writes for every right-hand side `b` the vector `x` with `A * x = b`. -/
theorem ll_solve_correct (sqrt : α → α)
    (hs : ∀ x, 0 ≤ x → 0 ≤ sqrt x ∧ sqrt x * sqrt x = x) (A p b x : Nat → α) (n : Nat)
    (hn : 1 ≤ n)
    (hsym : ∀ i j, i < n → j < n → A (i * n + j) = A (j * n + i))
    (hpd : ∀ v : Fin n → α, v ≠ 0 →
      0 < Matrix.dotProduct v (Matrix.mulVec (rowMajor A n n) v)) :
    (ll_decomposition sqrt A p n).1 = true ∧
    (rowMajor A n n).mulVec
        (vecOf (ll_solve (ll_decomposition sqrt A p n).2.1 (ll_decomposition sqrt A p n).2.2 b x n)
          n) = vecOf b n := by
  have ht := (ll_decomposition_true_iff sqrt hs A A p n hsym (fun _ _ _ _ _ => rfl)).2 hpd
  exact ⟨ht, ll_solve_spec A _ _ b x n hn ((ll_decomposition_spec sqrt hs A p n).1 ht) hsym⟩

end

section

theorem ll_solve_correct_witness :
    ((∀ x : ℝ, 0 ≤ x → 0 ≤ Real.sqrt x ∧ Real.sqrt x * Real.sqrt x = x) ∧ 1 ≤ 2 ∧
      (∀ i j, i < 2 → j < 2 →
        (ofList [4, 2, 2, 5] : Nat → ℝ) (i * 2 + j) = (ofList [4, 2, 2, 5] : Nat → ℝ) (j * 2 + i)) ∧
      (∀ v : Fin 2 → ℝ, v ≠ 0 →
        0 < Matrix.dotProduct v
          (Matrix.mulVec (rowMajor (ofList [4, 2, 2, 5] : Nat → ℝ) 2 2) v))) ∧
    ((ll_decomposition Real.sqrt (ofList [4, 2, 2, 5]) (fun _ => 0) 2).1 = true ∧
    (rowMajor (ofList [4, 2, 2, 5] : Nat → ℝ) 2 2).mulVec
        (vecOf (ll_solve (ll_decomposition Real.sqrt (ofList [4, 2, 2, 5]) (fun _ => 0) 2).2.1
          (ll_decomposition Real.sqrt (ofList [4, 2, 2, 5]) (fun _ => 0) 2).2.2
          (ofList [8, 9]) (fun _ => 0) 2) 2) = vecOf (ofList [8, 9] : Nat → ℝ) 2) :=
  have hsym : ∀ i j, i < 2 → j < 2 →
      (ofList [4, 2, 2, 5] : Nat → ℝ) (i * 2 + j) = (ofList [4, 2, 2, 5] : Nat → ℝ) (j * 2 + i) := by
    intro i j hi hj
    interval_cases i <;> interval_cases j <;> rfl
  have hpd : ∀ v : Fin 2 → ℝ, v ≠ 0 →
      0 < Matrix.dotProduct v
        (Matrix.mulVec (rowMajor (ofList [4, 2, 2, 5] : Nat → ℝ) 2 2) v) := by
    intro v hv
    have e : Matrix.dotProduct v
        (Matrix.mulVec (rowMajor (ofList [4, 2, 2, 5] : Nat → ℝ) 2 2) v) =
        (2 * v 0 + v 1) ^ 2 + 4 * v 1 ^ 2 := by
      simp [Matrix.dotProduct, Matrix.mulVec, Fin.sum_univ_two, rowMajor, ofList]
      ring
    rw [e]
    by_contra hneg
    have h0 : (2 * v 0 + v 1) ^ 2 + 4 * v 1 ^ 2 = 0 :=
      le_antisymm (not_lt.1 hneg) (by positivity)
    have h1 : v 1 = 0 := by nlinarith [sq_nonneg (2 * v 0 + v 1), sq_nonneg (v 1)]
    have h2 : v 0 = 0 := by
      rw [h1] at h0
      have : (2 * v 0) ^ 2 = 0 := by linarith
      have := pow_eq_zero_iff (two_ne_zero) |>.1 this
      linarith
    apply hv
    ext i
    fin_cases i
    · exact h2
    · exact h1
  ⟨⟨fun x hx => ⟨Real.sqrt_nonneg x, Real.mul_self_sqrt hx⟩, by decide, hsym, hpd⟩,
    ll_solve_correct Real.sqrt
      (fun x hx => ⟨Real.sqrt_nonneg x, Real.mul_self_sqrt hx⟩)
      (ofList [4, 2, 2, 5]) (fun _ => 0) (ofList [8, 9]) (fun _ => 0) 2 (by decide) hsym hpd⟩

end

section

variable {α : Type} [LinearOrderedField α]

/-! ## In-place triangular inverses -/

theorem diag_idx (n c : Nat) : c * (n + 1) = c * n + c := by ring

/-- The loop that inverts the diagonal: with non-zero diagonal entries from `col` on, it
returns `true` and replaces each of them by its inverse. -/
theorem inverse_diag_true (n : Nat) (cnt : Nat) :
    ∀ (col : Nat) (U : Nat → α), col + cnt = n →
      (∀ c, col ≤ c → c < n → U (c * n + c) ≠ 0) →
      (inverse_diag n cnt col U).1 = true ∧
      ∀ r s, r < n → s < n →
        (inverse_diag n cnt col U).2 (r * n + s) =
          if r = s ∧ col ≤ r then 1 / U (r * n + r) else U (r * n + s) := by
  induction cnt with
  | zero =>
    intro col U hc _
    refine ⟨rfl, fun r s hr hs => ?_⟩
    rw [if_neg (by omega)]
    rfl
  | succ cnt ih =>
    intro col U hc hne
    have h0 : ¬ U (col * (n + 1)) + 1 = 1 := by
      rw [diag_idx]
      intro h
      exact hne col le_rfl (by omega) (by linear_combination h)
    have e : inverse_diag n (cnt + 1) col U =
        inverse_diag n cnt (col + 1)
          (Function.update U (col * (n + 1)) (1 / U (col * (n + 1)))) := by
      simp only [inverse_diag, h0, if_false]
    rw [e]
    have hcol : col < n := by omega
    obtain ⟨h1, h2⟩ := ih (col + 1)
      (Function.update U (col * (n + 1)) (1 / U (col * (n + 1)))) (by omega) (by
        intro c hc1 hc2
        rw [diag_idx, Function.update_noteq]
        · exact hne c (by omega) hc2
        · rw [Ne, idx_inj hc2 hcol]
          omega)
    refine ⟨h1, fun r s hr hs => ?_⟩
    rw [h2 r s hr hs, diag_idx]
    by_cases hrs : r = s ∧ col + 1 ≤ r
    · rw [if_pos hrs, if_pos ⟨hrs.1, by omega⟩, Function.update_noteq]
      rw [Ne, idx_inj hr hcol]
      omega
    · rw [if_neg hrs, Function.update_apply]
      by_cases hrc : r = s ∧ col ≤ r
      · have h3 : r = col := by omega
        have h4 : s = col := by omega
        rw [if_pos hrc, if_pos (by rw [h3, h4]), h3]
      · rw [if_neg hrc, if_neg]
        rw [idx_inj hs hcol]
        omega

/-- The loop that inverts the diagonal returns `false` when a diagonal entry is zero. -/
theorem inverse_diag_false (n : Nat) (cnt : Nat) :
    ∀ (col : Nat) (U : Nat → α), col + cnt = n →
      (∃ c, col ≤ c ∧ c < n ∧ U (c * n + c) = 0) →
      (inverse_diag n cnt col U).1 = false := by
  induction cnt with
  | zero =>
    intro col U hc ⟨c, h1, h2, _⟩
    omega
  | succ cnt ih =>
    intro col U hc ⟨c, h1, h2, h3⟩
    by_cases h0 : U (col * (n + 1)) + 1 = 1
    · simp only [inverse_diag, h0, if_true]
    · have e : inverse_diag n (cnt + 1) col U =
          inverse_diag n cnt (col + 1)
            (Function.update U (col * (n + 1)) (1 / U (col * (n + 1)))) := by
        simp only [inverse_diag, h0, if_false]
      rw [e]
      have hcc : c ≠ col := by
        intro h
        apply h0
        rw [diag_idx, ← h, h3, zero_add]
      apply ih (col + 1) _ (by omega)
      refine ⟨c, by omega, h2, ?_⟩
      rw [diag_idx, Function.update_noteq, h3]
      rw [Ne, idx_inj h2 (show col < n by omega)]
      omega

/-- One cell of `inverse_upper` extends the invariant by the row `ρ` of column `c`. -/
theorem inverse_upper_cell_inv (D W : Nat → α) (n c ρ : Nat) (hc : c < n) (hρ : ρ < c)
    (h : UpperInv D W n c (ρ + 1)) : UpperInv D (inverse_upper_cell n c ρ W) n c ρ := by
  obtain ⟨ha, hb⟩ := h
  have hval : inverse_upper_cell n c ρ W =
      Function.update W (ρ * n + c)
        (-(∑ i in Finset.Ico (ρ + 1) (c + 1), D (ρ * n + i) * W (i * n + c)) * D (ρ * n + ρ)) := by
    simp only [inverse_upper_cell]
    rw [forUp_sum, show ρ + 1 + (c - ρ) = c + 1 by omega, ha ρ ρ (by omega) (by omega) (by omega)]
    have hsum : ∑ i in Finset.Ico (ρ + 1) (c + 1), W (ρ * n + i) * W (i * n + c) =
        ∑ i in Finset.Ico (ρ + 1) (c + 1), D (ρ * n + i) * W (i * n + c) := by
      apply Finset.sum_congr rfl
      intro i hi
      have hi := Finset.mem_Ico.1 hi
      rw [ha ρ i (by omega) (by omega) (by omega)]
    rw [hsum]
  rw [hval]
  have hkeep : ∀ i s, i < n → s < n → ¬ (i = ρ ∧ s = c) →
      Function.update W (ρ * n + c)
        (-(∑ i in Finset.Ico (ρ + 1) (c + 1), D (ρ * n + i) * W (i * n + c)) * D (ρ * n + ρ))
        (i * n + s) = W (i * n + s) := by
    intro i s hi hs hne
    rw [Function.update_noteq]
    rw [Ne, idx_inj hs hc]
    exact hne
  constructor
  · intro r s hr hs hnd
    rw [hkeep r s hr hs (by omega)]
    exact ha r s hr hs (by omega)
  · intro r s hrs hs hd
    have hsum : ∀ v : α, ∑ i in Finset.Ico (r + 1) (s + 1), D (r * n + i) *
        Function.update W (ρ * n + c) v (i * n + s) =
        ∑ i in Finset.Ico (r + 1) (s + 1), D (r * n + i) * W (i * n + s) := by
      intro v
      apply Finset.sum_congr rfl
      intro i hi
      have hi := Finset.mem_Ico.1 hi
      rw [Function.update_noteq]
      rw [Ne, idx_inj hs hc]
      omega
    rw [hsum]
    by_cases hcell : r = ρ ∧ s = c
    · obtain ⟨h1, h2⟩ := hcell
      subst h1
      subst h2
      rw [Function.update_same]
    · rw [Function.update_noteq (by rw [Ne, idx_inj hs hc]; exact hcell)]
      exact hb r s hrs hs (by omega)

/-- The loop over the rows of column `c` of `inverse_upper`. -/
theorem inverse_upper_col_inv (D : Nat → α) (n c : Nat) (hc : c < n) (ρ : Nat) :
    ∀ W : Nat → α, ρ ≤ c → UpperInv D W n c ρ →
      UpperInv D (forDown (inverse_upper_cell n c) 0 ρ W) n c 0 := by
  induction ρ with
  | zero =>
    intro W _ h
    exact h
  | succ ρ ih =>
    intro W hρ h
    rw [forDown_succ, Nat.zero_add]
    exact ih _ (by omega) (inverse_upper_cell_inv D W n c ρ hc (by omega) h)

/-- The loop over the columns of `inverse_upper`. -/
theorem inverse_upper_loop_inv (D : Nat → α) (n : Nat) (c : Nat) :
    ∀ W : Nat → α, c ≤ n → UpperInv D W n c 0 →
      UpperInv D (forDown (fun col U => forDown (inverse_upper_cell n col) 0 col U) 0 c W)
        n 0 0 := by
  induction c with
  | zero =>
    intro W _ h
    exact h
  | succ c ih =>
    intro W hc h
    rw [forDown_succ, Nat.zero_add]
    apply ih _ (by omega)
    apply inverse_upper_col_inv D n c (by omega) c _ le_rfl
    obtain ⟨ha, hb⟩ := h
    constructor
    · intro r s hr hs hnd
      exact ha r s hr hs (by omega)
    · intro r s hrs hs hd
      exact hb r s hrs hs (by omega)

end

section

variable {α : Type} [LinearOrderedField α]

/-- A sum over `0 .. n-1` whose terms vanish outside `a .. b-1`. -/
theorem sum_range_eq_sum_Ico {R : Type} [AddCommMonoid R] (f : Nat → R) (n a b : Nat)
    (hb : b ≤ n) (h : ∀ i, i < n → ¬ (a ≤ i ∧ i < b) → f i = 0) :
    ∑ i in Finset.range n, f i = ∑ i in Finset.Ico a b, f i := by
  symm
  apply Finset.sum_subset
  · intro i hi
    have := Finset.mem_Ico.1 hi
    exact Finset.mem_range.2 (by omega)
  · intro i hi hni
    apply h i (Finset.mem_range.1 hi)
    intro hh
    exact hni (Finset.mem_Ico.2 hh)

/-- From the final invariant of `inverse_upper`: the buffer times the original
upper-triangular matrix is the identity. -/
theorem upper_mul_of_inv (U D X : Nat → α) (n : Nat)
    (htri : ∀ r s, s < r → r < n → U (r * n + s) = 0)
    (hdiag : ∀ c, c < n → U (c * n + c) ≠ 0)
    (hD : ∀ r s, r < n → s < n → D (r * n + s) = if r = s then 1 / U (r * n + r) else U (r * n + s))
    (hX : UpperInv D X n 0 0) :
    rowMajor U n n * rowMajor X n n = 1 := by
  obtain ⟨ha, hb⟩ := hX
  ext r s
  rw [Matrix.mul_apply]
  simp only [rowMajor]
  rw [Fin.sum_univ_eq_sum_range (fun i => U (r.val * n + i) * X (i * n + s.val)) n]
  have hr := r.2
  have hs := s.2
  have hXlow : ∀ i, i < n → s.val < i → X (i * n + s.val) = 0 := by
    intro i hi hsi
    rw [ha i s.val hi hs (by omega), hD i s.val hi hs, if_neg (by omega)]
    exact htri i s.val hsi hi
  have hXdiag : X (s.val * n + s.val) = 1 / U (s.val * n + s.val) := by
    rw [ha s.val s.val hs hs (by omega), hD s.val s.val hs hs, if_pos rfl]
  rw [sum_range_eq_sum_Ico _ n r.val (s.val + 1) (by omega) (by
    intro i hi hni
    by_cases h1 : i < r.val
    · rw [htri r.val i h1 hr, zero_mul]
    · rw [hXlow i hi (by omega), mul_zero])]
  rcases lt_trichotomy r.val s.val with h | h | h
  · rw [Finset.sum_eq_sum_Ico_succ_bot (by omega), hb r.val s.val h hs (by omega)]
    have hsum : ∑ i in Finset.Ico (r.val + 1) (s.val + 1), D (r.val * n + i) * X (i * n + s.val) =
        ∑ i in Finset.Ico (r.val + 1) (s.val + 1), U (r.val * n + i) * X (i * n + s.val) := by
      apply Finset.sum_congr rfl
      intro i hi
      have hi := Finset.mem_Ico.1 hi
      rw [hD r.val i hr (by omega), if_neg (by omega)]
    rw [hsum, hD r.val r.val hr hr, if_pos rfl, Matrix.one_apply_ne (fun e => by
      rw [e] at h; exact lt_irrefl _ h)]
    have := hdiag r.val hr
    field_simp
    ring
  · have hrs : r = s := Fin.ext h
    subst hrs
    rw [Finset.sum_eq_sum_Ico_succ_bot (by omega), Finset.Ico_self, Finset.sum_empty, add_zero,
      hXdiag, Matrix.one_apply_eq]
    exact mul_one_div_cancel (hdiag r.val hr)
  · rw [Finset.Ico_eq_empty (by omega), Finset.sum_empty, Matrix.one_apply_ne (fun e => by
      rw [e] at h; exact lt_irrefl _ h)]

/-- The routine `inverse_upper` on an upper-triangular matrix with non-zero diagonal. -/
theorem inverse_upper_spec (U : Nat → α) (n : Nat)
    (htri : ∀ r s, s < r → r < n → U (r * n + s) = 0)
    (hdiag : ∀ c, c < n → U (c * n + c) ≠ 0) :
    (inverse_upper U n).1 = true ∧
      rowMajor U n n * rowMajor (inverse_upper U n).2 n n = 1 := by
  obtain ⟨h1, h2⟩ := inverse_diag_true n n 0 U (by omega) (fun c _ hc => hdiag c hc)
  have e : inverse_upper U n = (true, forDown
      (fun col U => forDown (inverse_upper_cell n col) 0 col U) 0 n (inverse_diag n n 0 U).2) := by
    simp only [inverse_upper, h1, if_true]
  rw [e]
  refine ⟨rfl, ?_⟩
  apply upper_mul_of_inv U (inverse_diag n n 0 U).2 _ n htri hdiag
  · intro r s hr hs
    rw [h2 r s hr hs]
    by_cases hrs : r = s
    · rw [if_pos ⟨hrs, Nat.zero_le _⟩, if_pos hrs]
    · rw [if_neg (fun h => hrs h.1), if_neg hrs]
  · apply inverse_upper_loop_inv _ n n _ le_rfl
    constructor
    · intro r s _ _ _
      rfl
    · intro r s hrs hs hd
      omega

/-- The routines `inverse_upper` and `inverse_lower` return `false` when a diagonal entry
is zero. -/
theorem inverse_upper_false (U : Nat → α) (n : Nat) (h : ∃ c, c < n ∧ U (c * n + c) = 0) :
    (inverse_upper U n).1 = false := by
  obtain ⟨c, hc, h0⟩ := h
  have h1 := inverse_diag_false n n 0 U (by omega) ⟨c, Nat.zero_le _, hc, h0⟩
  simp only [inverse_upper, h1]
  simp [h1]

end

section

variable {α : Type} [LinearOrderedField α]

/-- One cell of `inverse_lower` extends the invariant by the column `ρ` of row `c`. -/
theorem inverse_lower_cell_inv (D W : Nat → α) (n c ρ : Nat) (hc : c < n) (hρ : ρ < c)
    (h : LowerInv D W n c (ρ + 1)) : LowerInv D (inverse_lower_cell n c ρ W) n c ρ := by
  obtain ⟨ha, hb⟩ := h
  have hval : inverse_lower_cell n c ρ W =
      Function.update W (c * n + ρ)
        (-(∑ i in Finset.Ico (ρ + 1) (c + 1), W (c * n + i) * D (i * n + ρ)) * D (ρ * n + ρ)) := by
    simp only [inverse_lower_cell]
    rw [forDown_add_sum, zero_add, show ρ + 1 + (c - ρ) = c + 1 by omega,
      ha ρ ρ (by omega) (by omega) (by omega)]
    have hsum : ∑ i in Finset.Ico (ρ + 1) (c + 1), W (c * n + i) * W (i * n + ρ) =
        ∑ i in Finset.Ico (ρ + 1) (c + 1), W (c * n + i) * D (i * n + ρ) := by
      apply Finset.sum_congr rfl
      intro i hi
      have hi := Finset.mem_Ico.1 hi
      rw [ha i ρ (by omega) (by omega) (by omega)]
    rw [hsum]
  rw [hval]
  have hρn : ρ < n := by omega
  constructor
  · intro r s hr hs hnd
    rw [Function.update_noteq]
    · exact ha r s hr hs (by omega)
    · rw [Ne, idx_inj hs hρn]
      omega
  · intro r s hrs hr hd
    have hsum : ∀ v : α, ∑ i in Finset.Ico (s + 1) (r + 1),
        Function.update W (c * n + ρ) v (r * n + i) * D (i * n + s) =
        ∑ i in Finset.Ico (s + 1) (r + 1), W (r * n + i) * D (i * n + s) := by
      intro v
      apply Finset.sum_congr rfl
      intro i hi
      have hi := Finset.mem_Ico.1 hi
      rw [Function.update_noteq]
      rw [Ne, idx_inj (by omega) hρn]
      omega
    rw [hsum]
    by_cases hcell : r = c ∧ s = ρ
    · obtain ⟨h1, h2⟩ := hcell
      subst h1
      subst h2
      rw [Function.update_same]
    · rw [Function.update_noteq (by rw [Ne, idx_inj (by omega) hρn]; exact hcell)]
      exact hb r s hrs hr (by omega)

/-- The loop over the columns of row `c` of `inverse_lower`. -/
theorem inverse_lower_row_inv (D : Nat → α) (n c : Nat) (hc : c < n) (ρ : Nat) :
    ∀ W : Nat → α, ρ ≤ c → LowerInv D W n c ρ →
      LowerInv D (forDown (inverse_lower_cell n c) 0 ρ W) n c 0 := by
  induction ρ with
  | zero =>
    intro W _ h
    exact h
  | succ ρ ih =>
    intro W hρ h
    rw [forDown_succ, Nat.zero_add]
    exact ih _ (by omega) (inverse_lower_cell_inv D W n c ρ hc (by omega) h)

/-- The loop over the rows of `inverse_lower`. -/
theorem inverse_lower_loop_inv (D : Nat → α) (n : Nat) (c : Nat) :
    ∀ W : Nat → α, c ≤ n → LowerInv D W n c 0 →
      LowerInv D (forDown (fun row U => forDown (inverse_lower_cell n row) 0 row U) 0 c W)
        n 0 0 := by
  induction c with
  | zero =>
    intro W _ h
    exact h
  | succ c ih =>
    intro W hc h
    rw [forDown_succ, Nat.zero_add]
    apply ih _ (by omega)
    apply inverse_lower_row_inv D n c (by omega) c _ le_rfl
    obtain ⟨ha, hb⟩ := h
    constructor
    · intro r s hr hs hnd
      exact ha r s hr hs (by omega)
    · intro r s hrs hs hd
      exact hb r s hrs hs (by omega)

/-- From the final invariant of `inverse_lower`: the buffer times the original
lower-triangular matrix is the identity. -/
theorem lower_mul_of_inv (L D X : Nat → α) (n : Nat)
    (htri : ∀ r s, r < s → s < n → L (r * n + s) = 0)
    (hdiag : ∀ c, c < n → L (c * n + c) ≠ 0)
    (hD : ∀ r s, r < n → s < n → D (r * n + s) = if r = s then 1 / L (r * n + r) else L (r * n + s))
    (hX : LowerInv D X n 0 0) :
    rowMajor X n n * rowMajor L n n = 1 := by
  obtain ⟨ha, hb⟩ := hX
  ext r s
  rw [Matrix.mul_apply]
  simp only [rowMajor]
  rw [Fin.sum_univ_eq_sum_range (fun i => X (r.val * n + i) * L (i * n + s.val)) n]
  have hr := r.2
  have hs := s.2
  have hXup : ∀ i, i < n → r.val < i → X (r.val * n + i) = 0 := by
    intro i hi hri
    rw [ha r.val i hr hi (by omega), hD r.val i hr hi, if_neg (by omega)]
    exact htri r.val i hri hi
  have hXdiag : X (r.val * n + r.val) = 1 / L (r.val * n + r.val) := by
    rw [ha r.val r.val hr hr (by omega), hD r.val r.val hr hr, if_pos rfl]
  rw [sum_range_eq_sum_Ico _ n s.val (r.val + 1) (by omega) (by
    intro i hi hni
    by_cases h1 : i < s.val
    · rw [htri i s.val h1 hs, mul_zero]
    · rw [hXup i hi (by omega), zero_mul])]
  rcases lt_trichotomy r.val s.val with h | h | h
  · rw [Finset.Ico_eq_empty (by omega), Finset.sum_empty, Matrix.one_apply_ne (fun e => by
      rw [e] at h; exact lt_irrefl _ h)]
  · have hrs : r = s := Fin.ext h
    subst hrs
    rw [Finset.sum_eq_sum_Ico_succ_bot (by omega), Finset.Ico_self, Finset.sum_empty, add_zero,
      hXdiag, Matrix.one_apply_eq]
    exact one_div_mul_cancel (hdiag r.val hr)
  · rw [Finset.sum_eq_sum_Ico_succ_bot (by omega), hb r.val s.val h hr (by omega)]
    have hsum : ∑ i in Finset.Ico (s.val + 1) (r.val + 1), X (r.val * n + i) * D (i * n + s.val) =
        ∑ i in Finset.Ico (s.val + 1) (r.val + 1), X (r.val * n + i) * L (i * n + s.val) := by
      apply Finset.sum_congr rfl
      intro i hi
      have hi := Finset.mem_Ico.1 hi
      rw [hD i s.val (by omega) hs, if_neg (by omega)]
    rw [hsum, hD s.val s.val hs hs, if_pos rfl, Matrix.one_apply_ne (fun e => by
      rw [e] at h; exact lt_irrefl _ h)]
    have := hdiag s.val hs
    field_simp

/-- The routine `inverse_lower` on a lower-triangular matrix with non-zero diagonal. -/
theorem inverse_lower_spec (L : Nat → α) (n : Nat)
    (htri : ∀ r s, r < s → s < n → L (r * n + s) = 0)
    (hdiag : ∀ c, c < n → L (c * n + c) ≠ 0) :
    (inverse_lower L n).1 = true ∧
      rowMajor L n n * rowMajor (inverse_lower L n).2 n n = 1 := by
  obtain ⟨h1, h2⟩ := inverse_diag_true n n 0 L (by omega) (fun c _ hc => hdiag c hc)
  have e : inverse_lower L n = (true, forDown
      (fun row U => forDown (inverse_lower_cell n row) 0 row U) 0 n (inverse_diag n n 0 L).2) := by
    simp only [inverse_lower, h1, if_true]
  rw [e]
  refine ⟨rfl, ?_⟩
  rw [Matrix.mul_eq_one_comm]
  apply lower_mul_of_inv L (inverse_diag n n 0 L).2 _ n htri hdiag
  · intro r s hr hs
    rw [h2 r s hr hs]
    by_cases hrs : r = s
    · rw [if_pos ⟨hrs, Nat.zero_le _⟩, if_pos hrs]
    · rw [if_neg (fun h => hrs h.1), if_neg hrs]
  · apply inverse_lower_loop_inv _ n n _ le_rfl
    constructor
    · intro r s _ _ _
      rfl
    · intro r s hrs hs hd
      omega

theorem inverse_lower_false (L : Nat → α) (n : Nat) (h : ∃ c, c < n ∧ L (c * n + c) = 0) :
    (inverse_lower L n).1 = false := by
  obtain ⟨c, hc, h0⟩ := h
  have h1 := inverse_diag_false n n 0 L (by omega) ⟨c, Nat.zero_le _, hc, h0⟩
  simp only [inverse_lower, h1]
  simp [h1]

/-- C13: on an upper-triangular (respectively lower-triangular) `n × n` matrix with
non-zero diagonal, `inverse_upper` (respectively `inverse_lower`) returns `true` and leaves
a buffer `X` with `original * X = I`; each returns `false` when some diagonal entry is
zero (the test `d + 1 == 1` in exact arithmetic). -/
theorem inverse_triangular_correct (T : Nat → α) (n : Nat) :
    ((∀ r s, s < r → r < n → T (r * n + s) = 0) → (∀ c, c < n → T (c * n + c) ≠ 0) →
      (inverse_upper T n).1 = true ∧
        rowMajor T n n * rowMajor (inverse_upper T n).2 n n = 1) ∧
    ((∀ r s, r < s → s < n → T (r * n + s) = 0) → (∀ c, c < n → T (c * n + c) ≠ 0) →
      (inverse_lower T n).1 = true ∧
        rowMajor T n n * rowMajor (inverse_lower T n).2 n n = 1) ∧
    ((∃ c, c < n ∧ T (c * n + c) = 0) →
      (inverse_upper T n).1 = false ∧ (inverse_lower T n).1 = false) :=
  ⟨inverse_upper_spec T n, inverse_lower_spec T n,
    fun h => ⟨inverse_upper_false T n h, inverse_lower_false T n h⟩⟩

end

section

theorem inverse_triangular_correct_witness :
    (((∀ r s, s < r → r < 2 → (ofList [2, 1, 0, 4] : Nat → ℚ) (r * 2 + s) = 0) ∧
      (∀ c, c < 2 → (ofList [2, 1, 0, 4] : Nat → ℚ) (c * 2 + c) ≠ 0)) ∧
     ((∀ r s, r < s → s < 2 → (ofList [2, 0, 1, 4] : Nat → ℚ) (r * 2 + s) = 0) ∧
      (∀ c, c < 2 → (ofList [2, 0, 1, 4] : Nat → ℚ) (c * 2 + c) ≠ 0)) ∧
     (∃ c, c < 2 ∧ (ofList [2, 1, 0, 0] : Nat → ℚ) (c * 2 + c) = 0)) ∧
    (((inverse_upper (ofList [2, 1, 0, 4] : Nat → ℚ) 2).1 = true ∧
      rowMajor (ofList [2, 1, 0, 4] : Nat → ℚ) 2 2 *
        rowMajor (inverse_upper (ofList [2, 1, 0, 4] : Nat → ℚ) 2).2 2 2 = 1) ∧
     ((inverse_lower (ofList [2, 0, 1, 4] : Nat → ℚ) 2).1 = true ∧
      rowMajor (ofList [2, 0, 1, 4] : Nat → ℚ) 2 2 *
        rowMajor (inverse_lower (ofList [2, 0, 1, 4] : Nat → ℚ) 2).2 2 2 = 1) ∧
     ((inverse_upper (ofList [2, 1, 0, 0] : Nat → ℚ) 2).1 = false ∧
      (inverse_lower (ofList [2, 1, 0, 0] : Nat → ℚ) 2).1 = false)) :=
  have hu1 : ∀ r s, s < r → r < 2 → (ofList [2, 1, 0, 4] : Nat → ℚ) (r * 2 + s) = 0 := by
    intro r s h1 h2
    have hr : r = 1 := by omega
    have hs : s = 0 := by omega
    subst hr
    subst hs
    simp [ofList]
  have hu2 : ∀ c, c < 2 → (ofList [2, 1, 0, 4] : Nat → ℚ) (c * 2 + c) ≠ 0 := by
    intro c hc
    interval_cases c <;> simp [ofList]
  have hl1 : ∀ r s, r < s → s < 2 → (ofList [2, 0, 1, 4] : Nat → ℚ) (r * 2 + s) = 0 := by
    intro r s h1 h2
    have hr : r = 0 := by omega
    have hs : s = 1 := by omega
    subst hr
    subst hs
    simp [ofList]
  have hl2 : ∀ c, c < 2 → (ofList [2, 0, 1, 4] : Nat → ℚ) (c * 2 + c) ≠ 0 := by
    intro c hc
    interval_cases c <;> simp [ofList]
  have hz : ∃ c, c < 2 ∧ (ofList [2, 1, 0, 0] : Nat → ℚ) (c * 2 + c) = 0 :=
    ⟨1, by decide, by simp [ofList]⟩
  ⟨⟨⟨hu1, hu2⟩, ⟨hl1, hl2⟩, hz⟩,
    (inverse_triangular_correct (ofList [2, 1, 0, 4]) 2).1 hu1 hu2,
    (inverse_triangular_correct (ofList [2, 0, 1, 4]) 2).2.1 hl1 hl2,
    (inverse_triangular_correct (ofList [2, 1, 0, 0]) 2).2.2 hz⟩

end

section

variable {α : Type} [LinearOrderedField α]

/-! ## Closed-form symmetric eigen solvers -/

theorem real_sqrt_of_sq (x y : ℝ) (hy : 0 ≤ y) (h : y * y = x) : Real.sqrt x = y := by
  rw [← h]
  exact Real.sqrt_mul_self hy

/-- C14: on the symmetric matrix `[[7, -12], [-12, 0]]` the overload
`eigen_decomposition_sym(dim<2,2>)` writes `d = [16, -9]` and `V = [4/5, 3/5, -3/5, 4/5]`:
the eigenvector of `d[0]` is the strided pair `(V[0], V[2])`, and the contiguous block
`(V[0], V[1])` is not an eigenvector for `d[0]`. -/
theorem eigen_2_2_block_not_eigenvector :
    (eigen_decomposition_sym_2_2 Real.sqrt (ofList [7, -12, -12, 0]) (fun _ => 0)
        (fun _ => 0)).2 0 = 16 ∧
    (eigen_decomposition_sym_2_2 Real.sqrt (ofList [7, -12, -12, 0]) (fun _ => 0)
        (fun _ => 0)).2 1 = -9 ∧
    (eigen_decomposition_sym_2_2 Real.sqrt (ofList [7, -12, -12, 0]) (fun _ => 0)
        (fun _ => 0)).1 0 = 4 / 5 ∧
    (eigen_decomposition_sym_2_2 Real.sqrt (ofList [7, -12, -12, 0]) (fun _ => 0)
        (fun _ => 0)).1 1 = 3 / 5 ∧
    (eigen_decomposition_sym_2_2 Real.sqrt (ofList [7, -12, -12, 0]) (fun _ => 0)
        (fun _ => 0)).1 2 = -3 / 5 ∧
    (eigen_decomposition_sym_2_2 Real.sqrt (ofList [7, -12, -12, 0]) (fun _ => 0)
        (fun _ => 0)).1 3 = 4 / 5 ∧
    ((7 : ℝ) * (4 / 5) + (-12) * (-3 / 5) = 16 * (4 / 5) ∧
      (-12 : ℝ) * (4 / 5) + 0 * (-3 / 5) = 16 * (-3 / 5)) ∧
    ¬ ((7 : ℝ) * (eigen_decomposition_sym_2_2 Real.sqrt (ofList [7, -12, -12, 0]) (fun _ => 0)
          (fun _ => 0)).1 0 +
        (-12) * (eigen_decomposition_sym_2_2 Real.sqrt (ofList [7, -12, -12, 0]) (fun _ => 0)
          (fun _ => 0)).1 1 =
      (eigen_decomposition_sym_2_2 Real.sqrt (ofList [7, -12, -12, 0]) (fun _ => 0)
          (fun _ => 0)).2 0 *
        (eigen_decomposition_sym_2_2 Real.sqrt (ofList [7, -12, -12, 0]) (fun _ => 0)
          (fun _ => 0)).1 0) := by
  have h625 : Real.sqrt 625 = 25 := real_sqrt_of_sq _ _ (by norm_num) (by norm_num)
  have h225 : Real.sqrt 225 = 15 := real_sqrt_of_sq _ _ (by norm_num) (by norm_num)
  have h400 : Real.sqrt 400 = 20 := real_sqrt_of_sq _ _ (by norm_num) (by norm_num)
  have e : eigen_decomposition_sym_2_2 Real.sqrt (ofList [7, -12, -12, 0]) (fun _ => 0)
      (fun _ => 0) =
      (Function.update (Function.update (Function.update (Function.update (fun _ => (0 : ℝ))
          0 (4 / 5)) 2 (-3 / 5)) 1 (3 / 5)) 3 (4 / 5),
        Function.update (Function.update (fun _ => (0 : ℝ)) 0 16) 1 (-9)) := by
    simp only [eigen_decomposition_sym_2_2, ofList]
    norm_num [Function.update, h625, h225, h400]
  rw [e]
  norm_num [Function.update]

/-- C15: on the diagonal inputs `diag(2, 3)` and `diag(1, 2, 3)` the closed-form solvers
take their shortcut branch and copy the diagonal: `d = [2, 3]` and `d = [1, 2, 3]`, which
is increasing, whatever square root and trigonometric functions are used; the run-time
overload with dimension 3 is the `dim<3,3>` overload. -/
theorem eigen_closed_form_unsorted (sqrt acos cos : α → α) (V d : Nat → α) :
    ((eigen_decomposition_sym_2_2 sqrt (ofList [2, 0, 0, 3]) V d).2 0 = 2 ∧
      (eigen_decomposition_sym_2_2 sqrt (ofList [2, 0, 0, 3]) V d).2 1 = 3 ∧
      (eigen_decomposition_sym_2_2 sqrt (ofList [2, 0, 0, 3]) V d).2 0 <
        (eigen_decomposition_sym_2_2 sqrt (ofList [2, 0, 0, 3]) V d).2 1) ∧
    ((eigen_decomposition_sym_3_3 sqrt acos cos (ofList [1, 0, 0, 0, 2, 0, 0, 0, 3]) V d).2 0 = 1 ∧
      (eigen_decomposition_sym_3_3 sqrt acos cos (ofList [1, 0, 0, 0, 2, 0, 0, 0, 3]) V d).2 1 = 2 ∧
      (eigen_decomposition_sym_3_3 sqrt acos cos (ofList [1, 0, 0, 0, 2, 0, 0, 0, 3]) V d).2 2 = 3 ∧
      (eigen_decomposition_sym_3_3 sqrt acos cos (ofList [1, 0, 0, 0, 2, 0, 0, 0, 3]) V d).2 0 <
        (eigen_decomposition_sym_3_3 sqrt acos cos (ofList [1, 0, 0, 0, 2, 0, 0, 0, 3]) V d).2 1) ∧
    (∀ A : Nat → α, eigen_decomposition_sym sqrt acos cos A V d 3 =
      some (eigen_decomposition_sym_3_3 sqrt acos cos A V d)) := by
  have e2 : (eigen_decomposition_sym_2_2 sqrt (ofList [2, 0, 0, 3]) V d).2 =
      Function.update (Function.update d 0 2) 1 3 := by
    simp [eigen_decomposition_sym_2_2, ofList]
  have e3 : (eigen_decomposition_sym_3_3 sqrt acos cos (ofList [1, 0, 0, 0, 2, 0, 0, 0, 3]) V d).2 =
      Function.update (Function.update (Function.update d 0 1) 1 2) 2 3 := by
    simp [eigen_decomposition_sym_3_3, ofList]
  rw [e2, e3]
  refine ⟨?_, ?_, fun A => by simp [eigen_decomposition_sym]⟩
  · norm_num [Function.update]
  · norm_num [Function.update]

end

section

variable {α : Type} [LinearOrderedField α]

/-! ## The run-time symmetric eigen solver on a diagonal 2-by-2 matrix -/

/-- The state of the run-time routine on `[[2, 0], [0, 3]]` when the QL iteration starts. -/
theorem eigen_tridiagonalize_sample (sqrt : α → α) (V d : Nat → α) :
    (eigen_tridiagonalize sqrt (ofList [2, 0, 0, 3]) V d 2).1 0 = 1 ∧
    (eigen_tridiagonalize sqrt (ofList [2, 0, 0, 3]) V d 2).1 1 = 0 ∧
    (eigen_tridiagonalize sqrt (ofList [2, 0, 0, 3]) V d 2).1 2 = 0 ∧
    (eigen_tridiagonalize sqrt (ofList [2, 0, 0, 3]) V d 2).1 3 = 1 ∧
    (eigen_tridiagonalize sqrt (ofList [2, 0, 0, 3]) V d 2).2.1 0 = 2 ∧
    (eigen_tridiagonalize sqrt (ofList [2, 0, 0, 3]) V d 2).2.1 1 = 3 ∧
    (eigen_tridiagonalize sqrt (ofList [2, 0, 0, 3]) V d 2).2.2 0 = 0 := by
  simp [eigen_tridiagonalize, forUp, forDown, fill, tred_accum, ofList, Function.update]

/-- With a zero sub-diagonal entry the QL iteration of a 2-by-2 problem accepts both
diagonal entries without any sweep. -/
theorem ql_loop_two_diagonal (sqrt : α → α) (V d e : Nat → α) (he : e 0 = 0) (fuel : Nat) :
    ql_loop sqrt 2 (fuel + 3) 0 0 V d e = some (V, d, e) := by
  simp [ql_loop, ql_find, he]

/-- The sorting pass on two eigenvalues in increasing order exchanges them and the two
rows of `V`. -/
theorem eigen_sort_two (V d : Nat → α) (h : d 0 < d 1) :
    (eigen_sort 2 (V, d)).2 0 = d 1 ∧ (eigen_sort 2 (V, d)).2 1 = d 0 ∧
    (eigen_sort 2 (V, d)).1 0 = V 2 ∧ (eigen_sort 2 (V, d)).1 1 = V 3 ∧
    (eigen_sort 2 (V, d)).1 2 = V 0 ∧ (eigen_sort 2 (V, d)).1 3 = V 1 := by
  simp [eigen_sort, forUp, max_element, max_element_from, h, vec_swap, swapAt, Function.update]

/-- C17: the run-time routine `eigen_decomposition_sym` on the 2-by-2 matrix
`[[2, 0], [0, 3]]` returns with `d = [3, 2]` and `V = [0, 1, 1, 0]`. -/
theorem eigen_decomposition_sym_sample (sqrt acos cos : α → α) (V d : Nat → α) :
    ∃ r, eigen_decomposition_sym sqrt acos cos (ofList [2, 0, 0, 3]) V d 2 = some r ∧
      r.2 0 = 3 ∧ r.2 1 = 2 ∧ r.1 0 = 0 ∧ r.1 1 = 1 ∧ r.1 2 = 1 ∧ r.1 3 = 0 := by
  obtain ⟨v0, v1, v2, v3, d0, d1, e0⟩ := eigen_tridiagonalize_sample sqrt V d
  have hq := ql_loop_two_diagonal sqrt
    (eigen_tridiagonalize sqrt (ofList [2, 0, 0, 3]) V d 2).1
    (eigen_tridiagonalize sqrt (ofList [2, 0, 0, 3]) V d 2).2.1
    (eigen_tridiagonalize sqrt (ofList [2, 0, 0, 3]) V d 2).2.2 e0 87
  have hs := eigen_sort_two (eigen_tridiagonalize sqrt (ofList [2, 0, 0, 3]) V d 2).1
    (eigen_tridiagonalize sqrt (ofList [2, 0, 0, 3]) V d 2).2.1 (by rw [d0, d1]; norm_num)
  refine ⟨eigen_sort 2 ((eigen_tridiagonalize sqrt (ofList [2, 0, 0, 3]) V d 2).1,
    (eigen_tridiagonalize sqrt (ofList [2, 0, 0, 3]) V d 2).2.1), ?_, ?_⟩
  · have hp : eigen_presort sqrt (ofList [2, 0, 0, 3]) V d 2 =
        some ((eigen_tridiagonalize sqrt (ofList [2, 0, 0, 3]) V d 2).1,
          (eigen_tridiagonalize sqrt (ofList [2, 0, 0, 3]) V d 2).2.1) := by
      simp only [eigen_presort]
      rw [show 30 * 2 + 30 = 87 + 3 from rfl, hq]
    simp only [eigen_decomposition_sym, hp]
    simp
  · obtain ⟨s0, s1, s2, s3, s4, s5⟩ := hs
    rw [s0, s1, s2, s3, s4, s5, d0, d1, v0, v1, v2, v3]
    exact ⟨rfl, rfl, rfl, rfl, rfl, rfl⟩

end

section

/-! ## Selection sort by `std::max_element` -/

theorem max_element_from_spec {R : Type} [LinearOrder R] (d : Nat → R) (lo : Nat) (cnt : Nat) :
    ∀ i largest, lo ≤ largest → largest < i → (∀ j, lo ≤ j → j < i → d j ≤ d largest) →
      lo ≤ max_element_from d cnt i largest ∧ max_element_from d cnt i largest < i + cnt ∧
      ∀ j, lo ≤ j → j < i + cnt → d j ≤ d (max_element_from d cnt i largest) := by
  induction cnt with
  | zero =>
    intro i largest h1 h2 h3
    exact ⟨h1, h2, h3⟩
  | succ cnt ih =>
    intro i largest h1 h2 h3
    simp only [max_element_from]
    have key := ih (i + 1) (if d largest < d i then i else largest)
      (by split_ifs <;> omega) (by split_ifs <;> omega) (by
        intro j hj1 hj2
        by_cases hji : j = i
        · subst hji
          split_ifs with h
          · exact le_rfl
          · exact not_lt.1 h
        · have := h3 j hj1 (by omega)
          split_ifs with h
          · exact this.trans h.le
          · exact this)
    refine ⟨key.1, by have := key.2.1; omega, fun j hj1 hj2 => key.2.2 j hj1 (by omega)⟩

/-- The index returned by `std::max_element` on a non-empty range is in the range and
holds a largest element. -/
theorem max_element_spec {R : Type} [LinearOrder R] (d : Nat → R) (first last : Nat)
    (h : first < last) :
    first ≤ max_element d first last ∧ max_element d first last < last ∧
    ∀ j, first ≤ j → j < last → d j ≤ d (max_element d first last) := by
  unfold max_element
  rw [if_neg (by omega)]
  have key := max_element_from_spec d first (last - (first + 1)) (first + 1) first le_rfl
    (by omega) (by
      intro j h1 h2
      have : j = first := by omega
      rw [this])
  refine ⟨key.1, by have := key.2.1; omega, fun j hj1 hj2 => key.2.2 j hj1 (by omega)⟩

theorem fin_swap_val {n : Nat} (a b i : Fin n) :
    (Equiv.swap a b i).val = if i.val = a.val then b.val else if i.val = b.val then a.val
      else i.val := by
  rw [Equiv.swap_apply_def]
  by_cases h1 : i = a
  · rw [if_pos h1, if_pos (by rw [h1])]
  · rw [if_neg h1, if_neg (fun h => h1 (Fin.ext h))]
    by_cases h2 : i = b
    · rw [if_pos h2, if_pos (by rw [h2])]
    · rw [if_neg h2, if_neg (fun h => h2 (Fin.ext h))]

/-- Exchanging position `c` with a largest element of `d[c .. n)` extends the sorted
prefix by one position. -/
theorem swap_max_sorted {R : Type} [LinearOrder R] (d : Nat → R) (n c k : Nat)
    (hck : c ≤ k) (hk : k < n)
    (hmax : ∀ j, c ≤ j → j < n → d j ≤ d k)
    (hpre : ∀ i j, i < c → i ≤ j → j < n → d j ≤ d i) :
    ∀ i j, i < c + 1 → i ≤ j → j < n → swapAt d k c j ≤ swapAt d k c i := by
  intro i j hi hij hj
  rw [swapAt_apply, swapAt_apply]
  by_cases hic : i = c
  · subst hic
    rw [if_pos rfl]
    split_ifs
    · exact le_rfl
    · exact hmax _ le_rfl (by omega)
    · exact hmax j hij hj
  · have hik : ¬ i = k := by omega
    rw [if_neg hic, if_neg hik]
    split_ifs
    · exact hpre i k (by omega) (by omega) hk
    · exact hpre i c (by omega) (by omega) (by omega)
    · exact hpre i j (by omega) hij hj

variable {α : Type} [LinearOrderedField α]

/-- Invariant of the sorting pass of `eigen_decomposition_sym` after `c` steps: the state
is a row permutation of the initial one and the first `c` eigenvalues are in place. -/
theorem eigen_sort_inv (n : Nat) (V d : Nat → α) (c : Nat) (hc : c ≤ n - 1) :
    ∃ σ : Equiv.Perm (Fin n),
      (∀ i : Fin n,
        (forUp (fun i (st : (Nat → α) × (Nat → α)) =>
          let k := max_element st.2 i n
          if k ≠ i then (vec_swap st.1 (i * n) n (k * n), swapAt st.2 k i) else st)
          0 c (V, d)).2 i.val = d (σ i).val) ∧
      (∀ i : Fin n, ∀ j, j < n →
        (forUp (fun i (st : (Nat → α) × (Nat → α)) =>
          let k := max_element st.2 i n
          if k ≠ i then (vec_swap st.1 (i * n) n (k * n), swapAt st.2 k i) else st)
          0 c (V, d)).1 (i.val * n + j) = V ((σ i).val * n + j)) ∧
      (∀ i j, i < c → i ≤ j → j < n →
        (forUp (fun i (st : (Nat → α) × (Nat → α)) =>
          let k := max_element st.2 i n
          if k ≠ i then (vec_swap st.1 (i * n) n (k * n), swapAt st.2 k i) else st)
          0 c (V, d)).2 j ≤
        (forUp (fun i (st : (Nat → α) × (Nat → α)) =>
          let k := max_element st.2 i n
          if k ≠ i then (vec_swap st.1 (i * n) n (k * n), swapAt st.2 k i) else st)
          0 c (V, d)).2 i) := by
  induction c with
  | zero =>
    exact ⟨Equiv.refl _, fun i => rfl, fun i j _ => rfl, fun i j hi => absurd hi (by omega)⟩
  | succ c ih =>
    obtain ⟨σ, h1, h2, h3⟩ := ih (by omega)
    rw [forUp_succ, Nat.zero_add]
    generalize forUp (fun i (st : (Nat → α) × (Nat → α)) =>
          let k := max_element st.2 i n
          if k ≠ i then (vec_swap st.1 (i * n) n (k * n), swapAt st.2 k i) else st)
          0 c (V, d) = st at h1 h2 h3 ⊢
    have hcn : c < n := by omega
    obtain ⟨m1, m2, m3⟩ := max_element_spec st.2 c n hcn
    simp only
    by_cases hk : max_element st.2 c n = c
    · rw [if_neg (by rw [hk]; simp)]
      refine ⟨σ, h1, h2, ?_⟩
      intro i j hi hij hj
      by_cases hic : i = c
      · subst hic
        have := m3 j hij hj
        rwa [hk] at this
      · exact h3 i j (by omega) hij hj
    · rw [if_pos hk]
      simp only
      refine ⟨(Equiv.swap (⟨c, hcn⟩ : Fin n) ⟨max_element st.2 c n, m2⟩).trans σ, ?_, ?_, ?_⟩
      · intro i
        rw [Equiv.trans_apply, ← h1, fin_swap_val, swapAt_apply]
        simp only
        split_ifs <;> rfl
      · intro i j hj
        rw [Equiv.trans_apply, ← h2 _ j hj, fin_swap_val,
          vec_swap_rows st.1 n c (max_element st.2 c n) (Ne.symm hk) n le_rfl i.val j hj,
          if_pos hj]
        simp only
        split_ifs <;> rfl
      · exact swap_max_sorted st.2 n c _ m1 m2 m3 h3

end

section

variable {α : Type} [LinearOrderedField α]

/-- The sorting pass of `eigen_decomposition_sym` on an arbitrary state `(V, d)`: `d`
becomes non-increasing and `(V, d)` is permuted row-wise by one permutation. -/
theorem eigen_sort_spec (n : Nat) (st : (Nat → α) × (Nat → α)) :
    (∀ i j, i ≤ j → j < n → (eigen_sort n st).2 j ≤ (eigen_sort n st).2 i) ∧
    ∃ σ : Equiv.Perm (Fin n),
      (∀ i : Fin n, (eigen_sort n st).2 i.val = st.2 (σ i).val) ∧
      (∀ i : Fin n, ∀ j, j < n →
        (eigen_sort n st).1 (i.val * n + j) = st.1 ((σ i).val * n + j)) := by
  obtain ⟨σ, h1, h2, h3⟩ := eigen_sort_inv n st.1 st.2 (n - 1) le_rfl
  refine ⟨?_, σ, h1, h2⟩
  intro i j hij hj
  by_cases hi : i < n - 1
  · exact h3 i j hi hij hj
  · have : j = i := by omega
    rw [this]

/-- C16: for a run-time dimension `n ≠ 3` the routine `eigen_decomposition_sym` ends with
the sorting pass applied to whatever state `(V, d)` the QL iteration produced; on every
state this pass leaves `d` in non-increasing order, as a permutation of the eigenvalues
it started from, and applies the same permutation to the rows of `V`. -/
theorem eigen_sort_correct (sqrt acos cos : α → α) (A V d : Nat → α) (n : Nat) (hn : n ≠ 3) :
    eigen_decomposition_sym sqrt acos cos A V d n =
      Option.map (eigen_sort n) (eigen_presort sqrt A V d n) ∧
    ∀ st : (Nat → α) × (Nat → α),
      (∀ i j, i ≤ j → j < n → (eigen_sort n st).2 j ≤ (eigen_sort n st).2 i) ∧
      ∃ σ : Equiv.Perm (Fin n),
        (∀ i : Fin n, (eigen_sort n st).2 i.val = st.2 (σ i).val) ∧
        (∀ i : Fin n, ∀ j, j < n →
          (eigen_sort n st).1 (i.val * n + j) = st.1 ((σ i).val * n + j)) := by
  refine ⟨?_, eigen_sort_spec n⟩
  simp only [eigen_decomposition_sym, if_neg hn]
  cases eigen_presort sqrt A V d n <;> rfl

theorem eigen_sort_correct_witness :
    (2 ≠ 3) ∧
    (eigen_decomposition_sym Real.sqrt Real.arccos Real.cos (ofList [2, 0, 0, 3]) (fun _ => 0)
        (fun _ => 0) 2 =
      Option.map (eigen_sort 2)
        (eigen_presort Real.sqrt (ofList [2, 0, 0, 3]) (fun _ => 0) (fun _ => 0) 2) ∧
    ∀ st : (Nat → ℝ) × (Nat → ℝ),
      (∀ i j, i ≤ j → j < 2 → (eigen_sort 2 st).2 j ≤ (eigen_sort 2 st).2 i) ∧
      ∃ σ : Equiv.Perm (Fin 2),
        (∀ i : Fin 2, (eigen_sort 2 st).2 i.val = st.2 (σ i).val) ∧
        (∀ i : Fin 2, ∀ j, j < 2 →
          (eigen_sort 2 st).1 (i.val * 2 + j) = st.1 ((σ i).val * 2 + j))) :=
  ⟨by decide,
    eigen_sort_correct Real.sqrt Real.arccos Real.cos (ofList [2, 0, 0, 3]) (fun _ => 0)
      (fun _ => 0) 2 (by decide)⟩

end

section

/-! ## Post-processing of `svd` -/

theorem vec_negate_spec {R : Type} [Neg R] (A : Nat → R) (x len z : Nat) :
    vec_negate A x len z = if x ≤ z ∧ z < x + len then -A z else A z := by
  induction len with
  | zero =>
    rw [if_neg (by omega)]
    rfl
  | succ len ih =>
    unfold vec_negate at ih ⊢
    rw [forUp_succ, Nat.zero_add, Function.update_apply]
    by_cases h : z = x + len
    · rw [if_pos h, if_pos (by omega), ← h, ih, if_neg (by omega)]
    · rw [if_neg h, ih]
      by_cases h2 : x ≤ z ∧ z < x + len
      · rw [if_pos h2, if_pos (by omega)]
      · rw [if_neg h2, if_neg (by omega)]

/-- Row form of `vec_negate` on a row-major buffer with rows of length `n`. -/
theorem vec_negate_row {R : Type} [Neg R] (A : Nat → R) (n k i j : Nat) (hj : j < n) :
    vec_negate A (k * n) n (i * n + j) = if i = k then -A (i * n + j) else A (i * n + j) := by
  rw [vec_negate_spec]
  have h := @row_range n i j k 0 hj
  rw [Nat.add_zero] at h
  by_cases hik : i = k
  · rw [if_pos hik, if_pos (h.2 ⟨hik, Nat.zero_le _⟩)]
  · rw [if_neg hik, if_neg (fun hh => hik (h.1 hh).1)]

variable {α : Type} [LinearOrderedField α]

/-- The sign fix of `svd` after `c` steps: the first `c` singular values are replaced by
their absolute values and the rows of `U` of the negative ones are negated. -/
theorem svd_make_positive_inv (n : Nat) (U s : Nat → α) (c : Nat) :
    (∀ k, (svd_make_positive n c (U, s)).2 k = if k < c then |s k| else s k) ∧
    (∀ k j, j < n → (svd_make_positive n c (U, s)).1 (k * n + j) =
      if k < c ∧ s k < 0 then -U (k * n + j) else U (k * n + j)) := by
  induction c with
  | zero =>
    constructor
    · intro k
      rw [if_neg (by omega)]
      rfl
    · intro k j _
      rw [if_neg (by omega)]
      rfl
  | succ c ih =>
    obtain ⟨h1, h2⟩ := ih
    unfold svd_make_positive at h1 h2 ⊢
    rw [forUp_succ, Nat.zero_add]
    generalize forUp (fun k (st : (Nat → α) × (Nat → α)) =>
      if st.2 k < 0 then
        let s1 := Function.update st.2 k (-st.2 k)
        (vec_negate st.1 (k * n) n, s1)
      else st) 0 c (U, s) = st at h1 h2 ⊢
    have hc : st.2 c = s c := by rw [h1 c, if_neg (lt_irrefl c)]
    simp only [hc]
    by_cases hneg : s c < 0
    · rw [if_pos hneg]
      constructor
      · intro k
        simp only
        rw [Function.update_apply]
        by_cases hk : k = c
        · rw [if_pos hk, if_pos (by omega), hk, abs_of_neg hneg]
        · rw [if_neg hk, h1 k]
          by_cases hk2 : k < c
          · rw [if_pos hk2, if_pos (by omega)]
          · rw [if_neg hk2, if_neg (by omega)]
      · intro k j hj
        simp only
        rw [vec_negate_row _ n c k j hj, h2 k j hj]
        by_cases hk : k = c
        · subst hk
          rw [if_pos rfl, if_neg (fun h => lt_irrefl _ h.1), if_pos ⟨by omega, hneg⟩]
        · rw [if_neg hk]
          by_cases hk2 : k < c ∧ s k < 0
          · rw [if_pos hk2, if_pos ⟨by omega, hk2.2⟩]
          · rw [if_neg hk2, if_neg (fun h => hk2 ⟨by omega, h.2⟩)]
    · rw [if_neg hneg]
      constructor
      · intro k
        rw [h1 k]
        by_cases hk : k = c
        · rw [hk, if_neg (lt_irrefl c), if_pos (by omega), abs_of_nonneg (not_lt.1 hneg)]
        · by_cases hk2 : k < c
          · rw [if_pos hk2, if_pos (by omega)]
          · rw [if_neg hk2, if_neg (by omega)]
      · intro k j hj
        rw [h2 k j hj]
        by_cases hk2 : k < c ∧ s k < 0
        · rw [if_pos hk2, if_pos ⟨by omega, hk2.2⟩]
        · rw [if_neg hk2, if_neg]
          rintro ⟨h3, h4⟩
          by_cases hk : k = c
          · rw [hk] at h4
            exact hneg h4
          · exact hk2 ⟨by omega, h4⟩

/-- Invariant of the sorting pass of `svd` after `c` steps: the state is a row permutation
of the initial one and the first `c` singular values are in place. -/
theorem svd_sort_inv (n m nu : Nat) (A U s : Nat → α) (c : Nat) (hc : c ≤ nu - 1) :
    ∃ σ : Equiv.Perm (Fin nu),
      (∀ i : Fin nu, (forUp (svd_sort_step n m nu) 0 c (A, U, s)).2.2 i.val = s (σ i).val) ∧
      (∀ i : Fin nu, ∀ j, j < n →
        (forUp (svd_sort_step n m nu) 0 c (A, U, s)).2.1 (i.val * n + j) =
          U ((σ i).val * n + j)) ∧
      (∀ i : Fin nu, ∀ j, j < m →
        (forUp (svd_sort_step n m nu) 0 c (A, U, s)).1 (i.val * m + j) =
          A ((σ i).val * m + j)) ∧
      (∀ i j, i < c → i ≤ j → j < nu →
        (forUp (svd_sort_step n m nu) 0 c (A, U, s)).2.2 j ≤
          (forUp (svd_sort_step n m nu) 0 c (A, U, s)).2.2 i) := by
  induction c with
  | zero =>
    exact ⟨Equiv.refl _, fun i => rfl, fun i j _ => rfl, fun i j _ => rfl,
      fun i j hi => absurd hi (by omega)⟩
  | succ c ih =>
    obtain ⟨σ, h1, h2, h3, h4⟩ := ih (by omega)
    rw [forUp_succ, Nat.zero_add]
    generalize forUp (svd_sort_step n m nu) 0 c (A, U, s) = st at h1 h2 h3 h4 ⊢
    have hcn : c < nu := by omega
    obtain ⟨m1, m2, m3⟩ := max_element_spec st.2.2 c nu hcn
    unfold svd_sort_step
    simp only
    by_cases hk : max_element st.2.2 c nu = c
    · rw [if_pos hk]
      refine ⟨σ, h1, h2, h3, ?_⟩
      intro i j hi hij hj
      by_cases hic : i = c
      · subst hic
        have := m3 j hij hj
        rwa [hk] at this
      · exact h4 i j (by omega) hij hj
    · rw [if_neg hk]
      simp only
      have hidx : ∀ w : Nat, c * w + (max_element st.2.2 c nu - c) * w =
          max_element st.2.2 c nu * w := by
        intro w
        rw [← Nat.add_mul]
        congr 1
        omega
      rw [hidx n, hidx m]
      refine ⟨(Equiv.swap (⟨c, hcn⟩ : Fin nu) ⟨max_element st.2.2 c nu, m2⟩).trans σ,
        ?_, ?_, ?_, ?_⟩
      · intro i
        rw [Equiv.trans_apply, ← h1, fin_swap_val, swapAt_apply]
        simp only
        split_ifs <;> first | rfl | omega
      · intro i j hj
        rw [Equiv.trans_apply, ← h2 _ j hj, fin_swap_val,
          vec_swap_rows st.2.1 n c (max_element st.2.2 c nu) (Ne.symm hk) n le_rfl i.val j hj,
          if_pos hj]
        simp only
        split_ifs <;> rfl
      · intro i j hj
        rw [Equiv.trans_apply, ← h3 _ j hj, fin_swap_val,
          vec_swap_rows st.1 m c (max_element st.2.2 c nu) (Ne.symm hk) m le_rfl i.val j hj,
          if_pos hj]
        simp only
        split_ifs <;> rfl
      · have e : swapAt st.2.2 c (max_element st.2.2 c nu) =
            swapAt st.2.2 (max_element st.2.2 c nu) c := by
          funext z
          rw [swapAt_apply, swapAt_apply]
          split_ifs <;> first | rfl | omega
        rw [e]
        exact swap_max_sorted st.2.2 nu c _ m1 m2 m3 h4

end

section

variable {α : Type} [LinearOrderedField α]

/-- Entry `(i, j)` of `Uᵀ diag(s) A` for row-major buffers. -/
theorem usa_apply (A U s : Nat → α) (n m : Nat) (i : Fin n) (j : Fin m) :
    ((rowMajor U n n).transpose * Matrix.diagonal (vecOf s n) * rowMajor A n m) i j =
      ∑ k : Fin n, U (k.val * n + i.val) * s k.val * A (k.val * m + j.val) := by
  rw [Matrix.mul_apply]
  apply Finset.sum_congr rfl
  intro k _
  rw [Matrix.mul_diagonal]
  rfl

/-- The post-processing of `svd` as one signed row permutation. -/
theorem svd_postprocess_spec (n m : Nat) (A U s : Nat → α) :
    (∀ i j, i ≤ j → j < n →
      (svd_postprocess n m (A, U, s)).2.2 j ≤ (svd_postprocess n m (A, U, s)).2.2 i) ∧
    ∃ σ : Equiv.Perm (Fin n), ∀ i : Fin n,
      (svd_postprocess n m (A, U, s)).2.2 i.val = |s (σ i).val| ∧
      (∀ j, j < n → (svd_postprocess n m (A, U, s)).2.1 (i.val * n + j) =
        if s (σ i).val < 0 then -U ((σ i).val * n + j) else U ((σ i).val * n + j)) ∧
      (∀ j, j < m → (svd_postprocess n m (A, U, s)).1 (i.val * m + j) =
        A ((σ i).val * m + j)) := by
  obtain ⟨p1, p2⟩ := svd_make_positive_inv n U s n
  obtain ⟨σ, h1, h2, h3, h4⟩ := svd_sort_inv n m n A (svd_make_positive n n (U, s)).1
    (svd_make_positive n n (U, s)).2 (n - 1) le_rfl
  have e : svd_postprocess n m (A, U, s) =
      forUp (svd_sort_step n m n) 0 (n - 1)
        (A, (svd_make_positive n n (U, s)).1, (svd_make_positive n n (U, s)).2) := rfl
  rw [e]
  constructor
  · intro i j hij hj
    by_cases hi : i < n - 1
    · exact h4 i j hi hij hj
    · have : j = i := by omega
      rw [this]
  · refine ⟨σ, fun i => ⟨?_, ?_, h3 i⟩⟩
    · rw [h1 i, p1, if_pos (σ i).2]
    · intro j hj
      rw [h2 i j hj, p2 _ j hj]
      by_cases hneg : s (σ i).val < 0
      · rw [if_pos ⟨(σ i).2, hneg⟩, if_pos hneg]
      · rw [if_neg (fun h => hneg h.2), if_neg hneg]

/-- C20: the end of `svd(A, U, s, dim)` (sign fix, then selection sort), reached on every
return with `1 ≤ rows ≤ cols` and `cols ≥ 2`, leaves `s[0] ≥ s[1] ≥ … ≥ s[n-1] ≥ 0`; it
acts as one permutation of the indices `k` that moves `s[k]`, row `k` of `U` and row `k`
of `A` together, a negative `s[k]` being negated together with row `k` of `U`; hence
`Uᵀ * diag(s) * A` is the same before and after. -/
theorem svd_postprocess_correct (n m : Nat) (A U s : Nat → α) (_hn : 1 ≤ n) (_hnm : n ≤ m)
    (_hm : 2 ≤ m) :
    (∀ i j, i ≤ j → j < n →
      (svd_postprocess n m (A, U, s)).2.2 j ≤ (svd_postprocess n m (A, U, s)).2.2 i) ∧
    (∀ i, i < n → 0 ≤ (svd_postprocess n m (A, U, s)).2.2 i) ∧
    (∃ σ : Equiv.Perm (Fin n), ∀ i : Fin n,
      (svd_postprocess n m (A, U, s)).2.2 i.val = |s (σ i).val| ∧
      (∀ j, j < n → (svd_postprocess n m (A, U, s)).2.1 (i.val * n + j) =
        if s (σ i).val < 0 then -U ((σ i).val * n + j) else U ((σ i).val * n + j)) ∧
      (∀ j, j < m → (svd_postprocess n m (A, U, s)).1 (i.val * m + j) =
        A ((σ i).val * m + j))) ∧
    (rowMajor (svd_postprocess n m (A, U, s)).2.1 n n).transpose *
        Matrix.diagonal (vecOf (svd_postprocess n m (A, U, s)).2.2 n) *
        rowMajor (svd_postprocess n m (A, U, s)).1 n m =
      (rowMajor U n n).transpose * Matrix.diagonal (vecOf s n) * rowMajor A n m := by
  obtain ⟨hsorted, σ, hσ⟩ := svd_postprocess_spec n m A U s
  refine ⟨hsorted, ?_, ⟨σ, hσ⟩, ?_⟩
  · intro i hi
    rw [(hσ ⟨i, hi⟩).1]
    exact abs_nonneg _
  · ext i j
    rw [usa_apply, usa_apply,
      ← Equiv.sum_comp σ (fun k : Fin n => U (k.val * n + i.val) * s k.val * A (k.val * m + j.val))]
    apply Finset.sum_congr rfl
    intro k _
    obtain ⟨e1, e2, e3⟩ := hσ k
    rw [e1, e2 i.val i.2, e3 j.val j.2]
    by_cases hneg : s (σ k).val < 0
    · rw [if_pos hneg, abs_of_neg hneg]
      ring
    · rw [if_neg hneg, abs_of_nonneg (not_lt.1 hneg)]

theorem svd_postprocess_correct_witness :
    (1 ≤ 2 ∧ 2 ≤ 2 ∧ 2 ≤ 2) ∧
    ((∀ i j, i ≤ j → j < 2 →
      (svd_postprocess 2 2 (ofList [1, 2, 3, 4], ofList [1, 0, 0, 1],
          (ofList [-1, 5] : Nat → ℚ))).2.2 j ≤
        (svd_postprocess 2 2 (ofList [1, 2, 3, 4], ofList [1, 0, 0, 1],
          (ofList [-1, 5] : Nat → ℚ))).2.2 i) ∧
    (∀ i, i < 2 → 0 ≤ (svd_postprocess 2 2 (ofList [1, 2, 3, 4], ofList [1, 0, 0, 1],
      (ofList [-1, 5] : Nat → ℚ))).2.2 i) ∧
    (∃ σ : Equiv.Perm (Fin 2), ∀ i : Fin 2,
      (svd_postprocess 2 2 (ofList [1, 2, 3, 4], ofList [1, 0, 0, 1],
        (ofList [-1, 5] : Nat → ℚ))).2.2 i.val = |(ofList [-1, 5] : Nat → ℚ) (σ i).val| ∧
      (∀ j, j < 2 → (svd_postprocess 2 2 (ofList [1, 2, 3, 4], ofList [1, 0, 0, 1],
          (ofList [-1, 5] : Nat → ℚ))).2.1 (i.val * 2 + j) =
        if (ofList [-1, 5] : Nat → ℚ) (σ i).val < 0 then
          -(ofList [1, 0, 0, 1] : Nat → ℚ) ((σ i).val * 2 + j)
        else (ofList [1, 0, 0, 1] : Nat → ℚ) ((σ i).val * 2 + j)) ∧
      (∀ j, j < 2 → (svd_postprocess 2 2 (ofList [1, 2, 3, 4], ofList [1, 0, 0, 1],
          (ofList [-1, 5] : Nat → ℚ))).1 (i.val * 2 + j) =
        (ofList [1, 2, 3, 4] : Nat → ℚ) ((σ i).val * 2 + j))) ∧
    (rowMajor (svd_postprocess 2 2 (ofList [1, 2, 3, 4], ofList [1, 0, 0, 1],
          (ofList [-1, 5] : Nat → ℚ))).2.1 2 2).transpose *
        Matrix.diagonal (vecOf (svd_postprocess 2 2 (ofList [1, 2, 3, 4], ofList [1, 0, 0, 1],
          (ofList [-1, 5] : Nat → ℚ))).2.2 2) *
        rowMajor (svd_postprocess 2 2 (ofList [1, 2, 3, 4], ofList [1, 0, 0, 1],
          (ofList [-1, 5] : Nat → ℚ))).1 2 2 =
      (rowMajor (ofList [1, 0, 0, 1] : Nat → ℚ) 2 2).transpose *
        Matrix.diagonal (vecOf (ofList [-1, 5] : Nat → ℚ) 2) *
        rowMajor (ofList [1, 2, 3, 4] : Nat → ℚ) 2 2) :=
  ⟨⟨by decide, by decide, by decide⟩,
    svd_postprocess_correct 2 2 (ofList [1, 2, 3, 4]) (ofList [1, 0, 0, 1]) (ofList [-1, 5])
      (by decide) (by decide) (by decide)⟩

end

section

/-! ## The 3-by-3 closed form on a repeated eigenvalue -/

/-- The three entries written by one pass of the eigenvector loop on the all-ones
matrix: the normalised vector `(1, 1, 1) / √3`, whatever the non-zero `d[i]`. -/
theorem eigen_3_3_vector_ones (d : Nat → ℝ) (i : Nat) (V : Nat → ℝ) (hd : d i ≠ 0) :
    eigen_3_3_vector Real.sqrt (ofList [1, 1, 1, 1, 1, 1, 1, 1, 1]) d i V (3 * i + 0) =
      (Real.sqrt 3)⁻¹ ∧
    eigen_3_3_vector Real.sqrt (ofList [1, 1, 1, 1, 1, 1, 1, 1, 1]) d i V (3 * i + 1) =
      (Real.sqrt 3)⁻¹ ∧
    eigen_3_3_vector Real.sqrt (ofList [1, 1, 1, 1, 1, 1, 1, 1, 1]) d i V (3 * i + 2) =
      (Real.sqrt 3)⁻¹ := by
  have hq : ∀ x : ℝ, x ≠ 0 →
      x * x / Real.sqrt (x * x * (x * x) + x * x * (x * x) + x * x * (x * x)) =
        (Real.sqrt 3)⁻¹ := by
    intro x hx
    have h1 : x * x * (x * x) + x * x * (x * x) + x * x * (x * x) = (x * x) * (x * x) * 3 := by ring
    have hpos : 0 < x * x := mul_self_pos.2 hx
    rw [h1, Real.sqrt_mul (mul_self_nonneg _), Real.sqrt_mul_self hpos.le]
    have h3 : Real.sqrt 3 ≠ 0 := by positivity
    field_simp
  have e0 : eigen_3_3_vector Real.sqrt (ofList [1, 1, 1, 1, 1, 1, 1, 1, 1]) d i V (3 * i + 0) =
      d i * d i / Real.sqrt (d i * d i * (d i * d i) + d i * d i * (d i * d i) +
        d i * d i * (d i * d i)) := by
    simp only [eigen_3_3_vector, ofList]
    norm_num [Function.update]
  have e1 : eigen_3_3_vector Real.sqrt (ofList [1, 1, 1, 1, 1, 1, 1, 1, 1]) d i V (3 * i + 1) =
      d i * d i / Real.sqrt (d i * d i * (d i * d i) + d i * d i * (d i * d i) +
        d i * d i * (d i * d i)) := by
    simp only [eigen_3_3_vector, ofList]
    norm_num [Function.update]
  have e2 : eigen_3_3_vector Real.sqrt (ofList [1, 1, 1, 1, 1, 1, 1, 1, 1]) d i V (3 * i + 2) =
      d i * d i / Real.sqrt (d i * d i * (d i * d i) + d i * d i * (d i * d i) +
        d i * d i * (d i * d i)) := by
    simp only [eigen_3_3_vector, ofList]
    norm_num [Function.update]
  rw [e0, e1, e2]
  exact ⟨hq _ hd, hq _ hd, hq _ hd⟩

/-- A pass of the eigenvector loop only writes its own block of three entries. -/
theorem eigen_3_3_vector_frame (sqrt : ℝ → ℝ) (A d : Nat → ℝ) (i : Nat) (V : Nat → ℝ) (z : Nat)
    (hz : z < 3 * i ∨ 3 * i + 3 ≤ z) : eigen_3_3_vector sqrt A d i V z = V z := by
  simp only [eigen_3_3_vector]
  rw [Function.update_noteq (by omega), Function.update_noteq (by omega),
    Function.update_noteq (by omega), Function.update_noteq (by omega),
    Function.update_noteq (by omega), Function.update_noteq (by omega)]

/-- The literal used for `π / 3` in the source is below `π / 3`, so its cosine exceeds
`1 / 2`. -/
theorem cos_pi_literal : 1 / 2 < Real.cos (3.14159265358979323846 / 3) := by
  rw [← Real.cos_pi_div_three]
  apply Real.cos_lt_cos_of_nonneg_of_le_pi
  · norm_num
  · have := Real.pi_pos
    linarith
  · have := Real.pi_gt_d20
    linarith

end

section

/-- The result of the 3-by-3 closed form on the all-ones matrix. -/
theorem eigen_3_3_ones (V d : Nat → ℝ) :
    (eigen_decomposition_sym_3_3 Real.sqrt Real.arccos Real.cos
        (ofList [1, 1, 1, 1, 1, 1, 1, 1, 1]) V d).2 1 =
      1 - 2 * Real.cos (3.14159265358979323846 / 3) ∧
    (eigen_decomposition_sym_3_3 Real.sqrt Real.arccos Real.cos
        (ofList [1, 1, 1, 1, 1, 1, 1, 1, 1]) V d).1 =
      forUp (eigen_3_3_vector Real.sqrt (ofList [1, 1, 1, 1, 1, 1, 1, 1, 1])
        (eigen_decomposition_sym_3_3 Real.sqrt Real.arccos Real.cos
          (ofList [1, 1, 1, 1, 1, 1, 1, 1, 1]) V d).2) 0 3 V := by
  have e : eigen_decomposition_sym_3_3 Real.sqrt Real.arccos Real.cos
      (ofList [1, 1, 1, 1, 1, 1, 1, 1, 1]) V d =
      eigen_3_3_general Real.sqrt Real.arccos Real.cos (ofList [1, 1, 1, 1, 1, 1, 1, 1, 1]) V d := by
    simp [eigen_decomposition_sym_3_3, ofList]
  rw [e]
  have hv : ¬ ((1 + 1 + 1 : ℝ) / 3 * ((1 + 1 + 1) / 3) -
      (1 * 1 + (1 + 1) * 1 - 1 * 1 - 1 * 1 - 1 * 1) / 3 = 0) := by norm_num
  constructor
  · simp only [eigen_3_3_general, ofList, List.getD_cons_zero, List.getD_cons_succ, hv, if_false]
    norm_num [Function.update, Real.arccos_one, Real.cos_zero]
  · simp only [eigen_3_3_general, ofList, List.getD_cons_zero, List.getD_cons_succ, hv, if_false]

/-- C18: on the symmetric all-ones 3-by-3 matrix (eigenvalues `3, 0, 0`) the closed form
reached by `eigen_decomposition_sym` for dimension 3 stores as second block
`v = V[3 .. 5]` the vector `(1, 1, 1) / √3` together with `d[1] = 1 - 2 cos(3.14…/3) < 0`:
the squared residual `‖A v - d[1] v‖²` exceeds `9 = ‖A‖²` (Frobenius), so the residual is
not below `1e-6 ‖A‖`. -/
theorem eigen_3_3_repeated_eigenvalue (V d : Nat → ℝ) :
    eigen_decomposition_sym Real.sqrt Real.arccos Real.cos
        (ofList [1, 1, 1, 1, 1, 1, 1, 1, 1]) V d 3 =
      some (eigen_decomposition_sym_3_3 Real.sqrt Real.arccos Real.cos
        (ofList [1, 1, 1, 1, 1, 1, 1, 1, 1]) V d) ∧
    frobenius_sq (ofList [1, 1, 1, 1, 1, 1, 1, 1, 1] : Nat → ℝ) 3 = 9 ∧
    9 < eigen_residual_sq (ofList [1, 1, 1, 1, 1, 1, 1, 1, 1])
      (eigen_decomposition_sym_3_3 Real.sqrt Real.arccos Real.cos
        (ofList [1, 1, 1, 1, 1, 1, 1, 1, 1]) V d).1
      (eigen_decomposition_sym_3_3 Real.sqrt Real.arccos Real.cos
        (ofList [1, 1, 1, 1, 1, 1, 1, 1, 1]) V d).2 3 1 ∧
    ¬ (eigen_residual_sq (ofList [1, 1, 1, 1, 1, 1, 1, 1, 1])
      (eigen_decomposition_sym_3_3 Real.sqrt Real.arccos Real.cos
        (ofList [1, 1, 1, 1, 1, 1, 1, 1, 1]) V d).1
      (eigen_decomposition_sym_3_3 Real.sqrt Real.arccos Real.cos
        (ofList [1, 1, 1, 1, 1, 1, 1, 1, 1]) V d).2 3 1 <
      (1e-6) ^ 2 * frobenius_sq (ofList [1, 1, 1, 1, 1, 1, 1, 1, 1] : Nat → ℝ) 3) := by
  obtain ⟨hd1, hV⟩ := eigen_3_3_ones V d
  have hc := cos_pi_literal
  generalize Real.cos (3.14159265358979323846 / 3) = c at hd1 hc
  have hfro : frobenius_sq (ofList [1, 1, 1, 1, 1, 1, 1, 1, 1] : Nat → ℝ) 3 = 9 := by
    simp [frobenius_sq, Finset.sum_range_succ, ofList]
    norm_num
  have hne : (eigen_decomposition_sym_3_3 Real.sqrt Real.arccos Real.cos
      (ofList [1, 1, 1, 1, 1, 1, 1, 1, 1]) V d).2 1 ≠ 0 := by
    rw [hd1]
    linarith
  have hblock : ∀ t, t < 3 →
      (eigen_decomposition_sym_3_3 Real.sqrt Real.arccos Real.cos
        (ofList [1, 1, 1, 1, 1, 1, 1, 1, 1]) V d).1 (3 + t) = (Real.sqrt 3)⁻¹ := by
    intro t ht
    rw [hV]
    rw [show (3 : Nat) = 2 + 1 from rfl, forUp_succ, eigen_3_3_vector_frame _ _ _ _ _ _ (by omega),
      show (2 : Nat) = 1 + 1 from rfl, forUp_succ]
    obtain ⟨a0, a1, a2⟩ := eigen_3_3_vector_ones
      (eigen_decomposition_sym_3_3 Real.sqrt Real.arccos Real.cos
        (ofList [1, 1, 1, 1, 1, 1, 1, 1, 1]) V d).2 1
      (forUp (eigen_3_3_vector Real.sqrt (ofList [1, 1, 1, 1, 1, 1, 1, 1, 1])
        (eigen_decomposition_sym_3_3 Real.sqrt Real.arccos Real.cos
          (ofList [1, 1, 1, 1, 1, 1, 1, 1, 1]) V d).2) 0 1 V) hne
    interval_cases t
    · exact a0
    · exact a1
    · exact a2
  have hw : ((Real.sqrt 3)⁻¹) ^ 2 = (1 / 3 : ℝ) := by
    rw [inv_pow, Real.sq_sqrt (by norm_num)]
    norm_num
  have hres : eigen_residual_sq (ofList [1, 1, 1, 1, 1, 1, 1, 1, 1])
      (eigen_decomposition_sym_3_3 Real.sqrt Real.arccos Real.cos
        (ofList [1, 1, 1, 1, 1, 1, 1, 1, 1]) V d).1
      (eigen_decomposition_sym_3_3 Real.sqrt Real.arccos Real.cos
        (ofList [1, 1, 1, 1, 1, 1, 1, 1, 1]) V d).2 3 1 =
      (2 + 2 * c) ^ 2 := by
    have h3 := hblock 0 (by omega)
    have h4 := hblock 1 (by omega)
    have h5 := hblock 2 (by omega)
    simp only [Nat.add_zero] at h3
    simp only [eigen_residual_sq, Finset.sum_range_succ, Finset.sum_range_zero, ofList]
    norm_num
    rw [h3, h4, h5, hd1]
    have key : ∀ x c : ℝ, x ^ 2 = 1 / 3 →
        (x + x + x - (1 - 2 * c) * x) ^ 2 + (x + x + x - (1 - 2 * c) * x) ^ 2 +
          (x + x + x - (1 - 2 * c) * x) ^ 2 = (2 + 2 * c) ^ 2 := by
      intro x c hx
      have e : (x + x + x - (1 - 2 * c) * x) ^ 2 + (x + x + x - (1 - 2 * c) * x) ^ 2 +
          (x + x + x - (1 - 2 * c) * x) ^ 2 = 3 * x ^ 2 * (2 + 2 * c) ^ 2 := by ring1
      rw [e, hx]
      ring1
    exact key _ _ hw
  have hgt : (9 : ℝ) < (2 + 2 * c) ^ 2 := by
    nlinarith
  refine ⟨by simp [eigen_decomposition_sym], hfro, ?_, ?_⟩
  · rw [hres]
    exact hgt
  · rw [hres, hfro]
    intro h
    nlinarith

end

section

/-! ## `svd` on a matrix with a zero first row -/

theorem sqrt_vals : Real.sqrt 0 = 0 ∧ Real.sqrt 9 = 3 ∧ Real.sqrt 16 = 4 :=
  ⟨Real.sqrt_zero, real_sqrt_of_sq _ _ (by norm_num) (by norm_num),
    real_sqrt_of_sq _ _ (by norm_num) (by norm_num)⟩

/-- The state of `svd` on `[[0, 0], [3, 4]]` when the main loop starts. -/
theorem svd_sample_prepared (U s : Nat → ℝ) :
    (svd_prepare Real.sqrt (ofList [0, 0, 3, 4]) U s 2 2).A 0 = 1 ∧
    (svd_prepare Real.sqrt (ofList [0, 0, 3, 4]) U s 2 2).A 1 = 0 ∧
    (svd_prepare Real.sqrt (ofList [0, 0, 3, 4]) U s 2 2).A 2 = 0 ∧
    (svd_prepare Real.sqrt (ofList [0, 0, 3, 4]) U s 2 2).A 3 = 1 ∧
    (svd_prepare Real.sqrt (ofList [0, 0, 3, 4]) U s 2 2).U 0 = 1 ∧
    (svd_prepare Real.sqrt (ofList [0, 0, 3, 4]) U s 2 2).U 1 = 0 ∧
    (svd_prepare Real.sqrt (ofList [0, 0, 3, 4]) U s 2 2).U 2 = 0 ∧
    (svd_prepare Real.sqrt (ofList [0, 0, 3, 4]) U s 2 2).U 3 = 1 ∧
    (svd_prepare Real.sqrt (ofList [0, 0, 3, 4]) U s 2 2).s 0 = 0 ∧
    (svd_prepare Real.sqrt (ofList [0, 0, 3, 4]) U s 2 2).s 1 = 4 ∧
    (svd_prepare Real.sqrt (ofList [0, 0, 3, 4]) U s 2 2).e 0 = 3 ∧
    (svd_prepare Real.sqrt (ofList [0, 0, 3, 4]) U s 2 2).max_value = 1 / 2 ^ 52 := by
  simp [svd_prepare, forUp, forDown, svd_bidiag_step, svd_row_reflect, svd_gen_u, svd_gen_a,
    vec_norm2, fill_range, ofList, Function.update]

/-- The main loop of `svd` on the prepared state: the negligible `s[0]` sends it into the
branch "Split at negligible s(k)", whose first pass overwrites `s[0]` by `|e[0]| = 3`. -/
theorem svd_sample_loop (st : SvdState ℝ) (fuel : Nat)
    (hA : st.A 0 = 1 ∧ st.A 1 = 0 ∧ st.A 2 = 0 ∧ st.A 3 = 1)
    (hs0 : st.s 0 = 0) (hs1 : st.s 1 = 4) (he : st.e 0 = 3) (hm : st.max_value = 1 / 2 ^ 52) :
    Option.map (fun st1 : SvdState ℝ =>
        (st1.A 0, st1.A 1, st1.A 2, st1.A 3, st1.s 0, st1.s 1, st1.U))
      (svd_loop Real.sqrt 2 2 (fuel + 2) 1 st) = some (1, 0, 0, 1, 3, 4, st.U) := by
  obtain ⟨a0, a1, a2, a3⟩ := hA
  obtain ⟨q0, q9, q16⟩ := sqrt_vals
  have h16 : Real.sqrt (4 * 4) = 4 := by rw [show (4 : ℝ) * 4 = 16 by norm_num, q16]
  have h9 : Real.sqrt (3 * 3) = 3 := by rw [show (3 : ℝ) * 3 = 9 by norm_num, q9]
  simp [svd_loop, svd_find_k, svd_find_ks, svd_split, hypot, vec_rot, forUp, Function.update,
    a0, a1, a2, a3, hs0, hs1, he, hm, h16, h9]

/-- The post-processing of `svd` on `s = [3, 4]` with identity `A` and `U`: the two
singular values and the two rows of `A` and of `U` are exchanged. -/
theorem svd_sample_post (A U s : Nat → ℝ)
    (hA : A 0 = 1 ∧ A 1 = 0 ∧ A 2 = 0 ∧ A 3 = 1) (hU : U 0 = 1 ∧ U 1 = 0 ∧ U 2 = 0 ∧ U 3 = 1)
    (hs : s 0 = 3 ∧ s 1 = 4) :
    ((svd_postprocess 2 2 (A, U, s)).1 0 = 0 ∧ (svd_postprocess 2 2 (A, U, s)).1 1 = 1 ∧
      (svd_postprocess 2 2 (A, U, s)).1 2 = 1 ∧ (svd_postprocess 2 2 (A, U, s)).1 3 = 0) ∧
    ((svd_postprocess 2 2 (A, U, s)).2.1 0 = 0 ∧ (svd_postprocess 2 2 (A, U, s)).2.1 1 = 1 ∧
      (svd_postprocess 2 2 (A, U, s)).2.1 2 = 1 ∧ (svd_postprocess 2 2 (A, U, s)).2.1 3 = 0) ∧
    ((svd_postprocess 2 2 (A, U, s)).2.2 0 = 4 ∧ (svd_postprocess 2 2 (A, U, s)).2.2 1 = 3) := by
  obtain ⟨a0, a1, a2, a3⟩ := hA
  obtain ⟨u0, u1, u2, u3⟩ := hU
  obtain ⟨s0, s1⟩ := hs
  norm_num [svd_postprocess, svd_make_positive, svd_sort, svd_sort_step, max_element,
    max_element_from, forUp, vec_swap, swapAt, vec_negate, Function.update,
    a0, a1, a2, a3, u0, u1, u2, u3, s0, s1]

end

section

/-- C19: on the 2-by-2 matrix `A = [[0, 0], [3, 4]]` (singular values `5` and `0`) `svd`
returns, as soon as the main loop is given two passes, `s = [4, 3]` and
`U = A_out = [[0, 1], [1, 0]]`: `Uᵀ U = I` holds, but `Uᵀ * diag(s) * A_out` is
`[[3, 0], [0, 4]]`, not the original `A`. -/
theorem svd_zero_row_not_reconstructed (fuel : Nat) (U s : Nat → ℝ) :
    ∃ r, svd Real.sqrt (fuel + 2) (ofList [0, 0, 3, 4]) U s 2 2 = some r ∧
      (r.1 0 = 0 ∧ r.1 1 = 1 ∧ r.1 2 = 1 ∧ r.1 3 = 0) ∧
      (r.2.1 0 = 0 ∧ r.2.1 1 = 1 ∧ r.2.1 2 = 1 ∧ r.2.1 3 = 0) ∧
      (r.2.2 0 = 4 ∧ r.2.2 1 = 3) ∧
      (rowMajor r.2.1 2 2).transpose * rowMajor r.2.1 2 2 = 1 ∧
      (rowMajor r.2.1 2 2).transpose * Matrix.diagonal (vecOf r.2.2 2) * rowMajor r.1 2 2 =
        rowMajor (ofList [3, 0, 0, 4]) 2 2 ∧
      rowMajor (ofList [3, 0, 0, 4] : Nat → ℝ) 2 2 ≠ rowMajor (ofList [0, 0, 3, 4]) 2 2 := by
  obtain ⟨a0, a1, a2, a3, u0, u1, u2, u3, s0, s1, e0, hm⟩ := svd_sample_prepared U s
  have hloop := svd_sample_loop (svd_prepare Real.sqrt (ofList [0, 0, 3, 4]) U s 2 2) fuel
    ⟨a0, a1, a2, a3⟩ s0 s1 e0 hm
  cases hl : svd_loop Real.sqrt 2 2 (fuel + 2) 1
      (svd_prepare Real.sqrt (ofList [0, 0, 3, 4]) U s 2 2) with
  | none =>
    rw [hl] at hloop
    simp at hloop
  | some st =>
    rw [hl] at hloop
    simp only [Option.map_some', Option.some.injEq, Prod.mk.injEq] at hloop
    obtain ⟨b0, b1, b2, b3, t0, t1, hU⟩ := hloop
    obtain ⟨pA, pU, ps⟩ := svd_sample_post st.A st.U st.s ⟨b0, b1, b2, b3⟩
      (by rw [hU]; exact ⟨u0, u1, u2, u3⟩) ⟨t0, t1⟩
    have hsvd : svd Real.sqrt (fuel + 2) (ofList [0, 0, 3, 4]) U s 2 2 =
        some (svd_postprocess 2 2 (st.A, st.U, st.s)) := by
      simp only [svd]
      rw [if_neg (by decide), if_neg (by decide), show 2 - 1 = 1 from rfl, hl]
    refine ⟨_, hsvd, pA, pU, ps, ?_, ?_, ?_⟩
    · obtain ⟨v0, v1, v2, v3⟩ := pU
      ext i j
      fin_cases i <;> fin_cases j <;>
        simp [Matrix.mul_apply, Fin.sum_univ_two, rowMajor, v0, v1, v2, v3]
    · obtain ⟨v0, v1, v2, v3⟩ := pU
      obtain ⟨w0, w1, w2, w3⟩ := pA
      obtain ⟨z0, z1⟩ := ps
      ext i j
      fin_cases i <;> fin_cases j <;>
        simp [Matrix.mul_apply, Fin.sum_univ_two, rowMajor, vecOf, Matrix.diagonal, ofList,
          v0, v1, v2, v3, w0, w1, w2, w3, z0, z1]
    · intro h
      have := congrFun (congrFun h 0) 0
      simp [rowMajor, ofList] at this

end

section

/-! ## `vec::dot` and `vec::rot` -/

/-- An accumulation loop started from `s0` adds a finite sum to it. -/
theorem forUp_add_sum {R : Type} [AddCommMonoid R] (f : Nat → R) (lo cnt : Nat) (s0 : R) :
    forUp (fun i sum => sum + f i) lo cnt s0 = s0 + ∑ i in Finset.Ico lo (lo + cnt), f i := by
  induction cnt with
  | zero => simp [forUp]
  | succ cnt ih =>
    rw [forUp_succ, ih, ← Nat.add_assoc, Finset.sum_Ico_succ_top (by omega), add_assoc]

/-- The value of `vec::dot` as a finite sum. -/
theorem vec_dot_spec {R : Type} [Semiring R] (A : Nat → R) (x len : Nat) (B : Nat → R)
    (y : Nat) : vec_dot A x len B y = ∑ i in Finset.range len, A (x + i) * B (y + i) := by
  unfold vec_dot
  by_cases h : len = 0
  · simp [h]
  · rw [if_neg h, forUp_add_sum (fun t => A (x + t) * B (y + t)) 1 (len - 1) (A x * B y)]
    have e : 1 + (len - 1) = len := by omega
    rw [e, Finset.range_eq_Ico, Finset.sum_eq_sum_Ico_succ_bot (by omega : 0 < len)]
    simp

/-- C26: for every pair of ranges `v1 = A[x .. x+len)` and `v2 = B[y .. y+len)` of equal
length, `vec::dot(v1, v1_end, v2)` returns the sum over `i < len` of `v1[i] * v2[i]`, and
it returns `0` when the range is empty. -/
theorem vec_dot_correct {R : Type} [Semiring R] (A B : Nat → R) (x y len : Nat) :
    vec_dot A x len B y = ∑ i in Finset.range len, A (x + i) * B (y + i) ∧
    vec_dot A x 0 B y = 0 :=
  ⟨vec_dot_spec A x len B y, by simp [vec_dot]⟩

/-- The state of the loop of `vec::rot` after `cnt` passes, for two ranges of one buffer
that do not meet. -/
theorem vec_rot_spec {R : Type} [CommRing R] (A : Nat → R) (x y len : Nat) (c s : R)
    (hd : ∀ i j, i < len → j < len → x + i ≠ y + j) (cnt : Nat) (hcnt : cnt ≤ len) :
    ∀ z, forUp (fun t B =>
        let x_temp := B (x + t) * c + B (y + t) * s
        let B1 := Function.update B (y + t) (B (y + t) * c - B (x + t) * s)
        Function.update B1 (x + t) x_temp) 0 cnt A z =
      if x ≤ z ∧ z < x + cnt then c * A z + s * A (y + (z - x))
      else if y ≤ z ∧ z < y + cnt then c * A z - s * A (x + (z - y))
      else A z := by
  induction cnt with
  | zero => intro z; rw [forUp_zero, if_neg (by omega), if_neg (by omega)]
  | succ cnt ih =>
    intro z
    rw [forUp_succ]
    have ih1 := ih (by omega)
    have hx : forUp (fun t B =>
        let x_temp := B (x + t) * c + B (y + t) * s
        let B1 := Function.update B (y + t) (B (y + t) * c - B (x + t) * s)
        Function.update B1 (x + t) x_temp) 0 cnt A (x + cnt) = A (x + cnt) := by
      rw [ih1]
      have := hd cnt
      rw [if_neg (by omega), if_neg]
      rintro ⟨h1, h2⟩
      exact hd cnt (x + cnt - y) (by omega) (by omega) (by omega)
    have hy : forUp (fun t B =>
        let x_temp := B (x + t) * c + B (y + t) * s
        let B1 := Function.update B (y + t) (B (y + t) * c - B (x + t) * s)
        Function.update B1 (x + t) x_temp) 0 cnt A (y + cnt) = A (y + cnt) := by
      rw [ih1]
      rw [if_neg, if_neg (by omega)]
      rintro ⟨h1, h2⟩
      exact hd (y + cnt - x) cnt (by omega) (by omega) (by omega)
    simp only [Function.update_apply, hx, hy, Nat.zero_add]
    have hxy : x + cnt ≠ y + cnt := hd cnt cnt (by omega) (by omega)
    by_cases h1 : z = x + cnt
    · subst h1
      rw [if_pos rfl, if_pos (by omega)]
      have e : x + cnt - x = cnt := by omega
      rw [e]; ring
    · rw [if_neg h1]
      by_cases h2 : z = y + cnt
      · subst h2
        rw [if_pos rfl, if_neg, if_pos (by omega)]
        · have e : y + cnt - y = cnt := by omega
          rw [e]; ring
        · rintro ⟨h3, h4⟩
          exact hd (y + cnt - x) cnt (by omega) (by omega) (by omega)
      · rw [if_neg h2, ih1]
        have e1 : (x ≤ z ∧ z < x + (cnt + 1)) ↔ (x ≤ z ∧ z < x + cnt) := by omega
        have e2 : (y ≤ z ∧ z < y + (cnt + 1)) ↔ (y ≤ z ∧ z < y + cnt) := by omega
        simp only [e1, e2]

/-- C27: for every pair of ranges `x = A[x .. x+len)` and `y = A[y .. y+len)` of equal
length that do not meet and all scalars `c`, `s`, `vec::rot(x, x_end, y, c, s)` replaces
every pair by the new values `c*x[i] + s*y[i]` for `x[i]` and `c*y[i] - s*x[i]` for `y[i]`,
both taken on the values from before the call; the rest of the buffer is unchanged. -/
theorem vec_rot_correct {R : Type} [CommRing R] (A : Nat → R) (x y len : Nat) (c s : R)
    (hd : ∀ i j, i < len → j < len → x + i ≠ y + j) :
    (∀ i, i < len →
      vec_rot A x len y c s (x + i) = c * A (x + i) + s * A (y + i) ∧
      vec_rot A x len y c s (y + i) = c * A (y + i) - s * A (x + i)) ∧
    (∀ z, ¬ (x ≤ z ∧ z < x + len) → ¬ (y ≤ z ∧ z < y + len) →
      vec_rot A x len y c s z = A z) := by
  have key := vec_rot_spec A x y len c s hd len (le_refl _)
  refine ⟨fun i hi => ⟨?_, ?_⟩, fun z h1 h2 => ?_⟩
  · unfold vec_rot
    rw [key, if_pos (by omega)]
    have e : x + i - x = i := by omega
    rw [e]
  · unfold vec_rot
    rw [key, if_neg, if_pos (by omega)]
    · have e : y + i - y = i := by omega
      rw [e]
    · rintro ⟨h3, h4⟩
      exact hd (y + i - x) i (by omega) hi (by omega)
  · unfold vec_rot
    rw [key, if_neg h1, if_neg h2]

theorem vec_rot_correct_witness :
    (∀ i j, i < 2 → j < 2 → 0 + i ≠ 2 + j) ∧
    ((∀ i, i < 2 →
      vec_rot (ofList [1, 2, 3, 4] : Nat → ℤ) 0 2 2 5 7 (0 + i) =
        5 * (ofList [1, 2, 3, 4] : Nat → ℤ) (0 + i) + 7 * (ofList [1, 2, 3, 4] : Nat → ℤ) (2 + i) ∧
      vec_rot (ofList [1, 2, 3, 4] : Nat → ℤ) 0 2 2 5 7 (2 + i) =
        5 * (ofList [1, 2, 3, 4] : Nat → ℤ) (2 + i) - 7 * (ofList [1, 2, 3, 4] : Nat → ℤ) (0 + i)) ∧
    (∀ z, ¬ (0 ≤ z ∧ z < 0 + 2) → ¬ (2 ≤ z ∧ z < 2 + 2) →
      vec_rot (ofList [1, 2, 3, 4] : Nat → ℤ) 0 2 2 5 7 z = (ofList [1, 2, 3, 4] : Nat → ℤ) z)) :=
  ⟨by omega, vec_rot_correct _ 0 2 2 5 7 (by omega)⟩

end

section

/-! ## Matrix products -/

/-- A loop that stores `f j` at `base + j` where `c j` holds. -/
theorem row_fill_spec {R : Type} (c : Nat → Prop) [DecidablePred c] (f : Nat → R) (base : Nat)
    (cnt : Nat) (out : Nat → R) (z : Nat) :
    forUp (fun j out => if c j then Function.update out (base + j) (f j) else out) 0 cnt out z =
      if base ≤ z ∧ z < base + cnt ∧ c (z - base) then f (z - base) else out z := by
  induction cnt with
  | zero => rw [forUp_zero, if_neg (by omega)]
  | succ cnt ih =>
    rw [forUp_succ, Nat.zero_add]
    by_cases hc : c cnt
    · rw [if_pos hc, Function.update_apply, ih]
      by_cases hz : z = base + cnt
      · subst hz
        have e : base + cnt - base = cnt := by omega
        rw [if_pos rfl, e, if_pos ⟨by omega, by omega, hc⟩]
      · rw [if_neg hz]
        have e1 : (base ≤ z ∧ z < base + (cnt + 1) ∧ c (z - base)) ↔
            (base ≤ z ∧ z < base + cnt ∧ c (z - base)) := by
          constructor
          · rintro ⟨h1, h2, h3⟩; exact ⟨h1, by omega, h3⟩
          · rintro ⟨h1, h2, h3⟩; exact ⟨h1, by omega, h3⟩
        simp only [e1]
    · rw [if_neg hc, ih]
      have e1 : (base ≤ z ∧ z < base + (cnt + 1) ∧ c (z - base)) ↔
          (base ≤ z ∧ z < base + cnt ∧ c (z - base)) := by
        constructor
        · rintro ⟨h1, h2, h3⟩
          refine ⟨h1, ?_, h3⟩
          by_contra h4
          have e : z - base = cnt := by omega
          rw [e] at h3
          exact hc h3
        · rintro ⟨h1, h2, h3⟩; exact ⟨h1, by omega, h3⟩
      simp only [e1]

/-- A loop nest that stores `f i j` at `i * p + j` where `c i j` holds, for `i < rows` and
`j < p`. -/
theorem grid_fill_spec {R : Type} (c : Nat → Nat → Prop) [∀ i, DecidablePred (c i)]
    (f : Nat → Nat → R) (p rows : Nat) (out : Nat → R) :
    (∀ i j, j < p →
      forUp (fun i out =>
        forUp (fun j out => if c i j then Function.update out (i * p + j) (f i j) else out)
          0 p out) 0 rows out (i * p + j) =
        if i < rows ∧ c i j then f i j else out (i * p + j)) ∧
    (∀ z, rows * p ≤ z →
      forUp (fun i out =>
        forUp (fun j out => if c i j then Function.update out (i * p + j) (f i j) else out)
          0 p out) 0 rows out z = out z) := by
  induction rows with
  | zero =>
    exact ⟨fun i j _ => by rw [forUp_zero, if_neg (by omega)], fun z _ => by rw [forUp_zero]⟩
  | succ rows ih =>
    obtain ⟨ih1, ih2⟩ := ih
    constructor
    · intro i j hj
      rw [forUp_succ, Nat.zero_add, row_fill_spec (c rows) (f rows) (rows * p) p]
      by_cases hi : i = rows
      · subst hi
        have e : i * p + j - i * p = j := by omega
        rw [e]
        by_cases hc : c i j
        · rw [if_pos ⟨by omega, by omega, hc⟩, if_pos ⟨by omega, hc⟩]
        · rw [if_neg (fun h => hc h.2.2), if_neg (fun h => hc h.2), ih2 _ (by omega)]
      · have hn : ¬ (rows * p ≤ i * p + j ∧ i * p + j < rows * p + p ∧
            c rows (i * p + j - rows * p)) := by
          rintro ⟨h1, h2, _⟩
          have := (@row_range p i j rows 0 hj).mp ⟨by omega, h2⟩
          exact hi this.1
        rw [if_neg hn, ih1 i j hj]
        have e1 : (i < rows + 1 ∧ c i j) ↔ (i < rows ∧ c i j) := by
          constructor
          · rintro ⟨h1, h2⟩; exact ⟨by omega, h2⟩
          · rintro ⟨h1, h2⟩; exact ⟨by omega, h2⟩
        simp only [e1]
    · intro z hz
      have e : (rows + 1) * p = rows * p + p := by ring
      rw [forUp_succ, Nat.zero_add, row_fill_spec (c rows) (f rows) (rows * p) p,
        if_neg (by omega), ih2 z (by omega)]

/-- The same loop nest without a condition on the cell. -/
theorem grid_fill_all {R : Type} (f : Nat → Nat → R) (p rows : Nat) (out : Nat → R) :
    (∀ i j, j < p →
      forUp (fun i out =>
        forUp (fun j out => Function.update out (i * p + j) (f i j)) 0 p out) 0 rows out
          (i * p + j) = if i < rows then f i j else out (i * p + j)) ∧
    (∀ z, rows * p ≤ z →
      forUp (fun i out =>
        forUp (fun j out => Function.update out (i * p + j) (f i j)) 0 p out) 0 rows out z =
        out z) := by
  have h := grid_fill_spec (fun _ _ => True) f p rows out
  simp only [if_true, and_true] at h
  exact h

/-- The buffer written by such a loop nest is determined by the values stored. -/
theorem grid_fill_ext {R : Type} (f g : Nat → Nat → R) (p rows : Nat) (out : Nat → R)
    (h : ∀ i j, i < rows → j < p → f i j = g i j) :
    forUp (fun i out =>
      forUp (fun j out => Function.update out (i * p + j) (f i j)) 0 p out) 0 rows out =
    forUp (fun i out =>
      forUp (fun j out => Function.update out (i * p + j) (g i j)) 0 p out) 0 rows out := by
  funext z
  by_cases hz : rows * p ≤ z
  · rw [(grid_fill_all f p rows out).2 z hz, (grid_fill_all g p rows out).2 z hz]
  · have hp : 0 < p := by
      rcases Nat.eq_zero_or_pos p with h0 | h0
      · rw [h0] at hz; omega
      · exact h0
    have hd : z = (z / p) * p + z % p := by
      rw [Nat.mul_comm]; exact (Nat.div_add_mod z p).symm
    have hj : z % p < p := Nat.mod_lt _ hp
    have hi : z / p < rows := by
      apply Nat.div_lt_of_lt_mul
      rw [Nat.mul_comm]; omega
    rw [hd, (grid_fill_all f p rows out).1 _ _ hj, (grid_fill_all g p rows out).1 _ _ hj,
      if_pos hi, if_pos hi, h _ _ hi hj]

/-- The value stored by `product` as a finite sum (`n ≥ 1`). -/
theorem product_entry_spec {R : Type} [Semiring R] (lhs rhs : Nat → R) (n p i j : Nat)
    (hn : 1 ≤ n) :
    product_entry lhs rhs n p i j = ∑ k in Finset.range n, lhs (i * n + k) * rhs (k * p + j) := by
  unfold product_entry
  rw [forUp_add_sum (fun k => lhs (i * n + k) * rhs (k * p + j)) 1 (n - 1)]
  have e : 1 + (n - 1) = n := by omega
  rw [e, Finset.range_eq_Ico, Finset.sum_eq_sum_Ico_succ_bot (by omega : 0 < n)]
  simp

/-- The entries written by `product`. -/
theorem product_spec {R : Type} [Semiring R] (lhs rhs out : Nat → R) (m n p : Nat) (hn : 1 ≤ n)
    (i j : Nat) (hi : i < m) (hj : j < p) :
    product lhs rhs out m n p (i * p + j) =
      ∑ k in Finset.range n, lhs (i * n + k) * rhs (k * p + j) := by
  unfold product
  have hmn : m * n ≠ 0 := Nat.mul_ne_zero (by omega) (by omega)
  rw [if_neg hmn, (grid_fill_all (product_entry lhs rhs n p) p m out).1 i j hj, if_pos hi,
    product_entry_spec lhs rhs n p i j hn]

/-- The entries written by `product_transpose`. -/
theorem product_transpose_spec {R : Type} [Semiring R] (lhs rhs out : Nat → R) (m n p : Nat)
    (hn : 1 ≤ n) (i j : Nat) (hi : i < m) (hj : j < p) :
    product_transpose lhs rhs out m n p (i * p + j) =
      ∑ k in Finset.range n, lhs (i * n + k) * rhs (j * n + k) := by
  unfold product_transpose
  have hmn : m * n ≠ 0 := Nat.mul_ne_zero (by omega) (by omega)
  rw [if_neg hmn,
    (grid_fill_all (fun i j => vec_dot lhs (i * n) n rhs (j * n)) p m out).1 i j hj, if_pos hi,
    vec_dot_spec]

/-- C22: for every `m`-by-`n` matrix `A` and `n`-by-`p` matrix `B` with `n ≥ 1` (and any
`m`, `p`), `product(A, B, out, dimA, dimB)` writes the row-major matrix product:
`out[i*p + j]` is the sum over `k < n` of `A[i*n + k] * B[k*p + j]` for all `i < m`,
`j < p`; the cells from `m * p` on are left as they were. -/
theorem product_correct {R : Type} [Semiring R] (A B out : Nat → R) (m n p : Nat) (hn : 1 ≤ n) :
    (∀ i j, i < m → j < p →
      product A B out m n p (i * p + j) = ∑ k in Finset.range n, A (i * n + k) * B (k * p + j)) ∧
    rowMajor (product A B out m n p) m p = rowMajor A m n * rowMajor B n p ∧
    (∀ z, m * p ≤ z → product A B out m n p z = out z) := by
  refine ⟨fun i j hi hj => product_spec A B out m n p hn i j hi hj, ?_, fun z hz => ?_⟩
  · ext i j
    rw [Matrix.mul_apply]
    show product A B out m n p (i.val * p + j.val) = _
    rw [product_spec A B out m n p hn _ _ i.isLt j.isLt, ← Fin.sum_univ_eq_sum_range
      (fun k => A (i.val * n + k) * B (k * p + j.val)) n]
    rfl
  · unfold product
    by_cases hmn : m * n = 0
    · rw [if_pos hmn]
    · rw [if_neg hmn, (grid_fill_all (product_entry A B n p) p m out).2 z hz]

theorem product_correct_witness :
    1 ≤ 2 ∧
    ((∀ i j, i < 2 → j < 1 →
      product (ofList [1, 2, 3, 4] : Nat → ℤ) (ofList [5, 6]) (fun _ => 0) 2 2 1 (i * 1 + j) =
        ∑ k in Finset.range 2,
          (ofList [1, 2, 3, 4] : Nat → ℤ) (i * 2 + k) * (ofList [5, 6] : Nat → ℤ) (k * 1 + j)) ∧
    rowMajor (product (ofList [1, 2, 3, 4] : Nat → ℤ) (ofList [5, 6]) (fun _ => 0) 2 2 1) 2 1 =
      rowMajor (ofList [1, 2, 3, 4] : Nat → ℤ) 2 2 * rowMajor (ofList [5, 6] : Nat → ℤ) 2 1 ∧
    (∀ z, 2 * 1 ≤ z →
      product (ofList [1, 2, 3, 4] : Nat → ℤ) (ofList [5, 6]) (fun _ => 0) 2 2 1 z = 0)) :=
  ⟨by decide, product_correct _ _ _ 2 2 1 (by decide)⟩

/-- C23: for every `m`-by-`n` matrix `A` and `p`-by-`n` matrix `B` with `n ≥ 1`,
`product_transpose(A, B, out, dimA, dimB)` writes `out[i*p + j]` = sum over `k < n` of
`A[i*n + k] * B[j*n + k]`, and it leaves the same buffer as `product` applied to `A` and
the out-of-place transpose of `B`. -/
theorem product_transpose_correct {R : Type} [Semiring R] (A B Bt out : Nat → R) (m n p : Nat)
    (hn : 1 ≤ n) :
    (∀ i j, i < m → j < p →
      product_transpose A B out m n p (i * p + j) =
        ∑ k in Finset.range n, A (i * n + k) * B (j * n + k)) ∧
    product_transpose A B out m n p = product A (transpose B Bt p n) out m n p := by
  refine ⟨fun i j hi hj => product_transpose_spec A B out m n p hn i j hi hj, ?_⟩
  unfold product_transpose product
  by_cases hmn : m * n = 0
  · rw [if_pos hmn, if_pos hmn]
  · rw [if_neg hmn, if_neg hmn]
    apply grid_fill_ext
    intro i j hi hj
    rw [vec_dot_spec, product_entry_spec _ _ n p i j hn]
    apply Finset.sum_congr rfl
    intro k hk
    rw [transpose_spec B Bt p n j k hj (Finset.mem_range.mp hk)]

theorem product_transpose_correct_witness :
    1 ≤ 2 ∧
    ((∀ i j, i < 1 → j < 2 →
      product_transpose (ofList [1, 2] : Nat → ℤ) (ofList [3, 4, 5, 6]) (fun _ => 0) 1 2 2
          (i * 2 + j) =
        ∑ k in Finset.range 2,
          (ofList [1, 2] : Nat → ℤ) (i * 2 + k) * (ofList [3, 4, 5, 6] : Nat → ℤ) (j * 2 + k)) ∧
    product_transpose (ofList [1, 2] : Nat → ℤ) (ofList [3, 4, 5, 6]) (fun _ => 0) 1 2 2 =
      product (ofList [1, 2] : Nat → ℤ)
        (transpose (ofList [3, 4, 5, 6] : Nat → ℤ) (fun _ => 0) 2 2) (fun _ => 0) 1 2 2) :=
  ⟨by decide, product_transpose_correct _ _ _ _ 1 2 2 (by decide)⟩

end

section

/-! ## Mirror and exchange loops over the two triangles of a square matrix -/

/-- A loop that exchanges the cells `r u` and `w u`, all of them distinct. -/
theorem swap_loop_spec {R : Type} (w r : Nat → Nat) (c : Nat) (B0 : Nat → R)
    (hw : ∀ u v, u < c → v < c → w u = w v → u = v)
    (hr : ∀ u v, u < c → v < c → r u = r v → u = v)
    (hwr : ∀ u v, u < c → v < c → r u ≠ w v) :
    (∀ u, u < c → forUp (fun u B => swapAt B (r u) (w u)) 0 c B0 (w u) = B0 (r u)) ∧
    (∀ u, u < c → forUp (fun u B => swapAt B (r u) (w u)) 0 c B0 (r u) = B0 (w u)) ∧
    (∀ z, (∀ u, u < c → z ≠ w u ∧ z ≠ r u) →
      forUp (fun u B => swapAt B (r u) (w u)) 0 c B0 z = B0 z) := by
  induction c with
  | zero =>
    exact ⟨fun u hu => absurd hu (by omega), fun u hu => absurd hu (by omega), fun z _ => rfl⟩
  | succ c ih =>
    obtain ⟨ih1, ih2, ih3⟩ := ih (fun u v hu hv => hw u v (by omega) (by omega))
      (fun u v hu hv => hr u v (by omega) (by omega))
      (fun u v hu hv => hwr u v (by omega) (by omega))
    have hfw : forUp (fun u B => swapAt B (r u) (w u)) 0 c B0 (w c) = B0 (w c) :=
      ih3 _ (fun v hv => ⟨fun e => by have := hw c v (by omega) (by omega) e; omega,
        fun e => hwr v c (by omega) (by omega) e.symm⟩)
    have hfr : forUp (fun u B => swapAt B (r u) (w u)) 0 c B0 (r c) = B0 (r c) :=
      ih3 _ (fun v hv => ⟨fun e => hwr c v (by omega) (by omega) e,
        fun e => by have := hr c v (by omega) (by omega) e; omega⟩)
    refine ⟨fun u hu => ?_, fun u hu => ?_, fun z hz => ?_⟩
    · rw [forUp_succ, Nat.zero_add, swapAt_apply]
      by_cases h : u = c
      · subst h
        rw [if_pos rfl, hfr]
      · have hne : w u ≠ w c := fun e => h (hw u c hu (by omega) e)
        have hne2 : w u ≠ r c := fun e => hwr c u (by omega) hu e.symm
        rw [if_neg hne, if_neg hne2]
        exact ih1 u (by omega)
    · rw [forUp_succ, Nat.zero_add, swapAt_apply]
      by_cases h : u = c
      · subst h
        rw [if_neg (hwr u u hu hu), if_pos rfl, hfw]
      · have hne : r u ≠ r c := fun e => h (hr u c hu (by omega) e)
        rw [if_neg (hwr u c hu (by omega)), if_neg hne]
        exact ih2 u (by omega)
    · rw [forUp_succ, Nat.zero_add, swapAt_apply, if_neg (hz c (by omega)).1,
        if_neg (hz c (by omega)).2]
      exact ih3 z (fun u hu => hz u (by omega))

theorem mirror_w (m t u : Nat) : m + t * (m + 1) + u * m = (t + 1 + u) * m + t := by ring

theorem mirror_r (m t u : Nat) : 1 + t * (m + 1) + u = t * m + (t + 1 + u) := by ring

/-- The cells below the diagonal in column `t` are the cells written in pass `t`. -/
theorem mirror_cell {m t i j : Nat} (hj : j < m) (ht : t < m) (hi : i < m) :
    (∀ u, u < m - 1 - t → i * m + j ≠ (t + 1 + u) * m + t) ↔ ¬ (j = t ∧ t < i) := by
  constructor
  · rintro h ⟨rfl, h2⟩
    apply h (i - j - 1) (by omega)
    have e : j + 1 + (i - j - 1) = i := by omega
    rw [e]
  · intro h u hu e
    have := (idx_inj hj ht).mp e
    apply h
    omega

/-- All cells of the matrix lie before `m * m`. -/
theorem cell_lt {m i j : Nat} (hi : i < m) (hj : j < m) : i * m + j < m * m := by
  have h1 : (i + 1) * m ≤ m * m := Nat.mul_le_mul_right m hi
  have h2 : (i + 1) * m = i * m + m := by ring
  omega

/-- The in-place transposition of a square matrix exchanges the two triangles. -/
theorem transpose_square_loop {R : Type} (F : Nat → R) (m : Nat) (T : Nat) (hT : T + 1 ≤ m) :
    (∀ i j, i < m → j < m →
      forUp (fun t A =>
        forUp (fun u A =>
          swapAt A (1 + t * (m + 1) + u) (m + t * (m + 1) + u * m))
          0 (m - 1 - t) A) 0 T F (i * m + j) =
        if (j < i ∧ j < T) ∨ (i < j ∧ i < T) then F (j * m + i) else F (i * m + j)) ∧
    (∀ z, m * m ≤ z →
      forUp (fun t A =>
        forUp (fun u A =>
          swapAt A (1 + t * (m + 1) + u) (m + t * (m + 1) + u * m))
          0 (m - 1 - t) A) 0 T F z = F z) := by
  induction T with
  | zero =>
    exact ⟨fun i j _ _ => by rw [forUp_zero, if_neg (by omega)], fun z _ => by rw [forUp_zero]⟩
  | succ T ih =>
    obtain ⟨ih1, ih2⟩ := ih (by omega)
    have hTm : T < m := by omega
    have hws : ∀ B : Nat → R,
        (∀ u, u < m - 1 - T →
          forUp (fun u A => swapAt A (1 + T * (m + 1) + u) (m + T * (m + 1) + u * m))
            0 (m - 1 - T) B ((T + 1 + u) * m + T) = B (T * m + (T + 1 + u))) ∧
        (∀ u, u < m - 1 - T →
          forUp (fun u A => swapAt A (1 + T * (m + 1) + u) (m + T * (m + 1) + u * m))
            0 (m - 1 - T) B (T * m + (T + 1 + u)) = B ((T + 1 + u) * m + T)) ∧
        (∀ z, (∀ u, u < m - 1 - T → z ≠ (T + 1 + u) * m + T ∧ z ≠ T * m + (T + 1 + u)) →
          forUp (fun u A => swapAt A (1 + T * (m + 1) + u) (m + T * (m + 1) + u * m))
            0 (m - 1 - T) B z = B z) := by
      intro B
      have h := swap_loop_spec (fun u => m + T * (m + 1) + u * m) (fun u => 1 + T * (m + 1) + u)
        (m - 1 - T) B
        (fun u v hu hv e => by
          simp only [mirror_w] at e
          have := (idx_inj hTm hTm).mp e
          omega)
        (fun u v hu hv e => Nat.add_left_cancel e)
        (fun u v hu hv e => by
          simp only [mirror_w, mirror_r] at e
          have := (idx_inj (show T + 1 + u < m by omega) hTm).mp e
          omega)
      simp only [mirror_w, mirror_r] at h
      simp only [mirror_w, mirror_r]
      exact h
    constructor
    · intro i j hi hj
      rw [forUp_succ, Nat.zero_add]
      by_cases hc : j = T ∧ T < i
      · obtain ⟨rfl, h2⟩ := hc
        have e : i = j + 1 + (i - j - 1) := by omega
        rw [if_pos (Or.inl ⟨h2, by omega⟩)]
        have h3 := (hws (forUp (fun t A =>
          forUp (fun u A => swapAt A (1 + t * (m + 1) + u) (m + t * (m + 1) + u * m))
            0 (m - 1 - t) A) 0 j F)).1 (i - j - 1) (by omega)
        rw [← e] at h3
        rw [h3, ih1 j i hTm hi, if_neg (by omega)]
      · by_cases hc2 : i = T ∧ T < j
        · obtain ⟨rfl, h2⟩ := hc2
          have e : j = i + 1 + (j - i - 1) := by omega
          rw [if_pos (Or.inr ⟨h2, by omega⟩)]
          have h3 := (hws (forUp (fun t A =>
            forUp (fun u A => swapAt A (1 + t * (m + 1) + u) (m + t * (m + 1) + u * m))
              0 (m - 1 - t) A) 0 i F)).2.1 (j - i - 1) (by omega)
          rw [← e] at h3
          rw [h3, ih1 j i hj hTm, if_neg (by omega)]
        · rw [(hws _).2.2 _ (fun u hu => ⟨(mirror_cell hj hTm hi).mpr hc u hu, fun e => by
            have := (idx_inj hj (show T + 1 + u < m by omega)).mp e
            omega⟩), ih1 i j hi hj]
          have e1 : ((j < i ∧ j < T + 1) ∨ (i < j ∧ i < T + 1)) ↔
              ((j < i ∧ j < T) ∨ (i < j ∧ i < T)) := by omega
          simp only [e1]
    · intro z hz
      rw [forUp_succ, Nat.zero_add, (hws _).2.2 z, ih2 z hz]
      intro u hu
      have h1 := @cell_lt m (T + 1 + u) T (by omega) hTm
      have h2 := @cell_lt m T (T + 1 + u) hTm (by omega)
      omega

/-- The in-place transposition of a square matrix. -/
theorem transpose_square_spec {R : Type} (A : Nat → R) (n : Nat) :
    (∀ r c, r < n → c < n → transpose_square A n (c * n + r) = A (r * n + c)) ∧
    (∀ z, n * n ≤ z → transpose_square A n z = A z) := by
  unfold transpose_square
  by_cases hm : n > 1
  · rw [if_pos hm]
    obtain ⟨h1, h2⟩ := transpose_square_loop A n (n - 1) (by omega)
    refine ⟨fun r c hr hc => ?_, h2⟩
    rw [h1 c r hc hr]
    by_cases h : (r < c ∧ r < n - 1) ∨ (c < r ∧ c < n - 1)
    · rw [if_pos h]
    · rw [if_neg h]
      have e : r = c := by omega
      rw [e]
  · rw [if_neg hm]
    refine ⟨fun r c hr hc => ?_, fun z _ => rfl⟩
    have e1 : r = 0 := by omega
    have e2 : c = 0 := by omega
    rw [e1, e2]

/-- C25: for every `rows`-by-`cols` input the out-of-place transpose writes
`out[c*rows + r] = in[r*cols + c]` for all `r < rows`, `c < cols`; the in-place variant
for square matrices (exchanges) and the in-place variant for any shape (copy) leave in
these cells the values that the out-of-place variant writes, and the first leaves the
cells from `n * n` on unchanged. -/
theorem transpose_correct {R : Type} (inp out : Nat → R) (rows cols n : Nat) :
    (∀ r c, r < rows → c < cols → transpose inp out rows cols (c * rows + r) = inp (r * cols + c)) ∧
    (∀ r c, r < n → c < n →
      transpose_square inp n (c * n + r) = inp (r * n + c) ∧
      transpose_square inp n (c * n + r) = transpose inp out n n (c * n + r)) ∧
    (∀ z, n * n ≤ z → transpose_square inp n z = inp z) ∧
    (∀ r c, r < rows → c < cols →
      transpose_inplace inp rows cols (c * rows + r) = inp (r * cols + c) ∧
      transpose_inplace inp rows cols (c * rows + r) = transpose inp out rows cols (c * rows + r)) := by
  refine ⟨fun r c hr hc => transpose_spec inp out rows cols r c hr hc, fun r c hr hc => ?_,
    (transpose_square_spec inp n).2, fun r c hr hc => ?_⟩
  · rw [(transpose_square_spec inp n).1 r c hr hc, transpose_spec inp out n n r c hr hc]
    exact ⟨rfl, rfl⟩
  · unfold transpose_inplace
    rw [transpose_spec inp inp rows cols r c hr hc, transpose_spec inp out rows cols r c hr hc]
    exact ⟨rfl, rfl⟩

end

section

/-! ## `lq_decomposition` as the row-wise dual of `qr_decomposition` -/

variable {α : Type} [LinearOrderedField α]

/-- Two loops whose bodies preserve a relation between their states preserve it. -/
theorem forUp_rel {σ τ : Type} (Rel : σ → τ → Prop) (f : Nat → σ → σ) (g : Nat → τ → τ)
    (lo cnt : Nat) (s : σ) (t : τ) (h0 : Rel s t)
    (hstep : ∀ i s t, lo ≤ i → i < lo + cnt → Rel s t → Rel (f i s) (g i t)) :
    Rel (forUp f lo cnt s) (forUp g lo cnt t) := by
  induction cnt with
  | zero => exact h0
  | succ cnt ih =>
    rw [forUp_succ, forUp_succ]
    exact hstep _ _ _ (by omega) (by omega)
      (ih (fun i s t h1 h2 h => hstep i s t h1 (by omega) h))

/-- Writing the same value to a cell of an `m × n` buffer and to the mirror cell of an
`n × m` buffer keeps the two buffers transposes of each other. -/
theorem dual_update {R : Type} (A B : Nat → R) (m n : Nat)
    (hT : ∀ i j, i < m → j < n → A (i * n + j) = B (j * m + i))
    (k i : Nat) (hk : k < m) (hi : i < n) (v : R) :
    ∀ i' j', i' < m → j' < n →
      Function.update A (k * n + i) v (i' * n + j') = Function.update B (i * m + k) v (j' * m + i') := by
  intro i' j' hi' hj'
  rw [Function.update_apply, Function.update_apply]
  by_cases h : i' = k ∧ j' = i
  · rw [if_pos ((idx_inj hj' hi).mpr h), if_pos ((idx_inj hi' hk).mpr ⟨h.2, h.1⟩)]
  · rw [if_neg (fun e => h ((idx_inj hj' hi).mp e)),
      if_neg (fun e => h ⟨((idx_inj hi' hk).mp e).2, ((idx_inj hi' hk).mp e).1⟩)]
    exact hT i' j' hi' hj'

theorem lq_scale_dual (A B : Nat → α) (m n k : Nat) (hk : k < m)
    (hT : ∀ i j, i < m → j < n → A (i * n + j) = B (j * m + i)) :
    lq_scale A n k = qr_scale B n m k := by
  unfold lq_scale qr_scale
  apply forUp_congr
  intro i s h1 h2
  have hi : i < n := by omega
  rw [hT k i hk hi]
  congr 1
  by_cases h : B (i * m + k) < 0
  · rw [if_pos h, abs_of_neg h]
  · rw [if_neg h, abs_of_nonneg (not_lt.mp h)]

theorem lq_normalize_dual (A B : Nat → α) (m n k : Nat) (hk : k < m) (scale : α)
    (hT : ∀ i j, i < m → j < n → A (i * n + j) = B (j * m + i)) :
    (∀ i j, i < m → j < n →
      (lq_normalize A n k scale).1 (i * n + j) = (qr_normalize B n m k scale).1 (j * m + i)) ∧
    (lq_normalize A n k scale).2 = (qr_normalize B n m k scale).2 := by
  unfold lq_normalize qr_normalize
  apply forUp_rel (fun (s t : (Nat → α) × α) =>
    (∀ i j, i < m → j < n → s.1 (i * n + j) = t.1 (j * m + i)) ∧ s.2 = t.2)
  · exact ⟨hT, rfl⟩
  · rintro i s t h1 h2 ⟨hs, he⟩
    have hi : i < n := by omega
    dsimp only
    rw [hs k i hk hi, he]
    exact ⟨dual_update s.1 t.1 m n hs k i hk hi _, rfl⟩

theorem lq_reflect_row_dual (A B : Nat → α) (m n k j : Nat) (hk : k < m) (hj : j < m) (ck : α)
    (hT : ∀ i j, i < m → j < n → A (i * n + j) = B (j * m + i)) :
    ∀ i' j', i' < m → j' < n →
      lq_reflect_row n k ck j A (i' * n + j') = qr_reflect_col n m k ck j B (j' * m + i') := by
  unfold lq_reflect_row qr_reflect_col
  have hsum : forUp (fun i sum => sum + A (k * n + i) * A (j * n + i)) k (n - k) 0 =
      forUp (fun i sum => sum + B (i * m + k) * B (i * m + j)) k (n - k) 0 := by
    apply forUp_congr
    intro i s h1 h2
    rw [hT k i hk (by omega), hT j i hj (by omega)]
  rw [hsum]
  apply forUp_rel (fun (s t : Nat → α) => ∀ i j, i < m → j < n → s (i * n + j) = t (j * m + i))
  · exact hT
  · intro i s t h1 h2 hs
    have hi : i < n := by omega
    rw [hs j i hj hi, hs k i hk hi]
    exact dual_update s t m n hs j i hj hi _

theorem lq_house_step_dual (sqrt : α → α) (A B c d : Nat → α) (m n k : Nat) (hk : k < m)
    (hkn : k < n) (scale : α)
    (hT : ∀ i j, i < m → j < n → A (i * n + j) = B (j * m + i)) :
    (∀ i j, i < m → j < n →
      (lq_house_step sqrt m n k scale A c d).1 (i * n + j) =
        (qr_house_step sqrt n m k scale B c d).1 (j * m + i)) ∧
    (lq_house_step sqrt m n k scale A c d).2 = (qr_house_step sqrt n m k scale B c d).2 := by
  obtain ⟨hN, hS⟩ := lq_normalize_dual A B m n k hk scale hT
  unfold lq_house_step qr_house_step
  simp only [Function.update_same]
  rw [hS, hN k k hk hkn]
  refine ⟨?_, rfl⟩
  apply forUp_rel (fun (s t : Nat → α) => ∀ i j, i < m → j < n → s (i * n + j) = t (j * m + i))
  · exact dual_update _ _ m n hN k k hk hkn _
  · intro j s t h1 h2 hs
    exact lq_reflect_row_dual s t m n k j hk (by omega) _ hs

/-- The main loops of `lq_decomposition` on `A` (`m × n`, `m < n`) and of
`qr_decomposition` on the transposed buffer run in lockstep. -/
theorem lq_loop_dual (sqrt : α → α) (m n : Nat) (hmn : m < n) :
    ∀ (cnt k : Nat) (A B c d : Nat → α) (sing : Bool), k + cnt ≤ m →
      (∀ i j, i < m → j < n → A (i * n + j) = B (j * m + i)) →
      (lq_loop sqrt m n cnt k A c d sing).1 = (qr_loop sqrt n m m cnt k B c d sing).1 ∧
      (∀ i j, i < m → j < n →
        (lq_loop sqrt m n cnt k A c d sing).2.1 (i * n + j) =
          (qr_loop sqrt n m m cnt k B c d sing).2.1 (j * m + i)) ∧
      (lq_loop sqrt m n cnt k A c d sing).2.2 = (qr_loop sqrt n m m cnt k B c d sing).2.2 := by
  intro cnt
  induction cnt with
  | zero =>
    intro k A B c d sing _ hT
    exact ⟨rfl, hT, rfl⟩
  | succ cnt ih =>
    intro k A B c d sing hk hT
    have hkm : k < m := by omega
    have hne : ¬ (k = m - 1 ∧ m = n) := fun h => by omega
    rw [lq_loop, qr_loop]
    dsimp only
    rw [if_neg hne, lq_scale_dual A B m n k hkm hT]
    by_cases hs : qr_scale B n m k = 0
    · rw [if_pos hs, if_pos hs]
      exact ih (k + 1) A B _ _ true (by omega) hT
    · rw [if_neg hs, if_neg hs]
      obtain ⟨h1, h2⟩ := lq_house_step_dual sqrt A B c d m n k hkm (by omega)
        (qr_scale B n m k) hT
      have h3 := congrArg Prod.fst h2
      have h4 := congrArg Prod.snd h2
      rw [h3, h4]
      exact ih (k + 1) _ _ _ _ sing (by omega) h1

/-- C30: for every `m`-by-`n` matrix `A` with `m < n`, `lq_decomposition(A, c, d, dim)`
is the row-wise dual of QR: with `At` the `n`-by-`m` (out-of-place) transpose of `A`, it
returns the same value and the same `c` and `d` as `qr_decomposition(At, c, d, (n, m))`,
and its output buffer is the transpose of the QR output buffer. -/
theorem lq_decomposition_dual (sqrt : α → α) (A out c d : Nat → α) (m n : Nat) (hmn : m < n) :
    (lq_decomposition sqrt A c d m n).1 =
      (qr_decomposition sqrt (transpose A out m n) c d n m).1 ∧
    (lq_decomposition sqrt A c d m n).2.2.1 =
      (qr_decomposition sqrt (transpose A out m n) c d n m).2.2.1 ∧
    (lq_decomposition sqrt A c d m n).2.2.2 =
      (qr_decomposition sqrt (transpose A out m n) c d n m).2.2.2 ∧
    (∀ i j, i < m → j < n →
      (lq_decomposition sqrt A c d m n).2.1 (i * n + j) =
        (qr_decomposition sqrt (transpose A out m n) c d n m).2.1 (j * m + i)) := by
  have hmin1 : min m n = m := by omega
  have hmin2 : min n m = m := by omega
  unfold lq_decomposition qr_decomposition
  rw [hmin1, hmin2]
  obtain ⟨h1, h2, h3⟩ := lq_loop_dual sqrt m n hmn m 0 A (transpose A out m n) c d false
    (by omega) (fun i j hi hj => (transpose_spec A out m n i j hi hj).symm)
  exact ⟨h1, congrArg Prod.fst h3, congrArg Prod.snd h3, h2⟩

theorem lq_decomposition_dual_witness :
    1 < 2 ∧
    ((lq_decomposition Real.sqrt (ofList [3, 4]) (fun _ => 0) (fun _ => 0) 1 2).1 =
      (qr_decomposition Real.sqrt (transpose (ofList [3, 4]) (fun _ => 0) 1 2)
        (fun _ => 0) (fun _ => 0) 2 1).1 ∧
    (lq_decomposition Real.sqrt (ofList [3, 4]) (fun _ => 0) (fun _ => 0) 1 2).2.2.1 =
      (qr_decomposition Real.sqrt (transpose (ofList [3, 4]) (fun _ => 0) 1 2)
        (fun _ => 0) (fun _ => 0) 2 1).2.2.1 ∧
    (lq_decomposition Real.sqrt (ofList [3, 4]) (fun _ => 0) (fun _ => 0) 1 2).2.2.2 =
      (qr_decomposition Real.sqrt (transpose (ofList [3, 4]) (fun _ => 0) 1 2)
        (fun _ => 0) (fun _ => 0) 2 1).2.2.2 ∧
    (∀ i j, i < 1 → j < 2 →
      (lq_decomposition Real.sqrt (ofList [3, 4]) (fun _ => 0) (fun _ => 0) 1 2).2.1 (i * 2 + j) =
        (qr_decomposition Real.sqrt (transpose (ofList [3, 4]) (fun _ => 0) 1 2)
          (fun _ => 0) (fun _ => 0) 2 1).2.1 (j * 1 + i))) :=
  ⟨by decide, lq_decomposition_dual Real.sqrt _ _ _ _ 1 2 (by decide)⟩

end

section

/-! ## Termination of the QL iteration -/

variable {α : Type} [LinearOrderedField α]

/-- The recorded loop computes what `ql_loop` computes. -/
theorem ql_loop_sweeps_fst (sqrt : α → α) (dim : Nat) :
    ∀ (fuel l iter : Nat) (V d e : Nat → α),
      (ql_loop_sweeps sqrt dim fuel l iter V d e).1 = ql_loop sqrt dim fuel l iter V d e := by
  intro fuel
  induction fuel with
  | zero => intro l iter V d e; rfl
  | succ fuel ih =>
    intro l iter V d e
    rw [ql_loop_sweeps, ql_loop]
    by_cases hc : l < dim ∧ iter < 30
    · rw [if_pos hc, if_pos hc]
      dsimp only
      by_cases hm : ql_find d e (dim - 1 - l) l = l
      · rw [if_pos hm, if_pos hm]
        exact ih _ _ _ _ _
      · rw [if_neg hm, if_neg hm]
        generalize ql_sweep sqrt dim l (ql_find d e (dim - 1 - l) l)
          (ql_find d e (dim - 1 - l) l - 1 - l) V d e 1 1 0 _ = o
        cases o with
        | none => rfl
        | some st =>
          dsimp only
          by_cases hr : st.2.2.2.2.2.1 ≠ 0 ∨ st.2.2.2.2.2.2 = true
          · rw [if_pos hr, if_pos hr]
            exact ih _ _ _ _ _
          · rw [if_neg hr, if_neg hr]
            exact ih _ _ _ _ _
    · rw [if_neg hc, if_neg hc]

/-- Once the fuel covers the `30` passes allowed for every remaining index `l`, more fuel
does not change the outcome of the recorded QL loop: the loop has ended by its own test. -/
theorem ql_loop_sweeps_stable (sqrt : α → α) (dim : Nat) :
    ∀ (fuel l iter : Nat) (V d e : Nat → α),
      (l < dim → iter < 30 → 30 * (dim - l) + 1 ≤ fuel + iter) →
      ∀ k, ql_loop_sweeps sqrt dim (fuel + k) l iter V d e =
        ql_loop_sweeps sqrt dim fuel l iter V d e := by
  intro fuel
  induction fuel with
  | zero =>
    intro l iter V d e h k
    have hc : ¬ (l < dim ∧ iter < 30) := by
      rintro ⟨h1, h2⟩
      have := h h1 h2
      omega
    cases k with
    | zero => rfl
    | succ k =>
      rw [Nat.zero_add, ql_loop_sweeps, ql_loop_sweeps, if_neg hc]
  | succ fuel ih =>
    intro l iter V d e h k
    rw [show fuel + 1 + k = (fuel + k) + 1 by omega, ql_loop_sweeps, ql_loop_sweeps]
    by_cases hc : l < dim ∧ iter < 30
    · rw [if_pos hc, if_pos hc]
      have hb := h hc.1 hc.2
      dsimp only
      by_cases hm : ql_find d e (dim - 1 - l) l = l
      · rw [if_pos hm, if_pos hm]
        exact ih _ _ _ _ _ (fun h1 _ => by omega) k
      · rw [if_neg hm, if_neg hm]
        generalize ql_sweep sqrt dim l (ql_find d e (dim - 1 - l) l)
          (ql_find d e (dim - 1 - l) l - 1 - l) V d e 1 1 0 _ = o
        cases o with
        | none => rfl
        | some st =>
          dsimp only
          by_cases hr : st.2.2.2.2.2.1 ≠ 0 ∨ st.2.2.2.2.2.2 = true
          · rw [if_pos hr, if_pos hr, ih _ _ _ _ _ (fun _ _ => by omega) k]
          · rw [if_neg hr, if_neg hr, ih _ _ _ _ _ (fun _ _ => by omega) k]
    · rw [if_neg hc, if_neg hc]

/-- The number of sweeps recorded for an index `q` by the QL loop started at `(l, iter)`. -/
theorem ql_loop_sweeps_count (sqrt : α → α) (dim : Nat) :
    ∀ (fuel l iter : Nat) (V d e : Nat → α) (q : Nat),
      (ql_loop_sweeps sqrt dim fuel l iter V d e).2.count q ≤
        if q = l then 30 - iter else if l < q then 29 else 0 := by
  intro fuel
  induction fuel with
  | zero => intro l iter V d e q; simp [ql_loop_sweeps]
  | succ fuel ih =>
    intro l iter V d e q
    rw [ql_loop_sweeps]
    by_cases hc : l < dim ∧ iter < 30
    · rw [if_pos hc]
      dsimp only
      by_cases hm : ql_find d e (dim - 1 - l) l = l
      · rw [if_pos hm]
        have h1 := ih (l + 1) 1 V d e q
        by_cases hq : q = l
        · rw [if_pos hq]
          rw [if_neg (by omega), if_neg (by omega)] at h1
          omega
        · rw [if_neg hq]
          by_cases hq2 : l < q
          · rw [if_pos hq2]
            by_cases hq3 : q = l + 1
            · rw [if_pos hq3] at h1; omega
            · rw [if_neg hq3, if_pos (by omega)] at h1; exact h1
          · rw [if_neg hq2]
            rw [if_neg (by omega), if_neg (by omega)] at h1
            exact h1
      · rw [if_neg hm]
        generalize ql_sweep sqrt dim l (ql_find d e (dim - 1 - l) l)
          (ql_find d e (dim - 1 - l) l - 1 - l) V d e 1 1 0 _ = o
        cases o with
        | none =>
          dsimp only
          rw [List.count_singleton]
          by_cases hq : q = l
          · rw [if_pos hq]; split_ifs <;> omega
          · rw [if_neg hq]
            have : ¬ ((l == q) = true) := by simpa using fun h => hq h.symm
            rw [if_neg this]; omega
        | some st =>
          dsimp only
          rw [List.count_cons]
          have key : ∀ (V1 d1 e1 : Nat → α),
              (ql_loop_sweeps sqrt dim fuel l (iter + 1) V1 d1 e1).2.count q +
                (if (l == q) = true then 1 else 0) ≤
              if q = l then 30 - iter else if l < q then 29 else 0 := by
            intro V1 d1 e1
            have h1 := ih l (iter + 1) V1 d1 e1 q
            by_cases hq : q = l
            · rw [if_pos hq] at h1
              rw [if_pos hq]
              split_ifs <;> omega
            · rw [if_neg hq] at h1
              rw [if_neg hq]
              have : ¬ ((l == q) = true) := by simpa using fun h => hq h.symm
              rw [if_neg this]
              exact h1
          by_cases hr : st.2.2.2.2.2.1 ≠ 0 ∨ st.2.2.2.2.2.2 = true
          · rw [if_pos hr]; exact key _ _ _
          · rw [if_neg hr]; exact key _ _ _
    · rw [if_neg hc]
      simp

/-- More fuel does not change the outcome of the QL loop of `eigenvalue` either. -/
theorem eigenvalue_loop_stable (sqrt : α → α) (dim : Nat) :
    ∀ (fuel l iter : Nat) (d e : Nat → α),
      (l < dim → iter < 30 → 30 * (dim - l) + 1 ≤ fuel + iter) →
      ∀ k, eigenvalue_loop sqrt dim (fuel + k) l iter d e =
        eigenvalue_loop sqrt dim fuel l iter d e := by
  intro fuel
  induction fuel with
  | zero =>
    intro l iter d e h k
    have hc : ¬ (l < dim ∧ iter < 30) := by
      rintro ⟨h1, h2⟩
      have := h h1 h2
      omega
    cases k with
    | zero => rfl
    | succ k =>
      rw [Nat.zero_add, eigenvalue_loop, eigenvalue_loop, if_neg hc]
  | succ fuel ih =>
    intro l iter d e h k
    rw [show fuel + 1 + k = (fuel + k) + 1 by omega, eigenvalue_loop, eigenvalue_loop]
    by_cases hc : l < dim ∧ iter < 30
    · rw [if_pos hc, if_pos hc]
      have hb := h hc.1 hc.2
      dsimp only
      by_cases hm : ql_find d e (dim - 1 - l) l = l
      · rw [if_pos hm, if_pos hm]
        exact ih _ _ _ _ (fun h1 _ => by omega) k
      · rw [if_neg hm, if_neg hm]
        generalize eigenvalue_sweep sqrt l (ql_find d e (dim - 1 - l) l)
          (ql_find d e (dim - 1 - l) l - 1 - l) d e 1 1 0 _ = o
        cases o with
        | none => rfl
        | some st =>
          dsimp only
          by_cases hr : st.2.2.2.2.1 ≠ 0 ∨ st.2.2.2.2.2 = true
          · rw [if_pos hr, if_pos hr, ih _ _ _ _ (fun _ _ => by omega) k]
          · rw [if_neg hr, if_neg hr, ih _ _ _ _ (fun _ _ => by omega) k]
    · rw [if_neg hc, if_neg hc]

/-- The number of sweeps recorded for an index `q` by the QL loop of `eigenvalue`. -/
theorem eigenvalue_loop_count (sqrt : α → α) (dim : Nat) :
    ∀ (fuel l iter : Nat) (d e : Nat → α) (q : Nat),
      (eigenvalue_loop sqrt dim fuel l iter d e).2.count q ≤
        if q = l then 30 - iter else if l < q then 29 else 0 := by
  intro fuel
  induction fuel with
  | zero => intro l iter d e q; simp [eigenvalue_loop]
  | succ fuel ih =>
    intro l iter d e q
    rw [eigenvalue_loop]
    by_cases hc : l < dim ∧ iter < 30
    · rw [if_pos hc]
      dsimp only
      by_cases hm : ql_find d e (dim - 1 - l) l = l
      · rw [if_pos hm]
        have h1 := ih (l + 1) 1 d e q
        by_cases hq : q = l
        · rw [if_pos hq]
          rw [if_neg (by omega), if_neg (by omega)] at h1
          omega
        · rw [if_neg hq]
          by_cases hq2 : l < q
          · rw [if_pos hq2]
            by_cases hq3 : q = l + 1
            · rw [if_pos hq3] at h1; omega
            · rw [if_neg hq3, if_pos (by omega)] at h1; exact h1
          · rw [if_neg hq2]
            rw [if_neg (by omega), if_neg (by omega)] at h1
            exact h1
      · rw [if_neg hm]
        generalize eigenvalue_sweep sqrt l (ql_find d e (dim - 1 - l) l)
          (ql_find d e (dim - 1 - l) l - 1 - l) d e 1 1 0 _ = o
        cases o with
        | none =>
          dsimp only
          rw [List.count_singleton]
          by_cases hq : q = l
          · rw [if_pos hq]; split_ifs <;> omega
          · rw [if_neg hq]
            have : ¬ ((l == q) = true) := by simpa using fun h => hq h.symm
            rw [if_neg this]; omega
        | some st =>
          dsimp only
          rw [List.count_cons]
          have key : ∀ (d1 e1 : Nat → α),
              (eigenvalue_loop sqrt dim fuel l (iter + 1) d1 e1).2.count q +
                (if (l == q) = true then 1 else 0) ≤
              if q = l then 30 - iter else if l < q then 29 else 0 := by
            intro d1 e1
            have h1 := ih l (iter + 1) d1 e1 q
            by_cases hq : q = l
            · rw [if_pos hq] at h1
              rw [if_pos hq]
              split_ifs <;> omega
            · rw [if_neg hq] at h1
              rw [if_neg hq]
              have : ¬ ((l == q) = true) := by simpa using fun h => hq h.symm
              rw [if_neg this]
              exact h1
          by_cases hr : st.2.2.2.2.1 ≠ 0 ∨ st.2.2.2.2.2 = true
          · rw [if_pos hr]; exact key _ _
          · rw [if_neg hr]; exact key _ _
    · rw [if_neg hc]
      simp

end

section

variable {α : Type} [LinearOrderedField α]

/-- C28: the implicit-shift QL iteration of `eigen_decomposition_sym` and of `eigenvalue`
performs at most 30 sweeps for each index `l`; when `d[l]` is found to be an eigenvalue
(`m == l`) the loop goes on with `l + 1` and a restarted counter, and when the counter
reaches 30 the loop ends with the state as it is, without a signal.  Hence the loop ends
by its own test on every state `(V, d, e)` of every dimension: `30 * dim + 1` passes are
enough, and more fuel does not change the result. -/
theorem ql_iteration_terminates (sqrt : α → α) (dim : Nat) (V d e : Nat → α) :
    (∀ fuel, 30 * dim + 1 ≤ fuel →
      ql_loop sqrt dim fuel 0 0 V d e = ql_loop sqrt dim (30 * dim + 1) 0 0 V d e) ∧
    (∀ fuel, (ql_loop_sweeps sqrt dim fuel 0 0 V d e).1 = ql_loop sqrt dim fuel 0 0 V d e) ∧
    (∀ fuel q, (ql_loop_sweeps sqrt dim fuel 0 0 V d e).2.count q ≤ 30) ∧
    (∀ fuel l iter, l < dim → iter < 30 → ql_find d e (dim - 1 - l) l = l →
      ql_loop sqrt dim (fuel + 1) l iter V d e = ql_loop sqrt dim fuel (l + 1) 1 V d e) ∧
    (∀ fuel l, ql_loop sqrt dim fuel l 30 V d e = some (V, d, e)) ∧
    (∀ fuel, 30 * dim + 1 ≤ fuel →
      eigenvalue_loop sqrt dim fuel 0 0 d e = eigenvalue_loop sqrt dim (30 * dim + 1) 0 0 d e) ∧
    (∀ fuel q, (eigenvalue_loop sqrt dim fuel 0 0 d e).2.count q ≤ 30) ∧
    (∀ fuel l iter, l < dim → iter < 30 → ql_find d e (dim - 1 - l) l = l →
      eigenvalue_loop sqrt dim (fuel + 1) l iter d e = eigenvalue_loop sqrt dim fuel (l + 1) 1 d e) ∧
    (∀ fuel l, eigenvalue_loop sqrt dim fuel l 30 d e = (some (d, e), [])) := by
  refine ⟨fun fuel hf => ?_, fun fuel => ql_loop_sweeps_fst sqrt dim fuel 0 0 V d e,
    fun fuel q => ?_, fun fuel l iter hl hi hm => ?_, fun fuel l => ?_, fun fuel hf => ?_,
    fun fuel q => ?_, fun fuel l iter hl hi hm => ?_, fun fuel l => ?_⟩
  · have h := ql_loop_sweeps_stable sqrt dim (30 * dim + 1) 0 0 V d e (fun _ _ => by omega)
      (fuel - (30 * dim + 1))
    rw [show 30 * dim + 1 + (fuel - (30 * dim + 1)) = fuel by omega] at h
    rw [← ql_loop_sweeps_fst, ← ql_loop_sweeps_fst, h]
  · have h := ql_loop_sweeps_count sqrt dim fuel 0 0 V d e q
    split_ifs at h <;> omega
  · rw [ql_loop, if_pos ⟨hl, hi⟩]
    dsimp only
    rw [if_pos hm]
  · cases fuel with
    | zero => rfl
    | succ fuel => rw [ql_loop, if_neg (by omega)]
  · have h := eigenvalue_loop_stable sqrt dim (30 * dim + 1) 0 0 d e (fun _ _ => by omega)
      (fuel - (30 * dim + 1))
    rw [show 30 * dim + 1 + (fuel - (30 * dim + 1)) = fuel by omega] at h
    exact h
  · have h := eigenvalue_loop_count sqrt dim fuel 0 0 d e q
    split_ifs at h <;> omega
  · rw [eigenvalue_loop, if_pos ⟨hl, hi⟩]
    dsimp only
    rw [if_pos hm]
  · cases fuel with
    | zero => rfl
    | succ fuel => rw [eigenvalue_loop, if_neg (by omega)]

end

section

/-! ## `pseudo_inverse` on a 3-by-3 matrix with a zero first row -/

/-- The state of `svd` on a 3-by-3 buffer when the main loop starts, in terms of the state
`B` left by the two bidiagonalisation steps. -/
theorem svd_prepare_three {α : Type} [LinearOrderedField α] (sqrt : α → α) (A U s : Nat → α)
    (B : SvdState α)
    (hB : B = svd_bidiag_step sqrt 3 3 1 1 (svd_bidiag_step sqrt 3 3 1 0
      { A := A, U := U, s := s, e := fun _ => 0, w := fun _ => 0, max_value := 1 / 2 ^ 52 })) :
    svd_prepare sqrt A U s 3 3 =
      forDown (svd_gen_a 3 3 2) 0 3 (forDown (svd_gen_u 3 1) 0 3
        { A := B.A, U := B.U, s := Function.update B.s 2 (B.A 8),
          e := Function.update B.e 1 (B.A 7), w := B.w, max_value := B.max_value }) := by
  subst hB
  simp only [svd_prepare, forUp, Nat.zero_add, Nat.reduceSub, Nat.reduceMul, Nat.reduceAdd,
    if_true, min_eq_left (show (2 : Nat) ≤ 3 by norm_num)]

set_option maxHeartbeats 4000000 in
/-- First bidiagonalisation step of `svd` on `[[0, 0, 0], [1, 0, 0], [0, 1, 1]]`. -/
theorem pinv_bidiag0 (st : SvdState ℝ)
    (hA : st.A 0 = 0 ∧ st.A 1 = 0 ∧ st.A 2 = 0 ∧ st.A 3 = 1 ∧ st.A 4 = 0 ∧ st.A 5 = 0 ∧
      st.A 6 = 0 ∧ st.A 7 = 1 ∧ st.A 8 = 1) (hm : st.max_value = 1 / 2 ^ 52) :
    ((svd_bidiag_step Real.sqrt 3 3 1 0 st).A 4 = 0 ∧
      (svd_bidiag_step Real.sqrt 3 3 1 0 st).A 5 = 0 ∧
      (svd_bidiag_step Real.sqrt 3 3 1 0 st).A 7 = 1 ∧
      (svd_bidiag_step Real.sqrt 3 3 1 0 st).A 8 = 1) ∧
    (svd_bidiag_step Real.sqrt 3 3 1 0 st).s 0 = 0 ∧
    ((svd_bidiag_step Real.sqrt 3 3 1 0 st).e 0 = -1 ∧
      (svd_bidiag_step Real.sqrt 3 3 1 0 st).e 1 = 2) ∧
    ((svd_bidiag_step Real.sqrt 3 3 1 0 st).U 1 = 2 ∧
      (svd_bidiag_step Real.sqrt 3 3 1 0 st).U 2 = 0) ∧
    (svd_bidiag_step Real.sqrt 3 3 1 0 st).max_value = 1 := by
  obtain ⟨a0, a1, a2, a3, a4, a5, a6, a7, a8⟩ := hA
  norm_num [forUp, svd_bidiag_step, svd_row_reflect, svd_e_reflect,
    vec_norm2, vec_scale, vec_axpy, vec_aypx, vec_aypx_self, vec_dot,
    fill_range, copy_range, Function.update, a0, a1, a2, a3, a4, a5, a6, a7, a8, hm]

set_option maxHeartbeats 4000000 in
/-- Second bidiagonalisation step on the same input. -/
theorem pinv_bidiag1 (st : SvdState ℝ)
    (hA : st.A 4 = 0 ∧ st.A 5 = 0 ∧ st.A 7 = 1 ∧ st.A 8 = 1) (hs : st.s 0 = 0)
    (he : st.e 0 = -1 ∧ st.e 1 = 2) (hU : st.U 1 = 2 ∧ st.U 2 = 0) (hm : st.max_value = 1) :
    ((svd_bidiag_step Real.sqrt 3 3 1 1 st).A 7 = 1 ∧
      (svd_bidiag_step Real.sqrt 3 3 1 1 st).A 8 = 1) ∧
    ((svd_bidiag_step Real.sqrt 3 3 1 1 st).s 0 = 0 ∧
      (svd_bidiag_step Real.sqrt 3 3 1 1 st).s 1 = 0) ∧
    (svd_bidiag_step Real.sqrt 3 3 1 1 st).e 0 = -1 ∧
    ((svd_bidiag_step Real.sqrt 3 3 1 1 st).U 1 = 2 ∧
      (svd_bidiag_step Real.sqrt 3 3 1 1 st).U 2 = 0) ∧
    (svd_bidiag_step Real.sqrt 3 3 1 1 st).max_value = 2 := by
  obtain ⟨a4, a5, a7, a8⟩ := hA
  obtain ⟨e0, e1⟩ := he
  obtain ⟨u1, u2⟩ := hU
  norm_num [forUp, svd_bidiag_step, svd_row_reflect, svd_e_reflect,
    vec_norm2, vec_scale, vec_axpy, vec_aypx, vec_aypx_self, vec_dot,
    fill_range, copy_range, Function.update, a4, a5, a7, a8, hs, e0, e1, u1, u2, hm]

set_option maxHeartbeats 4000000 in
/-- The generation of the rows of `U` and of `A` on the same input. -/
theorem pinv_generate (B : SvdState ℝ) (hA : B.A 7 = 1 ∧ B.A 8 = 1)
    (hs : B.s 0 = 0 ∧ B.s 1 = 0) (he : B.e 0 = -1) (hU : B.U 1 = 2 ∧ B.U 2 = 0)
    (hm : B.max_value = 2) (st : SvdState ℝ)
    (hst : st = forDown (svd_gen_a 3 3 2) 0 3 (forDown (svd_gen_u 3 1) 0 3
        { A := B.A, U := B.U, s := Function.update B.s 2 (B.A 8),
          e := Function.update B.e 1 (B.A 7), w := B.w, max_value := B.max_value })) :
    (st.A 0 = 1 ∧ st.A 1 = 0 ∧ st.A 2 = 0 ∧ st.A 3 = 0 ∧ st.A 4 = 1 ∧ st.A 5 = 0 ∧
      st.A 6 = 0 ∧ st.A 7 = 0 ∧ st.A 8 = 1) ∧
    (st.U 0 = 1 ∧ st.U 1 = 0 ∧ st.U 2 = 0 ∧ st.U 3 = 0 ∧ st.U 4 = -1 ∧ st.U 5 = 0 ∧
      st.U 6 = 0 ∧ st.U 7 = 0 ∧ st.U 8 = 1) ∧
    (st.s 0 = 0 ∧ st.s 1 = 0 ∧ st.s 2 = 1) ∧ (st.e 0 = -1 ∧ st.e 1 = 1) ∧
    st.max_value = 2 := by
  obtain ⟨a7, a8⟩ := hA
  obtain ⟨s0, s1⟩ := hs
  obtain ⟨u1, u2⟩ := hU
  subst hst
  norm_num [forUp, forDown, svd_gen_u, svd_gen_a, vec_aypx_self, vec_dot, vec_negate,
    fill_range, Function.update, a7, a8, s0, s1, he, u1, u2, hm]

end

section

/-! ## Cell-wise descriptions of the vector helpers -/

/-- The cells of the buffer after `vec::rot` on two ranges that do not meet. -/
theorem vec_rot_cell {R : Type} [CommRing R] (A : Nat → R) (x len y : Nat) (c s : R)
    (hd : ∀ i j, i < len → j < len → x + i ≠ y + j) (z : Nat) :
    vec_rot A x len y c s z =
      if x ≤ z ∧ z < x + len then c * A z + s * A (y + (z - x))
      else if y ≤ z ∧ z < y + len then c * A z - s * A (x + (z - y))
      else A z := by
  unfold vec_rot
  exact vec_rot_spec A x y len c s hd len (le_refl _) z

/-- The cells of the buffer after `vec::rot` called with both ranges equal: the second
assignment overwrites the first. -/
theorem vec_rot_self {R : Type} [CommRing R] (A : Nat → R) (x len : Nat) (c s : R) (z : Nat) :
    vec_rot A x len x c s z = if x ≤ z ∧ z < x + len then A z * c + A z * s else A z := by
  unfold vec_rot
  have hb : (fun t (B : Nat → R) =>
      let x_temp := B (x + t) * c + B (x + t) * s
      let B1 := Function.update B (x + t) (B (x + t) * c - B (x + t) * s)
      Function.update B1 (x + t) x_temp) =
      fun t B => Function.update B (x + t) (B (x + t) * c + B (x + t) * s) := by
    funext t B
    simp only [Function.update_idem]
  rw [hb]
  revert z
  induction len with
  | zero => intro z; rw [forUp_zero, if_neg (by omega)]
  | succ len ih =>
    intro z
    rw [forUp_succ, Nat.zero_add, Function.update_apply]
    by_cases hz : z = x + len
    · subst hz
      rw [if_pos rfl, if_pos (by omega), ih, if_neg (by omega)]
    · rw [if_neg hz, ih]
      have e1 : (x ≤ z ∧ z < x + (len + 1)) ↔ (x ≤ z ∧ z < x + len) := by omega
      simp only [e1]

/-- The cells of the buffer after `vec::axpy`. -/
theorem vec_axpy_cell {α : Type} [LinearOrderedField α] (Y : Nat → α) (y len : Nat) (a : α)
    (X : Nat → α) (x : Nat) (z : Nat) :
    vec_axpy Y y len a X x z =
      if y ≤ z ∧ z < y + len then Y z + X (x + (z - y)) * a else Y z := by
  unfold vec_axpy
  induction len with
  | zero => rw [forUp_zero, if_neg (by omega)]
  | succ len ih =>
    rw [forUp_succ, Nat.zero_add, Function.update_apply]
    by_cases hz : z = y + len
    · subst hz
      have e : y + len - y = len := by omega
      rw [if_pos rfl, if_pos (by omega), ih, if_neg (by omega), e]
    · rw [if_neg hz, ih]
      have e1 : (y ≤ z ∧ z < y + (len + 1)) ↔ (y ≤ z ∧ z < y + len) := by omega
      simp only [e1]

/-- The cells of the buffer after `std::copy`. -/
theorem copy_range_cell {α : Type} [LinearOrderedField α] (src : Nat → α) (x len : Nat)
    (dst : Nat → α) (y : Nat) (z : Nat) :
    copy_range src x len dst y z =
      if y ≤ z ∧ z < y + len then src (x + (z - y)) else dst z := by
  unfold copy_range
  induction len with
  | zero => rw [forUp_zero, if_neg (by omega)]
  | succ len ih =>
    rw [forUp_succ, Nat.zero_add, Function.update_apply]
    by_cases hz : z = y + len
    · subst hz
      have e : y + len - y = len := by omega
      rw [if_pos rfl, if_pos (by omega), e]
    · rw [if_neg hz, ih]
      have e1 : (y ≤ z ∧ z < y + (len + 1)) ↔ (y ≤ z ∧ z < y + len) := by omega
      simp only [e1]

/-- The cells of the buffer after `vec::gen`. -/
theorem vec_gen_cell {R : Type} [Zero R] [Add R] [Mul R] (X : Nat → R) (x xlen : Nat)
    (Y : Nat → R) (y ylen : Nat) (out : Nat → R) (i j : Nat) (hi : i < xlen) (hj : j < ylen) :
    vec_gen X x xlen Y y ylen out (i * ylen + j) = Y (y + j) * X (x + i) := by
  unfold vec_gen
  rw [(grid_fill_all (fun i j => Y (y + j) * X (x + i)) ylen xlen out).1 i j hj, if_pos hi]

/-- The accumulation loop of `pseudo_inverse` when the first `cnt` singular values pass
the threshold: the pointers `A` and `U` have advanced `cnt` times and `At` holds the sum of
the `cnt` scaled outer products. -/
theorem pseudo_inverse_step_spec {α : Type} [LinearOrderedField α] (A U s : Nat → α)
    (n m : Nat) (threshold : α) (cnt : Nat) (hs : ∀ k, k < cnt → s k > threshold) :
    (forUp (pseudo_inverse_step A U s n m threshold) 0 cnt (fun _ => 0, 0, 0)).2 =
      (cnt * m, cnt * n) ∧
    ∀ a b, a < m → b < n →
      (forUp (pseudo_inverse_step A U s n m threshold) 0 cnt (fun _ => 0, 0, 0)).1 (a * n + b) =
        ∑ k in Finset.range cnt, U (k * n + b) * A (k * m + a) * (1 / s k) := by
  induction cnt with
  | zero => exact ⟨by simp [forUp], fun a b _ _ => by simp [forUp]⟩
  | succ cnt ih =>
    obtain ⟨ih1, ih2⟩ := ih (fun k hk => hs k (by omega))
    rw [forUp_succ, Nat.zero_add]
    generalize forUp (pseudo_inverse_step A U s n m threshold) 0 cnt (fun _ => 0, 0, 0) = st
      at ih1 ih2
    obtain ⟨At, pa, pu⟩ := st
    simp only [Prod.mk.injEq] at ih1
    obtain ⟨rfl, rfl⟩ := ih1
    simp only at ih2
    unfold pseudo_inverse_step
    rw [if_pos (hs cnt (by omega))]
    refine ⟨by simp only [Prod.mk.injEq]; constructor <;> ring, fun a b ha hb => ?_⟩
    have hlt : a * n + b < n * m := by
      have h1 : (a + 1) * n ≤ m * n := Nat.mul_le_mul_right n ha
      have h2 : (a + 1) * n = a * n + n := by ring
      have h3 : m * n = n * m := Nat.mul_comm m n
      omega
    simp only
    rw [vec_axpy_cell, if_pos ⟨by omega, by omega⟩, Nat.sub_zero, Nat.zero_add,
      vec_gen_cell A (cnt * m) m U (cnt * n) n _ a b ha hb, Finset.sum_range_succ, ih2 a b ha hb]

end

section

/-! ## The branches of the main loop of `svd` -/

section

variable {α : Type} [LinearOrderedField α]

/-- A pass of the main loop that finds `e[pp-1]` negligible. -/
theorem svd_loop_negligible (sqrt : α → α) (n m fuel pp_1 : Nat) (st : SvdState α)
    (h : st.max_value + st.e pp_1 = st.max_value) :
    svd_loop sqrt n m (fuel + 1) (pp_1 + 1) st =
      svd_loop sqrt n m fuel pp_1
        { A := st.A, U := st.U, s := st.s, e := Function.update st.e pp_1 0, w := st.w,
          max_value := st.max_value } := by
  rw [svd_loop]
  simp only [if_pos h]

/-- A pass of the main loop that takes the branch "Split at negligible s(k)". -/
theorem svd_loop_split (sqrt : α → α) (n m fuel pp_1 : Nat) (st : SvdState α)
    (e1 : Nat → α) (k1 ks : Nat)
    (h : ¬ st.max_value + st.e pp_1 = st.max_value)
    (hk : svd_find_k st.max_value pp_1 st.e = (e1, k1))
    (hks : svd_find_ks st.max_value st.s k1 (pp_1 + 1 + 1 - k1) = some ks)
    (hne : ks ≠ pp_1 + 1) :
    svd_loop sqrt n m (fuel + 1) (pp_1 + 1) st =
      svd_loop sqrt n m fuel (pp_1 + 1)
        { A := (svd_split sqrt m ks (pp_1 + 1 + 1 - ks) ks (e1 ks)
            (st.A, Function.update st.s ks 0, Function.update e1 ks 0)).1,
          U := st.U,
          s := (svd_split sqrt m ks (pp_1 + 1 + 1 - ks) ks (e1 ks)
            (st.A, Function.update st.s ks 0, Function.update e1 ks 0)).2.1,
          e := (svd_split sqrt m ks (pp_1 + 1 + 1 - ks) ks (e1 ks)
            (st.A, Function.update st.s ks 0, Function.update e1 ks 0)).2.2,
          w := st.w, max_value := st.max_value } := by
  rw [svd_loop]
  simp only [if_neg h, Nat.add_sub_cancel, hk, hks, if_neg hne]

end

/-! ## `svd` and `pseudo_inverse` on `[[0, 0, 0], [1, 0, 0], [0, 1, 1]]` -/

/-- First split of the main loop on the prepared state (`ks = 1`, `pp = 2`): the rows of
`A` are unchanged, `s[1]` becomes `|e[1]| = 1` and `e[1]` becomes `0`. -/
theorem pinv_split1 (A s e : Nat → ℝ) (hs : s 2 = 1) (he1 : e 1 = 1) :
    (∀ z, (svd_split Real.sqrt 3 1 2 1 (e 1)
      (A, Function.update s 1 0, Function.update e 1 0)).1 z = A z) ∧
    ((svd_split Real.sqrt 3 1 2 1 (e 1)
      (A, Function.update s 1 0, Function.update e 1 0)).2.1 0 = s 0 ∧
     (svd_split Real.sqrt 3 1 2 1 (e 1)
      (A, Function.update s 1 0, Function.update e 1 0)).2.1 1 = 1 ∧
     (svd_split Real.sqrt 3 1 2 1 (e 1)
      (A, Function.update s 1 0, Function.update e 1 0)).2.1 2 = 1) ∧
    ((svd_split Real.sqrt 3 1 2 1 (e 1)
      (A, Function.update s 1 0, Function.update e 1 0)).2.2 0 = e 0 ∧
     (svd_split Real.sqrt 3 1 2 1 (e 1)
      (A, Function.update s 1 0, Function.update e 1 0)).2.2 1 = 0) := by
  have hrot : ∀ (B : Nat → ℝ) (c sn : ℝ) (z : Nat), vec_rot B 6 3 3 c sn z =
      if 6 ≤ z ∧ z < 6 + 3 then c * B z + sn * B (3 + (z - 6))
      else if 3 ≤ z ∧ z < 3 + 3 then c * B z - sn * B (6 + (z - 3))
      else B z := fun B c sn z => vec_rot_cell B 6 3 3 c sn (by omega) z
  refine ⟨fun z => ?_, ?_, ?_⟩
  · simp [svd_split, hypot, vec_rot_self, hrot, Function.update, hs, he1]
  · norm_num [svd_split, hypot, Function.update, hs, he1]
  · norm_num [svd_split, hypot, Function.update, hs, he1]

/-- Second split of the main loop (`ks = 0`, `pp = 1`): row `0` of `A` is negated, `s[0]`
becomes `|e[0]| = 1` and `e[0]` becomes `0`. -/
theorem pinv_split0 (A s e : Nat → ℝ) (hs : s 1 = 1) (he0 : e 0 = -1) :
    (∀ z, (svd_split Real.sqrt 3 0 2 0 (e 0)
      (A, Function.update s 0 0, Function.update e 0 0)).1 z = if z < 3 then -A z else A z) ∧
    ((svd_split Real.sqrt 3 0 2 0 (e 0)
      (A, Function.update s 0 0, Function.update e 0 0)).2.1 0 = 1 ∧
     (svd_split Real.sqrt 3 0 2 0 (e 0)
      (A, Function.update s 0 0, Function.update e 0 0)).2.1 1 = 1 ∧
     (svd_split Real.sqrt 3 0 2 0 (e 0)
      (A, Function.update s 0 0, Function.update e 0 0)).2.1 2 = s 2) ∧
    (svd_split Real.sqrt 3 0 2 0 (e 0)
      (A, Function.update s 0 0, Function.update e 0 0)).2.2 0 = 0 := by
  have hrot : ∀ (B : Nat → ℝ) (c sn : ℝ) (z : Nat), vec_rot B 3 3 0 c sn z =
      if 3 ≤ z ∧ z < 3 + 3 then c * B z + sn * B (0 + (z - 3))
      else if 0 ≤ z ∧ z < 0 + 3 then c * B z - sn * B (3 + (z - 0))
      else B z := fun B c sn z => vec_rot_cell B 3 3 0 c sn (by omega) z
  refine ⟨fun z => ?_, ?_, ?_⟩
  · by_cases hz : z < 3
    · simp [svd_split, hypot, vec_rot_self, hrot, Function.update, hs, he0, hz,
        show ¬ 3 ≤ z by omega]
    · simp [svd_split, hypot, vec_rot_self, hrot, Function.update, hs, he0, hz]
  · norm_num [svd_split, hypot, Function.update, hs, he0]
  · norm_num [svd_split, hypot, Function.update, hs, he0]


set_option maxHeartbeats 4000000 in
/-- The post-processing of `svd` on `s = [1, 1, 1]` changes nothing. -/
theorem pinv_post (A U s : Nat → ℝ) (hs : s 0 = 1 ∧ s 1 = 1 ∧ s 2 = 1) :
    svd_postprocess 3 3 (A, U, s) = (A, U, s) := by
  obtain ⟨s0, s1, s2⟩ := hs
  norm_num [svd_postprocess, svd_make_positive, svd_sort, svd_sort_step, max_element,
    max_element_from, forUp, s0, s1, s2]

end

section

/-- The main loop of `svd` on the prepared state of `[[0, 0, 0], [1, 0, 0], [0, 1, 1]]`:
four passes (split at `s[1]`, negligible `e[1]`, split at `s[0]`, negligible `e[0]`) end it
with `s = [1, 1, 1]`, row `0` of `A` negated and `U` unchanged. -/
theorem pinv_loop (st : SvdState ℝ) (fuel : Nat)
    (hs : st.s 0 = 0 ∧ st.s 1 = 0 ∧ st.s 2 = 1) (he : st.e 0 = -1 ∧ st.e 1 = 1)
    (hm : st.max_value = 2) :
    ∃ r, svd_loop Real.sqrt 3 3 (fuel + 4) 2 st = some r ∧
      (∀ z, r.A z = if z < 3 then -st.A z else st.A z) ∧ r.U = st.U ∧
      (r.s 0 = 1 ∧ r.s 1 = 1 ∧ r.s 2 = 1) := by
  obtain ⟨s0, s1, s2⟩ := hs
  obtain ⟨e0, e1⟩ := he
  -- pass 1
  have hk1 : svd_find_k st.max_value 1 st.e = (st.e, 0) := by
    norm_num [svd_find_k, hm, e0]
  have hks1 : svd_find_ks st.max_value st.s 0 (1 + 1 + 1 - 0) = some 1 := by
    norm_num [svd_find_ks, hm, s0, s1, s2]
  have p1 := svd_loop_split Real.sqrt 3 3 (fuel + 3) 1 st st.e 0 1
    (by rw [hm, e1]; norm_num) hk1 hks1 (by decide)
  obtain ⟨hA1, ⟨t0, t1, t2⟩, ⟨f0, f1⟩⟩ := pinv_split1 st.A st.s st.e s2 e1
  simp only [Nat.reduceAdd, Nat.reduceSub] at p1
  generalize svd_split Real.sqrt 3 1 2 1 (st.e 1)
    (st.A, Function.update st.s 1 0, Function.update st.e 1 0) = D1 at p1 hA1 t0 t1 t2 f0 f1
  -- pass 2
  have p2 := svd_loop_negligible Real.sqrt 3 3 (fuel + 2) 1
    { A := D1.1, U := st.U, s := D1.2.1, e := D1.2.2, w := st.w, max_value := st.max_value }
    (by simp only [f1, add_zero])
  simp only at p2
  -- pass 3
  have hk3 : svd_find_k st.max_value 0 (Function.update D1.2.2 1 0) =
      (Function.update D1.2.2 1 0, 0) := rfl
  have hks3 : svd_find_ks st.max_value D1.2.1 0 (0 + 1 + 1 - 0) = some 0 := by
    norm_num [svd_find_ks, hm, t0, t1, s0]
  have p3 := svd_loop_split Real.sqrt 3 3 (fuel + 1) 0
    { A := D1.1, U := st.U, s := D1.2.1, e := Function.update D1.2.2 1 0, w := st.w,
      max_value := st.max_value } (Function.update D1.2.2 1 0) 0 0
    (by simp only [Function.update, hm]; norm_num [f0, e0]) hk3 hks3 (by decide)
  have he3 : Function.update D1.2.2 1 0 0 = -1 := by
    simp [Function.update, f0, e0]
  obtain ⟨hA3, ⟨u0, u1, u2⟩, g0⟩ := pinv_split0 D1.1 D1.2.1 (Function.update D1.2.2 1 0) t1 he3
  simp only [Nat.reduceAdd, Nat.reduceSub] at p3
  generalize svd_split Real.sqrt 3 0 2 0 (Function.update D1.2.2 1 0 0)
    (D1.1, Function.update D1.2.1 0 0, Function.update (Function.update D1.2.2 1 0) 0 0) = D3
    at p3 hA3 u0 u1 u2 g0
  -- pass 4
  have p4 := svd_loop_negligible Real.sqrt 3 3 fuel 0
    { A := D3.1, U := st.U, s := D3.2.1, e := D3.2.2, w := st.w, max_value := st.max_value }
    (by simp only [g0, add_zero])
  simp only at p4
  have p5 : svd_loop Real.sqrt 3 3 fuel 0
      { A := D3.1, U := st.U, s := D3.2.1, e := Function.update D3.2.2 0 0, w := st.w,
        max_value := st.max_value } =
      some ({ A := D3.1, U := st.U, s := D3.2.1, e := Function.update D3.2.2 0 0, w := st.w,
              max_value := st.max_value } : SvdState ℝ) := by
    cases fuel <;> rfl
  refine ⟨{ A := D3.1, U := st.U, s := D3.2.1, e := Function.update D3.2.2 0 0, w := st.w,
            max_value := st.max_value }, ?_, ?_, rfl, ?_⟩
  · rw [show fuel + 4 = fuel + 3 + 1 from rfl, p1, show fuel + 3 = fuel + 2 + 1 from rfl, p2,
      show fuel + 2 = fuel + 1 + 1 from rfl, p3, p4, p5]
  · intro z
    show D3.1 z = _
    rw [hA3 z, hA1 z]
  · exact ⟨u0, u1, u2.trans t2⟩

/-- The factors returned by `svd` on `[[0, 0, 0], [1, 0, 0], [0, 1, 1]]` (singular values
`√2`, `1`, `0`): `s = [1, 1, 1]`, `A_out = diag(-1, 1, 1)`, `U = diag(1, -1, 1)`. -/
theorem svd_sample_three (fuel : Nat) (A U s : Nat → ℝ)
    (hA : A 0 = 0 ∧ A 1 = 0 ∧ A 2 = 0 ∧ A 3 = 1 ∧ A 4 = 0 ∧ A 5 = 0 ∧
      A 6 = 0 ∧ A 7 = 1 ∧ A 8 = 1) :
    ∃ r, svd Real.sqrt (fuel + 4) A U s 3 3 = some r ∧
      (r.1 0 = -1 ∧ r.1 1 = 0 ∧ r.1 2 = 0 ∧ r.1 3 = 0 ∧ r.1 4 = 1 ∧ r.1 5 = 0 ∧
        r.1 6 = 0 ∧ r.1 7 = 0 ∧ r.1 8 = 1) ∧
      (r.2.1 0 = 1 ∧ r.2.1 1 = 0 ∧ r.2.1 2 = 0 ∧ r.2.1 3 = 0 ∧ r.2.1 4 = -1 ∧ r.2.1 5 = 0 ∧
        r.2.1 6 = 0 ∧ r.2.1 7 = 0 ∧ r.2.1 8 = 1) ∧
      (r.2.2 0 = 1 ∧ r.2.2 1 = 1 ∧ r.2.2 2 = 1) := by
  obtain ⟨hA0, hs0, he0, hU0, hm0⟩ := pinv_bidiag0
    { A := A, U := U, s := s, e := fun _ => 0, w := fun _ => 0, max_value := 1 / 2 ^ 52 } hA rfl
  obtain ⟨hA1, hs1, he1, hU1, hm1⟩ := pinv_bidiag1 _ hA0 hs0 he0 hU0 hm0
  have hprep := svd_prepare_three Real.sqrt A U s _ rfl
  obtain ⟨⟨a0, a1, a2, a3, a4, a5, a6, a7, a8⟩, ⟨u0, u1, u2, u3, u4, u5, u6, u7, u8⟩, hs, he, hm⟩ :=
    pinv_generate _ hA1 hs1 he1 hU1 hm1 _ hprep
  obtain ⟨r, hr, hrA, hrU, hrs⟩ := pinv_loop (svd_prepare Real.sqrt A U s 3 3) fuel hs he hm
  have hsvd : svd Real.sqrt (fuel + 4) A U s 3 3 = some (r.A, r.U, r.s) := by
    simp only [svd]
    rw [if_neg (by decide), if_neg (by decide), show 3 - 1 = 2 from rfl, hr]
    simp only
    rw [pinv_post r.A r.U r.s hrs]
  refine ⟨_, hsvd, ?_, ?_, hrs⟩
  · simp only [hrA, a0, a1, a2, a3, a4, a5, a6, a7, a8]
    norm_num
  · simp only [hrU]
    exact ⟨u0, u1, u2, u3, u4, u5, u6, u7, u8⟩

end

section

/-- C21: on the 3-by-3 matrix `A = [[0, 0, 0], [1, 0, 0], [0, 1, 1]]` (rank 2) and every
`epsilon` below `1/3`, `pseudo_inverse(A, P, dim)` writes `P = diag(-1, -1, 1)` as soon as
the main loop of `svd` is given four passes, and `A * P * A` is
`[[0, 0, 0], [0, 0, 0], [-1, 1, 1]]`, which differs from `A` by `1` in three entries: the
Moore-Penrose condition `A * P * A = A` fails. -/
theorem pseudo_inverse_zero_row (fuel : Nat) (eps : ℝ) (heps : eps * 3 < 1) (Abuf : Nat → ℝ) :
    ∃ P, pseudo_inverse Real.sqrt eps (fuel + 4) (ofList [0, 0, 0, 1, 0, 0, 0, 1, 1]) Abuf 3 3 =
        some P ∧
      rowMajor P 3 3 = rowMajor (ofList [-1, 0, 0, 0, -1, 0, 0, 0, 1]) 3 3 ∧
      rowMajor (ofList [0, 0, 0, 1, 0, 0, 0, 1, 1]) 3 3 * rowMajor P 3 3 *
          rowMajor (ofList [0, 0, 0, 1, 0, 0, 0, 1, 1]) 3 3 =
        rowMajor (ofList [0, 0, 0, 0, 0, 0, -1, 1, 1]) 3 3 ∧
      rowMajor (ofList [0, 0, 0, 0, 0, 0, -1, 1, 1] : Nat → ℝ) 3 3 ≠
        rowMajor (ofList [0, 0, 0, 1, 0, 0, 0, 1, 1]) 3 3 := by
  have hA0 : ∀ i, i < 9 → copy_range (ofList [0, 0, 0, 1, 0, 0, 0, 1, 1] : Nat → ℝ) 0 (3 * 3)
      Abuf 0 i = (ofList [0, 0, 0, 1, 0, 0, 0, 1, 1] : Nat → ℝ) i := by
    intro i hi
    rw [copy_range_cell, if_pos ⟨by omega, by omega⟩, Nat.zero_add, Nat.sub_zero]
  obtain ⟨r, hr, ⟨a0, a1, a2, a3, a4, a5, a6, a7, a8⟩, ⟨u0, u1, u2, u3, u4, u5, u6, u7, u8⟩,
      s0, s1, s2⟩ :=
    svd_sample_three fuel
      (copy_range (ofList [0, 0, 0, 1, 0, 0, 0, 1, 1] : Nat → ℝ) 0 (3 * 3) Abuf 0)
      (fun _ => 0) (fun _ => 0)
      ⟨by rw [hA0 0 (by omega)]; simp [ofList], by rw [hA0 1 (by omega)]; simp [ofList],
       by rw [hA0 2 (by omega)]; simp [ofList], by rw [hA0 3 (by omega)]; simp [ofList],
       by rw [hA0 4 (by omega)]; simp [ofList], by rw [hA0 5 (by omega)]; simp [ofList],
       by rw [hA0 6 (by omega)]; simp [ofList], by rw [hA0 7 (by omega)]; simp [ofList],
       by rw [hA0 8 (by omega)]; simp [ofList]⟩
  have hthr : ∀ k, k < 3 → r.2.2 k > eps * ((3 : Nat) : ℝ) * r.2.2 0 := by
    intro k hk
    have hk1 : r.2.2 k = 1 := by
      interval_cases k
      · exact s0
      · exact s1
      · exact s2
    rw [hk1, s0]
    simpa using heps
  obtain ⟨-, hP⟩ := pseudo_inverse_step_spec r.1 r.2.1 r.2.2 3 3
    (eps * ((3 : Nat) : ℝ) * r.2.2 0) 3 hthr
  have hpinv : pseudo_inverse Real.sqrt eps (fuel + 4) (ofList [0, 0, 0, 1, 0, 0, 0, 1, 1])
      Abuf 3 3 = some (copy_range (forUp (pseudo_inverse_step r.1 r.2.1 r.2.2 3 3
        (eps * ((3 : Nat) : ℝ) * r.2.2 0)) 0 3 (fun _ => 0, 0, 0)).1 0 (3 * 3) r.1 0) := by
    simp only [pseudo_inverse]
    rw [if_neg (by decide), hr]
  have hcell : ∀ a b, a < 3 → b < 3 →
      copy_range (forUp (pseudo_inverse_step r.1 r.2.1 r.2.2 3 3
        (eps * ((3 : Nat) : ℝ) * r.2.2 0)) 0 3 (fun _ => 0, 0, 0)).1 0 (3 * 3) r.1 0 (a * 3 + b) =
      ∑ k in Finset.range 3, r.2.1 (k * 3 + b) * r.1 (k * 3 + a) * (1 / r.2.2 k) := by
    intro a b ha hb
    rw [copy_range_cell, if_pos ⟨by omega, by omega⟩, Nat.zero_add, Nat.sub_zero, hP a b ha hb]
  have hPm : rowMajor (copy_range (forUp (pseudo_inverse_step r.1 r.2.1 r.2.2 3 3
        (eps * ((3 : Nat) : ℝ) * r.2.2 0)) 0 3 (fun _ => 0, 0, 0)).1 0 (3 * 3) r.1 0) 3 3 =
      rowMajor (ofList [-1, 0, 0, 0, -1, 0, 0, 0, 1]) 3 3 := by
    ext i j
    show copy_range _ 0 (3 * 3) r.1 0 (i.val * 3 + j.val) = _
    rw [hcell _ _ i.isLt j.isLt]
    fin_cases i <;> fin_cases j <;>
      simp [Finset.sum_range_succ, rowMajor, ofList, a0, a1, a2, a3, a4, a5, a6, a7, a8,
        u0, u1, u2, u3, u4, u5, u6, u7, u8, s0, s1, s2]
  refine ⟨_, hpinv, hPm, ?_, ?_⟩
  · rw [hPm]
    ext i j
    fin_cases i <;> fin_cases j <;>
      simp [Matrix.mul_apply, Fin.sum_univ_three, rowMajor, ofList]
  · intro h
    have := congrFun (congrFun h 1) 0
    simp [rowMajor, ofList] at this

theorem pseudo_inverse_zero_row_witness :
    (1 / 2 ^ 52 : ℝ) * 3 < 1 ∧
    ∃ P, pseudo_inverse Real.sqrt (1 / 2 ^ 52) (0 + 4) (ofList [0, 0, 0, 1, 0, 0, 0, 1, 1])
          (fun _ => 0) 3 3 = some P ∧
      rowMajor P 3 3 = rowMajor (ofList [-1, 0, 0, 0, -1, 0, 0, 0, 1]) 3 3 ∧
      rowMajor (ofList [0, 0, 0, 1, 0, 0, 0, 1, 1]) 3 3 * rowMajor P 3 3 *
          rowMajor (ofList [0, 0, 0, 1, 0, 0, 0, 1, 1]) 3 3 =
        rowMajor (ofList [0, 0, 0, 0, 0, 0, -1, 1, 1]) 3 3 ∧
      rowMajor (ofList [0, 0, 0, 0, 0, 0, -1, 1, 1] : Nat → ℝ) 3 3 ≠
        rowMajor (ofList [0, 0, 0, 1, 0, 0, 0, 1, 1]) 3 3 :=
  ⟨by norm_num, pseudo_inverse_zero_row 0 (1 / 2 ^ 52) (by norm_num) (fun _ => 0)⟩

end

section

/-! ## Algebra of one QR step on a 3-by-3 bidiagonal block -/

end

section

end

section

variable {α : Type} [LinearOrderedField α]

end

section

/-! ## `svd` on a lower bidiagonal 3-by-3 matrix -/

end

section

variable {α : Type} [LinearOrderedField α]

end

section

variable {α : Type} [LinearOrderedField α]

/-- The general `inverse` returns `false` only when `lu_decomposition` fails. -/
theorem inverse_false_lu (A : Nat → α) (n : Nat) (h : (inverse A n n).1 = false) :
    (lu_decomposition A (fun _ => 0) n n).1 = false := by
  rcases Nat.eq_zero_or_pos n with rfl | hn
  · simp [inverse, lu_decomposition, lu_loop, forUp] at h
  · by_contra hlu
    have hlu1 : (lu_decomposition A (fun _ => 0) n n).1 = true := by
      simpa using hlu
    have := (inverse_of_lu_true A n hn hlu1).1
    rw [h] at this
    exact Bool.false_ne_true this

/-- C36: whenever a closed-form `inverse` overload (`dim<1,1>`, `dim<2,2>`, `dim<3,3>`,
in-place or out-of-place) returns `false`, the buffer it would have written (the input
buffer of the in-place forms, `out` of the out-of-place forms, which never write the
input) is exactly as it was; the LU-based `inverse` returns its buffer unchanged when
`lu_decomposition` fails, and that is the only way in which it returns `false`. -/
theorem inverse_false_frame (iter out A : Nat → α) (n : Nat) :
    ((inverse_1_1 iter).1 = false → (inverse_1_1 iter).2 = iter) ∧
    ((inverse_2_2 iter).1 = false → (inverse_2_2 iter).2 = iter) ∧
    ((inverse_2_2_out iter out).1 = false → (inverse_2_2_out iter out).2 = out) ∧
    ((inverse_3_3 iter).1 = false → (inverse_3_3 iter).2 = iter) ∧
    ((inverse_3_3_out iter out).1 = false → (inverse_3_3_out iter out).2 = out) ∧
    ((lu_decomposition A (fun _ => 0) n n).1 = false → inverse A n n = (false, A)) ∧
    ((inverse A n n).1 = false → (inverse A n n).2 = A) := by
  refine ⟨?_, ?_, ?_, ?_, ?_, inverse_of_lu_false A n, ?_⟩
  · unfold inverse_1_1
    split_ifs with h
    · intro _; rfl
    · intro h1; exact absurd h1 (by simp)
  · unfold inverse_2_2
    simp only
    split_ifs with h
    · intro _; rfl
    · intro h1; exact absurd h1 (by simp)
  · unfold inverse_2_2_out
    simp only
    split_ifs with h
    · intro _; rfl
    · intro h1; exact absurd h1 (by simp)
  · unfold inverse_3_3
    simp only
    split_ifs with h
    · intro _; rfl
    · intro h1; exact absurd h1 (by simp)
  · unfold inverse_3_3_out
    simp only
    split_ifs with h
    · intro _; rfl
    · intro h1; exact absurd h1 (by simp)
  · intro h
    rw [inverse_of_lu_false A n (inverse_false_lu A n h)]

theorem inverse_false_frame_witness :
    (inverse_2_2 (ofList [0, 1, 0, 1] : Nat → ℚ)).1 = false ∧
    (inverse_2_2 (ofList [0, 1, 0, 1] : Nat → ℚ)).2 = ofList [0, 1, 0, 1] ∧
    (inverse (ofList [0, 1, 0, 1] : Nat → ℚ) 2 2).1 = false ∧
    (inverse (ofList [0, 1, 0, 1] : Nat → ℚ) 2 2).2 = ofList [0, 1, 0, 1] := by
  have h1 : (inverse_2_2 (ofList [0, 1, 0, 1] : Nat → ℚ)).1 = false := by
    norm_num [inverse_2_2, determinant_2_2, ofList]
  have h2 : (lu_decomposition (ofList [0, 1, 0, 1] : Nat → ℚ) (fun _ => 0) 2 2).1 = false := by
    norm_num [lu_decomposition, lu_loop, lu_pivot_search, forUp, ofList]
  have h := inverse_false_frame (ofList [0, 1, 0, 1] : Nat → ℚ) (fun _ => 0)
    (ofList [0, 1, 0, 1] : Nat → ℚ) 2
  have h3 := h.2.2.2.2.2.1 h2
  exact ⟨h1, h.2.1 h1, by rw [h3], by rw [h3]⟩

/-- C40: with more rows than columns (`n > m`), `svd(A, U, s, dim)` and
`pseudo_inverse(A_in, A_out, dim)` return at once, whatever the number of passes allowed
to the main loop: the result is the buffers `A`, `U`, `s`, respectively `A_out`, as they
were on entry, and nothing else is produced. -/
theorem svd_rows_gt_cols_frame (sqrt : α → α) (eps : α) (fuel : Nat)
    (A U s A_in A_out : Nat → α) (n m : Nat) (h : n > m) :
    svd sqrt fuel A U s n m = some (A, U, s) ∧
    pseudo_inverse sqrt eps fuel A_in A_out n m = some A_out := by
  constructor
  · unfold svd
    rw [if_pos h]
  · unfold pseudo_inverse
    simp only [if_pos h]

theorem svd_rows_gt_cols_frame_witness :
    3 > 2 ∧
    svd (fun x : ℚ => x) 0 (ofList [1, 2, 3, 4, 5, 6]) (ofList [7]) (ofList [8]) 3 2 =
      some (ofList [1, 2, 3, 4, 5, 6], ofList [7], ofList [8]) ∧
    pseudo_inverse (fun x : ℚ => x) (1 / 2 ^ 52) 0 (ofList [1, 2, 3, 4, 5, 6]) (ofList [9]) 3 2 =
      some (ofList [9]) :=
  ⟨by decide, svd_rows_gt_cols_frame (fun x : ℚ => x) (1 / 2 ^ 52) 0 (ofList [1, 2, 3, 4, 5, 6])
    (ofList [7]) (ofList [8]) (ofList [1, 2, 3, 4, 5, 6]) (ofList [9]) 3 2 (by decide)⟩

end

section

variable {α : Type} [LinearOrderedField α]

theorem sum_skip_erase (f : Nat → α) (n i : Nat) :
    (∑ j in Finset.range n, if j = i then 0 else f j) = ∑ j in (Finset.range n).erase i, f j := by
  rw [← Finset.sum_erase (Finset.range n) (show (if i = i then (0 : α) else f i) = 0 by simp)]
  refine Finset.sum_congr rfl (fun j hj => ?_)
  rw [if_neg (Finset.ne_of_mem_erase hj)]

/-- Row `i` of the sweep: after the first `c` columns, `x[i]` holds `b[i]` minus the
products of the other columns, and `scale` is the diagonal entry once column `i` is passed. -/
theorem jacobi_row_aux (A b : Nat → α) (n i : Nat) (x : Nat → α) (c : Nat) :
    forUp (fun j (st : (Nat → α) × α) =>
      if i ≠ j then (Function.update st.1 i (st.1 i - A (i * n + j) * b j), st.2)
      else (st.1, A (i * n + j))) 0 c (Function.update x i (b i), 0) =
    (Function.update x i (b i - ∑ j in Finset.range c, if j = i then 0 else A (i * n + j) * b j),
      if i < c then A (i * n + i) else 0) := by
  induction c with
  | zero => simp [forUp_zero]
  | succ c ih =>
    rw [forUp_succ, ih, Nat.zero_add, Finset.sum_range_succ]
    by_cases h : i = c
    · subst h
      simp
    · have h1 : c ≠ i := fun e => h e.symm
      simp only [ne_eq, h, not_false_eq_true, if_true, Function.update_same,
        Function.update_idem, if_neg h1]
      congr 1
      · rw [sub_sub]
      · by_cases h2 : i < c
        · rw [if_pos h2, if_pos (by omega)]
        · rw [if_neg h2, if_neg (by omega)]

theorem jacobi_row_spec (A b : Nat → α) (n i : Nat) (hi : i < n) (x : Nat → α) :
    jacobi_row A b n i x =
      (Function.update x i (b i - ∑ j in (Finset.range n).erase i, A (i * n + j) * b j),
        A (i * n + i)) := by
  unfold jacobi_row
  rw [jacobi_row_aux, if_pos hi, sum_skip_erase]

theorem jacobi_loop_spec (A b : Nat → α) (n : Nat) :
    ∀ (cnt i : Nat) (x : Nat → α), i + cnt ≤ n →
      ((jacobi_loop A b n cnt i x).1 = false ↔ ∃ k, i ≤ k ∧ k < i + cnt ∧ A (k * n + k) = 0) ∧
      ((jacobi_loop A b n cnt i x).1 = true →
        ∀ k, (jacobi_loop A b n cnt i x).2 k =
          if i ≤ k ∧ k < i + cnt then
            (b k - ∑ j in (Finset.range n).erase k, A (k * n + j) * b j) / A (k * n + k)
          else x k) := by
  intro cnt
  induction cnt with
  | zero =>
    intro i x _
    refine ⟨⟨fun h => by simp [jacobi_loop] at h, fun ⟨k, h1, h2, _⟩ => by omega⟩, ?_⟩
    intro _ k
    rw [if_neg (by omega)]
    rfl
  | succ cnt ih =>
    intro i x hle
    have hi : i < n := by omega
    have e : jacobi_loop A b n (cnt + 1) i x =
        if A (i * n + i) = 0 then (false, (jacobi_row A b n i x).1)
        else jacobi_loop A b n cnt (i + 1)
          (Function.update (jacobi_row A b n i x).1 i
            ((jacobi_row A b n i x).1 i / (jacobi_row A b n i x).2)) := by
      show (if (jacobi_row A b n i x).2 = 0 then _ else _) = _
      rw [jacobi_row_spec A b n i hi x]
    rw [e]
    by_cases h0 : A (i * n + i) = 0
    · rw [if_pos h0]
      exact ⟨⟨fun _ => ⟨i, le_refl _, by omega, h0⟩, fun _ => rfl⟩, fun h => by simp at h⟩
    · rw [if_neg h0]
      obtain ⟨ih1, ih2⟩ := ih (i + 1) (Function.update (jacobi_row A b n i x).1 i
            ((jacobi_row A b n i x).1 i / (jacobi_row A b n i x).2)) (by omega)
      constructor
      · rw [ih1]
        constructor
        · rintro ⟨k, h1, h2, h3⟩
          exact ⟨k, by omega, by omega, h3⟩
        · rintro ⟨k, h1, h2, h3⟩
          have : k ≠ i := fun e => h0 (e ▸ h3)
          exact ⟨k, by omega, by omega, h3⟩
      · intro ht k
        rw [ih2 ht k]
        by_cases hk : i + 1 ≤ k ∧ k < i + 1 + cnt
        · rw [if_pos hk, if_pos (by omega)]
        · rw [if_neg hk]
          by_cases hki : k = i
          · subst hki
            rw [if_pos (by omega), Function.update_same, jacobi_row_spec A b n k hi x]
            simp only [Function.update_same]
          · rw [if_neg (by omega), Function.update_noteq hki, jacobi_row_spec A b n i hi x]
            simp only [Function.update_noteq hki]

/-- C31: the non-pivoted `jacobi_solve(A, b, x, dim)` on an `n × n` matrix performs one
Jacobi sweep from the guess `b`: it returns `false` exactly when some diagonal entry
`A[i][i]` is `0`; otherwise `x[i] = (b[i] - Σ_{j ≠ i} A[i][j] * b[j]) / A[i][i]` for every
`i < n` and `x` is untouched from index `n` on; and when `A` is diagonal with non-zero
diagonal it returns `true` with `A * x = b`. -/
theorem jacobi_solve_correct (A b x : Nat → α) (n : Nat) :
    ((jacobi_solve A b x n n).1 = false ↔ ∃ i, i < n ∧ A (i * n + i) = 0) ∧
    ((jacobi_solve A b x n n).1 = true →
      (∀ i, i < n → (jacobi_solve A b x n n).2 i =
        (b i - ∑ j in (Finset.range n).erase i, A (i * n + j) * b j) / A (i * n + i)) ∧
      (∀ i, n ≤ i → (jacobi_solve A b x n n).2 i = x i)) ∧
    ((∀ i j, i < n → j < n → i ≠ j → A (i * n + j) = 0) → (∀ i, i < n → A (i * n + i) ≠ 0) →
      (jacobi_solve A b x n n).1 = true ∧
      (rowMajor A n n).mulVec (vecOf (jacobi_solve A b x n n).2 n) = vecOf b n) := by
  obtain ⟨h1, h2⟩ := jacobi_loop_spec A b n n 0 x (by omega)
  have hf : (jacobi_solve A b x n n).1 = false ↔ ∃ i, i < n ∧ A (i * n + i) = 0 := by
    unfold jacobi_solve
    rw [h1]
    constructor
    · rintro ⟨k, _, hk, h0⟩
      exact ⟨k, by omega, h0⟩
    · rintro ⟨k, hk, h0⟩
      exact ⟨k, Nat.zero_le _, by omega, h0⟩
  refine ⟨hf, ?_, ?_⟩
  · intro ht
    constructor
    · intro i hi
      unfold jacobi_solve at ht ⊢
      rw [h2 ht i, if_pos (by omega)]
    · intro i hi
      unfold jacobi_solve at ht ⊢
      rw [h2 ht i, if_neg (by omega)]
  · intro hoff hdiag
    have ht : (jacobi_solve A b x n n).1 = true := by
      by_contra hne
      have hfalse : (jacobi_solve A b x n n).1 = false := by simpa using hne
      obtain ⟨i, hi, h0⟩ := hf.mp hfalse
      exact hdiag i hi h0
    refine ⟨ht, ?_⟩
    have hx : ∀ i, i < n → (jacobi_solve A b x n n).2 i = b i / A (i * n + i) := by
      intro i hi
      unfold jacobi_solve at ht ⊢
      rw [h2 ht i, if_pos (by omega)]
      have hs : ∑ j in (Finset.range n).erase i, A (i * n + j) * b j = 0 := by
        refine Finset.sum_eq_zero (fun j hj => ?_)
        have hj1 := Finset.ne_of_mem_erase hj
        have hj2 := Finset.mem_range.mp (Finset.mem_of_mem_erase hj)
        rw [hoff i j hi hj2 (fun e => hj1 e.symm), zero_mul]
      rw [hs, sub_zero]
    funext i
    simp only [Matrix.mulVec, Matrix.dotProduct, rowMajor, vecOf]
    rw [Finset.sum_eq_single i]
    · rw [hx i.val i.2]
      field_simp [hdiag i.val i.2]
    · intro j _ hji
      have hne : i.val ≠ j.val := fun e => hji (Fin.ext e.symm)
      rw [hoff i.val j.val i.2 j.2 hne, zero_mul]
    · intro h
      exact absurd (Finset.mem_univ i) h

theorem jacobi_solve_correct_witness :
    (jacobi_solve (ofList [2, 0, 0, 4] : Nat → ℚ) (ofList [6, 2]) (fun _ => 0) 2 2).1 = true ∧
    (rowMajor (ofList [2, 0, 0, 4] : Nat → ℚ) 2 2).mulVec
      (vecOf (jacobi_solve (ofList [2, 0, 0, 4] : Nat → ℚ) (ofList [6, 2]) (fun _ => 0) 2 2).2 2) =
      vecOf (ofList [6, 2]) 2 := by
  refine (jacobi_solve_correct (ofList [2, 0, 0, 4] : Nat → ℚ) (ofList [6, 2])
    (fun _ => 0) 2).2.2 ?_ ?_
  · intro i j hi hj hij
    interval_cases i <;> interval_cases j <;> simp_all [ofList]
  · intro i hi
    interval_cases i <;> norm_num [ofList]

end

section

variable {α : Type} [LinearOrderedField α]

/-- The values written by the `dim<2,2>` solver in its general branch. -/
theorem eigen_2_2_values (sqrt : α → α) (A V d : Nat → α) (hb : A 1 ≠ 0) :
    ∃ t l1 l2 d0 d1 : α,
      t = sqrt ((A 0 - A 3) * (A 0 - A 3) + 4 * (A 1 * A 1)) ∧
      d0 = (A 0 + A 3 + t) * (1 / 2) ∧ d1 = d0 - t ∧
      l1 = sqrt (A 1 * A 1 + (A 0 - d0) * (A 0 - d0)) ∧
      l2 = sqrt (A 1 * A 1 + (A 0 - d1) * (A 0 - d1)) ∧
      (eigen_decomposition_sym_2_2 sqrt A V d).2 0 = d0 ∧
      (eigen_decomposition_sym_2_2 sqrt A V d).2 1 = d1 ∧
      (eigen_decomposition_sym_2_2 sqrt A V d).1 0 = -A 1 / l1 ∧
      (eigen_decomposition_sym_2_2 sqrt A V d).1 2 = (A 0 - d0) / l1 ∧
      (eigen_decomposition_sym_2_2 sqrt A V d).1 1 = -A 1 / l2 ∧
      (eigen_decomposition_sym_2_2 sqrt A V d).1 3 = (A 0 - d1) / l2 := by
  have hb1 : ¬ (A 1 + 1 = 1) := fun h => hb (by linarith)
  refine ⟨_, _, _, _, _, rfl, rfl, rfl, rfl, rfl, ?_, ?_, ?_, ?_, ?_, ?_⟩ <;>
    norm_num [eigen_decomposition_sym_2_2, hb1, Function.update]

/-- An eigenpair of a symmetric 2-by-2 matrix in the form computed by the solver. -/
theorem eigen_2_2_pair (a b c dd l : α) (hl : l * l = b * b + (a - dd) * (a - dd))
    (hln : l ≠ 0) (hc : (a - dd) * (c - dd) = b * b) :
    a * (-b / l) + b * ((a - dd) / l) = dd * (-b / l) ∧
    b * (-b / l) + c * ((a - dd) / l) = dd * ((a - dd) / l) ∧
    (-b / l) ^ 2 + ((a - dd) / l) ^ 2 = 1 := by
  refine ⟨by ring, ?_, ?_⟩
  · have e : b * (-b / l) + c * ((a - dd) / l) - dd * ((a - dd) / l) =
        ((a - dd) * (c - dd) - b * b) / l := by ring
    rw [hc, sub_self, zero_div] at e
    exact sub_eq_zero.mp e
  · have e : (-b / l) ^ 2 + ((a - dd) / l) ^ 2 = (b * b + (a - dd) * (a - dd)) / (l * l) := by
      field_simp
      ring
    rw [e, ← hl, div_self (mul_ne_zero hln hln)]

/-- C32: for a symmetric 2-by-2 matrix the `d` returned by the `dim<2,2>` overload of
`eigen_decomposition_sym` are the two roots of the characteristic polynomial
(`d[0] + d[1] = A[0] + A[3]`, `d[0] * d[1] = A[0] * A[3] - A[1]^2`), and when
`A[1] ≠ 0` the vectors `(V[0], V[2])` and `(V[1], V[3])` are eigenvectors of `A` of
length one for `d[0]` and `d[1]`. -/
theorem eigen_2_2_roots (sqrt : α → α)
    (hs : ∀ x, 0 ≤ x → 0 ≤ sqrt x ∧ sqrt x * sqrt x = x) (A V d : Nat → α)
    (hsym : A 2 = A 1) :
    (eigen_decomposition_sym_2_2 sqrt A V d).2 0 + (eigen_decomposition_sym_2_2 sqrt A V d).2 1 =
      A 0 + A 3 ∧
    (eigen_decomposition_sym_2_2 sqrt A V d).2 0 * (eigen_decomposition_sym_2_2 sqrt A V d).2 1 =
      A 0 * A 3 - A 1 ^ 2 ∧
    (A 1 ≠ 0 →
      (A 0 * (eigen_decomposition_sym_2_2 sqrt A V d).1 0 +
          A 1 * (eigen_decomposition_sym_2_2 sqrt A V d).1 2 =
        (eigen_decomposition_sym_2_2 sqrt A V d).2 0 * (eigen_decomposition_sym_2_2 sqrt A V d).1 0 ∧
       A 2 * (eigen_decomposition_sym_2_2 sqrt A V d).1 0 +
          A 3 * (eigen_decomposition_sym_2_2 sqrt A V d).1 2 =
        (eigen_decomposition_sym_2_2 sqrt A V d).2 0 * (eigen_decomposition_sym_2_2 sqrt A V d).1 2 ∧
       (eigen_decomposition_sym_2_2 sqrt A V d).1 0 ^ 2 +
          (eigen_decomposition_sym_2_2 sqrt A V d).1 2 ^ 2 = 1) ∧
      (A 0 * (eigen_decomposition_sym_2_2 sqrt A V d).1 1 +
          A 1 * (eigen_decomposition_sym_2_2 sqrt A V d).1 3 =
        (eigen_decomposition_sym_2_2 sqrt A V d).2 1 * (eigen_decomposition_sym_2_2 sqrt A V d).1 1 ∧
       A 2 * (eigen_decomposition_sym_2_2 sqrt A V d).1 1 +
          A 3 * (eigen_decomposition_sym_2_2 sqrt A V d).1 3 =
        (eigen_decomposition_sym_2_2 sqrt A V d).2 1 * (eigen_decomposition_sym_2_2 sqrt A V d).1 3 ∧
       (eigen_decomposition_sym_2_2 sqrt A V d).1 1 ^ 2 +
          (eigen_decomposition_sym_2_2 sqrt A V d).1 3 ^ 2 = 1)) := by
  by_cases hb : A 1 = 0
  · have hb1 : A 1 + 1 = 1 := by rw [hb, zero_add]
    refine ⟨?_, ?_, fun h => absurd hb h⟩
    · norm_num [eigen_decomposition_sym_2_2, hb1, Function.update]
    · norm_num [eigen_decomposition_sym_2_2, hb1, Function.update, hb]
  · obtain ⟨t, l1, l2, d0, d1, ht, hd0, hd1, hl1, hl2, e0, e1, v0, v2, v1, v3⟩ :=
      eigen_2_2_values sqrt A V d hb
    rw [e0, e1, v0, v1, v2, v3, hsym]
    have hb2 : 0 < A 1 * A 1 := mul_self_pos.mpr hb
    have htt : t * t = (A 0 - A 3) * (A 0 - A 3) + 4 * (A 1 * A 1) := by
      rw [ht]
      exact (hs _ (by nlinarith [mul_self_nonneg (A 0 - A 3)])).2
    have hl1p : 0 < A 1 * A 1 + (A 0 - d0) * (A 0 - d0) := by
      nlinarith [mul_self_nonneg (A 0 - d0)]
    have hl2p : 0 < A 1 * A 1 + (A 0 - d1) * (A 0 - d1) := by
      nlinarith [mul_self_nonneg (A 0 - d1)]
    have hl11 : l1 * l1 = A 1 * A 1 + (A 0 - d0) * (A 0 - d0) := by
      rw [hl1]
      exact (hs _ hl1p.le).2
    have hl22 : l2 * l2 = A 1 * A 1 + (A 0 - d1) * (A 0 - d1) := by
      rw [hl2]
      exact (hs _ hl2p.le).2
    have hl1n : l1 ≠ 0 := by
      intro h
      rw [h, zero_mul] at hl11
      exact absurd hl11 (ne_of_lt hl1p)
    have hl2n : l2 ≠ 0 := by
      intro h
      rw [h, zero_mul] at hl22
      exact absurd hl22 (ne_of_lt hl2p)
    have hc0 : (A 0 - d0) * (A 3 - d0) = A 1 * A 1 := by
      rw [hd0]
      linear_combination (1 / 4 : α) * htt
    have hc1 : (A 0 - d1) * (A 3 - d1) = A 1 * A 1 := by
      rw [hd1, hd0]
      linear_combination (1 / 4 : α) * htt
    refine ⟨?_, ?_, fun _ => ⟨eigen_2_2_pair _ _ _ _ _ hl11 hl1n hc0,
      eigen_2_2_pair _ _ _ _ _ hl22 hl2n hc1⟩⟩
    · rw [hd1, hd0]
      ring
    · rw [hd1, hd0]
      linear_combination (-1 / 4 : α) * htt

theorem eigen_2_2_roots_witness :
    (ofList [2, 1, 1, 2] : Nat → ℝ) 2 = (ofList [2, 1, 1, 2] : Nat → ℝ) 1 ∧
    (eigen_decomposition_sym_2_2 Real.sqrt (ofList [2, 1, 1, 2]) (fun _ => 0) (fun _ => 0)).2 0 +
      (eigen_decomposition_sym_2_2 Real.sqrt (ofList [2, 1, 1, 2]) (fun _ => 0) (fun _ => 0)).2 1 =
      (ofList [2, 1, 1, 2] : Nat → ℝ) 0 + (ofList [2, 1, 1, 2] : Nat → ℝ) 3 :=
  ⟨by simp [ofList],
   (eigen_2_2_roots Real.sqrt (fun x hx => ⟨Real.sqrt_nonneg x, Real.mul_self_sqrt hx⟩)
    (ofList [2, 1, 1, 2]) (fun _ => 0) (fun _ => 0) (by simp [ofList])).1⟩

end

section

variable {α : Type} [LinearOrderedField α]

/-- The loop over `arow` negates the cells `a .. a + len - 1`. -/
theorem negate_down_cell (a : Nat) (len : Nat) :
    ∀ (R : Nat → α) (x : Nat),
      forDown (fun t R => Function.update R (a + t) (-R (a + t))) 0 len R x =
        if a ≤ x ∧ x < a + len then -R x else R x := by
  induction len with
  | zero =>
    intro R x
    rw [forDown_zero, if_neg (by omega)]
  | succ len ih =>
    intro R x
    rw [forDown_succ, ih, Nat.zero_add, Function.update_apply]
    by_cases h1 : x = a + len
    · subst h1
      rw [if_neg (by omega), if_pos rfl, if_pos (by omega)]
    · rw [if_neg h1]
      by_cases h2 : a ≤ x ∧ x < a + len
      · rw [if_pos h2, if_pos (by omega)]
      · rw [if_neg h2, if_neg (by omega)]

/-- The loop over `qcoli` negates column `i` of the first `cnt` rows. -/
theorem negate_col_cell (m i : Nat) (hi : i < m) (cnt : Nat) :
    ∀ (Q : Nat → α) (r j : Nat), j < m →
      forUp (fun t Q => Function.update Q (i + t * m) (-Q (i + t * m))) 0 cnt Q (r * m + j) =
        if j = i ∧ r < cnt then -Q (r * m + j) else Q (r * m + j) := by
  induction cnt with
  | zero =>
    intro Q r j _
    rw [forUp_zero, if_neg (by omega)]
  | succ cnt ih =>
    intro Q r j hj
    rw [forUp_succ, Nat.zero_add, Function.update_apply]
    have e : r * m + j = i + cnt * m ↔ r = cnt ∧ j = i := by
      rw [Nat.add_comm i (cnt * m)]
      exact idx_inj hj hi
    by_cases h1 : r = cnt ∧ j = i
    · rw [if_pos (e.mpr h1), if_pos ⟨h1.2, by omega⟩]
      obtain ⟨rfl, rfl⟩ := h1
      have := ih Q r j hj
      rw [if_neg (by omega)] at this
      rw [Nat.add_comm j (r * m), this]
    · rw [if_neg (fun h => h1 (e.mp h)), ih Q r j hj]
      by_cases h2 : j = i ∧ r < cnt
      · rw [if_pos h2, if_pos ⟨h2.1, by omega⟩]
      · rw [if_neg h2, if_neg (by omega)]

/-- State of `qr_positive_r` after the first `c` rows. -/
theorem qr_positive_r_loop (R Q : Nat → α) (m n : Nat) (hmn : m ≤ n) (c : Nat) (hc : c ≤ m) :
    (∀ i j, i < m → j < n →
      (forUp (fun i (st : (Nat → α) × (Nat → α)) =>
        if st.1 (i * n + i) < 0 then
          (forDown (fun t R => Function.update R (i * n + t) (-R (i * n + t))) 0 n st.1,
           forUp (fun t Q => Function.update Q (i + t * m) (-Q (i + t * m)))
            0 (strideCount i (m * m) m) st.2)
        else st) 0 c (R, Q)).1 (i * n + j) =
        if i < c ∧ R (i * n + i) < 0 then -R (i * n + j) else R (i * n + j)) ∧
    (∀ r i, r < m → i < m →
      (forUp (fun i (st : (Nat → α) × (Nat → α)) =>
        if st.1 (i * n + i) < 0 then
          (forDown (fun t R => Function.update R (i * n + t) (-R (i * n + t))) 0 n st.1,
           forUp (fun t Q => Function.update Q (i + t * m) (-Q (i + t * m)))
            0 (strideCount i (m * m) m) st.2)
        else st) 0 c (R, Q)).2 (r * m + i) =
        if i < c ∧ R (i * n + i) < 0 then -Q (r * m + i) else Q (r * m + i)) := by
  induction c with
  | zero =>
    refine ⟨fun i j _ _ => ?_, fun r i _ _ => ?_⟩
    · rw [forUp_zero, if_neg (by omega)]
    · rw [forUp_zero, if_neg (by omega)]
  | succ c ih =>
    obtain ⟨ihR, ihQ⟩ := ih (by omega)
    have hcm : c < m := by omega
    have hcn : c < n := by omega
    rw [forUp_succ, Nat.zero_add]
    generalize forUp (fun i (st : (Nat → α) × (Nat → α)) =>
        if st.1 (i * n + i) < 0 then
          (forDown (fun t R => Function.update R (i * n + t) (-R (i * n + t))) 0 n st.1,
           forUp (fun t Q => Function.update Q (i + t * m) (-Q (i + t * m)))
            0 (strideCount i (m * m) m) st.2)
        else st) 0 c (R, Q) = st at ihR ihQ ⊢
    have hd : st.1 (c * n + c) = R (c * n + c) := by
      rw [ihR c c hcm hcn, if_neg (by omega)]
    have hsc : strideCount c (m * m) m = m := by
      have := strideCount_mul_add m 0 m c hcm
      simpa using this
    rw [hd]
    by_cases hneg : R (c * n + c) < 0
    · rw [if_pos hneg]
      refine ⟨fun i j hi hj => ?_, fun r i hr hi => ?_⟩
      · show forDown (fun t R => Function.update R (c * n + t) (-R (c * n + t))) 0 n st.1
          (i * n + j) = _
        rw [negate_down_cell, ihR i j hi hj]
        have e1 : (c * n ≤ i * n + j ∧ i * n + j < c * n + n) ↔ i = c := by
          constructor
          · rintro ⟨h1, h2⟩
            by_contra hne
            rcases Nat.lt_or_gt_of_ne hne with h | h
            · have : (i + 1) * n ≤ c * n := Nat.mul_le_mul_right n h
              rw [Nat.add_mul] at this
              omega
            · have : (c + 1) * n ≤ i * n := Nat.mul_le_mul_right n h
              rw [Nat.add_mul] at this
              omega
          · rintro rfl
            omega
        by_cases hic : i = c
        · subst hic
          rw [if_pos (e1.mpr rfl), if_neg (by omega), if_pos ⟨by omega, hneg⟩]
        · rw [if_neg (fun h => hic (e1.mp h))]
          by_cases h3 : i < c ∧ R (i * n + i) < 0
          · rw [if_pos h3, if_pos ⟨by omega, h3.2⟩]
          · rw [if_neg h3, if_neg (fun h => h3 ⟨by omega, h.2⟩)]
      · show forUp (fun t Q => Function.update Q (c + t * m) (-Q (c + t * m)))
          0 (strideCount c (m * m) m) st.2 (r * m + i) = _
        rw [hsc, negate_col_cell m c hcm m st.2 r i hi, ihQ r i hr hi]
        by_cases hic : i = c
        · subst hic
          rw [if_pos ⟨rfl, hr⟩, if_neg (by omega), if_pos ⟨by omega, hneg⟩]
        · rw [if_neg (fun h => hic h.1)]
          by_cases h3 : i < c ∧ R (i * n + i) < 0
          · rw [if_pos h3, if_pos ⟨by omega, h3.2⟩]
          · rw [if_neg h3, if_neg (fun h => h3 ⟨by omega, h.2⟩)]
    · rw [if_neg hneg]
      refine ⟨fun i j hi hj => ?_, fun r i hr hi => ?_⟩
      · rw [ihR i j hi hj]
        by_cases h3 : i < c ∧ R (i * n + i) < 0
        · rw [if_pos h3, if_pos ⟨by omega, h3.2⟩]
        · rw [if_neg h3, if_neg]
          rintro ⟨h4, h5⟩
          have h6 : ¬ i < c := fun h => h3 ⟨h, h5⟩
          have : i = c := by omega
          subst this
          exact hneg h5
      · rw [ihQ r i hr hi]
        by_cases h3 : i < c ∧ R (i * n + i) < 0
        · rw [if_pos h3, if_pos ⟨by omega, h3.2⟩]
        · rw [if_neg h3, if_neg]
          rintro ⟨h4, h5⟩
          have h6 : ¬ i < c := fun h => h3 ⟨h, h5⟩
          have : i = c := by omega
          subst this
          exact hneg h5

/-- C38: for an `m × m` matrix `Q` and an `m × n` matrix `R` with `m ≤ n`,
`qr_positive_r(R, Q, dim)` negates row `i` of `R` together with column `i` of `Q` exactly
when `R[i][i] < 0`; so the diagonal of the new `R` is non-negative and the product `Q * R`
is unchanged. -/
theorem qr_positive_r_correct (R Q : Nat → α) (m n : Nat) (hmn : m ≤ n) :
    (∀ i, i < m → 0 ≤ (qr_positive_r R Q m n).1 (i * n + i)) ∧
    rowMajor (qr_positive_r R Q m n).2 m m * rowMajor (qr_positive_r R Q m n).1 m n =
      rowMajor Q m m * rowMajor R m n ∧
    (∀ i j, i < m → j < n → (qr_positive_r R Q m n).1 (i * n + j) =
      if R (i * n + i) < 0 then -R (i * n + j) else R (i * n + j)) ∧
    (∀ r i, r < m → i < m → (qr_positive_r R Q m n).2 (r * m + i) =
      if R (i * n + i) < 0 then -Q (r * m + i) else Q (r * m + i)) := by
  obtain ⟨hR, hQ⟩ := qr_positive_r_loop R Q m n hmn m (le_refl _)
  have hR1 : ∀ i j, i < m → j < n → (qr_positive_r R Q m n).1 (i * n + j) =
      if R (i * n + i) < 0 then -R (i * n + j) else R (i * n + j) := by
    intro i j hi hj
    unfold qr_positive_r
    rw [min_eq_left hmn]
    have := hR i j hi hj
    simp only [hi, true_and] at this
    exact this
  have hQ1 : ∀ r i, r < m → i < m → (qr_positive_r R Q m n).2 (r * m + i) =
      if R (i * n + i) < 0 then -Q (r * m + i) else Q (r * m + i) := by
    intro r i hr hi
    unfold qr_positive_r
    rw [min_eq_left hmn]
    have := hQ r i hr hi
    simp only [hi, true_and] at this
    exact this
  refine ⟨?_, ?_, hR1, hQ1⟩
  · intro i hi
    rw [hR1 i i hi (by omega)]
    by_cases h : R (i * n + i) < 0
    · rw [if_pos h]
      exact (neg_pos.mpr h).le
    · rw [if_neg h]
      exact not_lt.mp h
  · ext r j
    rw [Matrix.mul_apply, Matrix.mul_apply]
    refine Finset.sum_congr rfl (fun k _ => ?_)
    show (qr_positive_r R Q m n).2 (r.val * m + k.val) *
        (qr_positive_r R Q m n).1 (k.val * n + j.val) =
      Q (r.val * m + k.val) * R (k.val * n + j.val)
    rw [hQ1 r.val k.val r.2 k.2, hR1 k.val j.val k.2 j.2]
    by_cases h : R (k.val * n + k.val) < 0
    · rw [if_pos h, if_pos h, neg_mul_neg]
    · rw [if_neg h, if_neg h]

theorem qr_positive_r_correct_witness :
    1 ≤ 2 ∧
    (∀ i, i < 1 → 0 ≤ (qr_positive_r (ofList [-2, 3] : Nat → ℚ) (ofList [1]) 1 2).1 (i * 2 + i)) ∧
    rowMajor (qr_positive_r (ofList [-2, 3] : Nat → ℚ) (ofList [1]) 1 2).2 1 1 *
        rowMajor (qr_positive_r (ofList [-2, 3] : Nat → ℚ) (ofList [1]) 1 2).1 1 2 =
      rowMajor (ofList [1] : Nat → ℚ) 1 1 * rowMajor (ofList [-2, 3] : Nat → ℚ) 1 2 :=
  ⟨by decide, (qr_positive_r_correct (ofList [-2, 3]) (ofList [1]) 1 2 (by decide)).1,
    (qr_positive_r_correct (ofList [-2, 3]) (ofList [1]) 1 2 (by decide)).2.1⟩

end

section

variable {α : Type} [LinearOrderedField α]

/-- One successful step of `lu_decomposition` keeps the stored multipliers bounded: those of
the columns before `k` travel with their rows in the row exchange, and those of column `k`
are quotients by the entry of largest absolute value. -/
theorem lu_step_bounded (F : Nat → α) (n k : Nat) (hk : k < n)
    (hb : ∀ i j, i < n → j < i → j < k → |F (i * n + j)| ≤ 1)
    (hmax : (lu_pivot_search F n k).1 ≠ 0) :
    ∀ i j, i < n → j < i → j < k + 1 →
      |lu_reduce (if (lu_pivot_search F n k).2.2 ≠ k
            then vec_swap F (k * n) n ((lu_pivot_search F n k).2.1 - k) else F) n (n * n) k
          (i * n + j)| ≤ 1 := by
  obtain ⟨hle, hs⟩ := lu_pivot_search_spec F n k hk
  rcases hs with hs | ⟨hpos, hrk, hrn, hidx, hval⟩
  · exact absurd hs.1 hmax
  generalize (lu_pivot_search F n k).1 = mv at *
  generalize (lu_pivot_search F n k).2.1 = mi at *
  generalize (lu_pivot_search F n k).2.2 = r at *
  subst hidx
  have key : ∀ F1 : Nat → α, (∀ i j, i < n → j < i → j < k → |F1 (i * n + j)| ≤ 1) →
      (∀ i, k ≤ i → i < n → |F1 (i * n + k)| ≤ mv) → |F1 (k * n + k)| = mv →
      ∀ i j, i < n → j < i → j < k + 1 → |lu_reduce F1 n (n * n) k (i * n + j)| ≤ 1 := by
    intro F1 h1 h2 h3 i j hi hji hjk
    rw [lu_reduce_spec F1 n k hk i j (by omega)]
    by_cases hj : j = k
    · subst hj
      rw [if_pos ⟨hji, hi⟩, if_pos rfl, abs_div, h3]
      exact (div_le_one hpos).mpr (h2 i (le_of_lt hji) hi)
    · have hjk1 : j < k := by omega
      have := h1 i j hi hji hjk1
      split_ifs with h4 h5
      · omega
      · exact this
      · exact this
  by_cases hr : r = k
  · subst hr
    simp only [ne_eq, not_true_eq_false, if_false]
    exact key F hb hle hval.symm
  · simp only [ne_eq, hr, not_false_eq_true, if_true]
    have e : r * n + k - k = r * n := by omega
    rw [e]
    have hsw : ∀ i j, j < n → vec_swap F (k * n) n (r * n) (i * n + j) =
        F ((if i = r then k else if i = k then r else i) * n + j) := by
      intro i j hj
      rw [vec_swap_rows F n k r (Ne.symm hr) n (le_refl _) i j hj, if_pos hj]
      by_cases h1 : i = k
      · simp [h1, Ne.symm hr]
      · by_cases h2 : i = r
        · simp [h2, hr]
        · simp [h1, h2]
    apply key
    · intro i j hi hji hjk
      rw [hsw i j (by omega)]
      split_ifs with h1 h2
      · exact hb k j hk hjk hjk
      · exact hb r j hrn (by omega) hjk
      · exact hb i j hi hji hjk
    · intro i hik hi
      rw [hsw i k hk]
      split_ifs with h1 h2
      · exact hle k (le_refl _) hk
      · exact hle r hrk hrn
      · exact hle i hik hi
    · rw [hsw k k hk, if_neg (Ne.symm hr), if_pos rfl]
      exact hval.symm

/-- The multipliers stay bounded along the main loop of `lu_decomposition`. -/
theorem lu_loop_bounded (n : Nat) :
    ∀ (cnt k : Nat) (F : Nat → α) (p : Nat → Nat), k + cnt = n →
      (∀ i j, i < n → j < i → j < k → |F (i * n + j)| ≤ 1) →
      (lu_loop n n (n * n) cnt k F p).1 = true →
      ∀ i j, i < n → j < i → |(lu_loop n n (n * n) cnt k F p).2.1 (i * n + j)| ≤ 1 := by
  intro cnt
  induction cnt with
  | zero =>
    intro k F p hk hb _ i j hi hji
    rw [lu_loop_zero]
    exact hb i j hi hji (by omega)
  | succ cnt ih =>
    intro k F p hk hb
    have hkn : k < n := by omega
    rw [lu_loop_succ]
    by_cases hmax : (lu_pivot_search F n k).1 = 0
    · rw [if_pos hmax]
      intro h
      simp at h
    · rw [if_neg hmax]
      exact ih (k + 1) _ _ (by omega) (lu_step_bounded F n k hkn hb hmax)

/-- C37: after `lu_decomposition` returns `true` on an `n × n` matrix, every stored
multiplier of `L` (each entry strictly below the diagonal of the factored buffer) has
absolute value at most 1. -/
theorem lu_multipliers_bounded (A : Nat → α) (piv0 : Nat → Nat) (n : Nat)
    (h : (lu_decomposition A piv0 n n).1 = true) :
    ∀ i j, i < n → j < i → |(lu_decomposition A piv0 n n).2.1 (i * n + j)| ≤ 1 := by
  rw [lu_decomposition_eq] at h ⊢
  exact lu_loop_bounded n n 0 A _ (by omega) (fun i j _ _ hj => absurd hj (by omega)) h

theorem lu_multipliers_bounded_witness :
    (lu_decomposition (ofList [4, 3, 6, 3] : Nat → ℚ) (fun _ => 0) 2 2).1 = true ∧
    ∀ i j, i < 2 → j < i →
      |(lu_decomposition (ofList [4, 3, 6, 3] : Nat → ℚ) (fun _ => 0) 2 2).2.1 (i * 2 + j)| ≤ 1 :=
  ⟨lu_sample_ok, lu_multipliers_bounded (ofList [4, 3, 6, 3]) (fun _ => 0) 2 lu_sample_ok⟩

end

section

/-- A checked loop whose passes all succeed is the plain loop. -/
theorem forUpO_done {σ : Type} (body : Nat → σ → Outcome σ) (f : Nat → σ → σ) (lo cnt : Nat)
    (h : ∀ k s, lo ≤ k → k < lo + cnt → body k s = Outcome.done (f k s)) (s : σ) :
    forUpO body lo cnt s = Outcome.done (forUp f lo cnt s) := by
  induction cnt with
  | zero => rfl
  | succ cnt ih =>
    show (forUpO body lo cnt s).bind (body (lo + cnt)) = _
    rw [ih (fun k s h1 h2 => h k s h1 (by omega))]
    show body (lo + cnt) _ = _
    rw [h _ _ (by omega) (by omega)]
    rfl

/-- A checked loop ends with the fault of the first pass that faults. -/
theorem forUpO_fault {σ : Type} (body : Nat → σ → Outcome σ) (f : Nat → σ → σ) (lo cnt : Nat)
    (b : BufName) (i : Nat) (k0 : Nat) (hk0 : lo ≤ k0) (hk1 : k0 < lo + cnt)
    (hd : ∀ k s, lo ≤ k → k < k0 → body k s = Outcome.done (f k s))
    (hf : ∀ s, body k0 s = Outcome.fault b i) (s : σ) :
    forUpO body lo cnt s = Outcome.fault b i := by
  induction cnt with
  | zero => omega
  | succ cnt ih =>
    show (forUpO body lo cnt s).bind (body (lo + cnt)) = _
    rcases Nat.lt_or_ge k0 (lo + cnt) with h | h
    · rw [ih h]
      rfl
    · have e : k0 = lo + cnt := by omega
      subst e
      rw [forUpO_done body f lo cnt (fun k s h1 h2 => hd k s h1 h2)]
      exact hf _

variable {α : Type} [LinearOrderedField α]

/-- C35: `qr_compute_q` reads `c[k]` for every `k < n` in its branch `m <= n`, while
`qr_decomposition(A, Q, dim)` gives `c` only `min(m, n)` elements: for `m < n` the read
`c[m]` is outside the vector, whatever `A`, `c` and `Q` hold.  For `n ≤ m` every read
of `c` is inside and the checked run is the plain routine. -/
theorem qr_compute_q_reads_past_c (A c Q : Nat → α) (m n : Nat) :
    (m < n → qr_compute_q_checked A c Q (min m n) m n = Outcome.fault BufName.bufC m) ∧
    (n ≤ m → qr_compute_q_checked A c Q (min m n) m n =
      Outcome.done (qr_compute_q A c Q m n)) := by
  constructor
  · intro h
    unfold qr_compute_q_checked
    rw [if_pos (le_of_lt h), min_eq_left (le_of_lt h)]
    refine forUpO_fault _ (fun k Q => if c k ≠ 0 then forUp (qr_q_row A m n k (c k)) 0 m Q else Q)
      0 n BufName.bufC m m (Nat.zero_le _) (by omega) ?_ ?_ _
    · intro k s _ hk
      simp only [readAt, if_pos hk, Outcome.bind]
    · intro s
      simp only [readAt, lt_irrefl, if_false, Outcome.bind]
  · intro h
    unfold qr_compute_q_checked qr_compute_q
    rw [min_eq_right h]
    by_cases hmn : m ≤ n
    · rw [if_pos hmn, if_pos hmn]
      refine forUpO_done _ _ 0 n ?_ _
      intro k s _ hk
      simp only [readAt, if_pos (show k < n by omega), Outcome.bind]
    · rw [if_neg hmn, if_neg hmn]
      rw [forUpO_done _ (fun k Qt => if c k ≠ 0 then forUp (qr_qt_col A m n k (c k)) 0 m Qt else Qt)
        0 n ?_ _]
      · rfl
      · intro k s _ hk
        simp only [readAt, if_pos (show k < n by omega), Outcome.bind]

theorem qr_compute_q_reads_past_c_witness :
    1 < 2 ∧
    qr_compute_q_checked (ofList [3, 4] : Nat → ℚ) (ofList [2]) (ofList [0]) (min 1 2) 1 2 =
      Outcome.fault BufName.bufC 1 :=
  ⟨by decide, (qr_compute_q_reads_past_c (ofList [3, 4]) (ofList [2]) (ofList [0]) 1 2).1
    (by decide)⟩

end

section

variable {α : Type} [LinearOrderedField α]

/-- With `1 ≤ nct ≤ n` the bidiagonalisation loop entered at row `k < nct` ends at row
`nct`, after `nct - k` passes, with every `s[k]` inside `s`. -/
theorem svd_bidiag_loop_done (sqrt : α → α) (n m nct nrt : Nat) (hn : nct ≤ n) :
    ∀ (cnt k fuel : Nat) (st : SvdState α), k + (cnt + 1) = nct → cnt + 1 ≤ fuel →
      svd_bidiag_loop sqrt n m nct nrt fuel k st =
        Outcome.done (forUp (svd_bidiag_step sqrt n m nrt) k (cnt + 1) st, nct) := by
  intro cnt
  induction cnt with
  | zero =>
    intro k fuel st hk hf
    obtain ⟨fuel, rfl⟩ : ∃ f, fuel = f + 1 := ⟨fuel - 1, by omega⟩
    rw [svd_bidiag_loop, if_neg (by omega)]
    simp only [if_pos hk, forUp_succ, forUp_zero, Nat.add_zero]
    rw [hk]
  | succ cnt ih =>
    intro k fuel st hk hf
    obtain ⟨fuel, rfl⟩ : ∃ f, fuel = f + 1 := ⟨fuel - 1, by omega⟩
    rw [svd_bidiag_loop, if_neg (by omega)]
    simp only [if_neg (show ¬ k + 1 = nct by omega)]
    rw [ih (k + 1) fuel _ (by omega) (by omega), forUp_succ_front _ k (cnt + 1)]

/-- C33: on a 1-by-1 matrix the bidiagonalisation loop of `svd` (also reached through
`pseudo_inverse`) does not end after `min(cols-1, rows) = 0` passes: its exit test
`++k == nct` compares `1` with `0` after the first pass, and the second pass stores
`s[1]`, outside the one element of `s`.  For `1 ≤ rows ≤ cols` with `cols ≥ 2` the loop
ends after exactly `min(cols-1, rows)` passes, every `s[k]` being inside `s`, and it is
the counted loop of `svd_bidiag_step`. -/
theorem svd_bidiag_one_by_one (sqrt : α → α) (A U s : Nat → α) :
    (∀ fuel, svd_bidiagonalize sqrt (fuel + 2) A U s 1 1 = Outcome.fault BufName.bufS 1) ∧
    (∀ n m fuel, 1 ≤ n → n ≤ m → 2 ≤ m → min (m - 1) n ≤ fuel →
      svd_bidiagonalize sqrt fuel A U s n m =
        Outcome.done (forUp (svd_bidiag_step sqrt n m (n - 2)) 0 (min (m - 1) n)
          { A := A, U := U, s := s, e := fun _ => 0, w := fun _ => 0,
            max_value := 1 / 2 ^ 52 }, min (m - 1) n)) := by
  constructor
  · intro fuel
    unfold svd_bidiagonalize
    rw [svd_bidiag_loop, if_neg (by omega)]
    simp only [Nat.sub_self, Nat.zero_min, Nat.zero_add, if_neg (show ¬ (1 = 0) by omega)]
    rw [svd_bidiag_loop, if_pos (le_refl _)]
  · intro n m fuel h1 h2 h3 hf
    unfold svd_bidiagonalize
    obtain ⟨cnt, hc⟩ : ∃ cnt, min (m - 1) n = cnt + 1 := ⟨min (m - 1) n - 1, by omega⟩
    have := svd_bidiag_loop_done sqrt n m (min (m - 1) n) (n - 2) (min_le_right _ _)
      cnt 0 fuel { A := A, U := U, s := s, e := fun _ => 0, w := fun _ => 0,
                   max_value := 1 / 2 ^ 52 } (by omega) (by omega)
    rw [this, hc]

theorem svd_bidiag_one_by_one_witness :
    svd_bidiagonalize (fun x : ℚ => x) 1 (ofList [1, 2, 3, 4]) (fun _ => 0) (fun _ => 0) 2 2 =
      Outcome.done (forUp (svd_bidiag_step (fun x : ℚ => x) 2 2 (2 - 2)) 0 (min (2 - 1) 2)
        { A := ofList [1, 2, 3, 4], U := fun _ => 0, s := fun _ => 0, e := fun _ => 0,
          w := fun _ => 0, max_value := 1 / 2 ^ 52 }, min (2 - 1) 2) :=
  (svd_bidiag_one_by_one (fun x : ℚ => x) (ofList [1, 2, 3, 4]) (fun _ => 0) (fun _ => 0)).2
    2 2 1 (by decide) (by decide) (by decide) (by decide)

end

section

variable {α : Type} [LinearOrderedField α]

/-- The five statements after the Householder loop on buffers that hold them. -/
theorem tred_finish_done (dim sizeV sizeD : Nat) (hV : dim < sizeV) (hD : 1 < sizeD)
    (st : (Nat → α) × (Nat → α) × (Nat → α)) :
    tred_finish dim sizeV sizeD st =
      Outcome.done (Function.update st.1 0 1,
        Function.update (Function.update st.2.1 0 (st.1 0)) 1 0,
        Function.update (Function.update st.2.2 0 0) 1 (st.1 dim)) := by
  unfold tred_finish
  simp only [readAt, writeAt, if_pos hV, if_pos hD, if_pos (show 0 < sizeV by omega),
    if_pos (show 0 < sizeD by omega), Outcome.bind]

/-- C34: for `n = 1` the run-time `eigen_decomposition_sym` executes `e[1] = V[dim]` and
`d[1] = 0` after its (empty) Householder loop: the read `V[1]` is outside the `n * n = 1`
elements of `V`, and the write `d[1]` is outside the one element of `d` (it faults even
when `V` is given more room).  For `n ≥ 2` these statements stay inside `V` and `d`, and
the checked run followed by the accumulation of the transformations and the shift of `e`
is `eigen_tridiagonalize`. -/
theorem eigen_tred_one_by_one (sqrt : α → α) (A V d : Nat → α) :
    eigen_tred_checked sqrt A V d 1 1 1 = Outcome.fault BufName.bufV 1 ∧
    (∀ sizeV, 2 ≤ sizeV →
      eigen_tred_checked sqrt A V d 1 sizeV 1 = Outcome.fault BufName.bufD 1) ∧
    (∀ n, 2 ≤ n →
      (eigen_tred_checked sqrt A V d n (n * n) n).map
        (fun t => ((forUp (tred_accum n) 1 (n - 1) (t.1, t.2.1)).1,
          (forUp (tred_accum n) 1 (n - 1) (t.1, t.2.1)).2, fun k => t.2.2 (k + 1))) =
      Outcome.done (eigen_tridiagonalize sqrt A V d n)) := by
  refine ⟨?_, ?_, ?_⟩
  · unfold eigen_tred_checked tred_finish
    simp only [readAt, writeAt, Outcome.bind, Nat.lt_one_iff, if_true, lt_irrefl, if_false,
      one_ne_zero]
  · intro sizeV h
    unfold eigen_tred_checked tred_finish
    simp only [readAt, writeAt, Outcome.bind, if_pos (show 0 < sizeV by omega),
      if_pos (show 1 < sizeV by omega), Nat.lt_one_iff, if_true, lt_irrefl, if_false]
  · intro n hn
    unfold eigen_tred_checked
    rw [tred_finish_done n (n * n) n (by nlinarith) (by omega)]
    rfl

theorem eigen_tred_one_by_one_witness :
    (eigen_tred_checked (fun x : ℚ => x) (ofList [2, 0, 0, 3]) (fun _ => 0) (fun _ => 0)
        2 (2 * 2) 2).map
      (fun t => ((forUp (tred_accum 2) 1 (2 - 1) (t.1, t.2.1)).1,
        (forUp (tred_accum 2) 1 (2 - 1) (t.1, t.2.1)).2, fun k => t.2.2 (k + 1))) =
    Outcome.done (eigen_tridiagonalize (fun x : ℚ => x) (ofList [2, 0, 0, 3]) (fun _ => 0)
      (fun _ => 0) 2) :=
  (eigen_tred_one_by_one (fun x : ℚ => x) (ofList [2, 0, 0, 3]) (fun _ => 0)
    (fun _ => 0)).2.2 2 (by decide)

end

end tipl
